import Mathlib

/-!
# Octant algebra of p8est (`src/p8est_bits.c`, `src/p8est.h`)

A shallow embedding of the 3D octant routines of `p8est_bits.c` and of the
constants and macros of `p8est.h`, followed by theorems about them.

Conventions of the embedding.

* `p4est_qcoord_t` is a 32-bit signed integer.  Coordinates are modelled as
  `Int`; the bit operators `|`, `&`, `~` act on the 32-bit two's complement
  encoding (`toU32` / `ofU32`).  Addition and subtraction are the ones of `Int`:
  signed overflow is undefined in C, and the theorems below are stated on
  inputs on which every intermediate value is far below `2^31`.
* `P4EST_ASSERT` is compiled out unless `P4EST_DEBUG` is set.  The functions are
  modelled without their assertions; where a claim is about an assertion, the
  asserted predicate is stated in the theorem.
* A function that can reach `SC_ABORT_NOT_REACHED` or index an array outside of
  its bounds returns `Option`, `none` standing for that outcome.
* The payload union `p` of an octant is not modelled: no routine here reads or
  writes it.
-/

namespace P8est

/-! ## Constants and macros of `p8est.h` -/

/-- `P8EST_MAXLEVEL`: finest level of the octree for representing nodes. -/
def P8EST_MAXLEVEL : Int := 19

/-- `P8EST_QMAXLEVEL`: finest level of the octree for representing octants. -/
def P8EST_QMAXLEVEL : Int := 18

/-- `P8EST_ROOT_LEN`: `(p4est_qcoord_t) 1 << P8EST_MAXLEVEL`. -/
def P8EST_ROOT_LEN : Int := 2 ^ P8EST_MAXLEVEL.toNat

/-- `P8EST_QUADRANT_LEN (l)`: `(p4est_qcoord_t) 1 << (P8EST_MAXLEVEL - (l))`.
The C shift is defined for `l ≤ P8EST_MAXLEVEL` only. -/
def P8EST_QUADRANT_LEN (l : Int) : Int := 2 ^ (P8EST_MAXLEVEL - l).toNat

/-- `P8EST_LAST_OFFSET (l)`: `P8EST_ROOT_LEN - P8EST_QUADRANT_LEN (l)`. -/
def P8EST_LAST_OFFSET (l : Int) : Int := P8EST_ROOT_LEN - P8EST_QUADRANT_LEN l

/-! ## Machine integers -/

/-- The 32-bit two's complement encoding of an integer. -/
def toU32 (x : Int) : Nat := (x % 4294967296).toNat

/-- The signed value of a 32-bit pattern. -/
def ofU32 (n : Nat) : Int := if n < 2147483648 then (n : Int) else (n : Int) - 4294967296

/-- The C operator `a | b` on 32-bit signed integers. -/
def int_or (a b : Int) : Int := ofU32 (toU32 a ||| toU32 b)

/-- The C operator `a & b` on 32-bit signed integers. -/
def int_and (a b : Int) : Int := ofU32 (toU32 a &&& toU32 b)

/-- The C operator `~a` on 32-bit signed integers. -/
def int_not (a : Int) : Int := ofU32 (4294967295 - toU32 a)

/-- The C conversion `(int8_t) v`. -/
def int8_cast (v : Int) : Int := (v + 128) % 256 - 128

/-- A value that a `p4est_qcoord_t` (32-bit signed) can hold. -/
def is_qcoord (x : Int) : Prop := -2147483648 ≤ x ∧ x ≤ 2147483647

instance (x : Int) : Decidable (is_qcoord x) := by unfold is_qcoord; infer_instance

/-! ## The octant -/

/-- The fields `x, y, z, level` of `p8est_quadrant_t`. -/
@[ext]
structure Quadrant where
  x : Int
  y : Int
  z : Int
  level : Int
deriving DecidableEq, Repr

/-- All three coordinates are values of `p4est_qcoord_t`. -/
def Quadrant.fits (q : Quadrant) : Prop := is_qcoord q.x ∧ is_qcoord q.y ∧ is_qcoord q.z

instance (q : Quadrant) : Decidable q.fits := by unfold Quadrant.fits; infer_instance

/-- All three coordinates are multiples of the side length of the octant's level. -/
def Quadrant.aligned (q : Quadrant) : Prop :=
  q.x % P8EST_QUADRANT_LEN q.level = 0 ∧ q.y % P8EST_QUADRANT_LEN q.level = 0 ∧
    q.z % P8EST_QUADRANT_LEN q.level = 0

instance (q : Quadrant) : Decidable q.aligned := by unfold Quadrant.aligned; infer_instance

/-- Modelled from the spec: `p4est_quadrant_is_extended` of `p4est_bits.c`, a file that
is not part of the sources.  The data model's words: level in `[0, MAXLEVEL]`,
"coordinates inside `(−QLEN(ℓ), 2·ROOT_LEN)` and aligned — i.e., one ring of off-root
cells is admitted for cross-boundary arithmetic".  An aligned coordinate above `−QLEN(ℓ)`
is never negative, so that the interval as written admits no cell below the root; the
lower bound is read from the second half of the sentence, as the upper bound is: the
ring of root-sized cells around the root, `[−ROOT_LEN, 2·ROOT_LEN)`.  With this reading
the octants on which `p8est_bits.c` asserts the predicate satisfy it: the edge neighbour
at `−QLEN(ℓ)` (line 307) and the children of an octant below the root. -/
def p4est_quadrant_is_extended (q : Quadrant) : Bool :=
  decide (0 ≤ q.level ∧ q.level ≤ P8EST_MAXLEVEL) &&
  decide (-P8EST_ROOT_LEN ≤ q.x ∧ q.x < 2 * P8EST_ROOT_LEN) &&
  decide (-P8EST_ROOT_LEN ≤ q.y ∧ q.y < 2 * P8EST_ROOT_LEN) &&
  decide (-P8EST_ROOT_LEN ≤ q.z ∧ q.z < 2 * P8EST_ROOT_LEN) &&
  decide q.aligned

/-- Modelled from the spec: `p4est_quadrant_is_valid` of `p4est_bits.c`, a file that
is not part of the sources.  The data model's words: level in `[0, MAXLEVEL]`,
"coordinates inside `[0, ROOT_LEN)` and aligned to the level". -/
def p4est_quadrant_is_valid (q : Quadrant) : Bool :=
  decide (0 ≤ q.level ∧ q.level ≤ P8EST_MAXLEVEL) &&
  decide (0 ≤ q.x ∧ q.x < P8EST_ROOT_LEN) &&
  decide (0 ≤ q.y ∧ q.y < P8EST_ROOT_LEN) &&
  decide (0 ≤ q.z ∧ q.z < P8EST_ROOT_LEN) &&
  decide q.aligned

/-! ## Family predicates and children (`p8est_bits.c`) -/

/-- `p8est_quadrant_is_family` (`p8est_bits.c`, lines 78-115). -/
def p8est_quadrant_is_family (q0 q1 q2 q3 q4 q5 q6 q7 : Quadrant) : Bool :=
  let level := q0.level
  if level == 0 || level != q1.level ||
      level != q2.level || level != q3.level ||
      level != q4.level || level != q5.level ||
      level != q6.level || level != q7.level then
    false
  else
    let inc := P8EST_QUADRANT_LEN level
    ((q0.x + inc == q1.x && q0.y == q1.y && q0.z == q1.z) &&
     (q0.x == q2.x && q0.y + inc == q2.y && q0.z == q2.z) &&
     (q1.x == q3.x && q2.y == q3.y && q0.z == q3.z) &&
     (q0.x == q4.x && q0.y == q4.y && q0.z + inc == q4.z) &&
     (q1.x == q5.x && q1.y == q5.y && q4.z == q5.z) &&
     (q2.x == q6.x && q2.y == q6.y && q4.z == q6.z) &&
     (q3.x == q7.x && q3.y == q7.y && q4.z == q7.z))

/-- `p4est_quadrant_is_familyv` (`p8est_bits.c`, lines 117-147): the same test on an
array of eight octants. -/
def p4est_quadrant_is_familyv (q : Fin 8 → Quadrant) : Bool :=
  let level := (q 0).level
  if level == 0 || level != (q 1).level ||
      level != (q 2).level || level != (q 3).level ||
      level != (q 4).level || level != (q 5).level ||
      level != (q 6).level || level != (q 7).level then
    false
  else
    let inc := P8EST_QUADRANT_LEN level
    (((q 0).x + inc == (q 1).x && (q 0).y == (q 1).y && (q 0).z == (q 1).z) &&
     ((q 0).x == (q 2).x && (q 0).y + inc == (q 2).y && (q 0).z == (q 2).z) &&
     ((q 1).x == (q 3).x && (q 2).y == (q 3).y && (q 0).z == (q 3).z) &&
     ((q 0).x == (q 4).x && (q 0).y == (q 4).y && (q 0).z + inc == (q 4).z) &&
     ((q 1).x == (q 5).x && (q 1).y == (q 5).y && (q 4).z == (q 5).z) &&
     ((q 2).x == (q 6).x && (q 2).y == (q 6).y && (q 4).z == (q 6).z) &&
     ((q 3).x == (q 7).x && (q 3).y == (q 7).y && (q 4).z == (q 7).z))

/-- The eight output octants `c0 ... c7` of `p8est_quadrant_children`. -/
structure Children where
  c0 : Quadrant
  c1 : Quadrant
  c2 : Quadrant
  c3 : Quadrant
  c4 : Quadrant
  c5 : Quadrant
  c6 : Quadrant
  c7 : Quadrant
deriving DecidableEq, Repr

/-- The output octant `c_i`. -/
def Children.get (c : Children) (i : Fin 8) : Quadrant :=
  match i with
  | 0 => c.c0
  | 1 => c.c1
  | 2 => c.c2
  | 3 => c.c3
  | 4 => c.c4
  | 5 => c.c5
  | 6 => c.c6
  | 7 => c.c7

/-- `p8est_quadrant_children` (`p8est_bits.c`, lines 381-436). -/
def p8est_quadrant_children (q : Quadrant) : Children :=
  let level := int8_cast (q.level + 1)
  let inc := P8EST_QUADRANT_LEN level
  let c0 : Quadrant := ⟨q.x, q.y, q.z, level⟩
  let c1 : Quadrant := ⟨int_or c0.x inc, c0.y, c0.z, level⟩
  let c2 : Quadrant := ⟨c0.x, int_or c0.y inc, c0.z, level⟩
  let c3 : Quadrant := ⟨c1.x, c2.y, c0.z, level⟩
  let c4 : Quadrant := ⟨c0.x, c0.y, int_or c0.z inc, level⟩
  let c5 : Quadrant := ⟨c1.x, c1.y, c4.z, level⟩
  let c6 : Quadrant := ⟨c2.x, c2.y, c4.z, level⟩
  let c7 : Quadrant := ⟨c3.x, c3.y, c4.z, level⟩
  ⟨c0, c1, c2, c3, c4, c5, c6, c7⟩

/-- `p4est_quadrant_childrenv` (`p8est_bits.c`, lines 438-489): the children written
to an array `c[0..7]`. -/
def p4est_quadrant_childrenv (q : Quadrant) : Fin 8 → Quadrant :=
  let level := int8_cast (q.level + 1)
  let inc := P8EST_QUADRANT_LEN level
  let c0 : Quadrant := ⟨q.x, q.y, q.z, level⟩
  let c1 : Quadrant := ⟨int_or c0.x inc, c0.y, c0.z, level⟩
  let c2 : Quadrant := ⟨c0.x, int_or c0.y inc, c0.z, level⟩
  let c3 : Quadrant := ⟨c1.x, c2.y, c0.z, level⟩
  let c4 : Quadrant := ⟨c0.x, c0.y, int_or c0.z inc, level⟩
  let c5 : Quadrant := ⟨c1.x, c1.y, c4.z, level⟩
  let c6 : Quadrant := ⟨c2.x, c2.y, c4.z, level⟩
  let c7 : Quadrant := ⟨c3.x, c3.y, c4.z, level⟩
  fun i =>
    match i with
    | 0 => c0
    | 1 => c1
    | 2 => c2
    | 3 => c3
    | 4 => c4
    | 5 => c5
    | 6 => c6
    | 7 => c7

/-- The claimed meaning of the family test, in the words of the specification: octant
`i` of a family is the `i`-th child of the parent `p`, with coordinates
`(p.x | (i&1 ? D : 0), p.y | (i&2 ? D : 0), p.z | (i&4 ? D : 0))`, `D = QLEN(p.level + 1)`,
and level `p.level + 1`. -/
def child_pattern (p : Quadrant) (i : Fin 8) : Quadrant :=
  ⟨int_or p.x (if int_and (i.val : Int) 1 ≠ 0 then P8EST_QUADRANT_LEN (p.level + 1) else 0),
   int_or p.y (if int_and (i.val : Int) 2 ≠ 0 then P8EST_QUADRANT_LEN (p.level + 1) else 0),
   int_or p.z (if int_and (i.val : Int) 4 ≠ 0 then P8EST_QUADRANT_LEN (p.level + 1) else 0),
   p.level + 1⟩

/-- The claimed meaning of the family test, in the words of the specification: the eight
octants share a level `l > 0` and are, in order, the children of one parent `p` of level
`l - 1` whose coordinates are multiples of `QLEN(l - 1)`. -/
def has_common_parent (q : Fin 8 → Quadrant) : Prop :=
  0 < (q 0).level ∧ (∀ i : Fin 8, (q i).level = (q 0).level) ∧
    ∃ p : Quadrant, p.level = (q 0).level - 1 ∧ p.aligned ∧
      ∀ i : Fin 8, q i = child_pattern p i

/-- Octant `i` has the level of octant `0` and the coordinates of octant `0` moved by
`QLEN(level)` along the axes selected by the bits of `i`: what the comparisons of
`p8est_quadrant_is_family` amount to. -/
def family_offsets (q : Fin 8 → Quadrant) : Prop :=
  ∀ i : Fin 8, q i =
    ⟨(q 0).x + (if int_and (i.val : Int) 1 ≠ 0 then P8EST_QUADRANT_LEN (q 0).level else 0),
     (q 0).y + (if int_and (i.val : Int) 2 ≠ 0 then P8EST_QUADRANT_LEN (q 0).level else 0),
     (q 0).z + (if int_and (i.val : Int) 4 ≠ 0 then P8EST_QUADRANT_LEN (q 0).level else 0),
     (q 0).level⟩

/-- Eight valid octants of level 2 in the pattern of a family, starting at
`x = QLEN(2)`: octants `0, 2, 4, 6` are children of the level-1 octant at the origin,
octants `1, 3, 5, 7` children of its neighbour across the face `x = QLEN(1)`. -/
def shifted_family : Fin 8 → Quadrant := fun i =>
  ⟨131072 + (if int_and (i.val : Int) 1 ≠ 0 then 131072 else 0),
   (if int_and (i.val : Int) 2 ≠ 0 then 131072 else 0),
   (if int_and (i.val : Int) 4 ≠ 0 then 131072 else 0), 2⟩

/-! ## Coordinate access through an axis index -/

/-- The read `*my_xyz[a]` with `my_xyz = {&q->x, &q->y, &q->z}`; `none` for an index
outside of the array. -/
def Quadrant.coord (q : Quadrant) (a : Int) : Option Int :=
  if a = 0 then some q.x else if a = 1 then some q.y else if a = 2 then some q.z else none

/-- The write `*target_xyz[a] = v` with `target_xyz = {&r->x, &r->y, &r->z}`; `none` for
an index outside of the array. -/
def Quadrant.set_coord (r : Quadrant) (a : Int) (v : Int) : Option Quadrant :=
  if a = 0 then some { r with x := v }
  else if a = 1 then some { r with y := v }
  else if a = 2 then some { r with z := v }
  else none

/-! ## Face transform (`p8est_bits.c`) -/

/-- `my_axis = &ftransform[0]`. -/
def my_axis (ftransform : Fin 9 → Int) (i : Fin 3) : Int := ftransform ⟨i.val, by omega⟩

/-- `target_axis = &ftransform[3]`. -/
def target_axis (ftransform : Fin 9 → Int) (i : Fin 3) : Int := ftransform ⟨3 + i.val, by omega⟩

/-- `edge_reverse = &ftransform[6]`. -/
def edge_reverse (ftransform : Fin 9 → Int) (i : Fin 3) : Int := ftransform ⟨6 + i.val, by omega⟩

/-- `p8est_quadrant_transform_face` (`p8est_bits.c`, lines 491-577).  `r` is the content
of the output octant before the call, `ftransform` the array of nine integers
`my_axis[3], target_axis[3], edge_reverse[3]`.  The result is `none` when an axis index
is outside of `{0, 1, 2}` or `edge_reverse[2]` outside of `{0, 1, 2, 3}`
(`SC_ABORT_NOT_REACHED`). -/
def p8est_quadrant_transform_face (q r : Quadrant) (ftransform : Fin 9 → Int) :
    Option Quadrant :=
  let my_axis := my_axis ftransform
  let target_axis := target_axis ftransform
  let edge_reverse := edge_reverse ftransform
  let mh : Int := if q.level = P8EST_MAXLEVEL then 0 else -P8EST_QUADRANT_LEN q.level
  let Rmh : Int := P8EST_ROOT_LEN + mh
  let tRmh : Int := P8EST_ROOT_LEN + Rmh
  (q.coord (my_axis 0)).bind fun m0 =>
  (r.set_coord (target_axis 0) (if edge_reverse 0 = 0 then m0 else Rmh - m0)).bind fun r =>
  (q.coord (my_axis 1)).bind fun m1 =>
  (r.set_coord (target_axis 1) (if edge_reverse 1 = 0 then m1 else Rmh - m1)).bind fun r =>
  (q.coord (my_axis 2)).bind fun m2 =>
  (if edge_reverse 2 = 0 then r.set_coord (target_axis 2) (mh - m2)
   else if edge_reverse 2 = 1 then r.set_coord (target_axis 2) (m2 + P8EST_ROOT_LEN)
   else if edge_reverse 2 = 2 then r.set_coord (target_axis 2) (m2 - P8EST_ROOT_LEN)
   else if edge_reverse 2 = 3 then r.set_coord (target_axis 2) (tRmh - m2)
   else none).bind fun r =>
  some { r with level := q.level }

/-- The well-formedness of an `ftransform` that `p8est_quadrant_transform_face` asserts
(lines 505-517): both axis triples are permutations of `{0, 1, 2}`, `edge_reverse[0]` and
`edge_reverse[1]` are in `{0, 1}` and `edge_reverse[2]` is in `{0, 1, 2, 3}`. -/
def ftransform_ok (ft : Fin 9 → Int) : Prop :=
  (∀ i : Fin 3, 0 ≤ my_axis ft i ∧ my_axis ft i < 3) ∧
  (∀ i : Fin 3, 0 ≤ target_axis ft i ∧ target_axis ft i < 3) ∧
  (my_axis ft 0 ≠ my_axis ft 1 ∧ my_axis ft 0 ≠ my_axis ft 2 ∧ my_axis ft 1 ≠ my_axis ft 2) ∧
  (target_axis ft 0 ≠ target_axis ft 1 ∧ target_axis ft 0 ≠ target_axis ft 2 ∧
    target_axis ft 1 ≠ target_axis ft 2) ∧
  (0 ≤ edge_reverse ft 0 ∧ edge_reverse ft 0 < 2) ∧
  (0 ≤ edge_reverse ft 1 ∧ edge_reverse ft 1 < 2) ∧
  (0 ≤ edge_reverse ft 2 ∧ edge_reverse ft 2 < 4)

instance (ft : Fin 9 → Int) : Decidable (ftransform_ok ft) := by
  unfold ftransform_ok; infer_instance

/-- The mirror of an `ftransform`, in the words of the claim: the two axis triples
exchanged, `edge_reverse[0]` and `edge_reverse[1]` kept, and in `edge_reverse[2]` the
codes 1 and 2 swapped, 0 and 3 kept. -/
def ftransform_mirror (ft : Fin 9 → Int) : Fin 9 → Int := fun j =>
  match j with
  | 0 => target_axis ft 0
  | 1 => target_axis ft 1
  | 2 => target_axis ft 2
  | 3 => my_axis ft 0
  | 4 => my_axis ft 1
  | 5 => my_axis ft 2
  | 6 => edge_reverse ft 0
  | 7 => edge_reverse ft 1
  | 8 => if edge_reverse ft 2 = 1 then 2 else if edge_reverse ft 2 = 2 then 1
         else edge_reverse ft 2

/-- An array of nine integers given by its entries. -/
def ftransform_of (a0 a1 a2 a3 a4 a5 a6 a7 a8 : Int) : Fin 9 → Int := fun j =>
  match j with
  | 0 => a0
  | 1 => a1
  | 2 => a2
  | 3 => a3
  | 4 => a4
  | 5 => a5
  | 6 => a6
  | 7 => a7
  | 8 => a8

/-- Modelled from the spec: `p4est_quadrant_is_node` of `p4est_bits.c`, a file that is
not part of the sources.  The data model's words: "`ℓ = MAXLEVEL`, coordinates are
multiples of `QLEN(MAXLEVEL)`, optionally restricted to `[0, ROOT_LEN]`
(inside-root)". -/
def p4est_quadrant_is_node (q : Quadrant) (inside : Bool) : Bool :=
  decide (q.level = P8EST_MAXLEVEL) && decide q.aligned &&
  (!inside || (decide (0 ≤ q.x ∧ q.x ≤ P8EST_ROOT_LEN) &&
    decide (0 ≤ q.y ∧ q.y ≤ P8EST_ROOT_LEN) && decide (0 ≤ q.z ∧ q.z ≤ P8EST_ROOT_LEN)))

/-! ## Edges (`p8est_bits.c`) -/

/-- `p8est_quadrant_is_outside_edge` (`p8est_bits.c`, lines 25-35). -/
def p8est_quadrant_is_outside_edge (q : Quadrant) : Bool :=
  let outface0 : Int := if q.x < 0 ∨ q.x ≥ P8EST_ROOT_LEN then 1 else 0
  let outface1 : Int := if q.y < 0 ∨ q.y ≥ P8EST_ROOT_LEN then 1 else 0
  let outface2 : Int := if q.z < 0 ∨ q.z ≥ P8EST_ROOT_LEN then 1 else 0
  outface0 + outface1 + outface2 == 2

/-- `p8est_quadrant_is_outside_edge_extra` (`p8est_bits.c`, lines 37-76).  The argument
`edge` is `none` for a `NULL` pointer and `some e` for a pointer to an `int` that holds
`e`; the result is the returned boolean and the `int` after the call.  `none` stands for
`SC_ABORT_NOT_REACHED`. -/
def p8est_quadrant_is_outside_edge_extra (q : Quadrant) (edge : Option Int) :
    Option (Bool × Option Int) :=
  let quad_contact0 : Int := if q.x < 0 then 1 else 0
  let quad_contact1 : Int := if q.x ≥ P8EST_ROOT_LEN then 1 else 0
  let quad_contact2 : Int := if q.y < 0 then 1 else 0
  let quad_contact3 : Int := if q.y ≥ P8EST_ROOT_LEN then 1 else 0
  let quad_contact4 : Int := if q.z < 0 then 1 else 0
  let quad_contact5 : Int := if q.z ≥ P8EST_ROOT_LEN then 1 else 0
  let face_axis0 : Int := if quad_contact0 ≠ 0 ∨ quad_contact1 ≠ 0 then 1 else 0
  let face_axis1 : Int := if quad_contact2 ≠ 0 ∨ quad_contact3 ≠ 0 then 1 else 0
  let face_axis2 : Int := if quad_contact4 ≠ 0 ∨ quad_contact5 ≠ 0 then 1 else 0
  if face_axis0 + face_axis1 + face_axis2 ≠ 2 then
    some (false, edge)
  else
    match edge with
    | none => some (true, none)
    | some _ =>
      if face_axis0 = 0 then some (true, some (0 + 2 * quad_contact5 + quad_contact3))
      else if face_axis1 = 0 then some (true, some (4 + 2 * quad_contact5 + quad_contact1))
      else if face_axis2 = 0 then some (true, some (8 + 2 * quad_contact3 + quad_contact1))
      else none

/-- `p8est_quadrant_touches_edge` (`p8est_bits.c`, lines 579-636).  `edge` is asserted to
be in `[0, 12)`, where the C operators `/` and `%` are those of `Int`; an index of
`quad_contact` outside of `[0, 6)`, which no such edge produces, reads as `0`. -/
def p8est_quadrant_touches_edge (q : Quadrant) (edge : Int) (inside : Bool) : Bool :=
  let axis := edge / 4
  let lower : Int :=
    if q.level = P8EST_MAXLEVEL then 0
    else if !inside then -P8EST_QUADRANT_LEN q.level
    else 0
  let upper : Int :=
    if q.level = P8EST_MAXLEVEL then P8EST_ROOT_LEN - (if inside then 1 else 0)
    else if !inside then P8EST_ROOT_LEN
    else P8EST_LAST_OFFSET q.level
  let quad_contact : Int → Int := fun k =>
    if k = 0 then (if q.x = lower then 1 else 0)
    else if k = 1 then (if q.x = upper then 1 else 0)
    else if k = 2 then (if q.y = lower then 1 else 0)
    else if k = 3 then (if q.y = upper then 1 else 0)
    else if k = 4 then (if q.z = lower then 1 else 0)
    else if k = 5 then (if q.z = upper then 1 else 0)
    else 0
  let incount : Int := 0
  let incount := if axis ≠ 0 then incount + quad_contact (edge % 2) else incount
  let incount :=
    if axis ≠ 1 then
      incount + quad_contact (2 + (if axis = 0 then edge % 2 else (edge / 2) % 2))
    else incount
  let incount := if axis ≠ 2 then incount + quad_contact (4 + (edge / 2) % 2) else incount
  incount == 2

/-- The fields of `p8est_edge_transform_t` (declared in `p8est_connectivity.h`) that
`p8est_quadrant_transform_edge` reads. -/
structure EdgeTransform where
  nedge : Int
  naxis : Fin 3 → Int
  nflip : Int
  corners : Int

/-- `p8est_quadrant_transform_edge` (`p8est_bits.c`, lines 638-720).  `r` is the content
of the output octant before the call and `iedge` the field `ei->iedge`.  `none` stands
for `SC_ABORT_NOT_REACHED` and for an axis index outside of `{0, 1, 2}`. -/
def p8est_quadrant_transform_edge (q r : Quadrant) (iedge : Int) (et : EdgeTransform)
    (inside : Bool) : Option Quadrant :=
  let iaxis := iedge / 4
  let mh : Int := if q.level = P8EST_MAXLEVEL then 0 else -P8EST_QUADRANT_LEN q.level
  let Rmh : Int := if q.level = P8EST_MAXLEVEL then P8EST_ROOT_LEN else P8EST_ROOT_LEN + mh
  let lshift : Int := if q.level = P8EST_MAXLEVEL then 0 else if inside then 0 else mh
  let rshift : Int :=
    if q.level = P8EST_MAXLEVEL then P8EST_ROOT_LEN
    else if inside then Rmh else P8EST_ROOT_LEN
  (if iaxis = 0 then some q.x else if iaxis = 1 then some q.y
   else if iaxis = 2 then some q.z else none).bind fun my_xyz =>
  (r.set_coord (et.naxis 0) (if et.nflip = 0 then my_xyz else Rmh - my_xyz)).bind fun r =>
  (if et.corners = 0 then
    (r.set_coord (et.naxis 1) lshift).bind fun r => r.set_coord (et.naxis 2) lshift
   else if et.corners = 1 then
    (r.set_coord (et.naxis 1) rshift).bind fun r => r.set_coord (et.naxis 2) lshift
   else if et.corners = 2 then
    (r.set_coord (et.naxis 1) lshift).bind fun r => r.set_coord (et.naxis 2) rshift
   else if et.corners = 3 then
    (r.set_coord (et.naxis 1) rshift).bind fun r => r.set_coord (et.naxis 2) rshift
   else none).bind fun r =>
  some { r with level := q.level }

/-- The consistency of an edge transform with its target edge, in the words of the
claim: `naxis[0] = nedge / 4`, `naxis[1] < naxis[2]` are the two remaining axes,
`corners = nedge mod 4`, and `nflip` is in `{0, 1}`. -/
def edge_transform_ok (et : EdgeTransform) : Prop :=
  (0 ≤ et.nedge ∧ et.nedge < 12) ∧
  et.naxis 0 = et.nedge / 4 ∧
  (0 ≤ et.naxis 1 ∧ et.naxis 1 < et.naxis 2 ∧ et.naxis 2 < 3) ∧
  (et.naxis 0 ≠ et.naxis 1 ∧ et.naxis 0 ≠ et.naxis 2) ∧
  et.corners = et.nedge % 4 ∧
  (0 ≤ et.nflip ∧ et.nflip < 2)

instance (et : EdgeTransform) : Decidable (edge_transform_ok et) := by
  unfold edge_transform_ok; infer_instance

/-- An array of three integers given by its entries. -/
def naxis_of (a0 a1 a2 : Int) : Fin 3 → Int := fun j =>
  match j with
  | 0 => a0
  | 1 => a1
  | 2 => a2

/-- Every coordinate of `q` that is off the root is exactly one octant length below `0`
or exactly `ROOT_LEN`: `q` lies in the ring of cells of its size around the root. -/
def off_root_by_one (q : Quadrant) : Prop :=
  (q.x < 0 → q.x = -P8EST_QUADRANT_LEN q.level) ∧ (q.x ≥ P8EST_ROOT_LEN → q.x = P8EST_ROOT_LEN) ∧
  (q.y < 0 → q.y = -P8EST_QUADRANT_LEN q.level) ∧ (q.y ≥ P8EST_ROOT_LEN → q.y = P8EST_ROOT_LEN) ∧
  (q.z < 0 → q.z = -P8EST_QUADRANT_LEN q.level) ∧ (q.z ≥ P8EST_ROOT_LEN → q.z = P8EST_ROOT_LEN)

instance (q : Quadrant) : Decidable (off_root_by_one q) := by
  unfold off_root_by_one; infer_instance

/-! ## Parent, sibling and child id (`p4est_bits.c`, not part of the sources) -/

/-- The C operator `a >> n` on a 32-bit signed integer, an arithmetic shift. -/
def int_shr (a n : Int) : Int := a / 2 ^ n.toNat

/-- Modelled from the spec: `p4est_quadrant_parent` of `p4est_bits.c`, a file that is not
part of the sources.  The words of the specification: "Parent clears the
`(MAXLEVEL−ℓ)`-th bit in each coordinate and decrements the level". -/
def p4est_quadrant_parent (q : Quadrant) : Quadrant :=
  ⟨int_and q.x (int_not (P8EST_QUADRANT_LEN q.level)),
   int_and q.y (int_not (P8EST_QUADRANT_LEN q.level)),
   int_and q.z (int_not (P8EST_QUADRANT_LEN q.level)),
   q.level - 1⟩

/-- Modelled from the spec: `p4est_quadrant_sibling` of `p4est_bits.c`, a file that is not
part of the sources.  The words of the specification: "sibling replaces the parent's
child-id bit pattern with a given target id", that is, it sets the `QLEN(ℓ)` bit of `x`,
`y`, `z` to bits 0, 1, 2 of the target id and keeps the level. -/
def p4est_quadrant_sibling (q : Quadrant) (sibling_id : Int) : Quadrant :=
  let shift := P8EST_QUADRANT_LEN q.level
  ⟨if int_and sibling_id 1 ≠ 0 then int_or q.x shift else int_and q.x (int_not shift),
   if int_and sibling_id 2 ≠ 0 then int_or q.y shift else int_and q.y (int_not shift),
   if int_and sibling_id 4 ≠ 0 then int_or q.z shift else int_and q.z (int_not shift),
   q.level⟩

/-- Modelled from the spec: `p4est_quadrant_child_id` of `p4est_bits.c`, a file that is
not part of the sources.  The words of the specification: "the child-id `c ∈ [0,8)` is
bit-packed from the `ℓ`-th coordinate bits: `bit0 = (x >> (MAXLEVEL−ℓ)) & 1`, similarly
`bit1` from `y`, `bit2` from `z`". -/
def p4est_quadrant_child_id (q : Quadrant) : Int :=
  int_and (int_shr q.x (P8EST_MAXLEVEL - q.level)) 1 +
  2 * int_and (int_shr q.y (P8EST_MAXLEVEL - q.level)) 1 +
  4 * int_and (int_shr q.z (P8EST_MAXLEVEL - q.level)) 1

/-! ## Shift to an edge (`p8est_bits.c`) -/

/-- The table `contact[12]` of `p8est_quadrant_shift_edge`; `none` for an index outside
of the table. -/
def shift_edge_contact (edge : Int) : Option Int :=
  if edge = 0 then some 0x14 else if edge = 1 then some 0x18
  else if edge = 2 then some 0x24 else if edge = 3 then some 0x28
  else if edge = 4 then some 0x11 else if edge = 5 then some 0x12
  else if edge = 6 then some 0x21 else if edge = 7 then some 0x22
  else if edge = 8 then some 0x05 else if edge = 9 then some 0x06
  else if edge = 10 then some 0x09 else if edge = 11 then some 0x0a
  else none

/-- The `switch (edge / 4)` of the loop of `p8est_quadrant_shift_edge` (lines 748-769):
the values `(sid, step[0], step[1], step[2])`; `none` stands for
`SC_ABORT_NOT_REACHED`. -/
def shift_edge_switch (edge cid : Int) : Option (Int × Int × Int × Int) :=
  if edge / 4 = 0 then
    some (2 * edge + int_and cid 0x01,
      0, 2 * int_and edge 0x01 - 1, int_and edge 0x02 - 1)
  else if edge / 4 = 1 then
    some (2 * int_and edge 0x02 + int_and edge 0x01 + int_and cid 0x02,
      2 * int_and edge 0x01 - 1, 0, int_and edge 0x02 - 1)
  else if edge / 4 = 2 then
    some (edge - 8 + int_and cid 0x04,
      2 * int_and edge 0x01 - 1, int_and edge 0x02 - 1, 0)
  else none

/-- The computation of `outface` in the loop of `p8est_quadrant_shift_edge`
(lines 775-787). -/
def shift_edge_outface (r : Quadrant) (th step0 step1 step2 : Int) : Int :=
  let outface : Int := 0
  let outface :=
    if step0 ≠ 0 then
      int_or (int_or outface (if r.x ≤ 0 then 0x01 else 0)) (if r.x ≥ th then 0x02 else 0)
    else outface
  let outface :=
    if step1 ≠ 0 then
      int_or (int_or outface (if r.y ≤ 0 then 0x04 else 0)) (if r.y ≥ th then 0x08 else 0)
    else outface
  let outface :=
    if step2 ≠ 0 then
      int_or (int_or outface (if r.z ≤ 0 then 0x10 else 0)) (if r.z ≥ th then 0x20 else 0)
    else outface
  outface

/-- The loop `for (;;)` of `p8est_quadrant_shift_edge` (lines 745-796), run for at most
`fuel` passes: the values of `r`, `th` and `step` at the `break`, or `none` when the
fuel runs out, the switch aborts or `edge` is outside of the contact table. -/
def shift_edge_loop (fuel : Nat) (quad : Quadrant) (edge : Int) :
    Option (Quadrant × Int × Int × Int × Int) :=
  match fuel with
  | 0 => none
  | fuel + 1 =>
    let th := P8EST_LAST_OFFSET quad.level
    let cid := p4est_quadrant_child_id quad
    (shift_edge_switch edge cid).bind fun (sid, step0, step1, step2) =>
    let r := p4est_quadrant_sibling quad sid
    let outface := shift_edge_outface r th step0 step1 step2
    (shift_edge_contact edge).bind fun contact =>
    if outface = contact then
      some (r, th, step0, step1, step2)
    else
      let quad := p4est_quadrant_parent quad
      let quad : Quadrant :=
        { quad with
          x := quad.x + step0 * P8EST_QUADRANT_LEN quad.level
          y := quad.y + step1 * P8EST_QUADRANT_LEN quad.level
          z := quad.z + step2 * P8EST_QUADRANT_LEN quad.level }
      shift_edge_loop fuel quad edge

/-- The clamping of one coordinate after the loop of `p8est_quadrant_shift_edge`
(lines 798-815): `if (c < 0) c = 0; if (c >= P8EST_ROOT_LEN) c = th;`. -/
def shift_edge_clamp (c th : Int) : Int :=
  let c := if c < 0 then 0 else c
  if c ≥ P8EST_ROOT_LEN then th else c

/-- `p8est_quadrant_shift_edge` (`p8est_bits.c`, lines 722-817), its loop run for at most
`fuel` passes. -/
def p8est_quadrant_shift_edge (fuel : Nat) (q : Quadrant) (edge : Int) : Option Quadrant :=
  (shift_edge_loop fuel q edge).bind fun (r, th, step0, step1, step2) =>
  let r := if step0 ≠ 0 then { r with x := shift_edge_clamp r.x th } else r
  let r := if step1 ≠ 0 then { r with y := shift_edge_clamp r.y th } else r
  let r := if step2 ≠ 0 then { r with z := shift_edge_clamp r.z th } else r
  some r

/-- The sign bit of edge `e` for a transverse axis `a`, in the words of the claims: bit 0
of `e` for the lower-indexed of the two axes other than `e / 4`, bit 1 of `e` for the
higher-indexed. -/
def edge_sign_bit (e a : Int) : Int :=
  if a = (if e / 4 = 0 then 1 else 0) then e % 2 else e / 2 % 2

/-! ## Auxiliary notions for the analysis of the shift loop -/

/-- The entry `step[a]` that the switch of `p8est_quadrant_shift_edge` computes for the
edge `e`: `0` along the edge, `-1` or `+1` along a transverse axis according to its sign
bit. -/
def edge_step (e a : Int) : Int :=
  if a = e / 4 then 0 else 2 * edge_sign_bit e a - 1

/-- The loop invariant of `p8est_quadrant_shift_edge` for one coordinate `c` of `quad` at
level `l`, `s` being the step along that axis. -/
def coord_inv (s c l : Int) : Prop :=
  c % P8EST_QUADRANT_LEN l = 0 ∧
  (s = 0 → 0 ≤ c ∧ c < P8EST_ROOT_LEN) ∧
  (s = -1 → -3 * P8EST_QUADRANT_LEN l ≤ c ∧ c < P8EST_ROOT_LEN) ∧
  (s = 1 → 0 ≤ c ∧ c < P8EST_ROOT_LEN + 3 * P8EST_QUADRANT_LEN l)

/-- The coordinate of the parent of an octant of level `l` with coordinate `c`. -/
def parent_coord (c l : Int) : Int :=
  c - c / P8EST_QUADRANT_LEN l % 2 * P8EST_QUADRANT_LEN l

/-- The coordinate of the sibling that the loop of `p8est_quadrant_shift_edge` forms:
kept along the edge, the lower or the upper child of the parent across it. -/
def sibling_coord (s c l : Int) : Int :=
  if s = 0 then c
  else if s = 1 then parent_coord c l + P8EST_QUADRANT_LEN l
  else parent_coord c l

/-- The exit test of the loop of `p8est_quadrant_shift_edge` for one coordinate `c` of
`r`: for a step `-1` the flag `c <= 0` is set and `c >= th` is not, for a step `+1` the
flag `c >= th` is set and `c <= 0` is not. -/
def exit_test (s c th : Int) : Prop :=
  (s = -1 → c ≤ 0 ∧ ¬ c ≥ th) ∧ (s = 1 → ¬ c ≤ 0 ∧ c ≥ th)

instance (s c th : Int) : Decidable (exit_test s c th) := by
  unfold exit_test; infer_instance

/-- What holds for one coordinate `c` of `r` at the exit of the loop. -/
def coord_post (s c l : Int) : Prop :=
  c % P8EST_QUADRANT_LEN l = 0 ∧
  (s = 0 → 0 ≤ c ∧ c < P8EST_ROOT_LEN) ∧
  (s = -1 → c ≤ 0) ∧
  (s = 1 → c ≥ P8EST_LAST_OFFSET l)

/-- The value of `outface` as a function of the six comparisons it is built from. -/
def outface_flags (step0 step1 step2 : Int) (x0 xt y0 yt z0 zt : Bool) : Int :=
  let outface : Int := 0
  let outface :=
    if step0 ≠ 0 then
      int_or (int_or outface (if x0 then 0x01 else 0)) (if xt then 0x02 else 0)
    else outface
  let outface :=
    if step1 ≠ 0 then
      int_or (int_or outface (if y0 then 0x04 else 0)) (if yt then 0x08 else 0)
    else outface
  let outface :=
    if step2 ≠ 0 then
      int_or (int_or outface (if z0 then 0x10 else 0)) (if zt then 0x20 else 0)
    else outface
  outface

/-- The exit test of one coordinate as a function of its two comparisons. -/
def exit_flags (s : Int) (lo hi : Bool) : Bool :=
  (decide (s = -1) → (lo && !hi)) && (decide (s = 1) → (!lo && hi))

/-- What holds for one coordinate `c` of the octant that `p8est_quadrant_shift_edge`
returns, of level `l`. -/
def coord_final (s c l : Int) : Prop :=
  (s = 0 → 0 ≤ c ∧ c < P8EST_ROOT_LEN ∧ c % P8EST_QUADRANT_LEN l = 0) ∧
  (s = -1 → c = 0) ∧
  (s = 1 → c = P8EST_LAST_OFFSET l)


/-! ## Neighbours (`p8est_bits.c`, `p8est.h`) -/

/-- `P8EST_QUADRANT_INIT` (`p8est.h`, lines 168-170), `memset (q, -1, sizeof
(p8est_quadrant_t))`: every byte of the octant is `0xFF`, so that the three `int32_t`
coordinates and the `int8_t` level all read `-1`. -/
def P8EST_QUADRANT_INIT : Quadrant := ⟨-1, -1, -1, -1⟩

/-- Modelled from the spec: `p4est_quadrant_face_neighbor` of `p4est_bits.c`, a file that
is not part of the sources.  The words of the specification: "Given octant `q` and face
`f ∈ [0,6)` (axis = f/2, side = f&1), the same-level neighbor differs only along the axis
by `±QLEN(ℓ)`", the sign being `-` for side 0 and `+` for side 1. -/
def p4est_quadrant_face_neighbor (q : Quadrant) (face : Int) : Quadrant :=
  let axis := face / 2
  let d : Int :=
    if int_and face 1 = 0 then -P8EST_QUADRANT_LEN q.level else P8EST_QUADRANT_LEN q.level
  ⟨q.x + (if axis = 0 then d else 0), q.y + (if axis = 1 then d else 0),
   q.z + (if axis = 2 then d else 0), q.level⟩

/-- `p4est_quadrant_half_face_neighbors` (`p8est_bits.c`, lines 186-244).  The argument
`nur` tells whether the pointer `nur` is not `NULL`; the result is the array `n[0..3]`
and, for `nur` not `NULL`, the array `nur[0..3]`.  `face` is asserted to be in `[0, 6)`,
where the C operator `/` is that of `Int`; `none` stands for `SC_ABORT_NOT_REACHED`. -/
def p4est_quadrant_half_face_neighbors (q : Quadrant) (face : Int) (nur : Bool) :
    Option ((Fin 4 → Quadrant) × Option (Fin 4 → Quadrant)) :=
  let qh := P8EST_QUADRANT_LEN q.level
  let qh_2 := P8EST_QUADRANT_LEN (q.level + 1)
  let n0x := q.x + (if face = 0 then -qh_2 else if face = 1 then qh else 0)
  let n0y := q.y + (if face = 2 then -qh_2 else if face = 3 then qh else 0)
  let n0z := q.z + (if face = 4 then -qh_2 else if face = 5 then qh else 0)
  let xyz : Option (Fin 4 → Int × Int × Int) :=
    if face / 2 = 0 then
      some fun i =>
        if i = 0 then (n0x, n0y, n0z)
        else (n0x, n0y + int_and (i.val : Int) 0x01 * qh_2,
          n0z + int_and (i.val : Int) 0x02 / 2 * qh_2)
    else if face / 2 = 1 then
      some fun i =>
        if i = 0 then (n0x, n0y, n0z)
        else (n0x + int_and (i.val : Int) 0x01 * qh_2, n0y,
          n0z + int_and (i.val : Int) 0x02 / 2 * qh_2)
    else if face / 2 = 2 then
      some fun i =>
        if i = 0 then (n0x, n0y, n0z)
        else (n0x + int_and (i.val : Int) 0x01 * qh_2,
          n0y + int_and (i.val : Int) 0x02 / 2 * qh_2, n0z)
    else none
  xyz.bind fun xyz =>
  let n : Fin 4 → Quadrant := fun i =>
    ⟨(xyz i).1, (xyz i).2.1, (xyz i).2.2, int8_cast (q.level + 1)⟩
  if nur then
    let dh := qh_2 - P8EST_QUADRANT_LEN P8EST_QMAXLEVEL
    some (n, some fun i => ⟨(n i).x + dh, (n i).y + dh, (n i).z + dh, P8EST_QMAXLEVEL⟩)
  else
    some (n, none)

/-- `p4est_quadrant_all_face_neighbors` (`p8est_bits.c`, lines 246-275): the array
`n[0..5]` after the call, `q` not being one of its entries.  `none` stands for the
`SC_ABORT_NOT_REACHED` of `p4est_quadrant_half_face_neighbors`. -/
def p4est_quadrant_all_face_neighbors (q : Quadrant) (face : Int) :
    Option (Fin 6 → Quadrant) :=
  let qcid := p4est_quadrant_child_id q
  let n03 : Option (Fin 4 → Quadrant) :=
    if q.level = P8EST_QMAXLEVEL then
      some fun _ => P8EST_QUADRANT_INIT
    else
      (p4est_quadrant_half_face_neighbors q face false).bind fun (n, _) => some n
  n03.bind fun n03 =>
  let n4 := p4est_quadrant_face_neighbor q face
  let r :=
    if int_and (int_shr qcid (face / 2)) 0x01 ≠ int_and face 0x01 ∨ q.level = 0 then
      P8EST_QUADRANT_INIT
    else
      p4est_quadrant_face_neighbor (p4est_quadrant_parent q) face
  some fun i =>
    match i with
    | 0 => n03 0
    | 1 => n03 1
    | 2 => n03 2
    | 3 => n03 3
    | 4 => n4
    | 5 => r

/-- `p8est_quadrant_edge_neighbor` (`p8est_bits.c`, lines 277-308).  `edge` is asserted to
be in `[0, 12)`, where the C operator `/` is that of `Int`; `none` stands for
`SC_ABORT_NOT_REACHED`. -/
def p8est_quadrant_edge_neighbor (q : Quadrant) (edge : Int) : Option Quadrant :=
  let qh := P8EST_QUADRANT_LEN q.level
  if edge / 4 = 0 then
    some ⟨q.x, q.y + (2 * int_and edge 0x01 - 1) * qh, q.z + (int_and edge 0x02 - 1) * qh,
      q.level⟩
  else if edge / 4 = 1 then
    some ⟨q.x + (2 * int_and edge 0x01 - 1) * qh, q.y, q.z + (int_and edge 0x02 - 1) * qh,
      q.level⟩
  else if edge / 4 = 2 then
    some ⟨q.x + (2 * int_and edge 0x01 - 1) * qh, q.y + (int_and edge 0x02 - 1) * qh, q.z,
      q.level⟩
  else none

/-! ## Notions in the words of the claims -/

/-- The lower-indexed of the two axes other than `a`. -/
def lower_transverse (a : Int) : Int := if a = 0 then 1 else 0

/-- The higher-indexed of the two axes other than `a`. -/
def higher_transverse (a : Int) : Int := if a = 2 then 1 else 2

/-- The tuple obtained from `q` by exchanging the octants at the positions `i` and `j`. -/
def swap_octants (q : Fin 8 → Quadrant) (i j : Fin 8) : Fin 8 → Quadrant := fun k =>
  if k = i then q j else if k = j then q i else q k

/-- The pair `(lower, upper)` of extremes in the words of the claim on
`p8est_quadrant_touches_edge`: `(0, ROOT_LEN - QLEN(l))` for inside and
`(-QLEN(l), ROOT_LEN)` for outside, and `(0, ROOT_LEN - (inside ? 1 : 0))` for an octant
of level `MAXLEVEL`. -/
def edge_extremes (q : Quadrant) (inside : Bool) : Int × Int :=
  if q.level = P8EST_MAXLEVEL then (0, P8EST_ROOT_LEN - (if inside then 1 else 0))
  else if inside then (0, P8EST_ROOT_LEN - P8EST_QUADRANT_LEN q.level)
  else (-P8EST_QUADRANT_LEN q.level, P8EST_ROOT_LEN)

/-- The number of coordinates of `q` that lie outside of `[0, ROOT_LEN)`. -/
def off_root_axes (q : Quadrant) : Nat :=
  (if 0 ≤ q.x ∧ q.x < P8EST_ROOT_LEN then 0 else 1) +
  (if 0 ≤ q.y ∧ q.y < P8EST_ROOT_LEN then 0 else 1) +
  (if 0 ≤ q.z ∧ q.z < P8EST_ROOT_LEN then 0 else 1)

/-! ## Inside the root, values of the face transform, balance types -/

/-- Modelled from the spec: `p4est_quadrant_is_inside_root` of `p4est_bits.c`, a file that
is not part of the sources.  The words of the specification: "inside the root (all three
coordinates in `[0, ROOT_LEN)`)"; the level is not looked at. -/
def p4est_quadrant_is_inside_root (q : Quadrant) : Bool :=
  decide (0 ≤ q.x ∧ q.x < P8EST_ROOT_LEN) && decide (0 ≤ q.y ∧ q.y < P8EST_ROOT_LEN) &&
    decide (0 ≤ q.z ∧ q.z < P8EST_ROOT_LEN)

/-- The values that `p8est_quadrant_transform_face` computes (`p8est_bits.c`, lines
520-564), in the order of the code: `mh`, `Rmh`, `tRmh`, the values written to
`target_axis[0]` and `target_axis[1]`, and the value of the `switch` on `edge_reverse[2]`
written to `target_axis[2]`.  `QLEN(level)`, the operand of the negation that gives `mh`,
is `-mh`.  `none` when an index of `my_axis` is outside of `{0, 1, 2}` or
`edge_reverse[2]` outside of `{0, 1, 2, 3}`. -/
def transform_face_values (q : Quadrant) (ftransform : Fin 9 → Int) : Option (List Int) :=
  let my_axis := my_axis ftransform
  let edge_reverse := edge_reverse ftransform
  let mh : Int := if q.level = P8EST_MAXLEVEL then 0 else -P8EST_QUADRANT_LEN q.level
  let Rmh : Int := P8EST_ROOT_LEN + mh
  let tRmh : Int := P8EST_ROOT_LEN + Rmh
  (q.coord (my_axis 0)).bind fun m0 =>
  (q.coord (my_axis 1)).bind fun m1 =>
  (q.coord (my_axis 2)).bind fun m2 =>
  (if edge_reverse 2 = 0 then some (mh - m2)
   else if edge_reverse 2 = 1 then some (m2 + P8EST_ROOT_LEN)
   else if edge_reverse 2 = 2 then some (m2 - P8EST_ROOT_LEN)
   else if edge_reverse 2 = 3 then some (tRmh - m2)
   else none).bind fun v2 =>
  some [mh, Rmh, tRmh, (if edge_reverse 0 = 0 then m0 else Rmh - m0),
    (if edge_reverse 1 = 0 then m1 else Rmh - m1), v2]

/-- `P8EST_BALANCE_FACE` of the enumeration `p8est_balance_type_t` (`p8est.h`, lines
48-57). -/
def P8EST_BALANCE_FACE : Int := 31

/-- `P8EST_BALANCE_EDGE` of the enumeration `p8est_balance_type_t`. -/
def P8EST_BALANCE_EDGE : Int := 32

/-- `P8EST_BALANCE_CORNER` of the enumeration `p8est_balance_type_t`. -/
def P8EST_BALANCE_CORNER : Int := 33

/-- `P8EST_BALANCE_DEFAULT = P8EST_BALANCE_EDGE`. -/
def P8EST_BALANCE_DEFAULT : Int := P8EST_BALANCE_EDGE

/-- `P8EST_BALANCE_FULL = P8EST_BALANCE_CORNER`. -/
def P8EST_BALANCE_FULL : Int := P8EST_BALANCE_CORNER

/-- Modelled from the spec: `p8est_balance_type_int`, declared in `p8est.h` (lines 316-320,
"Convert the p8est_balance_type_t into a number ... Returns 1, 2 or 3") and defined in
`p8est.c`, a file that is not part of the sources.  The words of the specification:
"Balance-type numeric codes: 1 (face), 2 (edge), 3 (corner)".  `none` for a value that is
no balance type. -/
def p8est_balance_type_int (btype : Int) : Option Int :=
  if btype = P8EST_BALANCE_FACE then some 1
  else if btype = P8EST_BALANCE_EDGE then some 2
  else if btype = P8EST_BALANCE_CORNER then some 3
  else none

/-- The child-id bit along the axis `a` of the `i`-th half-size neighbour across the face
`f`, in the words of the claim: `1 - (f & 1)` along the axis `f / 2`, bit 0 of `i` along
the lower-indexed tangential axis and bit 1 of `i` along the higher-indexed. -/
def half_face_bit (f i a : Int) : Int :=
  if a = f / 2 then 1 - f % 2
  else if a = lower_transverse (f / 2) then i % 2
  else i / 2 % 2

/-! ## The volume walk of the iterator (`p8est_iterate.c`, not part of the sources) -/

/-- Modelled from the spec: the Morton index of coordinates, "Interleaved-bit linear
ordering of integer coordinates", a notion of `p4est_bits.c` and `p8est_iterate.c`, files
that are not part of the sources.  `interleave k x y z` has the octal digits
`bit_j (x) + 2 bit_j (y) + 4 bit_j (z)` for the bit positions `j < k`, the digit of the
highest bit position first. -/
def interleave : Nat → Int → Int → Int → Int
  | 0, _, _, _ => 0
  | k + 1, x, y, z => x % 2 + 2 * (y % 2) + 4 * (z % 2) + 8 * interleave k (x / 2) (y / 2) (z / 2)

/-- Modelled from the spec: the Morton index of an octant, the interleaved `MAXLEVEL` bits
of its coordinates. -/
def morton_index (q : Quadrant) : Int := interleave P8EST_MAXLEVEL.toNat q.x q.y q.z

/-- Modelled from the spec: the Morton order of octants, which "compares octants so
ancestors precede descendants": by the Morton index, and by the level for octants with
the same index. -/
def morton_lt (a b : Quadrant) : Prop :=
  morton_index a < morton_index b ∨ (morton_index a = morton_index b ∧ a.level < b.level)

instance (a b : Quadrant) : Decidable (morton_lt a b) := by unfold morton_lt; infer_instance

/-- Modelled from the spec: the leaf `q` "falls in" the octant `o`: `q` is `o` or one of
its descendants, that is, `q` is not coarser than `o` and its corner lies in the cube of
`o`. -/
def falls_in (o q : Quadrant) : Bool :=
  decide (o.level ≤ q.level) &&
  decide (o.x ≤ q.x ∧ q.x < o.x + P8EST_QUADRANT_LEN o.level) &&
  decide (o.y ≤ q.y ∧ q.y < o.y + P8EST_QUADRANT_LEN o.level) &&
  decide (o.z ≤ q.z ∧ q.z < o.z + P8EST_QUADRANT_LEN o.level)

/-- Modelled from the spec: the invariants of the local leaves of a tree, "For every leaf
`q` in every tree, `q` is valid and `q.level ∈ [0, QMAXLEVEL]`" and "the local leaves are
strictly Morton-increasing and pairwise non-ancestral". -/
def tree_leaves_ok (leaves : List Quadrant) : Prop :=
  (∀ q ∈ leaves, p4est_quadrant_is_valid q = true ∧ q.level ≤ P8EST_QMAXLEVEL) ∧
  leaves.Pairwise morton_lt ∧
  leaves.Pairwise (fun a b => falls_in a b = false ∧ falls_in b a = false)

/-- Modelled from the spec: the volume part of the walk of `p8est_iterate` (defined in
`p8est_iterate.c`, a file that is not part of the sources) below one octant `o`.  The words
of the specification: "The engine walks each tree as a recursive binary partition over the
Morton interval, at each level splitting the local-leaves range ... into eight sub-ranges
(by child-id).  A stack frame records, for the current octant, which local and ghost
leaves fall in it; when the frame reduces to a single leaf, a volume callback fires."
A frame is the octant `o` with the local leaves that fall in it, each with its index
`quadid` in the array of the tree; the result is the sequence of the leaves for which the
volume callback fires.  `depth` is the number of levels below `o`; `none` when a frame of
several leaves is at the finest level and cannot be split. -/
def iterate_frame : Nat → Quadrant → List (Nat × Quadrant) → Option (List (Nat × Quadrant))
  | _, _, [] => some []
  | _, _, [l] => some [l]
  | 0, _, _ :: _ :: _ => none
  | depth + 1, o, l0 :: l1 :: ls =>
    let sub := fun i : Fin 8 =>
      (l0 :: l1 :: ls).filter fun l => falls_in (p4est_quadrant_childrenv o i) l.2
    (iterate_frame depth (p4est_quadrant_childrenv o 0) (sub 0)).bind fun v0 =>
    (iterate_frame depth (p4est_quadrant_childrenv o 1) (sub 1)).bind fun v1 =>
    (iterate_frame depth (p4est_quadrant_childrenv o 2) (sub 2)).bind fun v2 =>
    (iterate_frame depth (p4est_quadrant_childrenv o 3) (sub 3)).bind fun v3 =>
    (iterate_frame depth (p4est_quadrant_childrenv o 4) (sub 4)).bind fun v4 =>
    (iterate_frame depth (p4est_quadrant_childrenv o 5) (sub 5)).bind fun v5 =>
    (iterate_frame depth (p4est_quadrant_childrenv o 6) (sub 6)).bind fun v6 =>
    (iterate_frame depth (p4est_quadrant_childrenv o 7) (sub 7)).bind fun v7 =>
    some (v0 ++ (v1 ++ (v2 ++ (v3 ++ (v4 ++ (v5 ++ (v6 ++ v7)))))))

/-- Modelled from the spec: the volume callbacks of `p8est_iterate` (declared in
`p8est_iterate.h`, defined in `p8est_iterate.c`, a file that is not part of the sources)
on the trees `first, first + 1, ...` with the given arrays of local leaves, in the order
of their invocation: the fields `treeid`, `quadid` and `quad` of
`p8est_iter_volume_info_t`.  The trees are walked by increasing id, each from its root
octant, `QMAXLEVEL` levels deep. -/
def iterate_trees : Nat → List (List Quadrant) → Option (List (Nat × Nat × Quadrant))
  | _, [] => some []
  | first, leaves :: trees =>
    (iterate_frame P8EST_QMAXLEVEL.toNat ⟨0, 0, 0, 0⟩ leaves.enum).bind fun v =>
    (iterate_trees (first + 1) trees).bind fun vs =>
    some (v.map (fun l => (first, l.1, l.2)) ++ vs)

/-- Modelled from the spec: the volume callbacks of `p8est_iterate` on a forest given by
the arrays of local leaves of its trees `0, 1, ...`. -/
def p8est_iterate_volume (forest : List (List Quadrant)) :
    Option (List (Nat × Nat × Quadrant)) :=
  iterate_trees 0 forest

/-- The local order of a forest, in the words of the claim: "trees by increasing id,
leaves by increasing Morton index within a tree", the leaves of a tree being stored in
that order; every local leaf once, with the id of its tree and its index in the array of
the tree. -/
def local_order : Nat → List (List Quadrant) → List (Nat × Nat × Quadrant)
  | _, [] => []
  | first, leaves :: trees =>
    leaves.enum.map (fun l => (first, l.1, l.2)) ++ local_order (first + 1) trees

instance (leaves : List Quadrant) : Decidable (tree_leaves_ok leaves) := by
  unfold tree_leaves_ok; infer_instance

/-- The child id of the ancestor of `q` at the level `level`, by the formula of the child
id at that level: the auxiliary key by which a frame is split. -/
def ancestor_id (q : Quadrant) (level : Int) : Int :=
  q.x / P8EST_QUADRANT_LEN level % 2 + 2 * (q.y / P8EST_QUADRANT_LEN level % 2) +
    4 * (q.z / P8EST_QUADRANT_LEN level % 2)

/-! ## Pointer arrays, the faces of an edge, extents -/

/-- `p4est_quadrant_is_familypv` (`p8est_bits.c`, lines 149-184): the same test on an
array of eight pointers.  `mem` is the memory that holds the octants, read at an address,
and `q` is the array of the eight addresses `q[0], ..., q[7]`, which need not differ. -/
def p4est_quadrant_is_familypv (mem : Nat → Quadrant) (q : Fin 8 → Nat) : Bool :=
  let level := (mem (q 0)).level
  if level == 0 || level != (mem (q 1)).level ||
      level != (mem (q 2)).level || level != (mem (q 3)).level ||
      level != (mem (q 4)).level || level != (mem (q 5)).level ||
      level != (mem (q 6)).level || level != (mem (q 7)).level then
    false
  else
    let inc := P8EST_QUADRANT_LEN level
    (((mem (q 0)).x + inc == (mem (q 1)).x && (mem (q 0)).y == (mem (q 1)).y
        && (mem (q 0)).z == (mem (q 1)).z) && ((mem (q 0)).x == (mem (q 2)).x
        && (mem (q 0)).y + inc == (mem (q 2)).y
        && (mem (q 0)).z == (mem (q 2)).z)
      && ((mem (q 1)).x == (mem (q 3)).x && (mem (q 2)).y == (mem (q 3)).y
        && (mem (q 0)).z == (mem (q 3)).z)
      && ((mem (q 0)).x == (mem (q 4)).x && (mem (q 0)).y == (mem (q 4)).y
        && (mem (q 0)).z + inc == (mem (q 4)).z) && ((mem (q 1)).x == (mem (q 5)).x
        && (mem (q 1)).y == (mem (q 5)).y
        && (mem (q 4)).z == (mem (q 5)).z)
      && ((mem (q 2)).x == (mem (q 6)).x && (mem (q 2)).y == (mem (q 6)).y
        && (mem (q 4)).z == (mem (q 6)).z)
      && ((mem (q 3)).x == (mem (q 7)).x && (mem (q 3)).y == (mem (q 7)).y
        && (mem (q 4)).z == (mem (q 7)).z))

/-- Modelled from the spec: the table `p8est_edge_faces[12][2]` that
`p8est_quadrant_edge_neighbor_extra` reads; it is defined in `p8est_connectivity.c`, a
file that is not part of the sources.  The two faces adjacent to an edge are given in the
words of the claims: "transverse axes a1 < a2 and adjacent faces f0 = 2*a1 + (e&1),
f1 = 2*a2 + ((e>>1)&1)".  `none` for an index outside of the table. -/
def p8est_edge_faces (edge i : Int) : Option Int :=
  if 0 ≤ edge ∧ edge < 12 then
    if i = 0 then some (2 * lower_transverse (edge / 4) + int_and edge 1)
    else if i = 1 then some (2 * higher_transverse (edge / 4) + int_and (int_shr edge 1) 1)
    else none
  else none

/-- The branches of `p8est_quadrant_edge_neighbor_extra` (`p8est_bits.c`, lines 310-380)
up to the calls of `p8est_quadrant_face_neighbor_extra` and `p8est_find_edge_transform`,
which take the connectivity: the number of the branch taken, the octant `temp` at that
point and the value of the expression asserted on the way (`true` where nothing is
asserted).  Branch 0: the edge neighbour is inside the root (lines 335-341); branch 1:
the face neighbour across `p8est_edge_faces[edge][0]` is inside the root (lines 347-356);
branch 2: the face neighbour across `p8est_edge_faces[edge][1]`, asserted to be inside the
root (lines 358-367); branch 3: the edge transforms (lines 369-379). -/
def edge_neighbor_extra_branch (q : Quadrant) (edge : Int) : Option (Int × Quadrant × Bool) :=
  (p8est_quadrant_edge_neighbor q edge).bind fun temp =>
  if p4est_quadrant_is_inside_root temp then some (0, temp, true)
  else if !p8est_quadrant_is_outside_edge temp then
    (p8est_edge_faces edge 0).bind fun face =>
    let temp := p4est_quadrant_face_neighbor q face
    if p4est_quadrant_is_inside_root temp then some (1, temp, true)
    else
      (p8est_edge_faces edge 1).bind fun face =>
      let temp := p4est_quadrant_face_neighbor q face
      some (2, temp, p4est_quadrant_is_inside_root temp)
  else some (3, temp, true)

/-- The octant `r` lies across the face `f` of `q` along one axis `a`, `rc` and `qc` being
the coordinates and `rl` and `ql` the levels: along the axis `f / 2` of the face, `r` ends
where `q` begins (`f` even) or begins where `q` ends (`f` odd); along another axis the
extent of `r` contains that of `q`. -/
def shares_face_axis (f a rc rl qc ql : Int) : Prop :=
  if a = f / 2 then
    (if f % 2 = 0 then rc + P8EST_QUADRANT_LEN rl = qc else rc = qc + P8EST_QUADRANT_LEN ql)
  else rc ≤ qc ∧ qc + P8EST_QUADRANT_LEN ql ≤ rc + P8EST_QUADRANT_LEN rl

instance (f a rc rl qc ql : Int) : Decidable (shares_face_axis f a rc rl qc ql) := by
  unfold shares_face_axis; infer_instance

/-- The octant `r` shares the face `f` of `q`, in the words of the claim on the
parent-sized neighbour: `r` lies across the face `f` of `q` and covers it. -/
def shares_face (r q : Quadrant) (f : Int) : Prop :=
  shares_face_axis f 0 r.x r.level q.x q.level ∧ shares_face_axis f 1 r.y r.level q.y q.level ∧
    shares_face_axis f 2 r.z r.level q.z q.level

instance (r q : Quadrant) (f : Int) : Decidable (shares_face r q f) := by
  unfold shares_face; infer_instance

/-- The coordinate `c` rounded down to a multiple of the side length of the level `l`. -/
def round_down (c l : Int) : Int := c - c % P8EST_QUADRANT_LEN l

/-- The step of the same-level face neighbour across the face `f` along the axis `a`, in
units of the side length: `-1` or `+1` along the axis `f / 2`, by the side `f & 1`, and
`0` along the two other axes. -/
def face_step (f a : Int) : Int :=
  if a = f / 2 then 2 * (f % 2) - 1 else 0

/-! ## Lemmas on machine integers -/

theorem p8est_quadrant_len_pos (l : Int) : 0 < P8EST_QUADRANT_LEN l := by
  unfold P8EST_QUADRANT_LEN
  positivity

theorem ofU32_toU32 (x : Int) (hx : is_qcoord x) : ofU32 (toU32 x) = x := by
  unfold is_qcoord at hx
  unfold ofU32 toU32
  split_ifs with h <;> omega

theorem int_or_zero (x : Int) (hx : is_qcoord x) : int_or x 0 = x := by
  unfold int_or
  have h0 : toU32 0 = 0 := by decide
  rw [h0, Nat.or_zero]
  exact ofU32_toU32 x hx

theorem p8est_quadrant_len_succ (l : Int) (hl : l < P8EST_MAXLEVEL) :
    P8EST_QUADRANT_LEN l = 2 * P8EST_QUADRANT_LEN (l + 1) := by
  unfold P8EST_QUADRANT_LEN P8EST_MAXLEVEL at *
  have h : (19 - l).toNat = (19 - (l + 1)).toNat + 1 := by omega
  rw [h, pow_succ]
  ring

theorem p8est_quadrant_len_eq (l : Int) (hl : l ≤ P8EST_MAXLEVEL) :
    ∃ k : Nat, P8EST_QUADRANT_LEN l = 2 ^ k ∧ (k : Int) = P8EST_MAXLEVEL - l :=
  ⟨(P8EST_MAXLEVEL - l).toNat, rfl, Int.toNat_of_nonneg (by omega)⟩

theorem int8_cast_level (l : Int) (h0 : -128 ≤ l) (h1 : l ≤ 127) : int8_cast l = l := by
  unfold int8_cast
  omega

/-- The selector expressions `i & 1`, `i & 2`, `i & 4` for `i` in `[0, 8)`. -/
theorem int_and_table :
    int_and 0 1 = 0 ∧
    int_and 0 2 = 0 ∧
    int_and 0 4 = 0 ∧
    int_and 1 1 = 1 ∧
    int_and 1 2 = 0 ∧
    int_and 1 4 = 0 ∧
    int_and 2 1 = 0 ∧
    int_and 2 2 = 2 ∧
    int_and 2 4 = 0 ∧
    int_and 3 1 = 1 ∧
    int_and 3 2 = 2 ∧
    int_and 3 4 = 0 ∧
    int_and 4 1 = 0 ∧
    int_and 4 2 = 0 ∧
    int_and 4 4 = 4 ∧
    int_and 5 1 = 1 ∧
    int_and 5 2 = 0 ∧
    int_and 5 4 = 4 ∧
    int_and 6 1 = 0 ∧
    int_and 6 2 = 2 ∧
    int_and 6 4 = 4 ∧
    int_and 7 1 = 1 ∧
    int_and 7 2 = 2 ∧
    int_and 7 4 = 4 := by
  decide

/-! ## Setting and clearing one bit -/

theorem nat_testBit_mask (k j : Nat) (hk : k ≤ 30) :
    (4294967295 - 2 ^ k).testBit j = (decide (j < 32) && !decide (k = j)) := by
  have h : 4294967295 - 2 ^ k = 2 ^ 32 - (2 ^ k + 1) := by
    have : 2 ^ k ≤ 2 ^ 30 := Nat.pow_le_pow_right (by norm_num) hk
    omega
  rw [h, Nat.testBit_two_pow_sub_succ (Nat.pow_lt_pow_right (by norm_num) (by omega)),
    Nat.testBit_two_pow]

theorem nat_and_mask (a k b : Nat) (hk : k ≤ 30) (hb : b ≤ 1) (ha : a < 2 ^ (31 - k)) :
    (2 ^ k * (2 * a + b)) &&& (4294967295 - 2 ^ k) = 2 ^ k * (2 * a) := by
  apply Nat.eq_of_testBit_eq
  intro j
  rw [Nat.testBit_and, nat_testBit_mask k j hk, Nat.testBit_mul_pow_two, Nat.testBit_mul_pow_two]
  by_cases hjk : k ≤ j
  · simp only [hjk, decide_True, Bool.true_and]
    rcases Nat.eq_or_lt_of_le hjk with h | h
    · subst h
      simp
    · obtain ⟨d, hd⟩ : ∃ d, j - k = d + 1 := ⟨j - k - 1, by omega⟩
      rw [hd, Nat.testBit_succ, Nat.testBit_succ]
      have e1 : (2 * a + b) / 2 = a := by omega
      have e2 : (2 * a) / 2 = a := by omega
      rw [e1, e2]
      have hne : ¬ k = j := by omega
      by_cases hj32 : j < 32
      · simp [hj32, hne]
      · have hlt : a < 2 ^ d := by
          calc a < 2 ^ (31 - k) := ha
            _ ≤ 2 ^ d := Nat.pow_le_pow_right (by norm_num) (by omega)
        simp [hj32, Nat.testBit_lt_two_pow hlt]
  · simp [hjk]

theorem nat_or_bit (a k b : Nat) (hb : b ≤ 1) :
    (2 ^ k * (2 * a + b)) ||| 2 ^ k = 2 ^ k * (2 * a + 1) := by
  apply Nat.eq_of_testBit_eq
  intro j
  rw [Nat.testBit_or, Nat.testBit_two_pow, Nat.testBit_mul_pow_two, Nat.testBit_mul_pow_two]
  by_cases hjk : k ≤ j
  · simp only [hjk, decide_True, Bool.true_and]
    rcases Nat.eq_or_lt_of_le hjk with h | h
    · subst h
      simp
      omega
    · obtain ⟨d, hd⟩ : ∃ d, j - k = d + 1 := ⟨j - k - 1, by omega⟩
      rw [hd, Nat.testBit_succ, Nat.testBit_succ]
      have e1 : (2 * a + b) / 2 = a := by omega
      have e2 : (2 * a + 1) / 2 = a := by omega
      rw [e1, e2]
      have hne : ¬ k = j := by omega
      simp [hne]
  · have hne : ¬ k = j := by omega
    simp [hjk, hne]

theorem ofU32_eq (n : Nat) (y : Int) (hy : is_qcoord y)
    (h : (n : Int) = y % 4294967296) : ofU32 n = y := by
  unfold is_qcoord at hy
  unfold ofU32
  split_ifs with hn <;> omega

/-- The arithmetic behind `int_bit_ops`: with `A = 2^k`, `A * B = 2^30`, a multiple
`P = 2 * A * c` of `2 * A` and `x = P + b * A`, the 32-bit patterns of `x`, `P` and
`P + A`, and the range of `P` and `P + A`. -/
theorem bit_arith (A B c d r b x P : Int) (hA : 0 < A) (hAB : A * B = 1073741824)
    (hx : is_qcoord x ∨ is_qcoord P) (hb : b = 0 ∨ b = 1) (hxP : x = P + b * A)
    (hc : P = 2 * A * c) (hcd : 2 * B * d + r = c) (hr0 : 0 ≤ r) (hr1 : r < 2 * B) :
    x % 4294967296 = A * (2 * r + b) ∧ P % 4294967296 = A * (2 * r) ∧
      is_qcoord P ∧ is_qcoord (P + A) ∧ (P + A) % 4294967296 = A * (2 * r + 1) := by
  unfold is_qcoord at *
  have hu0 : 0 ≤ A * r := mul_nonneg (le_of_lt hA) hr0
  have hu1 : A * r ≤ A * (2 * B - 1) := mul_le_mul_of_nonneg_left (by omega) (le_of_lt hA)
  have hu1' : A * r ≤ 2147483648 - A := by
    have : A * (2 * B - 1) = 2 * (A * B) - A := by ring
    omega
  have hPe : P = 4294967296 * d + 2 * (A * r) := by
    rw [hc, ← hcd]
    linear_combination (4 * d) * hAB
  have hAb : b * A = 0 ∨ b * A = A := by
    rcases hb with rfl | rfl
    · left; ring
    · right; ring
  have hcB : c < B ∧ -B ≤ c := by
    constructor
    · by_contra hge
      have h1 : A * B ≤ A * c := mul_le_mul_of_nonneg_left (by omega) (le_of_lt hA)
      have h2 : P = 2 * (A * c) := by rw [hc]; ring
      omega
    · by_contra hlt
      have h1 : A * c ≤ A * (-B - 1) := mul_le_mul_of_nonneg_left (by omega) (le_of_lt hA)
      have h2 : P = 2 * (A * c) := by rw [hc]; ring
      have h3 : A * (-B - 1) = -(A * B) - A := by ring
      omega
  have ht1 : A * c ≤ A * (B - 1) := mul_le_mul_of_nonneg_left (by omega) (le_of_lt hA)
  have ht2 : A * (-B) ≤ A * c := mul_le_mul_of_nonneg_left (by omega) (le_of_lt hA)
  have ht1' : A * (B - 1) = A * B - A := by ring
  have ht2' : A * (-B) = -(A * B) := by ring
  have h2 : P = 2 * (A * c) := by rw [hc]; ring
  have e1 : A * (2 * r + b) = 2 * (A * r) + b * A := by ring
  have e2 : A * (2 * r) = 2 * (A * r) := by ring
  have e3 : A * (2 * r + 1) = 2 * (A * r) + A := by ring
  rw [e1, e2, e3]
  refine ⟨?_, ?_, ?_, ?_, ?_⟩ <;> omega

/-- The bit `2^k` of a coordinate `x = P + b * 2^k` with `P` a multiple of `2^(k+1)` and
`b` in `{0, 1}`: `x | 2^k` sets it and `x & ~2^k` clears it. -/
theorem int_bit_ops (x P b : Int) (k : Nat) (hk : k ≤ 19) (hx : is_qcoord x ∨ is_qcoord P)
    (hP : P % 2 ^ (k + 1) = 0) (hb : b = 0 ∨ b = 1) (hxP : x = P + b * 2 ^ k) :
    int_or x (2 ^ k) = P + 2 ^ k ∧ int_and x (int_not (2 ^ k)) = P := by
  obtain ⟨c, hc⟩ := Int.dvd_of_emod_eq_zero hP
  have hApos : (0 : Int) < 2 ^ k := by positivity
  have hBpos : (0 : Int) < 2 ^ (31 - k) := by positivity
  have hAB : (2 : Int) ^ k * 2 ^ (30 - k) = 1073741824 := by
    rw [← pow_add]
    have : k + (30 - k) = 30 := by omega
    rw [this]
    norm_num
  have hB2 : (2 : Int) ^ (31 - k) = 2 * 2 ^ (30 - k) := by
    have : 31 - k = (30 - k) + 1 := by omega
    rw [this, pow_succ]
    ring
  have hr0 : 0 ≤ c % 2 ^ (31 - k) := Int.emod_nonneg _ (ne_of_gt hBpos)
  have hr1 : c % 2 ^ (31 - k) < 2 ^ (31 - k) := Int.emod_lt_of_pos _ hBpos
  have hcd : 2 ^ (31 - k) * (c / 2 ^ (31 - k)) + c % 2 ^ (31 - k) = c := Int.ediv_add_emod _ _
  generalize c % 2 ^ (31 - k) = r at hr0 hr1 hcd
  generalize c / 2 ^ (31 - k) = d at hcd
  have facts := bit_arith (2 ^ k) (2 ^ (30 - k)) c d r b x P hApos hAB hx hb hxP
    (by rw [hc, pow_succ]; ring) (by rw [← hB2]; exact hcd) hr0 (by rw [← hB2]; exact hr1)
  obtain ⟨f1, f2, f3, f4, f5⟩ := facts
  have hbn : b.toNat ≤ 1 := by omega
  have hA : (0 : Int) < 2 ^ k := by positivity
  have hu : toU32 x = 2 ^ k * (2 * r.toNat + b.toNat) := by
    unfold toU32
    zify
    rw [Int.toNat_of_nonneg (Int.emod_nonneg _ (by norm_num)), Int.toNat_of_nonneg hr0,
      Int.toNat_of_nonneg (by omega), f1]
  have ha : r.toNat < 2 ^ (31 - k) := by
    zify
    rw [Int.toNat_of_nonneg hr0]
    exact_mod_cast hr1
  have hPa : ((2 ^ k * (2 * r.toNat) : Nat) : Int) = P % 4294967296 := by
    push_cast
    rw [Int.toNat_of_nonneg hr0, f2]
  have h2k : toU32 (2 ^ k) = 2 ^ k := by
    unfold toU32
    interval_cases k <;> rfl
  have hnot : toU32 (int_not (2 ^ k)) = 4294967295 - 2 ^ k := by
    unfold int_not
    rw [h2k]
    unfold ofU32 toU32
    interval_cases k <;> rfl
  constructor
  · unfold int_or
    rw [h2k, hu, nat_or_bit _ k _ hbn]
    apply ofU32_eq _ _ f4
    push_cast
    rw [Int.toNat_of_nonneg hr0, f5]
  · unfold int_and
    rw [hnot, hu, nat_and_mask _ k _ (by omega) hbn ha]
    exact ofU32_eq _ _ f3 hPa

/-- The bit `QLEN(l+1)` is set by addition in a coordinate aligned to `QLEN(l)`. -/
theorem int_or_quadrant_len (x l : Int) (h0 : 0 ≤ l) (hl : l < P8EST_MAXLEVEL)
    (hx : is_qcoord x) (hal : x % P8EST_QUADRANT_LEN l = 0) :
    int_or x (P8EST_QUADRANT_LEN (l + 1)) = x + P8EST_QUADRANT_LEN (l + 1) := by
  obtain ⟨k, hk, hkl⟩ := p8est_quadrant_len_eq (l + 1) (by omega)
  have hk19 : k ≤ 19 := by unfold P8EST_MAXLEVEL at *; omega
  rw [p8est_quadrant_len_succ l hl, hk] at hal
  rw [hk]
  have hP : x % 2 ^ (k + 1) = 0 := by rw [pow_succ, mul_comm]; exact hal
  exact (int_bit_ops x x 0 k hk19 (Or.inl hx) hP (Or.inl rfl) (by ring)).1



/-! ## Valid and extended octants -/

/-- The side lengths of the levels `0 ... MAXLEVEL` divide the root length. -/
theorem quadrant_len_le_root (l : Int) (h0 : 0 ≤ l) (h19 : l ≤ P8EST_MAXLEVEL) :
    P8EST_QUADRANT_LEN l ≤ P8EST_ROOT_LEN ∧ P8EST_ROOT_LEN % P8EST_QUADRANT_LEN l = 0 := by
  have h19' : l ≤ 19 := h19
  interval_cases l <;> decide

/-- An extended octant has a level in `[0, MAXLEVEL]` and coordinates that are
`p4est_qcoord_t` values and multiples of the side length of its level: the hypotheses
under which the theorems on extended octants are stated. -/
theorem extended_fits_aligned (q : Quadrant) (h : p4est_quadrant_is_extended q = true) :
    q.fits ∧ q.aligned ∧ 0 ≤ q.level ∧ q.level ≤ P8EST_MAXLEVEL := by
  simp only [p4est_quadrant_is_extended, Bool.and_eq_true, decide_eq_true_eq] at h
  obtain ⟨⟨⟨⟨⟨h0, h19⟩, hx⟩, hy⟩, hz⟩, ha⟩ := h
  have hR : P8EST_ROOT_LEN = 524288 := by decide
  refine ⟨⟨?_, ?_, ?_⟩, ha, h0, h19⟩ <;> unfold is_qcoord <;> omega

/-- A valid octant is extended. -/
theorem valid_extended (q : Quadrant) (h : p4est_quadrant_is_valid q = true) :
    p4est_quadrant_is_extended q = true := by
  simp only [p4est_quadrant_is_valid, p4est_quadrant_is_extended, Bool.and_eq_true,
    decide_eq_true_eq] at h ⊢
  obtain ⟨⟨⟨⟨hl, hx⟩, hy⟩, hz⟩, ha⟩ := h
  have hR : (0 : Int) < P8EST_ROOT_LEN := by decide
  exact ⟨⟨⟨⟨hl, by omega, by omega⟩, by omega, by omega⟩, by omega, by omega⟩, ha⟩

/-! ## Children -/

/-- The outputs of the two children routines, octant by octant. -/
theorem children_get_spec (q : Quadrant) (hf : q.fits) (h0 : 0 ≤ q.level)
    (hl : q.level < P8EST_QMAXLEVEL) (i : Fin 8) :
    (p8est_quadrant_children q).get i =
      ⟨int_or q.x (if int_and (i.val : Int) 1 ≠ 0 then P8EST_QUADRANT_LEN (q.level + 1) else 0),
       int_or q.y (if int_and (i.val : Int) 2 ≠ 0 then P8EST_QUADRANT_LEN (q.level + 1) else 0),
       int_or q.z (if int_and (i.val : Int) 4 ≠ 0 then P8EST_QUADRANT_LEN (q.level + 1) else 0),
       q.level + 1⟩ ∧
    p4est_quadrant_childrenv q i = (p8est_quadrant_children q).get i := by
  obtain ⟨hx, hy, hz⟩ := hf
  have hc : int8_cast (q.level + 1) = q.level + 1 := by
    unfold P8EST_QMAXLEVEL at hl
    exact int8_cast_level _ (by omega) (by omega)
  fin_cases i <;>
    simp [p8est_quadrant_children, p4est_quadrant_childrenv, Children.get, hc,
      int_or_zero, hx, hy, hz, int_and_table]

/-- C9: for an octant `q` of level `l` with `0 ≤ l < QMAXLEVEL` whose coordinates are
`p4est_qcoord_t` values (every extended octant is one), the `i`-th octant written by
`p8est_quadrant_children`, and entry `c[i]` written by `p4est_quadrant_childrenv`, has
level `l + 1` and coordinates `(q.x | (i&1 ? D : 0), q.y | (i&2 ? D : 0),
q.z | (i&4 ? D : 0))` with `D = QLEN(l+1)`. -/
theorem children_coordinates (q : Quadrant) (hf : q.fits) (h0 : 0 ≤ q.level)
    (hl : q.level < P8EST_QMAXLEVEL) (i : Fin 8) :
    (p8est_quadrant_children q).get i =
      ⟨int_or q.x (if int_and (i.val : Int) 1 ≠ 0 then P8EST_QUADRANT_LEN (q.level + 1) else 0),
       int_or q.y (if int_and (i.val : Int) 2 ≠ 0 then P8EST_QUADRANT_LEN (q.level + 1) else 0),
       int_or q.z (if int_and (i.val : Int) 4 ≠ 0 then P8EST_QUADRANT_LEN (q.level + 1) else 0),
       q.level + 1⟩ ∧
    p4est_quadrant_childrenv q i = (p8est_quadrant_children q).get i := by
  obtain ⟨hx, hy, hz⟩ := hf
  have hc : int8_cast (q.level + 1) = q.level + 1 := by
    unfold P8EST_QMAXLEVEL at hl
    exact int8_cast_level _ (by omega) (by omega)
  fin_cases i <;>
    simp [p8est_quadrant_children, p4est_quadrant_childrenv, Children.get, hc,
      int_or_zero, hx, hy, hz, int_and_table]

theorem children_coordinates_witness :
    (p8est_quadrant_children ⟨-524288, 0, 262144, 1⟩).get 5 =
      ⟨int_or (-524288) (if int_and ((5 : Fin 8).val : Int) 1 ≠ 0
          then P8EST_QUADRANT_LEN ((1 : Int) + 1) else 0),
       int_or 0 (if int_and ((5 : Fin 8).val : Int) 2 ≠ 0
          then P8EST_QUADRANT_LEN ((1 : Int) + 1) else 0),
       int_or 262144 (if int_and ((5 : Fin 8).val : Int) 4 ≠ 0
          then P8EST_QUADRANT_LEN ((1 : Int) + 1) else 0),
       (1 : Int) + 1⟩ ∧
    p4est_quadrant_childrenv ⟨-524288, 0, 262144, 1⟩ 5 =
      (p8est_quadrant_children ⟨-524288, 0, 262144, 1⟩).get 5 :=
  children_coordinates ⟨-524288, 0, 262144, 1⟩ (by decide) (by decide) (by decide) 5

theorem child_coord_extended (l x c : Int) (h0 : 0 ≤ l) (hl : l < P8EST_MAXLEVEL)
    (hlo : -P8EST_ROOT_LEN ≤ x) (hhi : x < 2 * P8EST_ROOT_LEN)
    (hal : x % P8EST_QUADRANT_LEN l = 0)
    (hc : c = x ∨ c = x + P8EST_QUADRANT_LEN (l + 1)) :
    (-P8EST_ROOT_LEN ≤ c ∧ c < 2 * P8EST_ROOT_LEN) ∧
      c % P8EST_QUADRANT_LEN (l + 1) = 0 := by
  unfold P8EST_MAXLEVEL at hl
  interval_cases l <;>
    simp [P8EST_QUADRANT_LEN, P8EST_MAXLEVEL, P8EST_ROOT_LEN] at hlo hhi hal hc ⊢ <;>
    omega

theorem child_coord_cases (q : Quadrant) (hf : q.fits) (ha : q.aligned) (h0 : 0 ≤ q.level)
    (hl : q.level < P8EST_QMAXLEVEL) (i : Fin 8) :
    (((p8est_quadrant_children q).get i).x = q.x ∨
      ((p8est_quadrant_children q).get i).x = q.x + P8EST_QUADRANT_LEN (q.level + 1)) ∧
    (((p8est_quadrant_children q).get i).y = q.y ∨
      ((p8est_quadrant_children q).get i).y = q.y + P8EST_QUADRANT_LEN (q.level + 1)) ∧
    (((p8est_quadrant_children q).get i).z = q.z ∨
      ((p8est_quadrant_children q).get i).z = q.z + P8EST_QUADRANT_LEN (q.level + 1)) ∧
    ((p8est_quadrant_children q).get i).level = q.level + 1 := by
  rw [(children_get_spec q hf h0 hl i).1]
  obtain ⟨hx, hy, hz⟩ := hf
  obtain ⟨ax, ay, az⟩ := ha
  have hl19 : q.level < P8EST_MAXLEVEL := by
    unfold P8EST_QMAXLEVEL at hl; unfold P8EST_MAXLEVEL; omega
  refine ⟨?_, ?_, ?_, rfl⟩
  · by_cases h : int_and (i.val : Int) 1 ≠ 0
    · right
      rw [if_pos h]
      exact int_or_quadrant_len q.x q.level h0 hl19 hx ax
    · left
      rw [if_neg h]
      exact int_or_zero _ hx
  · by_cases h : int_and (i.val : Int) 2 ≠ 0
    · right
      rw [if_pos h]
      exact int_or_quadrant_len q.y q.level h0 hl19 hy ay
    · left
      rw [if_neg h]
      exact int_or_zero _ hy
  · by_cases h : int_and (i.val : Int) 4 ≠ 0
    · right
      rw [if_pos h]
      exact int_or_quadrant_len q.z q.level h0 hl19 hz az
    · left
      rw [if_neg h]
      exact int_or_zero _ hz

/-- C1: for an octant `q` of level `l` with `0 ≤ l < QMAXLEVEL` whose coordinates are
`p4est_qcoord_t` values and multiples of `QLEN(l)` (every extended octant is one), the
eight octants written by `p8est_quadrant_children` satisfy `p8est_quadrant_is_family`, the
array written by `p4est_quadrant_childrenv` satisfies `p4est_quadrant_is_familyv`, and
when `q` is extended so is each of the eight octants: the closing assertion of the
children routines, with the assertions nested in the family test, holds. -/
theorem children_is_family (q : Quadrant) (hf : q.fits) (ha : q.aligned) (h0 : 0 ≤ q.level)
    (hl : q.level < P8EST_QMAXLEVEL) :
    p8est_quadrant_is_family (p8est_quadrant_children q).c0 (p8est_quadrant_children q).c1
      (p8est_quadrant_children q).c2 (p8est_quadrant_children q).c3
      (p8est_quadrant_children q).c4 (p8est_quadrant_children q).c5
      (p8est_quadrant_children q).c6 (p8est_quadrant_children q).c7 = true ∧
    p4est_quadrant_is_familyv (p4est_quadrant_childrenv q) = true ∧
    (p4est_quadrant_is_extended q = true →
      ∀ i : Fin 8, p4est_quadrant_is_extended ((p8est_quadrant_children q).get i) = true ∧
        p4est_quadrant_is_extended (p4est_quadrant_childrenv q i) = true) := by
  obtain ⟨hx, hy, hz⟩ := hf
  obtain ⟨ax, ay, az⟩ := ha
  have hl19 : q.level < P8EST_MAXLEVEL := by unfold P8EST_QMAXLEVEL at hl; unfold P8EST_MAXLEVEL; omega
  have hc : int8_cast (q.level + 1) = q.level + 1 := by
    unfold P8EST_QMAXLEVEL at hl
    exact int8_cast_level _ (by omega) (by omega)
  have ox := int_or_quadrant_len q.x q.level h0 hl19 hx ax
  have oy := int_or_quadrant_len q.y q.level h0 hl19 hy ay
  have oz := int_or_quadrant_len q.z q.level h0 hl19 hz az
  have hne : q.level + 1 ≠ 0 := by omega
  refine ⟨?_, ?_, ?_⟩
  · simp [p8est_quadrant_is_family, p8est_quadrant_children, hc, ox, oy, oz, hne]
  · simp [p4est_quadrant_is_familyv, p4est_quadrant_childrenv, hc, ox, oy, oz, hne]
  · intro hext i
    have hv := (children_get_spec q ⟨hx, hy, hz⟩ h0 hl i).2
    rw [hv]
    refine ⟨?_, ?_⟩ <;>
    · simp only [p4est_quadrant_is_extended, Quadrant.aligned, Bool.and_eq_true,
        decide_eq_true_eq] at hext ⊢
      obtain ⟨⟨⟨⟨_, bx⟩, by'⟩, bz⟩, _⟩ := hext
      have hlen := p8est_quadrant_len_succ q.level hl19
      have hpos := p8est_quadrant_len_pos (q.level + 1)
      have hcc := child_coord_cases q ⟨hx, hy, hz⟩ ⟨ax, ay, az⟩ h0 hl i
      obtain ⟨cx, cy, cz, cl⟩ := hcc
      rw [cl]
      have ex := child_coord_extended q.level q.x _ h0 hl19 bx.1 bx.2 ax cx
      have ey := child_coord_extended q.level q.y _ h0 hl19 by'.1 by'.2 ay cy
      have ez := child_coord_extended q.level q.z _ h0 hl19 bz.1 bz.2 az cz
      unfold P8EST_MAXLEVEL at hl19 ⊢
      exact ⟨⟨⟨⟨⟨by omega, by omega⟩, ex.1⟩, ey.1⟩, ez.1⟩, ex.2, ey.2, ez.2⟩

theorem children_is_family_witness :
    p8est_quadrant_is_family (p8est_quadrant_children ⟨-524288, 0, 262144, 1⟩).c0
      (p8est_quadrant_children ⟨-524288, 0, 262144, 1⟩).c1
      (p8est_quadrant_children ⟨-524288, 0, 262144, 1⟩).c2
      (p8est_quadrant_children ⟨-524288, 0, 262144, 1⟩).c3
      (p8est_quadrant_children ⟨-524288, 0, 262144, 1⟩).c4
      (p8est_quadrant_children ⟨-524288, 0, 262144, 1⟩).c5
      (p8est_quadrant_children ⟨-524288, 0, 262144, 1⟩).c6
      (p8est_quadrant_children ⟨-524288, 0, 262144, 1⟩).c7 = true :=
  (children_is_family ⟨-524288, 0, 262144, 1⟩ (by decide) (by decide) (by decide)
    (by decide)).1

/-! ## The family predicate -/

theorem family_offset_sel (D : Int) :
    ((if int_and (((0 : Fin 8) : Nat) : Int) 1 ≠ 0 then D else 0) = 0 ∧
     (if int_and (((0 : Fin 8) : Nat) : Int) 2 ≠ 0 then D else 0) = 0 ∧
     (if int_and (((0 : Fin 8) : Nat) : Int) 4 ≠ 0 then D else 0) = 0) ∧
    ((if int_and (((1 : Fin 8) : Nat) : Int) 1 ≠ 0 then D else 0) = D ∧
     (if int_and (((1 : Fin 8) : Nat) : Int) 2 ≠ 0 then D else 0) = 0 ∧
     (if int_and (((1 : Fin 8) : Nat) : Int) 4 ≠ 0 then D else 0) = 0) ∧
    ((if int_and (((2 : Fin 8) : Nat) : Int) 1 ≠ 0 then D else 0) = 0 ∧
     (if int_and (((2 : Fin 8) : Nat) : Int) 2 ≠ 0 then D else 0) = D ∧
     (if int_and (((2 : Fin 8) : Nat) : Int) 4 ≠ 0 then D else 0) = 0) ∧
    ((if int_and (((3 : Fin 8) : Nat) : Int) 1 ≠ 0 then D else 0) = D ∧
     (if int_and (((3 : Fin 8) : Nat) : Int) 2 ≠ 0 then D else 0) = D ∧
     (if int_and (((3 : Fin 8) : Nat) : Int) 4 ≠ 0 then D else 0) = 0) ∧
    ((if int_and (((4 : Fin 8) : Nat) : Int) 1 ≠ 0 then D else 0) = 0 ∧
     (if int_and (((4 : Fin 8) : Nat) : Int) 2 ≠ 0 then D else 0) = 0 ∧
     (if int_and (((4 : Fin 8) : Nat) : Int) 4 ≠ 0 then D else 0) = D) ∧
    ((if int_and (((5 : Fin 8) : Nat) : Int) 1 ≠ 0 then D else 0) = D ∧
     (if int_and (((5 : Fin 8) : Nat) : Int) 2 ≠ 0 then D else 0) = 0 ∧
     (if int_and (((5 : Fin 8) : Nat) : Int) 4 ≠ 0 then D else 0) = D) ∧
    ((if int_and (((6 : Fin 8) : Nat) : Int) 1 ≠ 0 then D else 0) = 0 ∧
     (if int_and (((6 : Fin 8) : Nat) : Int) 2 ≠ 0 then D else 0) = D ∧
     (if int_and (((6 : Fin 8) : Nat) : Int) 4 ≠ 0 then D else 0) = D) ∧
    ((if int_and (((7 : Fin 8) : Nat) : Int) 1 ≠ 0 then D else 0) = D ∧
     (if int_and (((7 : Fin 8) : Nat) : Int) 2 ≠ 0 then D else 0) = D ∧
     (if int_and (((7 : Fin 8) : Nat) : Int) 4 ≠ 0 then D else 0) = D) := by
  refine ⟨⟨?_, ?_, ?_⟩, ⟨?_, ?_, ?_⟩, ⟨?_, ?_, ?_⟩, ⟨?_, ?_, ?_⟩, ⟨?_, ?_, ?_⟩, ⟨?_, ?_, ?_⟩,
    ⟨?_, ?_, ?_⟩, ⟨?_, ?_, ?_⟩⟩ <;>
  first
  | exact if_neg (by decide)
  | exact if_pos (by decide)

/-- What `p8est_quadrant_is_family` tests, octant by octant. -/
theorem is_family_iff_offsets (q : Fin 8 → Quadrant) :
    p8est_quadrant_is_family (q 0) (q 1) (q 2) (q 3) (q 4) (q 5) (q 6) (q 7) = true ↔
      (q 0).level ≠ 0 ∧ family_offsets q := by
  obtain ⟨⟨s01, s02, s04⟩, ⟨s11, s12, s14⟩, ⟨s21, s22, s24⟩, ⟨s31, s32, s34⟩,
    ⟨s41, s42, s44⟩, ⟨s51, s52, s54⟩, ⟨s61, s62, s64⟩, ⟨s71, s72, s74⟩⟩ :=
    family_offset_sel (P8EST_QUADRANT_LEN (q 0).level)
  have r0 : (⟨(q 0).x + (if int_and (((0 : Fin 8) : Nat) : Int) 1 ≠ 0 then P8EST_QUADRANT_LEN (q 0).level else 0), (q 0).y + (if int_and (((0 : Fin 8) : Nat) : Int) 2 ≠ 0 then P8EST_QUADRANT_LEN (q 0).level else 0), (q 0).z + (if int_and (((0 : Fin 8) : Nat) : Int) 4 ≠ 0 then P8EST_QUADRANT_LEN (q 0).level else 0), (q 0).level⟩ : Quadrant) =
      ⟨(q 0).x, (q 0).y, (q 0).z, (q 0).level⟩ := by
    rw [s01, s02, s04]
    simp only [add_zero]
  have r1 : (⟨(q 0).x + (if int_and (((1 : Fin 8) : Nat) : Int) 1 ≠ 0 then P8EST_QUADRANT_LEN (q 0).level else 0), (q 0).y + (if int_and (((1 : Fin 8) : Nat) : Int) 2 ≠ 0 then P8EST_QUADRANT_LEN (q 0).level else 0), (q 0).z + (if int_and (((1 : Fin 8) : Nat) : Int) 4 ≠ 0 then P8EST_QUADRANT_LEN (q 0).level else 0), (q 0).level⟩ : Quadrant) =
      ⟨(q 0).x + P8EST_QUADRANT_LEN (q 0).level, (q 0).y, (q 0).z, (q 0).level⟩ := by
    rw [s11, s12, s14]
    simp only [add_zero]
  have r2 : (⟨(q 0).x + (if int_and (((2 : Fin 8) : Nat) : Int) 1 ≠ 0 then P8EST_QUADRANT_LEN (q 0).level else 0), (q 0).y + (if int_and (((2 : Fin 8) : Nat) : Int) 2 ≠ 0 then P8EST_QUADRANT_LEN (q 0).level else 0), (q 0).z + (if int_and (((2 : Fin 8) : Nat) : Int) 4 ≠ 0 then P8EST_QUADRANT_LEN (q 0).level else 0), (q 0).level⟩ : Quadrant) =
      ⟨(q 0).x, (q 0).y + P8EST_QUADRANT_LEN (q 0).level, (q 0).z, (q 0).level⟩ := by
    rw [s21, s22, s24]
    simp only [add_zero]
  have r3 : (⟨(q 0).x + (if int_and (((3 : Fin 8) : Nat) : Int) 1 ≠ 0 then P8EST_QUADRANT_LEN (q 0).level else 0), (q 0).y + (if int_and (((3 : Fin 8) : Nat) : Int) 2 ≠ 0 then P8EST_QUADRANT_LEN (q 0).level else 0), (q 0).z + (if int_and (((3 : Fin 8) : Nat) : Int) 4 ≠ 0 then P8EST_QUADRANT_LEN (q 0).level else 0), (q 0).level⟩ : Quadrant) =
      ⟨(q 0).x + P8EST_QUADRANT_LEN (q 0).level, (q 0).y + P8EST_QUADRANT_LEN (q 0).level, (q 0).z, (q 0).level⟩ := by
    rw [s31, s32, s34]
    simp only [add_zero]
  have r4 : (⟨(q 0).x + (if int_and (((4 : Fin 8) : Nat) : Int) 1 ≠ 0 then P8EST_QUADRANT_LEN (q 0).level else 0), (q 0).y + (if int_and (((4 : Fin 8) : Nat) : Int) 2 ≠ 0 then P8EST_QUADRANT_LEN (q 0).level else 0), (q 0).z + (if int_and (((4 : Fin 8) : Nat) : Int) 4 ≠ 0 then P8EST_QUADRANT_LEN (q 0).level else 0), (q 0).level⟩ : Quadrant) =
      ⟨(q 0).x, (q 0).y, (q 0).z + P8EST_QUADRANT_LEN (q 0).level, (q 0).level⟩ := by
    rw [s41, s42, s44]
    simp only [add_zero]
  have r5 : (⟨(q 0).x + (if int_and (((5 : Fin 8) : Nat) : Int) 1 ≠ 0 then P8EST_QUADRANT_LEN (q 0).level else 0), (q 0).y + (if int_and (((5 : Fin 8) : Nat) : Int) 2 ≠ 0 then P8EST_QUADRANT_LEN (q 0).level else 0), (q 0).z + (if int_and (((5 : Fin 8) : Nat) : Int) 4 ≠ 0 then P8EST_QUADRANT_LEN (q 0).level else 0), (q 0).level⟩ : Quadrant) =
      ⟨(q 0).x + P8EST_QUADRANT_LEN (q 0).level, (q 0).y, (q 0).z + P8EST_QUADRANT_LEN (q 0).level, (q 0).level⟩ := by
    rw [s51, s52, s54]
    simp only [add_zero]
  have r6 : (⟨(q 0).x + (if int_and (((6 : Fin 8) : Nat) : Int) 1 ≠ 0 then P8EST_QUADRANT_LEN (q 0).level else 0), (q 0).y + (if int_and (((6 : Fin 8) : Nat) : Int) 2 ≠ 0 then P8EST_QUADRANT_LEN (q 0).level else 0), (q 0).z + (if int_and (((6 : Fin 8) : Nat) : Int) 4 ≠ 0 then P8EST_QUADRANT_LEN (q 0).level else 0), (q 0).level⟩ : Quadrant) =
      ⟨(q 0).x, (q 0).y + P8EST_QUADRANT_LEN (q 0).level, (q 0).z + P8EST_QUADRANT_LEN (q 0).level, (q 0).level⟩ := by
    rw [s61, s62, s64]
    simp only [add_zero]
  have r7 : (⟨(q 0).x + (if int_and (((7 : Fin 8) : Nat) : Int) 1 ≠ 0 then P8EST_QUADRANT_LEN (q 0).level else 0), (q 0).y + (if int_and (((7 : Fin 8) : Nat) : Int) 2 ≠ 0 then P8EST_QUADRANT_LEN (q 0).level else 0), (q 0).z + (if int_and (((7 : Fin 8) : Nat) : Int) 4 ≠ 0 then P8EST_QUADRANT_LEN (q 0).level else 0), (q 0).level⟩ : Quadrant) =
      ⟨(q 0).x + P8EST_QUADRANT_LEN (q 0).level, (q 0).y + P8EST_QUADRANT_LEN (q 0).level, (q 0).z + P8EST_QUADRANT_LEN (q 0).level, (q 0).level⟩ := by
    rw [s71, s72, s74]
  have hall : family_offsets q ↔
      (q 1 = ⟨(q 0).x + P8EST_QUADRANT_LEN (q 0).level, (q 0).y, (q 0).z, (q 0).level⟩ ∧
       q 2 = ⟨(q 0).x, (q 0).y + P8EST_QUADRANT_LEN (q 0).level, (q 0).z, (q 0).level⟩ ∧
       q 3 = ⟨(q 0).x + P8EST_QUADRANT_LEN (q 0).level, (q 0).y + P8EST_QUADRANT_LEN (q 0).level, (q 0).z, (q 0).level⟩ ∧
       q 4 = ⟨(q 0).x, (q 0).y, (q 0).z + P8EST_QUADRANT_LEN (q 0).level, (q 0).level⟩ ∧
       q 5 = ⟨(q 0).x + P8EST_QUADRANT_LEN (q 0).level, (q 0).y, (q 0).z + P8EST_QUADRANT_LEN (q 0).level, (q 0).level⟩ ∧
       q 6 = ⟨(q 0).x, (q 0).y + P8EST_QUADRANT_LEN (q 0).level, (q 0).z + P8EST_QUADRANT_LEN (q 0).level, (q 0).level⟩ ∧
       q 7 = ⟨(q 0).x + P8EST_QUADRANT_LEN (q 0).level, (q 0).y + P8EST_QUADRANT_LEN (q 0).level, (q 0).z + P8EST_QUADRANT_LEN (q 0).level, (q 0).level⟩) := by
    unfold family_offsets
    constructor
    · intro h
      exact ⟨(h 1).trans r1, (h 2).trans r2, (h 3).trans r3, (h 4).trans r4, (h 5).trans r5, (h 6).trans r6, (h 7).trans r7⟩
    · rintro ⟨h1, h2, h3, h4, h5, h6, h7⟩ i
      fin_cases i
      · exact r0.symm
      · exact h1.trans r1.symm
      · exact h2.trans r2.symm
      · exact h3.trans r3.symm
      · exact h4.trans r4.symm
      · exact h5.trans r5.symm
      · exact h6.trans r6.symm
      · exact h7.trans r7.symm
  rw [hall]
  clear hall r0 r1 r2 r3 r4 r5 r6 r7 s01 s02 s04 s11 s12 s14 s21 s22 s24 s31 s32 s34 s41 s42 s44
    s51 s52 s54 s61 s62 s64 s71 s72 s74
  generalize q 0 = q0
  generalize q 1 = q1
  generalize q 2 = q2
  generalize q 3 = q3
  generalize q 4 = q4
  generalize q 5 = q5
  generalize q 6 = q6
  generalize q 7 = q7
  obtain ⟨x0, y0, z0, l0⟩ := q0
  obtain ⟨x1, y1, z1, l1⟩ := q1
  obtain ⟨x2, y2, z2, l2⟩ := q2
  obtain ⟨x3, y3, z3, l3⟩ := q3
  obtain ⟨x4, y4, z4, l4⟩ := q4
  obtain ⟨x5, y5, z5, l5⟩ := q5
  obtain ⟨x6, y6, z6, l6⟩ := q6
  obtain ⟨x7, y7, z7, l7⟩ := q7
  simp only [Quadrant.mk.injEq, p8est_quadrant_is_family, Bool.or_eq_true, beq_iff_eq,
    bne_iff_ne, ne_eq, Bool.and_eq_true, ite_eq_right_iff, Bool.false_eq_true, imp_false,
    not_or, Bool.if_false_left, Bool.not_eq_true', Bool.decide_eq_false, decide_eq_true_eq,
    not_not, decide_eq_false_iff_not]
  generalize P8EST_QUADRANT_LEN l0 = inc
  constructor
  · rintro ⟨⟨⟨⟨⟨⟨⟨⟨h0, h1⟩, h2⟩, h3⟩, h4⟩, h5⟩, h6⟩, h7⟩,
      ⟨⟨⟨⟨⟨⟨⟨⟨a1, a2⟩, a3⟩, ⟨b1, b2⟩, b3⟩, ⟨c1, c2⟩, c3⟩, ⟨d1, d2⟩, d3⟩, ⟨e1, e2⟩, e3⟩,
        ⟨f1, f2⟩, f3⟩, ⟨g1, g2⟩, g3⟩⟩
    subst_vars
    simp [h0]
  · rintro ⟨h0, ⟨a1, a2, a3, h1⟩, ⟨b1, b2, b3, h2⟩, ⟨c1, c2, c3, h3⟩, ⟨d1, d2, d3, h4⟩,
      ⟨e1, e2, e3, h5⟩, ⟨f1, f2, f3, h6⟩, ⟨g1, g2, g3, h7⟩⟩
    subst_vars
    simp [h0]

/-- The child pattern of the specification, with the bit operator resolved. -/
theorem child_pattern_eq (p : Quadrant) (hf : p.fits) (ha : p.aligned) (h0 : 0 ≤ p.level)
    (hl : p.level < P8EST_MAXLEVEL) (i : Fin 8) :
    child_pattern p i =
      ⟨p.x + (if int_and (i.val : Int) 1 ≠ 0 then P8EST_QUADRANT_LEN (p.level + 1) else 0),
       p.y + (if int_and (i.val : Int) 2 ≠ 0 then P8EST_QUADRANT_LEN (p.level + 1) else 0),
       p.z + (if int_and (i.val : Int) 4 ≠ 0 then P8EST_QUADRANT_LEN (p.level + 1) else 0),
       p.level + 1⟩ := by
  obtain ⟨hx, hy, hz⟩ := hf
  obtain ⟨ax, ay, az⟩ := ha
  unfold child_pattern
  congr 1
  · by_cases h : int_and (i.val : Int) 1 ≠ 0
    · rw [if_pos h]; exact int_or_quadrant_len p.x p.level h0 hl hx ax
    · rw [if_neg h, int_or_zero _ hx, add_zero]
  · by_cases h : int_and (i.val : Int) 2 ≠ 0
    · rw [if_pos h]; exact int_or_quadrant_len p.y p.level h0 hl hy ay
    · rw [if_neg h, int_or_zero _ hy, add_zero]
  · by_cases h : int_and (i.val : Int) 4 ≠ 0
    · rw [if_pos h]; exact int_or_quadrant_len p.z p.level h0 hl hz az
    · rw [if_neg h, int_or_zero _ hz, add_zero]

theorem toU32_ofU32 (n : Nat) (hn : n < 4294967296) : toU32 (ofU32 n) = n := by
  unfold toU32 ofU32
  split_ifs <;> omega

theorem toU32_lt (a : Int) : toU32 a < 4294967296 := by
  unfold toU32
  omega

/-- The value of a coordinate after its reduction to 32 bits. -/
theorem int_or_zero_wrap (a : Int) (l : Int) (h0 : 0 ≤ l) (h19 : l ≤ P8EST_MAXLEVEL)
    (hal : a % P8EST_QUADRANT_LEN l = 0) :
    is_qcoord (int_or a 0) ∧ (∀ c, int_or (int_or a 0) c = int_or a c) ∧
      int_or a 0 % P8EST_QUADRANT_LEN l = 0 := by
  have hz : toU32 0 = 0 := by decide
  have hw : int_or a 0 = ofU32 (toU32 a) := by
    unfold int_or
    rw [hz, Nat.or_zero]
  rw [hw]
  refine ⟨?_, fun c => ?_, ?_⟩
  · unfold is_qcoord ofU32 toU32
    split_ifs <;> omega
  · unfold int_or
    rw [toU32_ofU32 _ (toU32_lt a)]
  · obtain ⟨k, hk, hkl⟩ := p8est_quadrant_len_eq l h19
    have hk19 : k ≤ 19 := by unfold P8EST_MAXLEVEL at *; omega
    rw [hk] at hal ⊢
    obtain ⟨m, hm⟩ := Int.dvd_of_emod_eq_zero hal
    have hd : ∃ n : Int, (4294967296 : Int) = 2 ^ k * n := by
      have : (4294967296 : Int) = 2 ^ k * 2 ^ (32 - k) := by
        rw [← pow_add]
        have : k + (32 - k) = 32 := by omega
        rw [this]
        norm_num
      exact ⟨_, this⟩
    obtain ⟨n, hn⟩ := hd
    have hcases : ofU32 (toU32 a) = a % 4294967296 ∨
        ofU32 (toU32 a) = a % 4294967296 - 4294967296 := by
      unfold ofU32 toU32
      split_ifs <;> omega
    have hmod : a % 4294967296 = a - 4294967296 * (a / 4294967296) := by
      have := Int.emod_add_ediv a 4294967296
      omega
    rcases hcases with h | h
    · rw [h, hmod, hm, hn]
      have : 2 ^ k * m - 2 ^ k * n * (2 ^ k * m / (2 ^ k * n)) =
          2 ^ k * (m - n * (2 ^ k * m / (2 ^ k * n))) := by ring
      rw [this]
      exact Int.mul_emod_right _ _
    · rw [h, hmod, hm, hn]
      have : 2 ^ k * m - 2 ^ k * n * (2 ^ k * m / (2 ^ k * n)) - 2 ^ k * n =
          2 ^ k * (m - n * (2 ^ k * m / (2 ^ k * n)) - n) := by ring
      rw [this]
      exact Int.mul_emod_right _ _

/-- C2 (amended): `p8est_quadrant_is_family` returns true iff the eight octants share one
level `l ≠ 0` and octant `i` is octant `0` moved by `QLEN(l)` along the axes selected by
the bits of `i`; for octants of level at most `MAXLEVEL` with `p4est_qcoord_t`
coordinates, a common parent of level `l - 1` whose `i`-th child is octant `i` exists iff
the test returns true and, in addition, `l > 0` and the coordinates of octant `0` are
multiples of `QLEN(l - 1)`, which the test does not look at. -/
theorem is_family_iff (q : Fin 8 → Quadrant) (hf : (q 0).fits)
    (hl : (q 0).level ≤ P8EST_MAXLEVEL) :
    (p8est_quadrant_is_family (q 0) (q 1) (q 2) (q 3) (q 4) (q 5) (q 6) (q 7) = true ↔
      (q 0).level ≠ 0 ∧ family_offsets q) ∧
    (has_common_parent q ↔
      (p8est_quadrant_is_family (q 0) (q 1) (q 2) (q 3) (q 4) (q 5) (q 6) (q 7) = true ∧
        0 < (q 0).level ∧
        (q 0).x % P8EST_QUADRANT_LEN ((q 0).level - 1) = 0 ∧
        (q 0).y % P8EST_QUADRANT_LEN ((q 0).level - 1) = 0 ∧
        (q 0).z % P8EST_QUADRANT_LEN ((q 0).level - 1) = 0)) := by
  refine ⟨is_family_iff_offsets q, ?_⟩
  rw [is_family_iff_offsets]
  constructor
  · rintro ⟨hpos, -, p0, hpl0, hpa0, hq0⟩
    have hp0 : 0 ≤ p0.level := by omega
    have hp19 : p0.level < P8EST_MAXLEVEL := by omega
    obtain ⟨fx, wx, ax⟩ := int_or_zero_wrap p0.x p0.level hp0 (le_of_lt hp19) hpa0.1
    obtain ⟨fy, wy, ay⟩ := int_or_zero_wrap p0.y p0.level hp0 (le_of_lt hp19) hpa0.2.1
    obtain ⟨fz, wz, az⟩ := int_or_zero_wrap p0.z p0.level hp0 (le_of_lt hp19) hpa0.2.2
    obtain ⟨p, hp⟩ : ∃ p : Quadrant,
        p = ⟨int_or p0.x 0, int_or p0.y 0, int_or p0.z 0, p0.level⟩ := ⟨_, rfl⟩
    have hpl : p.level = (q 0).level - 1 := by rw [hp]; exact hpl0
    have hpf : p.fits := by rw [hp]; exact ⟨fx, fy, fz⟩
    have hpa : p.aligned := by rw [hp]; exact ⟨ax, ay, az⟩
    have hq : ∀ i, q i = child_pattern p i := by
      intro i
      rw [hq0 i, hp]
      unfold child_pattern
      simp only [wx, wy, wz]
    have hp0 : 0 ≤ p.level := by omega
    have hp19 : p.level < P8EST_MAXLEVEL := by omega
    have hq' : ∀ i, q i = _ := fun i => (hq i).trans (child_pattern_eq p hpf hpa hp0 hp19 i)
    have e0 := hq' 0
    rw [Quadrant.ext_iff] at e0
    simp [int_and_table] at e0
    obtain ⟨ex, ey, ez, el⟩ := e0
    have hlev : p.level + 1 = (q 0).level := by omega
    refine ⟨⟨by omega, ?_⟩, hpos, ?_, ?_, ?_⟩
    · intro i
      rw [hq' i, ex, ey, ez, hlev]
    · rw [ex, ← hpl]; exact hpa.1
    · rw [ey, ← hpl]; exact hpa.2.1
    · rw [ez, ← hpl]; exact hpa.2.2
  · rintro ⟨⟨-, hoff⟩, hpos, ax, ay, az⟩
    refine ⟨hpos, ?_, ⟨(q 0).x, (q 0).y, (q 0).z, (q 0).level - 1⟩, rfl, ⟨ax, ay, az⟩, ?_⟩
    · intro i
      rw [hoff i]
    · intro i
      have hp := child_pattern_eq ⟨(q 0).x, (q 0).y, (q 0).z, (q 0).level - 1⟩ hf
        ⟨ax, ay, az⟩ (by show 0 ≤ (q 0).level - 1; omega)
        (by show (q 0).level - 1 < P8EST_MAXLEVEL; omega) i
      rw [hp]
      simp only [sub_add_cancel]
      exact hoff i

theorem is_family_iff_witness :
    (p8est_quadrant_is_family (shifted_family 0) (shifted_family 1) (shifted_family 2)
        (shifted_family 3) (shifted_family 4) (shifted_family 5) (shifted_family 6)
        (shifted_family 7) = true ↔
      (shifted_family 0).level ≠ 0 ∧ family_offsets shifted_family) ∧
    (has_common_parent shifted_family ↔
      (p8est_quadrant_is_family (shifted_family 0) (shifted_family 1) (shifted_family 2)
        (shifted_family 3) (shifted_family 4) (shifted_family 5) (shifted_family 6)
        (shifted_family 7) = true ∧
        0 < (shifted_family 0).level ∧
        (shifted_family 0).x % P8EST_QUADRANT_LEN ((shifted_family 0).level - 1) = 0 ∧
        (shifted_family 0).y % P8EST_QUADRANT_LEN ((shifted_family 0).level - 1) = 0 ∧
        (shifted_family 0).z % P8EST_QUADRANT_LEN ((shifted_family 0).level - 1) = 0)) :=
  is_family_iff shifted_family (by decide) (by decide)

/-- C2, as stated, fails: the eight octants of `shifted_family` are valid (hence extended)
octants of level 2, `p8est_quadrant_is_family` returns true on them, and they have no
common parent, octant `0` being child 1 of its parent and octant `1` child 0 of
another. -/
theorem is_family_counterexample :
    (∀ i : Fin 8, p4est_quadrant_is_valid (shifted_family i) = true ∧
      p4est_quadrant_is_extended (shifted_family i) = true) ∧
    p8est_quadrant_is_family (shifted_family 0) (shifted_family 1) (shifted_family 2)
      (shifted_family 3) (shifted_family 4) (shifted_family 5) (shifted_family 6)
      (shifted_family 7) = true ∧
    ¬ has_common_parent shifted_family := by
  refine ⟨by decide, by decide, ?_⟩
  rintro ⟨-, -, p, hpl, hpa, hq⟩
  have h0 := hq 0
  rw [Quadrant.ext_iff] at h0
  have hx : (131072 : Int) = int_or p.x 0 := h0.1
  have hl1 : p.level = 1 := hpl
  have hal := (int_or_zero_wrap p.x p.level (by omega) (by rw [hl1]; decide) hpa.1).2.2
  rw [hl1, ← hx] at hal
  revert hal
  decide

/-! ## Face transform -/

theorem set_coord_some (r : Quadrant) (a v : Int) (h0 : 0 ≤ a) (h3 : a < 3) :
    ∃ s, r.set_coord a v = some s ∧ s.coord a = some v ∧ s.level = r.level ∧
      ∀ b, b ≠ a → s.coord b = r.coord b := by
  interval_cases a
  · exact ⟨{ r with x := v }, rfl, rfl, rfl, fun b hb => by simp [Quadrant.coord, hb]⟩
  · refine ⟨{ r with y := v }, rfl, rfl, rfl, fun b hb => ?_⟩
    by_cases h : b = 0 <;> simp [Quadrant.coord, hb, h]
  · refine ⟨{ r with z := v }, rfl, rfl, rfl, fun b hb => ?_⟩
    by_cases h : b = 0 <;> by_cases h' : b = 1 <;> simp [Quadrant.coord, hb, h, h']

theorem coord_some (q : Quadrant) (a : Int) (h0 : 0 ≤ a) (h3 : a < 3) :
    ∃ m, q.coord a = some m := by
  interval_cases a <;> exact ⟨_, rfl⟩

theorem coord_level (q : Quadrant) (l a : Int) :
    ({ q with level := l } : Quadrant).coord a = q.coord a := rfl

/-- An octant is determined by its level and its coordinates along a permutation of the
axes. -/
theorem eq_of_coord_perm (s q : Quadrant) (a0 a1 a2 : Int)
    (h0 : 0 ≤ a0 ∧ a0 < 3) (h1 : 0 ≤ a1 ∧ a1 < 3) (h2 : 0 ≤ a2 ∧ a2 < 3)
    (d01 : a0 ≠ a1) (d02 : a0 ≠ a2) (d12 : a1 ≠ a2)
    (e0 : s.coord a0 = q.coord a0) (e1 : s.coord a1 = q.coord a1)
    (e2 : s.coord a2 = q.coord a2) (el : s.level = q.level) : s = q := by
  obtain ⟨h0a, h0b⟩ := h0
  obtain ⟨h1a, h1b⟩ := h1
  obtain ⟨h2a, h2b⟩ := h2
  interval_cases a0 <;> interval_cases a1 <;> simp at d01 <;>
    interval_cases a2 <;> simp at d02 d12 <;>
    simp [Quadrant.coord] at e0 e1 e2 <;>
    exact Quadrant.ext (by assumption) (by assumption) (by assumption) el

/-- The three coordinate writes of `p8est_quadrant_transform_face`, for a well-formed
`ftransform`: the call returns, and the result holds the transformed coordinates along
the three target axes and the level of `q`. -/
theorem transform_face_spec (q r0 : Quadrant) (ft : Fin 9 → Int) (hft : ftransform_ok ft)
    (mh : Int) (hmh : mh = if q.level = P8EST_MAXLEVEL then 0 else -P8EST_QUADRANT_LEN q.level) :
    ∃ r m0 m1 m2, p8est_quadrant_transform_face q r0 ft = some r ∧
      q.coord (my_axis ft 0) = some m0 ∧ q.coord (my_axis ft 1) = some m1 ∧
      q.coord (my_axis ft 2) = some m2 ∧
      r.level = q.level ∧
      r.coord (target_axis ft 0) =
        some (if edge_reverse ft 0 = 0 then m0 else P8EST_ROOT_LEN + mh - m0) ∧
      r.coord (target_axis ft 1) =
        some (if edge_reverse ft 1 = 0 then m1 else P8EST_ROOT_LEN + mh - m1) ∧
      r.coord (target_axis ft 2) =
        some (if edge_reverse ft 2 = 0 then mh - m2
          else if edge_reverse ft 2 = 1 then m2 + P8EST_ROOT_LEN
          else if edge_reverse ft 2 = 2 then m2 - P8EST_ROOT_LEN
          else P8EST_ROOT_LEN + (P8EST_ROOT_LEN + mh) - m2) := by
  obtain ⟨hm, ht, ⟨-, -, -⟩, ⟨t01, t02, t12⟩, -, -, he2⟩ := hft
  obtain ⟨m0, hm0⟩ := coord_some q _ (hm 0).1 (hm 0).2
  obtain ⟨m1, hm1⟩ := coord_some q _ (hm 1).1 (hm 1).2
  obtain ⟨m2, hm2⟩ := coord_some q _ (hm 2).1 (hm 2).2
  obtain ⟨r1, hr1, c1, l1, o1⟩ := set_coord_some r0 (target_axis ft 0)
    (if edge_reverse ft 0 = 0 then m0 else P8EST_ROOT_LEN + mh - m0) (ht 0).1 (ht 0).2
  obtain ⟨r2, hr2, c2, l2, o2⟩ := set_coord_some r1 (target_axis ft 1)
    (if edge_reverse ft 1 = 0 then m1 else P8EST_ROOT_LEN + mh - m1) (ht 1).1 (ht 1).2
  obtain ⟨r3, hr3, c3, l3, o3⟩ := set_coord_some r2 (target_axis ft 2)
    (if edge_reverse ft 2 = 0 then mh - m2
          else if edge_reverse ft 2 = 1 then m2 + P8EST_ROOT_LEN
          else if edge_reverse ft 2 = 2 then m2 - P8EST_ROOT_LEN
          else P8EST_ROOT_LEN + (P8EST_ROOT_LEN + mh) - m2) (ht 2).1 (ht 2).2
  refine ⟨{ r3 with level := q.level }, m0, m1, m2, ?_, hm0, hm1, hm2, rfl, ?_, ?_, ?_⟩
  · have hsw : (if edge_reverse ft 2 = 0 then r2.set_coord (target_axis ft 2) (mh - m2)
        else if edge_reverse ft 2 = 1 then r2.set_coord (target_axis ft 2) (m2 + P8EST_ROOT_LEN)
        else if edge_reverse ft 2 = 2 then r2.set_coord (target_axis ft 2) (m2 - P8EST_ROOT_LEN)
        else if edge_reverse ft 2 = 3 then
          r2.set_coord (target_axis ft 2) (P8EST_ROOT_LEN + (P8EST_ROOT_LEN + mh) - m2)
        else none) = some r3 := by
      rw [← hr3]
      obtain ⟨e0, e4⟩ := he2
      generalize edge_reverse ft 2 = e at e0 e4 ⊢
      interval_cases e <;> simp
    simp only [p8est_quadrant_transform_face, ← hmh, hm0, hm1, hm2, hr1, hr2, hsw,
      Option.bind_some, Option.some_bind]
  · rw [coord_level, o3 _ t02, o2 _ t01, c1]
  · rw [coord_level, o3 _ t12, c2]
  · rw [coord_level, c3]

theorem mirror_my_axis (ft : Fin 9 → Int) (i : Fin 3) :
    my_axis (ftransform_mirror ft) i = target_axis ft i := by
  fin_cases i <;> rfl

theorem mirror_target_axis (ft : Fin 9 → Int) (i : Fin 3) :
    target_axis (ftransform_mirror ft) i = my_axis ft i := by
  fin_cases i <;> rfl

theorem mirror_edge_reverse_01 (ft : Fin 9 → Int) :
    edge_reverse (ftransform_mirror ft) 0 = edge_reverse ft 0 ∧
    edge_reverse (ftransform_mirror ft) 1 = edge_reverse ft 1 :=
  ⟨rfl, rfl⟩

theorem mirror_edge_reverse_2 (ft : Fin 9 → Int) :
    edge_reverse (ftransform_mirror ft) 2 =
      if edge_reverse ft 2 = 1 then 2 else if edge_reverse ft 2 = 2 then 1
      else edge_reverse ft 2 := rfl

theorem ftransform_mirror_ok (ft : Fin 9 → Int) (hft : ftransform_ok ft) :
    ftransform_ok (ftransform_mirror ft) := by
  obtain ⟨hm, ht, dm, dt, e0, e1, e2⟩ := hft
  refine ⟨fun i => ?_, fun i => ?_, ?_, ?_, ?_, ?_, ?_⟩
  · rw [mirror_my_axis]; exact ht i
  · rw [mirror_target_axis]; exact hm i
  · simp only [mirror_my_axis]; exact dt
  · simp only [mirror_target_axis]; exact dm
  · rw [(mirror_edge_reverse_01 ft).1]; exact e0
  · rw [(mirror_edge_reverse_01 ft).2]; exact e1
  · rw [mirror_edge_reverse_2]
    split_ifs <;> omega

/-- C3: for every octant `q` (inside the root or not) and every well-formed `ftransform`,
`p8est_quadrant_transform_face` with `ftransform` followed by
`p8est_quadrant_transform_face` with the mirror transform returns, and gives back `q`:
same `x`, `y`, `z` and level, whatever the output octants held before. -/
theorem transform_face_mirror (q r0 r1 : Quadrant) (ft : Fin 9 → Int)
    (hft : ftransform_ok ft) :
    (p8est_quadrant_transform_face q r0 ft).bind
      (fun r => p8est_quadrant_transform_face r r1 (ftransform_mirror ft)) = some q := by
  obtain ⟨r, m0, m1, m2, hr, hm0, hm1, hm2, hl, c0, c1, c2⟩ :=
    transform_face_spec q r0 ft hft _ rfl
  obtain ⟨s, n0, n1, n2, hs, hn0, hn1, hn2, hl', d0, d1, d2⟩ :=
    transform_face_spec r r1 (ftransform_mirror ft) (ftransform_mirror_ok ft hft) _ rfl
  rw [hr, Option.some_bind, hs]
  congr 1
  rw [hl] at d0 d1 d2
  simp only [mirror_my_axis, mirror_target_axis, (mirror_edge_reverse_01 ft).1,
    (mirror_edge_reverse_01 ft).2, mirror_edge_reverse_2] at hn0 hn1 hn2 d0 d1 d2
  rw [c0] at hn0
  rw [c1] at hn1
  rw [c2] at hn2
  simp only [Option.some.injEq] at hn0 hn1 hn2
  obtain ⟨hm, -, ⟨m01, m02, m12⟩, -, -, -, he2⟩ := hft
  refine eq_of_coord_perm s q _ _ _ (hm 0) (hm 1) (hm 2) m01 m02 m12 ?_ ?_ ?_ (hl'.trans hl)
  · rw [d0, hm0, ← hn0]
    congr 1
    split_ifs <;> omega
  · rw [d1, hm1, ← hn1]
    congr 1
    split_ifs <;> omega
  · rw [d2, hm2, ← hn2]
    congr 1
    have hcase : edge_reverse ft 2 = 0 ∨ edge_reverse ft 2 = 1 ∨ edge_reverse ft 2 = 2 ∨
        edge_reverse ft 2 = 3 := by omega
    rcases hcase with h | h | h | h <;> simp [h]

theorem transform_face_mirror_witness :
    (p8est_quadrant_transform_face ⟨65536, 131072, 0, 3⟩ ⟨0, 0, 0, 0⟩
        (ftransform_of 0 1 2 1 0 2 0 1 1)).bind
      (fun r => p8est_quadrant_transform_face r ⟨0, 0, 0, 0⟩
        (ftransform_mirror (ftransform_of 0 1 2 1 0 2 0 1 1))) = some ⟨65536, 131072, 0, 3⟩ :=
  transform_face_mirror ⟨65536, 131072, 0, 3⟩ ⟨0, 0, 0, 0⟩ ⟨0, 0, 0, 0⟩
    (ftransform_of 0 1 2 1 0 2 0 1 1) (by decide)

/-- C7 (amended): for every octant `q` of level `l` and every well-formed `ftransform`,
`p8est_quadrant_transform_face` returns, and for `i` in `{0, 1}` the tangential
coordinate `r[target_axis[i]]` is `q[my_axis[i]]` when `edge_reverse[i] = 0`; when
`edge_reverse[i] = 1` it is `ROOT_LEN - QLEN(l) - q[my_axis[i]]` for `l ≠ MAXLEVEL` and
`ROOT_LEN - q[my_axis[i]]` for a node, `l = MAXLEVEL`. -/
theorem transform_face_tangential (q r0 : Quadrant) (ft : Fin 9 → Int)
    (hft : ftransform_ok ft) :
    ∃ r, p8est_quadrant_transform_face q r0 ft = some r ∧
      ∀ i : Fin 3, i ≠ 2 → ∃ m, q.coord (my_axis ft i) = some m ∧
        r.coord (target_axis ft i) =
          some (if edge_reverse ft i = 0 then m
            else if q.level = P8EST_MAXLEVEL then P8EST_ROOT_LEN - m
            else P8EST_ROOT_LEN - P8EST_QUADRANT_LEN q.level - m) := by
  obtain ⟨r, m0, m1, m2, hr, hm0, hm1, hm2, hl, c0, c1, c2⟩ :=
    transform_face_spec q r0 ft hft _ rfl
  have key0 : ∃ m, q.coord (my_axis ft 0) = some m ∧
      r.coord (target_axis ft 0) =
        some (if edge_reverse ft 0 = 0 then m
          else if q.level = P8EST_MAXLEVEL then P8EST_ROOT_LEN - m
          else P8EST_ROOT_LEN - P8EST_QUADRANT_LEN q.level - m) := by
    refine ⟨m0, hm0, ?_⟩
    rw [c0]
    congr 1
    split_ifs <;> omega
  have key1 : ∃ m, q.coord (my_axis ft 1) = some m ∧
      r.coord (target_axis ft 1) =
        some (if edge_reverse ft 1 = 0 then m
          else if q.level = P8EST_MAXLEVEL then P8EST_ROOT_LEN - m
          else P8EST_ROOT_LEN - P8EST_QUADRANT_LEN q.level - m) := by
    refine ⟨m1, hm1, ?_⟩
    rw [c1]
    congr 1
    split_ifs <;> omega
  refine ⟨r, hr, fun i hi => ?_⟩
  have hcases : i = 0 ∨ i = 1 ∨ i = 2 := by
    fin_cases i <;> simp
  rcases hcases with h | h | h
  · rw [h]; exact key0
  · rw [h]; exact key1
  · exact absurd h hi

theorem transform_face_tangential_witness :
    ∃ r, p8est_quadrant_transform_face ⟨65536, 131072, 0, 3⟩ ⟨0, 0, 0, 0⟩
        (ftransform_of 0 1 2 1 0 2 0 1 1) = some r ∧
      ∀ i : Fin 3, i ≠ 2 → ∃ m, (⟨65536, 131072, 0, 3⟩ : Quadrant).coord
          (my_axis (ftransform_of 0 1 2 1 0 2 0 1 1) i) = some m ∧
        r.coord (target_axis (ftransform_of 0 1 2 1 0 2 0 1 1) i) =
          some (if edge_reverse (ftransform_of 0 1 2 1 0 2 0 1 1) i = 0 then m
            else if (⟨65536, 131072, 0, 3⟩ : Quadrant).level = P8EST_MAXLEVEL
              then P8EST_ROOT_LEN - m
            else P8EST_ROOT_LEN -
              P8EST_QUADRANT_LEN (⟨65536, 131072, 0, 3⟩ : Quadrant).level - m) :=
  transform_face_tangential ⟨65536, 131072, 0, 3⟩ ⟨0, 0, 0, 0⟩
    (ftransform_of 0 1 2 1 0 2 0 1 1) (by decide)

/-- C7, as stated, fails at level `MAXLEVEL`: the node `q = (0, 0, 0)` is accepted by
`p8est_quadrant_transform_face`, and with `edge_reverse[0] = 1` the tangential coordinate
of the result is `ROOT_LEN - q.x = 524288`, not `ROOT_LEN - QLEN(MAXLEVEL) - q.x =
524287`. -/
theorem transform_face_tangential_counterexample :
    p4est_quadrant_is_node ⟨0, 0, 0, 19⟩ false = true ∧
    ftransform_ok (ftransform_of 0 1 2 0 1 2 1 0 0) ∧
    edge_reverse (ftransform_of 0 1 2 0 1 2 1 0 0) 0 = 1 ∧
    (⟨0, 0, 0, 19⟩ : Quadrant).coord (my_axis (ftransform_of 0 1 2 0 1 2 1 0 0) 0) = some 0 ∧
    (p8est_quadrant_transform_face ⟨0, 0, 0, 19⟩ ⟨0, 0, 0, 0⟩
        (ftransform_of 0 1 2 0 1 2 1 0 0)).bind
      (fun r => r.coord (target_axis (ftransform_of 0 1 2 0 1 2 1 0 0) 0)) = some 524288 ∧
    P8EST_ROOT_LEN - P8EST_QUADRANT_LEN 19 - 0 = 524287 := by
  decide

/-- C8: for every octant `q` of level `l ≤ QMAXLEVEL` and every well-formed `ftransform`,
with `m = q[my_axis[2]]`, `p8est_quadrant_transform_face` returns an octant `r` of the
level of `q` whose normal coordinate `r[target_axis[2]]` is `-QLEN(l) - m` for
`edge_reverse[2] = 0`, `m + ROOT_LEN` for 1, `m - ROOT_LEN` for 2 and
`2*ROOT_LEN - QLEN(l) - m` for 3; and the `ftransform` `([0,1,2],[1,0,2],[0,0,1])` maps
`(x, y, z, l)` to `(y, x, z + ROOT_LEN, l)`. -/
theorem transform_face_normal (q r0 : Quadrant) (ft : Fin 9 → Int) (hft : ftransform_ok ft)
    (hl : q.level ≤ P8EST_QMAXLEVEL) :
    (∃ r m, p8est_quadrant_transform_face q r0 ft = some r ∧
      q.coord (my_axis ft 2) = some m ∧ r.level = q.level ∧
      r.coord (target_axis ft 2) =
        some (if edge_reverse ft 2 = 0 then -P8EST_QUADRANT_LEN q.level - m
          else if edge_reverse ft 2 = 1 then m + P8EST_ROOT_LEN
          else if edge_reverse ft 2 = 2 then m - P8EST_ROOT_LEN
          else 2 * P8EST_ROOT_LEN - P8EST_QUADRANT_LEN q.level - m)) ∧
    p8est_quadrant_transform_face q r0 (ftransform_of 0 1 2 1 0 2 0 0 1) =
      some ⟨q.y, q.x, q.z + P8EST_ROOT_LEN, q.level⟩ := by
  constructor
  · obtain ⟨r, m0, m1, m2, hr, hm0, hm1, hm2, hlev, c0, c1, c2⟩ :=
      transform_face_spec q r0 ft hft _ rfl
    refine ⟨r, m2, hr, hm2, hlev, ?_⟩
    rw [c2]
    congr 1
    have hne : q.level ≠ P8EST_MAXLEVEL := by
      unfold P8EST_QMAXLEVEL at hl; unfold P8EST_MAXLEVEL; omega
    rw [if_neg hne]
    split_ifs <;> omega
  · rfl

theorem transform_face_normal_witness :
    (∃ r m, p8est_quadrant_transform_face ⟨1, 2, 3, 18⟩ ⟨0, 0, 0, 0⟩
        (ftransform_of 0 1 2 1 0 2 0 0 1) = some r ∧
      (⟨1, 2, 3, 18⟩ : Quadrant).coord (my_axis (ftransform_of 0 1 2 1 0 2 0 0 1) 2) = some m ∧
      r.level = (⟨1, 2, 3, 18⟩ : Quadrant).level ∧
      r.coord (target_axis (ftransform_of 0 1 2 1 0 2 0 0 1) 2) =
        some (if edge_reverse (ftransform_of 0 1 2 1 0 2 0 0 1) 2 = 0
            then -P8EST_QUADRANT_LEN (⟨1, 2, 3, 18⟩ : Quadrant).level - m
          else if edge_reverse (ftransform_of 0 1 2 1 0 2 0 0 1) 2 = 1 then m + P8EST_ROOT_LEN
          else if edge_reverse (ftransform_of 0 1 2 1 0 2 0 0 1) 2 = 2 then m - P8EST_ROOT_LEN
          else 2 * P8EST_ROOT_LEN - P8EST_QUADRANT_LEN (⟨1, 2, 3, 18⟩ : Quadrant).level - m)) ∧
    p8est_quadrant_transform_face ⟨1, 2, 3, 18⟩ ⟨0, 0, 0, 0⟩
        (ftransform_of 0 1 2 1 0 2 0 0 1) =
      some ⟨(⟨1, 2, 3, 18⟩ : Quadrant).y, (⟨1, 2, 3, 18⟩ : Quadrant).x,
        (⟨1, 2, 3, 18⟩ : Quadrant).z + P8EST_ROOT_LEN, (⟨1, 2, 3, 18⟩ : Quadrant).level⟩ :=
  transform_face_normal ⟨1, 2, 3, 18⟩ ⟨0, 0, 0, 0⟩ (ftransform_of 0 1 2 1 0 2 0 0 1)
    (by decide) (by decide)

/-! ## Edge transform and edge touch -/

/-- C5: for every octant `q` (a node of level `MAXLEVEL` only with `inside = false`),
every `iedge` in `[0, 12)` and every edge transform consistent with its target edge
`nedge`, `p8est_quadrant_transform_edge` returns an octant `r` of the level of `q` with
`p8est_quadrant_touches_edge (r, nedge, inside)` true: its closing assertion holds. -/
theorem transform_edge_touches (q r0 : Quadrant) (iedge : Int) (et : EdgeTransform)
    (inside : Bool) (hi : 0 ≤ iedge ∧ iedge < 12) (het : edge_transform_ok et)
    (hnode : q.level = P8EST_MAXLEVEL → inside = false) :
    ∃ r, p8est_quadrant_transform_edge q r0 iedge et inside = some r ∧
      r.level = q.level ∧ p8est_quadrant_touches_edge r et.nedge inside = true := by
  obtain ⟨hi0, hi12⟩ := hi
  obtain ⟨ne, naxis, nf, co⟩ := et
  obtain ⟨⟨hn0, hn12⟩, ha0, ⟨h10, h12, h23⟩, ⟨d01, d02⟩, hc, hf0, hf2⟩ := het
  simp only at hn0 hn12 ha0 h10 h12 h23 d01 d02 hc hf0 hf2
  have hR : (0 : Int) < P8EST_ROOT_LEN := by unfold P8EST_ROOT_LEN; positivity
  have hQ := p8est_quadrant_len_pos q.level
  obtain ⟨m, hm⟩ : ∃ m, (if iedge / 4 = 0 then some q.x else if iedge / 4 = 1 then some q.y
      else if iedge / 4 = 2 then some q.z else none) = some m := by
    have : iedge / 4 = 0 ∨ iedge / 4 = 1 ∨ iedge / 4 = 2 := by omega
    rcases this with h | h | h <;> simp [h]
  simp only [p8est_quadrant_transform_edge, hm, Option.some_bind,
    p8est_quadrant_touches_edge]
  generalize naxis 0 = a0 at *
  generalize naxis 1 = a1 at *
  generalize naxis 2 = a2 at *
  have h13 : a1 < 3 := by omega
  have h20 : 0 ≤ a2 := by omega
  by_cases hlev : q.level = P8EST_MAXLEVEL
  · have hin := hnode hlev
    subst hin
    interval_cases ne <;> simp at ha0 hc <;> subst ha0 <;> subst hc <;>
      interval_cases a1 <;> interval_cases a2 <;> simp at d01 d02 h12 <;>
      simp [Quadrant.set_coord, hlev]
  · have hsub : P8EST_ROOT_LEN + -P8EST_QUADRANT_LEN q.level =
        P8EST_ROOT_LEN - P8EST_QUADRANT_LEN q.level := by ring
    cases inside <;>
      interval_cases ne <;> simp at ha0 hc <;> subst ha0 <;> subst hc <;>
      interval_cases a1 <;> interval_cases a2 <;> simp at d01 d02 h12 <;>
      simp [Quadrant.set_coord, hlev, P8EST_LAST_OFFSET, hsub]

theorem transform_edge_touches_witness :
    ∃ r, p8est_quadrant_transform_edge ⟨-65536, 131072, 524288, 3⟩ ⟨0, 0, 0, 0⟩ 6
        ⟨9, naxis_of 2 0 1, 1, 1⟩ true = some r ∧
      r.level = (⟨-65536, 131072, 524288, 3⟩ : Quadrant).level ∧
      p8est_quadrant_touches_edge r (⟨9, naxis_of 2 0 1, 1, 1⟩ : EdgeTransform).nedge true
        = true :=
  transform_edge_touches ⟨-65536, 131072, 524288, 3⟩ ⟨0, 0, 0, 0⟩ 6 ⟨9, naxis_of 2 0 1, 1, 1⟩
    true (by decide) (by decide) (by decide)

/-! ## Outside-edge classification -/

/-- C6 (amended): for every octant `q` of level other than `MAXLEVEL` that is outside an
edge (off the root in exactly two axes), `p8est_quadrant_is_outside_edge_extra (q, &edge)`
returns true and stores an edge index `e` in `[0, 12)`; and
`p8est_quadrant_touches_edge (q, e, inside = false)` is true, so that the assertion after
the edge computation holds, exactly when each off-root coordinate of `q` is `-QLEN(level)`
or `ROOT_LEN`. -/
theorem is_outside_edge_extra_touches (q : Quadrant) (e0 : Int)
    (hl : q.level ≠ P8EST_MAXLEVEL) (hout : p8est_quadrant_is_outside_edge q = true) :
    ∃ e, p8est_quadrant_is_outside_edge_extra q (some e0) = some (true, some e) ∧
      0 ≤ e ∧ e < 12 ∧
      (p8est_quadrant_touches_edge q e false = true ↔ off_root_by_one q) := by
  have hR : (0 : Int) < P8EST_ROOT_LEN := by unfold P8EST_ROOT_LEN; positivity
  have hQ := p8est_quadrant_len_pos q.level
  unfold p8est_quadrant_is_outside_edge at hout
  unfold off_root_by_one
  by_cases hxl : q.x < 0 <;> by_cases hxu : q.x ≥ P8EST_ROOT_LEN <;>
    by_cases hyl : q.y < 0 <;> by_cases hyu : q.y ≥ P8EST_ROOT_LEN <;>
    by_cases hzl : q.z < 0 <;> by_cases hzu : q.z ≥ P8EST_ROOT_LEN <;>
    simp only [hxl, hxu, hyl, hyu, hzl, hzu, or_self, or_true, or_false, true_or, false_or,
      if_true, if_false] at hout <;>
    first
    | omega
    | (exfalso; revert hout; decide)
    | skip
  all_goals simp [p8est_quadrant_is_outside_edge_extra, p8est_quadrant_touches_edge, hxl, hxu, hyl, hyu, hzl, hzu, hl]
  all_goals norm_num
  all_goals split_ifs <;> constructor <;> intro h <;> omega

theorem is_outside_edge_extra_touches_witness :
    ∃ e, p8est_quadrant_is_outside_edge_extra ⟨0, -262144, 524288, 1⟩ (some 0) =
        some (true, some e) ∧
      0 ≤ e ∧ e < 12 ∧
      (p8est_quadrant_touches_edge ⟨0, -262144, 524288, 1⟩ e false = true ↔
        off_root_by_one ⟨0, -262144, 524288, 1⟩) :=
  is_outside_edge_extra_touches ⟨0, -262144, 524288, 1⟩ 0 (by decide) (by decide)

/-- C6, as stated, fails: the octant `(0, ROOT_LEN + QLEN(1), ROOT_LEN)` of level 1 is
extended and outside an edge; `p8est_quadrant_is_outside_edge_extra` returns true and
stores the edge 3, and `p8est_quadrant_touches_edge` is false for that edge, as it is for
every edge: the octant is two cells away from the root along `y`. -/
theorem is_outside_edge_extra_counterexample :
    p4est_quadrant_is_extended ⟨0, 786432, 524288, 1⟩ = true ∧
    (⟨0, 786432, 524288, 1⟩ : Quadrant).level < P8EST_MAXLEVEL ∧
    p8est_quadrant_is_outside_edge ⟨0, 786432, 524288, 1⟩ = true ∧
    p8est_quadrant_is_outside_edge_extra ⟨0, 786432, 524288, 1⟩ (some 0) =
      some (true, some 3) ∧
    p8est_quadrant_touches_edge ⟨0, 786432, 524288, 1⟩ 3 false = false ∧
    ∀ e : Fin 12, p8est_quadrant_touches_edge ⟨0, 786432, 524288, 1⟩ (e.val : Int) false
      = false := by
  decide

/-! ## Parent of a child -/

/-- Clearing the bit `QLEN(l+1)` in a coordinate of a child gives back the coordinate of
the parent. -/
theorem parent_coord_of_child (x c l : Int) (h0 : 0 ≤ l) (hl : l < P8EST_MAXLEVEL)
    (hx : is_qcoord x) (hal : x % P8EST_QUADRANT_LEN l = 0)
    (hc : c = x ∨ c = x + P8EST_QUADRANT_LEN (l + 1)) :
    int_and c (int_not (P8EST_QUADRANT_LEN (l + 1))) = x := by
  obtain ⟨k, hk, hkl⟩ := p8est_quadrant_len_eq (l + 1) (by omega)
  have hk19 : k ≤ 19 := by unfold P8EST_MAXLEVEL at *; omega
  rw [p8est_quadrant_len_succ l hl, hk] at hal
  rw [hk] at hc ⊢
  have hP : x % 2 ^ (k + 1) = 0 := by rw [pow_succ, mul_comm]; exact hal
  rcases hc with hc | hc
  · exact (int_bit_ops c x 0 k hk19 (Or.inr hx) hP (Or.inl rfl) (by rw [hc]; ring)).2
  · exact (int_bit_ops c x 1 k hk19 (Or.inr hx) hP (Or.inr rfl) (by rw [hc]; ring)).2

/-- C10: for an octant `q` of level `l` with `0 ≤ l < QMAXLEVEL` whose coordinates are
`p4est_qcoord_t` values and multiples of `QLEN(l)` (every extended octant is one, and so
are aligned octants with negative coordinates), the parent of the `i`-th octant written
by `p8est_quadrant_children`, and of `c[i]` written by `p4est_quadrant_childrenv`, is `q`:
same `x`, `y`, `z` and level. -/
theorem parent_of_child (q : Quadrant) (hf : q.fits) (ha : q.aligned) (h0 : 0 ≤ q.level)
    (hl : q.level < P8EST_QMAXLEVEL) (i : Fin 8) :
    p4est_quadrant_parent ((p8est_quadrant_children q).get i) = q ∧
    p4est_quadrant_parent (p4est_quadrant_childrenv q i) = q := by
  have hv := (children_get_spec q hf h0 hl i).2
  rw [hv, and_self]
  obtain ⟨cx, cy, cz, cl⟩ := child_coord_cases q hf ha h0 hl i
  obtain ⟨hx, hy, hz⟩ := hf
  obtain ⟨ax, ay, az⟩ := ha
  have hl19 : q.level < P8EST_MAXLEVEL := by
    unfold P8EST_QMAXLEVEL at hl; unfold P8EST_MAXLEVEL; omega
  unfold p4est_quadrant_parent
  rw [cl]
  apply Quadrant.ext
  · exact parent_coord_of_child q.x _ q.level h0 hl19 hx ax cx
  · exact parent_coord_of_child q.y _ q.level h0 hl19 hy ay cy
  · exact parent_coord_of_child q.z _ q.level h0 hl19 hz az cz
  · show q.level + 1 - 1 = q.level
    omega

theorem parent_of_child_witness :
    p4est_quadrant_parent ((p8est_quadrant_children ⟨-524288, 0, 262144, 1⟩).get 7) =
      ⟨-524288, 0, 262144, 1⟩ ∧
    p4est_quadrant_parent (p4est_quadrant_childrenv ⟨-524288, 0, 262144, 1⟩ 7) =
      ⟨-524288, 0, 262144, 1⟩ :=
  parent_of_child ⟨-524288, 0, 262144, 1⟩ (by decide) (by decide) (by decide) (by decide) 7

/-! ## Shift to an edge -/

theorem int_and_one (y : Int) : int_and y 1 = y % 2 := by
  unfold int_and
  have h1 : toU32 1 = 1 := by decide
  rw [h1, Nat.and_one_is_mod]
  unfold ofU32 toU32
  split_ifs with h <;> omega

/-- The coordinate of the parent is a multiple of twice the side length. -/
theorem parent_coord_aligned (c l : Int) (hal : c % P8EST_QUADRANT_LEN l = 0) :
    parent_coord c l % (2 * P8EST_QUADRANT_LEN l) = 0 ∧
    (parent_coord c l = c ∨ parent_coord c l = c - P8EST_QUADRANT_LEN l) ∧
    (c / P8EST_QUADRANT_LEN l % 2 = 0 ∨ c / P8EST_QUADRANT_LEN l % 2 = 1) := by
  have hQ := p8est_quadrant_len_pos l
  obtain ⟨m, hm⟩ := Int.dvd_of_emod_eq_zero hal
  have hb : c / P8EST_QUADRANT_LEN l = m := by
    rw [hm, Int.mul_ediv_cancel_left _ (ne_of_gt hQ)]
  unfold parent_coord
  rw [hb]
  have hm2 : m % 2 = 0 ∨ m % 2 = 1 := by omega
  refine ⟨?_, ?_, hm2⟩
  · have : c - m % 2 * P8EST_QUADRANT_LEN l = 2 * P8EST_QUADRANT_LEN l * (m / 2) := by
      have := Int.ediv_add_emod m 2
      rw [hm]
      nlinarith
    rw [this]
    exact Int.mul_emod_right _ _
  · rcases hm2 with h | h <;> rw [h] <;> [left; right] <;> ring

/-- The child-id bit, the sibling coordinates and the parent coordinate of a coordinate
`c` of an octant of level `l`. -/
theorem coord_bit_ops (c l : Int) (h1 : 1 ≤ l) (h19 : l ≤ P8EST_MAXLEVEL)
    (hc : is_qcoord c) (hal : c % P8EST_QUADRANT_LEN l = 0) :
    int_and (int_shr c (P8EST_MAXLEVEL - l)) 1 = c / P8EST_QUADRANT_LEN l % 2 ∧
    int_or c (P8EST_QUADRANT_LEN l) = parent_coord c l + P8EST_QUADRANT_LEN l ∧
    int_and c (int_not (P8EST_QUADRANT_LEN l)) = parent_coord c l := by
  have hQ := p8est_quadrant_len_pos l
  obtain ⟨hpa, hpc, hb⟩ := parent_coord_aligned c l hal
  constructor
  · have : int_shr c (P8EST_MAXLEVEL - l) = c / P8EST_QUADRANT_LEN l := rfl
    rw [this]
    exact int_and_one _
  · obtain ⟨k, hk, hk2⟩ := p8est_quadrant_len_eq l h19
    have hk19 : k ≤ 19 := by unfold P8EST_MAXLEVEL at *; omega
    rw [hk] at hpa ⊢
    have hP : parent_coord c l % 2 ^ (k + 1) = 0 := by rw [pow_succ, mul_comm]; exact hpa
    have hx : c = parent_coord c l + (c / P8EST_QUADRANT_LEN l % 2) * 2 ^ k := by
      unfold parent_coord
      rw [hk]
      ring
    exact int_bit_ops c (parent_coord c l) _ k hk19 (Or.inl hc) hP hb hx

/-- The steps of the twelve edges. -/
theorem edge_step_table :
    edge_step 0 0 = 0 ∧ edge_step 0 1 = -1 ∧ edge_step 0 2 = -1 ∧
    edge_step 1 0 = 0 ∧ edge_step 1 1 = 1 ∧ edge_step 1 2 = -1 ∧
    edge_step 2 0 = 0 ∧ edge_step 2 1 = -1 ∧ edge_step 2 2 = 1 ∧
    edge_step 3 0 = 0 ∧ edge_step 3 1 = 1 ∧ edge_step 3 2 = 1 ∧
    edge_step 4 0 = -1 ∧ edge_step 4 1 = 0 ∧ edge_step 4 2 = -1 ∧
    edge_step 5 0 = 1 ∧ edge_step 5 1 = 0 ∧ edge_step 5 2 = -1 ∧
    edge_step 6 0 = -1 ∧ edge_step 6 1 = 0 ∧ edge_step 6 2 = 1 ∧
    edge_step 7 0 = 1 ∧ edge_step 7 1 = 0 ∧ edge_step 7 2 = 1 ∧
    edge_step 8 0 = -1 ∧ edge_step 8 1 = -1 ∧ edge_step 8 2 = 0 ∧
    edge_step 9 0 = 1 ∧ edge_step 9 1 = -1 ∧ edge_step 9 2 = 0 ∧
    edge_step 10 0 = -1 ∧ edge_step 10 1 = 1 ∧ edge_step 10 2 = 0 ∧
    edge_step 11 0 = 1 ∧ edge_step 11 1 = 1 ∧ edge_step 11 2 = 0 := by
  decide

theorem edge_step_range (e a : Int) :
    edge_step e a = 0 ∨ edge_step e a = -1 ∨ edge_step e a = 1 := by
  unfold edge_step edge_sign_bit
  split_ifs <;> omega

/-- The switch of the loop: the steps are those of the edge, and the sibling id selects,
along each axis, the bit of the child id where the step is `0` and the upper child exactly
where the step is `+1`. -/
theorem shift_edge_switch_spec (e b0 b1 b2 : Int) (he : 0 ≤ e ∧ e < 12)
    (h0 : b0 = 0 ∨ b0 = 1) (h1 : b1 = 0 ∨ b1 = 1) (h2 : b2 = 0 ∨ b2 = 1) :
    ∃ sid, shift_edge_switch e (b0 + 2 * b1 + 4 * b2) =
        some (sid, edge_step e 0, edge_step e 1, edge_step e 2) ∧
      (int_and sid 1 ≠ 0 ↔ if edge_step e 0 = 0 then b0 = 1 else edge_step e 0 = 1) ∧
      (int_and sid 2 ≠ 0 ↔ if edge_step e 1 = 0 then b1 = 1 else edge_step e 1 = 1) ∧
      (int_and sid 4 ≠ 0 ↔ if edge_step e 2 = 0 then b2 = 1 else edge_step e 2 = 1) := by
  obtain ⟨he0, he12⟩ := he
  interval_cases e <;> rcases h0 with rfl | rfl <;> rcases h1 with rfl | rfl <;>
    rcases h2 with rfl | rfl <;> exact ⟨_, rfl, by decide⟩


theorem outface_flags_table (e : Int) (he : 0 ≤ e ∧ e < 12) :
    ∃ ct, shift_edge_contact e = some ct ∧ ∀ x0 xt y0 yt z0 zt : Bool,
      decide (outface_flags (edge_step e 0) (edge_step e 1) (edge_step e 2) x0 xt y0 yt z0 zt
        = ct) =
      (exit_flags (edge_step e 0) x0 xt && (exit_flags (edge_step e 1) y0 yt &&
        exit_flags (edge_step e 2) z0 zt)) := by
  obtain ⟨he0, he12⟩ := he
  interval_cases e <;> exact ⟨_, rfl, by decide⟩

/-- The exit of the loop: `outface == contact[edge]` holds exactly when the exit test
holds along every axis. -/
theorem shift_edge_outface_spec (e : Int) (he : 0 ≤ e ∧ e < 12) (r : Quadrant) (th : Int) :
    ∃ ct, shift_edge_contact e = some ct ∧
      (shift_edge_outface r th (edge_step e 0) (edge_step e 1) (edge_step e 2) = ct ↔
        exit_test (edge_step e 0) r.x th ∧ exit_test (edge_step e 1) r.y th ∧
          exit_test (edge_step e 2) r.z th) := by
  obtain ⟨ct, hct, h⟩ := outface_flags_table e he
  refine ⟨ct, hct, ?_⟩
  have hof : shift_edge_outface r th (edge_step e 0) (edge_step e 1) (edge_step e 2) =
      outface_flags (edge_step e 0) (edge_step e 1) (edge_step e 2)
        (decide (r.x ≤ 0)) (decide (r.x ≥ th)) (decide (r.y ≤ 0)) (decide (r.y ≥ th))
        (decide (r.z ≤ 0)) (decide (r.z ≥ th)) := by
    simp only [shift_edge_outface, outface_flags, decide_eq_true_eq]
  have hex : ∀ s c, exit_test s c th ↔ exit_flags s (decide (c ≤ 0)) (decide (c ≥ th)) = true := by
    intro s c
    simp [exit_test, exit_flags]
    tauto
  rw [hof, hex, hex, hex, ← Bool.and_eq_true, ← Bool.and_eq_true, ← h, decide_eq_true_eq]


/-- A multiple of `d` above `-d` is not negative. -/
theorem aligned_nonneg (m d : Int) (hd : 0 < d) (hm : m % d = 0) (h : -d < m) : 0 ≤ m := by
  obtain ⟨k, hk⟩ := Int.dvd_of_emod_eq_zero hm
  have hk0 : 0 ≤ k := by
    by_contra hneg
    have : d * k ≤ d * (-1) := mul_le_mul_of_nonneg_left (by omega) (le_of_lt hd)
    omega
  rw [hk]
  exact mul_nonneg (le_of_lt hd) hk0

/-- Two multiples of `d` less than `d` apart are equal. -/
theorem aligned_eq (m a d : Int) (hd : 0 < d) (hm : m % d = 0) (ha : a % d = 0)
    (h1 : a ≤ m) (h2 : m < a + d) : m = a := by
  have hma : (m - a) % d = 0 := by
    obtain ⟨k1, hk1⟩ := Int.dvd_of_emod_eq_zero hm
    obtain ⟨k2, hk2⟩ := Int.dvd_of_emod_eq_zero ha
    rw [hk1, hk2, ← mul_sub]
    exact Int.mul_emod_right _ _
  have ham : (a - m) % d = 0 := by
    obtain ⟨k1, hk1⟩ := Int.dvd_of_emod_eq_zero hm
    obtain ⟨k2, hk2⟩ := Int.dvd_of_emod_eq_zero ha
    rw [hk1, hk2, ← mul_sub]
    exact Int.mul_emod_right _ _
  have := aligned_nonneg (a - m) d hd ham (by omega)
  omega

theorem aligned_half (c d : Int) (h : c % (2 * d) = 0) : c % d = 0 := by
  obtain ⟨k, hk⟩ := Int.dvd_of_emod_eq_zero h
  rw [hk, mul_assoc, mul_left_comm]
  exact Int.mul_emod_right _ _

theorem aligned_add (c d : Int) (h : c % d = 0) : (c + d) % d = 0 ∧ (c - d) % d = 0 := by
  obtain ⟨k, hk⟩ := Int.dvd_of_emod_eq_zero h
  constructor
  · have : c + d = d * (k + 1) := by rw [hk]; ring
    rw [this]
    exact Int.mul_emod_right _ _
  · have : c - d = d * (k - 1) := by rw [hk]; ring
    rw [this]
    exact Int.mul_emod_right _ _

theorem coord_inv_fits (s c l : Int) (hs : s = 0 ∨ s = -1 ∨ s = 1) (h1 : 1 ≤ l)
    (h19 : l ≤ P8EST_MAXLEVEL) (h : coord_inv s c l) : is_qcoord c := by
  obtain ⟨hle, -⟩ := quadrant_len_le_root l (by omega) h19
  have hR : P8EST_ROOT_LEN = 524288 := by decide
  have hQ := p8est_quadrant_len_pos l
  unfold coord_inv at h
  unfold is_qcoord
  rcases hs with rfl | rfl | rfl
  · have := h.2.1 rfl
    omega
  · have := h.2.2.1 rfl
    omega
  · have := h.2.2.2 rfl
    omega

/-- The coordinate that `p4est_quadrant_sibling` writes, for a selector that follows the
step. -/
theorem sibling_coord_spec (s c l b : Int) (sel : Prop) [Decidable sel]
    (hs : s = 0 ∨ s = -1 ∨ s = 1) (h1 : 1 ≤ l) (h19 : l ≤ P8EST_MAXLEVEL)
    (hc : is_qcoord c) (hal : c % P8EST_QUADRANT_LEN l = 0)
    (hb : b = c / P8EST_QUADRANT_LEN l % 2)
    (hsel : sel ↔ if s = 0 then b = 1 else s = 1) :
    (if sel then int_or c (P8EST_QUADRANT_LEN l)
      else int_and c (int_not (P8EST_QUADRANT_LEN l))) = sibling_coord s c l := by
  obtain ⟨-, hor, hand⟩ := coord_bit_ops c l h1 h19 hc hal
  obtain ⟨-, -, hb01⟩ := parent_coord_aligned c l hal
  rw [hor, hand]
  unfold sibling_coord
  rcases hs with rfl | rfl | rfl
  · simp only [if_true] at hsel ⊢
    by_cases hb1 : b = 1
    · rw [if_pos (hsel.2 hb1)]
      unfold parent_coord
      rw [← hb, hb1]
      ring
    · rw [if_neg (fun h => hb1 (hsel.1 h))]
      unfold parent_coord
      have : b = 0 := by omega
      rw [← hb, this]
      ring
  · have hn : ¬ sel := fun h => by simpa using hsel.1 h
    simp [hn]
  · have hp : sel := hsel.2 (by simp)
    simp [hp]

/-- The loop invariant is kept by the step to the shifted parent. -/
theorem coord_inv_step (s c l : Int) (hs : s = 0 ∨ s = -1 ∨ s = 1)
    (h19 : l ≤ P8EST_MAXLEVEL) (h : coord_inv s c l) :
    coord_inv s (parent_coord c l + s * P8EST_QUADRANT_LEN (l - 1)) (l - 1) := by
  have hQ := p8est_quadrant_len_pos l
  have hlen : P8EST_QUADRANT_LEN (l - 1) = 2 * P8EST_QUADRANT_LEN l := by
    have := p8est_quadrant_len_succ (l - 1) (by omega)
    rwa [sub_add_cancel] at this
  obtain ⟨hpa, hpc, -⟩ := parent_coord_aligned c l h.1
  unfold coord_inv at h ⊢
  rw [hlen]
  generalize parent_coord c l = P at hpa hpc ⊢
  generalize P8EST_QUADRANT_LEN l = QL at *
  rcases hs with rfl | rfl | rfl
  · have hc := h.2.1 rfl
    have hP0 := aligned_nonneg P (2 * QL) (by omega) hpa (by omega)
    refine ⟨by simpa using hpa, fun _ => by omega, fun h => by omega, fun h => by omega⟩
  · have hc := h.2.2.1 rfl
    have := (aligned_add P (2 * QL) hpa).2
    refine ⟨by rw [show P + -1 * (2 * QL) = P - 2 * QL by ring]; exact this,
      fun h => by omega, fun _ => by omega, fun h => by omega⟩
  · have hc := h.2.2.2 rfl
    have hP0 := aligned_nonneg P (2 * QL) (by omega) hpa (by omega)
    have := (aligned_add P (2 * QL) hpa).1
    refine ⟨by rw [show P + 1 * (2 * QL) = P + 2 * QL by ring]; exact this,
      fun h => by omega, fun h => by omega, fun _ => by omega⟩

/-- At level 1 the exit test succeeds. -/
theorem exit_test_level_one (s c : Int) (hs : s = 0 ∨ s = -1 ∨ s = 1) (h : coord_inv s c 1) :
    exit_test s (sibling_coord s c 1) (P8EST_LAST_OFFSET 1) := by
  unfold coord_inv at h
  unfold exit_test sibling_coord parent_coord P8EST_LAST_OFFSET
  have t1 : P8EST_QUADRANT_LEN 1 = 262144 := by decide
  have t2 : P8EST_ROOT_LEN = 524288 := by decide
  simp only [t1, t2] at h ⊢
  rcases hs with rfl | rfl | rfl <;> norm_num at h ⊢ <;> omega

/-- At the exit of the loop the coordinate of `r` is on the side of the edge. -/
theorem coord_post_of_exit (s c l : Int) (hs : s = 0 ∨ s = -1 ∨ s = 1) (h : coord_inv s c l)
    (hx : exit_test s (sibling_coord s c l) (P8EST_LAST_OFFSET l)) :
    coord_post s (sibling_coord s c l) l := by
  obtain ⟨hpa, -, -⟩ := parent_coord_aligned c l h.1
  have hpa' := aligned_half _ _ hpa
  unfold coord_inv at h
  unfold exit_test at hx
  unfold coord_post
  rcases hs with rfl | rfl | rfl
  · have e : sibling_coord 0 c l = c := if_pos rfl
    rw [e]
    exact ⟨h.1, h.2.1, fun h => by omega, fun h => by omega⟩
  · have e : sibling_coord (-1) c l = parent_coord c l := by
      unfold sibling_coord
      rw [if_neg (by decide), if_neg (by decide)]
    rw [e] at hx ⊢
    exact ⟨hpa', fun h => by omega, fun _ => (hx.1 rfl).1, fun h => by omega⟩
  · have e : sibling_coord 1 c l = parent_coord c l + P8EST_QUADRANT_LEN l := by
      unfold sibling_coord
      rw [if_neg (by decide), if_pos rfl]
    rw [e] at hx ⊢
    exact ⟨(aligned_add _ _ hpa').1, fun h => by omega, fun h => by omega,
      fun _ => (hx.2 rfl).2⟩

/-- The clamping after the loop puts a transverse coordinate on the edge. -/
theorem clamp_of_post (s c l : Int) (hs : s = -1 ∨ s = 1) (h1 : 1 ≤ l)
    (h19 : l ≤ P8EST_MAXLEVEL) (h : coord_post s c l) :
    shift_edge_clamp c (P8EST_LAST_OFFSET l) = if s = 1 then P8EST_LAST_OFFSET l else 0 := by
  obtain ⟨hle, hRal⟩ := quadrant_len_le_root l (by omega) h19
  have hQ := p8est_quadrant_len_pos l
  unfold coord_post at h
  unfold shift_edge_clamp
  unfold P8EST_LAST_OFFSET at *
  rcases hs with rfl | rfl
  · have hc := h.2.2.1 rfl
    rw [if_neg (show ¬ ((-1 : Int) = 1) by decide)]
    have hR0 : ¬ (0 : Int) ≥ P8EST_ROOT_LEN := by omega
    by_cases hneg : c < 0
    · simp only [hneg, if_true]
      rw [if_neg hR0]
    · have hc0 : c = 0 := by omega
      subst hc0
      simp only [hneg, if_false]
      rw [if_neg hR0]
  · have hc := h.2.2.2 rfl
    rw [if_pos (show (1 : Int) = 1 from rfl)]
    have hcn : ¬ c < 0 := by omega
    simp only [hcn, if_false]
    by_cases hR : c ≥ P8EST_ROOT_LEN
    · rw [if_pos hR]
    · rw [if_neg hR]
      have hthal : (P8EST_ROOT_LEN - P8EST_QUADRANT_LEN l) % P8EST_QUADRANT_LEN l = 0 :=
        (aligned_add _ _ hRal).2
      exact aligned_eq c _ _ hQ h.1 hthal hc (by omega)


/-- The octant that `p4est_quadrant_sibling` returns in the loop, the child id and the
parent, coordinate by coordinate. -/
theorem shift_edge_pass (e : Int) (he : 0 ≤ e ∧ e < 12) (quad : Quadrant)
    (h1 : 1 ≤ quad.level) (h19 : quad.level ≤ P8EST_MAXLEVEL)
    (ix : coord_inv (edge_step e 0) quad.x quad.level)
    (iy : coord_inv (edge_step e 1) quad.y quad.level)
    (iz : coord_inv (edge_step e 2) quad.z quad.level) :
    (∃ sid, shift_edge_switch e (p4est_quadrant_child_id quad) =
        some (sid, edge_step e 0, edge_step e 1, edge_step e 2) ∧
      p4est_quadrant_sibling quad sid =
        ⟨sibling_coord (edge_step e 0) quad.x quad.level,
         sibling_coord (edge_step e 1) quad.y quad.level,
         sibling_coord (edge_step e 2) quad.z quad.level, quad.level⟩) ∧
    p4est_quadrant_parent quad =
      ⟨parent_coord quad.x quad.level, parent_coord quad.y quad.level,
       parent_coord quad.z quad.level, quad.level - 1⟩ := by
  have fx := coord_inv_fits _ _ _ (edge_step_range e 0) h1 h19 ix
  have fy := coord_inv_fits _ _ _ (edge_step_range e 1) h1 h19 iy
  have fz := coord_inv_fits _ _ _ (edge_step_range e 2) h1 h19 iz
  obtain ⟨bx, ox, ax⟩ := coord_bit_ops quad.x quad.level h1 h19 fx ix.1
  obtain ⟨by', oy, ay⟩ := coord_bit_ops quad.y quad.level h1 h19 fy iy.1
  obtain ⟨bz, oz, az⟩ := coord_bit_ops quad.z quad.level h1 h19 fz iz.1
  obtain ⟨-, -, hbx⟩ := parent_coord_aligned quad.x quad.level ix.1
  obtain ⟨-, -, hby⟩ := parent_coord_aligned quad.y quad.level iy.1
  obtain ⟨-, -, hbz⟩ := parent_coord_aligned quad.z quad.level iz.1
  constructor
  · obtain ⟨sid, hsw, s0, s1, s2⟩ := shift_edge_switch_spec e _ _ _ he hbx hby hbz
    refine ⟨sid, ?_, ?_⟩
    · unfold p4est_quadrant_child_id
      rw [bx, by', bz]
      exact hsw
    · unfold p4est_quadrant_sibling
      simp only
      rw [sibling_coord_spec _ quad.x quad.level _ _ (edge_step_range e 0) h1 h19 fx ix.1 rfl s0,
        sibling_coord_spec _ quad.y quad.level _ _ (edge_step_range e 1) h1 h19 fy iy.1 rfl s1,
        sibling_coord_spec _ quad.z quad.level _ _ (edge_step_range e 2) h1 h19 fz iz.1 rfl s2]
  · unfold p4est_quadrant_parent
    rw [ax, ay, az]

/-- The loop of `p8est_quadrant_shift_edge` exits within `quad.level` passes, at a level
of at least 1, with `r` on the side of the edge along both transverse axes. -/
theorem shift_edge_loop_spec (e : Int) (he : 0 ≤ e ∧ e < 12) :
    ∀ (fuel : Nat) (quad : Quadrant), 1 ≤ quad.level → quad.level ≤ P8EST_MAXLEVEL →
      quad.level ≤ fuel →
      coord_inv (edge_step e 0) quad.x quad.level →
      coord_inv (edge_step e 1) quad.y quad.level →
      coord_inv (edge_step e 2) quad.z quad.level →
      ∃ r, shift_edge_loop fuel quad e =
          some (r, P8EST_LAST_OFFSET r.level, edge_step e 0, edge_step e 1, edge_step e 2) ∧
        1 ≤ r.level ∧ r.level ≤ quad.level ∧
        coord_post (edge_step e 0) r.x r.level ∧ coord_post (edge_step e 1) r.y r.level ∧
        coord_post (edge_step e 2) r.z r.level := by
  intro fuel
  induction fuel with
  | zero =>
    intro quad h1 _ hf
    simp at hf
    omega
  | succ n ih =>
    intro quad h1 h19 hf ix iy iz
    obtain ⟨⟨sid, hsw, hsib⟩, hpar⟩ := shift_edge_pass e he quad h1 h19 ix iy iz
    obtain ⟨ct, hct, hout⟩ := shift_edge_outface_spec e he (p4est_quadrant_sibling quad sid)
      (P8EST_LAST_OFFSET quad.level)
    unfold shift_edge_loop
    simp only [hsw, hct, Option.some_bind]
    by_cases hex : shift_edge_outface (p4est_quadrant_sibling quad sid)
        (P8EST_LAST_OFFSET quad.level) (edge_step e 0) (edge_step e 1) (edge_step e 2) = ct
    · rw [if_pos hex]
      obtain ⟨tx, ty, tz⟩ := hout.1 hex
      rw [hsib] at tx ty tz ⊢
      refine ⟨_, rfl, h1, le_refl _, ?_, ?_, ?_⟩
      · exact coord_post_of_exit _ _ _ (edge_step_range e 0) ix tx
      · exact coord_post_of_exit _ _ _ (edge_step_range e 1) iy ty
      · exact coord_post_of_exit _ _ _ (edge_step_range e 2) iz tz
    · rw [if_neg hex]
      have h2 : 2 ≤ quad.level := by
        by_contra hlt
        have hl1 : quad.level = 1 := by omega
        apply hex
        apply hout.2
        rw [hsib, hl1]
        rw [hl1] at ix iy iz
        exact ⟨exit_test_level_one _ _ (edge_step_range e 0) ix,
          exit_test_level_one _ _ (edge_step_range e 1) iy,
          exit_test_level_one _ _ (edge_step_range e 2) iz⟩
      rw [hpar]
      have jx := coord_inv_step _ _ _ (edge_step_range e 0) h19 ix
      have jy := coord_inv_step _ _ _ (edge_step_range e 1) h19 iy
      have jz := coord_inv_step _ _ _ (edge_step_range e 2) h19 iz
      obtain ⟨r, hr, r1, r2, px, py, pz⟩ := ih
        ⟨parent_coord quad.x quad.level + edge_step e 0 * P8EST_QUADRANT_LEN (quad.level - 1),
         parent_coord quad.y quad.level + edge_step e 1 * P8EST_QUADRANT_LEN (quad.level - 1),
         parent_coord quad.z quad.level + edge_step e 2 * P8EST_QUADRANT_LEN (quad.level - 1),
         quad.level - 1⟩
        (by show 1 ≤ quad.level - 1; omega) (by show quad.level - 1 ≤ P8EST_MAXLEVEL; omega)
        (by show quad.level - 1 ≤ (n : Int); push_cast at hf; omega) jx jy jz
      exact ⟨r, hr, r1, by show r.level ≤ quad.level; have : r.level ≤ quad.level - 1 := r2; omega,
        px, py, pz⟩


theorem last_offset_valid (l : Int) (h0 : 0 ≤ l) (h19 : l ≤ P8EST_MAXLEVEL) :
    0 ≤ P8EST_LAST_OFFSET l ∧ P8EST_LAST_OFFSET l < P8EST_ROOT_LEN ∧
    P8EST_LAST_OFFSET l % P8EST_QUADRANT_LEN l = 0 ∧
    (l = P8EST_MAXLEVEL → P8EST_LAST_OFFSET l = P8EST_ROOT_LEN - 1) := by
  have h19' : l ≤ 19 := h19
  interval_cases l <;> decide

theorem coord_inv_of_valid (s c l : Int) (h0 : 0 ≤ c) (hR : c < P8EST_ROOT_LEN)
    (hal : c % P8EST_QUADRANT_LEN l = 0) : coord_inv s c l := by
  have hQ := p8est_quadrant_len_pos l
  refine ⟨hal, fun _ => ⟨h0, hR⟩, fun _ => ⟨by omega, hR⟩, fun _ => ⟨h0, by omega⟩⟩

/-- The octant returned by `p8est_quadrant_shift_edge`: the call returns within
`q.level` passes of the loop; along the edge the coordinate is a valid coordinate of the
level of the result, across it the coordinate is `0` for a step `-1` and
`LAST_OFFSET(level)` for a step `+1`. -/
theorem shift_edge_result (q : Quadrant) (e : Int) (fuel : Nat) (he : 0 ≤ e ∧ e < 12)
    (hv : p4est_quadrant_is_valid q = true) (h1 : 1 ≤ q.level) (hfuel : q.level ≤ fuel) :
    ∃ r, p8est_quadrant_shift_edge fuel q e = some r ∧
      1 ≤ r.level ∧ r.level ≤ q.level ∧ r.level ≤ P8EST_MAXLEVEL ∧
      coord_final (edge_step e 0) r.x r.level ∧ coord_final (edge_step e 1) r.y r.level ∧
      coord_final (edge_step e 2) r.z r.level := by
  simp only [p4est_quadrant_is_valid, Quadrant.aligned, Bool.and_eq_true,
    decide_eq_true_eq] at hv
  obtain ⟨⟨⟨⟨⟨-, h19⟩, ⟨x0, xR⟩⟩, ⟨y0, yR⟩⟩, ⟨z0, zR⟩⟩, ax, ay, az⟩ := hv
  obtain ⟨r, hr, r1, r2, px, py, pz⟩ := shift_edge_loop_spec e he fuel q h1 h19 hfuel
    (coord_inv_of_valid _ _ _ x0 xR ax) (coord_inv_of_valid _ _ _ y0 yR ay)
    (coord_inv_of_valid _ _ _ z0 zR az)
  have r19 : r.level ≤ P8EST_MAXLEVEL := le_trans r2 h19
  have key : ∀ s c, (s = 0 ∨ s = -1 ∨ s = 1) → coord_post s c r.level →
      coord_final s (if s ≠ 0 then shift_edge_clamp c (P8EST_LAST_OFFSET r.level) else c)
        r.level := by
    intro s c hs hp
    rcases hs with rfl | rfl | rfl
    · rw [if_neg (by decide)]
      exact ⟨fun _ => ⟨(hp.2.1 rfl).1, (hp.2.1 rfl).2, hp.1⟩, fun h => by omega,
        fun h => by omega⟩
    · rw [if_pos (by decide), clamp_of_post (-1) c r.level (Or.inl rfl) r1 r19 hp,
        if_neg (by decide)]
      exact ⟨fun h => by omega, fun _ => rfl, fun h => by omega⟩
    · rw [if_pos (by decide), clamp_of_post 1 c r.level (Or.inr rfl) r1 r19 hp,
        if_pos rfl]
      exact ⟨fun h => by omega, fun h => by omega, fun _ => rfl⟩
  have hres : p8est_quadrant_shift_edge fuel q e = some
      ⟨if edge_step e 0 ≠ 0 then shift_edge_clamp r.x (P8EST_LAST_OFFSET r.level) else r.x,
       if edge_step e 1 ≠ 0 then shift_edge_clamp r.y (P8EST_LAST_OFFSET r.level) else r.y,
       if edge_step e 2 ≠ 0 then shift_edge_clamp r.z (P8EST_LAST_OFFSET r.level) else r.z,
       r.level⟩ := by
    unfold p8est_quadrant_shift_edge
    rw [hr]
    simp only [Option.some_bind]
    split_ifs <;> rfl
  exact ⟨_, hres, r1, r2, r19, key _ _ (edge_step_range e 0) px,
    key _ _ (edge_step_range e 1) py, key _ _ (edge_step_range e 2) pz⟩



theorem coord_final_valid (s c l : Int) (hs : s = 0 ∨ s = -1 ∨ s = 1) (h0 : 0 ≤ l)
    (h19 : l ≤ P8EST_MAXLEVEL) (h : coord_final s c l) :
    (0 ≤ c ∧ c < P8EST_ROOT_LEN) ∧ c % P8EST_QUADRANT_LEN l = 0 := by
  obtain ⟨lo0, loR, loal, -⟩ := last_offset_valid l h0 h19
  have hR : (0 : Int) < P8EST_ROOT_LEN := by unfold P8EST_ROOT_LEN; positivity
  rcases hs with rfl | rfl | rfl
  · exact ⟨⟨(h.1 rfl).1, (h.1 rfl).2.1⟩, (h.1 rfl).2.2⟩
  · rw [h.2.1 rfl]
    exact ⟨⟨le_refl _, hR⟩, Int.zero_emod _⟩
  · rw [h.2.2 rfl]
    exact ⟨⟨lo0, loR⟩, loal⟩

theorem touches_edge_of_final (r : Quadrant) (e : Int) (he : 0 ≤ e ∧ e < 12)
    (fx : coord_final (edge_step e 0) r.x r.level)
    (fy : coord_final (edge_step e 1) r.y r.level)
    (fz : coord_final (edge_step e 2) r.z r.level) :
    p8est_quadrant_touches_edge r e true = true := by
  obtain ⟨he0, he12⟩ := he
  have t := edge_step_table
  unfold coord_final at fx fy fz
  unfold p8est_quadrant_touches_edge
  by_cases hl : r.level = P8EST_MAXLEVEL
  · have lm : P8EST_LAST_OFFSET P8EST_MAXLEVEL = P8EST_ROOT_LEN - 1 := by decide
    interval_cases e <;> simp only [t] at fx fy fz <;> norm_num at fx fy fz <;>
      simp [fx, fy, fz, hl, lm]
  · interval_cases e <;> simp only [t] at fx fy fz <;> norm_num at fx fy fz <;>
      simp [fx, fy, fz, hl]

/-- C4: for every valid octant `q` of level at least 1 and every edge `e` in `[0, 12)`,
`p8est_quadrant_shift_edge (q, e)` returns once its loop may run `q.level` passes; the
octant `r` returned is valid, of a level between 1 and `q.level`, each of its two
transverse coordinates is `0` when the sign bit of `e` for that axis is 0 and
`LAST_OFFSET(r.level)` when it is 1, and `p8est_quadrant_touches_edge (r, e, true)` is
true: the final assertion holds. -/
theorem shift_edge_touches (q : Quadrant) (e : Int) (fuel : Nat) (he : 0 ≤ e ∧ e < 12)
    (hv : p4est_quadrant_is_valid q = true) (h1 : 1 ≤ q.level) (hfuel : q.level ≤ fuel) :
    ∃ r, p8est_quadrant_shift_edge fuel q e = some r ∧
      p4est_quadrant_is_valid r = true ∧ 1 ≤ r.level ∧ r.level ≤ q.level ∧
      (∀ a : Int, 0 ≤ a → a < 3 → a ≠ e / 4 →
        r.coord a = some (if edge_sign_bit e a = 0 then 0 else P8EST_LAST_OFFSET r.level)) ∧
      p8est_quadrant_touches_edge r e true = true := by
  obtain ⟨r, hr, r1, r2, r19, fx, fy, fz⟩ := shift_edge_result q e fuel he hv h1 hfuel
  have r0 : 0 ≤ r.level := by omega
  refine ⟨r, hr, ?_, r1, r2, ?_, touches_edge_of_final r e he fx fy fz⟩
  · obtain ⟨vx, ax⟩ := coord_final_valid _ _ _ (edge_step_range e 0) r0 r19 fx
    obtain ⟨vy, ay⟩ := coord_final_valid _ _ _ (edge_step_range e 1) r0 r19 fy
    obtain ⟨vz, az⟩ := coord_final_valid _ _ _ (edge_step_range e 2) r0 r19 fz
    simp only [p4est_quadrant_is_valid, Quadrant.aligned, Bool.and_eq_true,
      decide_eq_true_eq]
    exact ⟨⟨⟨⟨⟨r0, r19⟩, vx⟩, vy⟩, vz⟩, ax, ay, az⟩
  · intro a a0 a3 hne
    have hstep : edge_step e a = 2 * edge_sign_bit e a - 1 := by
      unfold edge_step
      rw [if_neg hne]
    have hbit : edge_sign_bit e a = 0 ∨ edge_sign_bit e a = 1 := by
      unfold edge_sign_bit
      split_ifs <;> omega
    have key : ∀ c, coord_final (edge_step e a) c r.level →
        c = if edge_sign_bit e a = 0 then 0 else P8EST_LAST_OFFSET r.level := by
      intro c hc
      rcases hbit with hb | hb
      · rw [if_pos hb]
        exact hc.2.1 (by rw [hstep, hb]; rfl)
      · rw [if_neg (by omega)]
        exact hc.2.2 (by rw [hstep, hb]; rfl)
    interval_cases a
    · exact congrArg some (key _ fx)
    · exact congrArg some (key _ fy)
    · exact congrArg some (key _ fz)

theorem shift_edge_touches_witness :
    ∃ r, p8est_quadrant_shift_edge 3 ⟨262144, 196608, 327680, 3⟩ 1 = some r ∧
      p4est_quadrant_is_valid r = true ∧ 1 ≤ r.level ∧
      r.level ≤ (⟨262144, 196608, 327680, 3⟩ : Quadrant).level ∧
      (∀ a : Int, 0 ≤ a → a < 3 → a ≠ 1 / 4 →
        r.coord a = some (if edge_sign_bit 1 a = 0 then 0 else P8EST_LAST_OFFSET r.level)) ∧
      p8est_quadrant_touches_edge r 1 true = true :=
  shift_edge_touches ⟨262144, 196608, 327680, 3⟩ 1 3 (by decide) (by decide) (by decide)
    (by decide)

/-! ## Child id of a child -/

/-- The coordinates of the children as sums: child `i` is `q` moved by `QLEN(l + 1)` along
the axes selected by the bits of `i`. -/
theorem children_get_offsets (q : Quadrant) (hf : q.fits) (ha : q.aligned) (h0 : 0 ≤ q.level)
    (hl : q.level < P8EST_QMAXLEVEL) (i : Fin 8) :
    (p8est_quadrant_children q).get i =
      ⟨q.x + (if int_and (i.val : Int) 1 ≠ 0 then 1 else 0) * P8EST_QUADRANT_LEN (q.level + 1),
       q.y + (if int_and (i.val : Int) 2 ≠ 0 then 1 else 0) * P8EST_QUADRANT_LEN (q.level + 1),
       q.z + (if int_and (i.val : Int) 4 ≠ 0 then 1 else 0) * P8EST_QUADRANT_LEN (q.level + 1),
       q.level + 1⟩ := by
  rw [(children_get_spec q hf h0 hl i).1]
  obtain ⟨hx, hy, hz⟩ := hf
  obtain ⟨ax, ay, az⟩ := ha
  have hl19 : q.level < P8EST_MAXLEVEL := by
    unfold P8EST_QMAXLEVEL at hl; unfold P8EST_MAXLEVEL; omega
  apply Quadrant.ext
  · show int_or q.x _ = q.x + _
    by_cases h : int_and (i.val : Int) 1 ≠ 0
    · rw [if_pos h, if_pos h, one_mul]
      exact int_or_quadrant_len q.x q.level h0 hl19 hx ax
    · rw [if_neg h, if_neg h, zero_mul, add_zero]
      exact int_or_zero _ hx
  · show int_or q.y _ = q.y + _
    by_cases h : int_and (i.val : Int) 2 ≠ 0
    · rw [if_pos h, if_pos h, one_mul]
      exact int_or_quadrant_len q.y q.level h0 hl19 hy ay
    · rw [if_neg h, if_neg h, zero_mul, add_zero]
      exact int_or_zero _ hy
  · show int_or q.z _ = q.z + _
    by_cases h : int_and (i.val : Int) 4 ≠ 0
    · rw [if_pos h, if_pos h, one_mul]
      exact int_or_quadrant_len q.z q.level h0 hl19 hz az
    · rw [if_neg h, if_neg h, zero_mul, add_zero]
      exact int_or_zero _ hz
  · rfl

/-- The child-id bit `(c >> (MAXLEVEL - (l + 1))) & 1` of a coordinate `c = x + b * QLEN(l + 1)`
of a child, `x` being a multiple of `QLEN(l)`, is `b`. -/
theorem child_bit (x b l : Int) (hl : l < P8EST_MAXLEVEL)
    (hal : x % P8EST_QUADRANT_LEN l = 0) (hb : b = 0 ∨ b = 1) :
    int_and (int_shr (x + b * P8EST_QUADRANT_LEN (l + 1)) (P8EST_MAXLEVEL - (l + 1))) 1 = b := by
  have hQ := p8est_quadrant_len_pos (l + 1)
  have hs : int_shr (x + b * P8EST_QUADRANT_LEN (l + 1)) (P8EST_MAXLEVEL - (l + 1)) =
      (x + b * P8EST_QUADRANT_LEN (l + 1)) / P8EST_QUADRANT_LEN (l + 1) := rfl
  rw [hs, int_and_one, p8est_quadrant_len_succ l hl] at *
  obtain ⟨m, hm⟩ := Int.dvd_of_emod_eq_zero hal
  have hsum : x + b * P8EST_QUADRANT_LEN (l + 1) = (2 * m + b) * P8EST_QUADRANT_LEN (l + 1) := by
    rw [hm]; ring
  rw [hsum, Int.mul_ediv_cancel _ (ne_of_gt hQ)]
  omega

/-- The bits `i & 1`, `i & 2`, `i & 4` of an index `i` in `[0, 8)` pack to `i`. -/
theorem index_bits (i : Fin 8) :
    (if int_and (i.val : Int) 1 ≠ 0 then (1 : Int) else 0) +
      2 * (if int_and (i.val : Int) 2 ≠ 0 then (1 : Int) else 0) +
      4 * (if int_and (i.val : Int) 4 ≠ 0 then (1 : Int) else 0) = (i.val : Int) := by
  revert i
  decide

/-- C11: for an octant `q` of level `l` with `0 ≤ l < QMAXLEVEL` whose coordinates are
`p4est_qcoord_t` values and multiples of `QLEN(l)` (every extended octant is one), the
child id of the `i`-th octant `c` written by `p8est_quadrant_children`, computed as
`bit0 = (c.x >> (MAXLEVEL - (l + 1))) & 1`, `bit1` likewise from `c.y` and `bit2` from
`c.z`, is `i`; this is the value of `p4est_quadrant_child_id` on `c` and on `c[i]` written
by `p4est_quadrant_childrenv`. -/
theorem child_id_of_child (q : Quadrant) (hf : q.fits) (ha : q.aligned) (h0 : 0 ≤ q.level)
    (hl : q.level < P8EST_QMAXLEVEL) (i : Fin 8) :
    int_and (int_shr ((p8est_quadrant_children q).get i).x
        (P8EST_MAXLEVEL - (q.level + 1))) 1 +
      2 * int_and (int_shr ((p8est_quadrant_children q).get i).y
        (P8EST_MAXLEVEL - (q.level + 1))) 1 +
      4 * int_and (int_shr ((p8est_quadrant_children q).get i).z
        (P8EST_MAXLEVEL - (q.level + 1))) 1 = (i.val : Int) ∧
    p4est_quadrant_child_id ((p8est_quadrant_children q).get i) = (i.val : Int) ∧
    p4est_quadrant_child_id (p4est_quadrant_childrenv q i) = (i.val : Int) := by
  have hv := (children_get_spec q hf h0 hl i).2
  have hc := children_get_offsets q hf ha h0 hl i
  have hl19 : q.level < P8EST_MAXLEVEL := by
    unfold P8EST_QMAXLEVEL at hl; unfold P8EST_MAXLEVEL; omega
  obtain ⟨ax, ay, az⟩ := ha
  have key : int_and (int_shr ((p8est_quadrant_children q).get i).x
        (P8EST_MAXLEVEL - (q.level + 1))) 1 +
      2 * int_and (int_shr ((p8est_quadrant_children q).get i).y
        (P8EST_MAXLEVEL - (q.level + 1))) 1 +
      4 * int_and (int_shr ((p8est_quadrant_children q).get i).z
        (P8EST_MAXLEVEL - (q.level + 1))) 1 = (i.val : Int) := by
    rw [hc]
    show int_and (int_shr (q.x + _ * _) _) 1 + 2 * int_and (int_shr (q.y + _ * _) _) 1 +
      4 * int_and (int_shr (q.z + _ * _) _) 1 = _
    rw [child_bit q.x _ q.level hl19 ax (by split_ifs <;> simp),
      child_bit q.y _ q.level hl19 ay (by split_ifs <;> simp),
      child_bit q.z _ q.level hl19 az (by split_ifs <;> simp)]
    exact index_bits i
  have hlev : ((p8est_quadrant_children q).get i).level = q.level + 1 := by rw [hc]
  have hid : p4est_quadrant_child_id ((p8est_quadrant_children q).get i) = (i.val : Int) := by
    unfold p4est_quadrant_child_id
    rw [hlev]
    exact key
  exact ⟨key, hid, by rw [hv]; exact hid⟩

theorem child_id_of_child_witness :
    int_and (int_shr ((p8est_quadrant_children ⟨-524288, 0, 262144, 1⟩).get 5).x
        (P8EST_MAXLEVEL - ((⟨-524288, 0, 262144, 1⟩ : Quadrant).level + 1))) 1 +
      2 * int_and (int_shr ((p8est_quadrant_children ⟨-524288, 0, 262144, 1⟩).get 5).y
        (P8EST_MAXLEVEL - ((⟨-524288, 0, 262144, 1⟩ : Quadrant).level + 1))) 1 +
      4 * int_and (int_shr ((p8est_quadrant_children ⟨-524288, 0, 262144, 1⟩).get 5).z
        (P8EST_MAXLEVEL - ((⟨-524288, 0, 262144, 1⟩ : Quadrant).level + 1))) 1 =
        (((5 : Fin 8).val : Nat) : Int) ∧
    p4est_quadrant_child_id ((p8est_quadrant_children ⟨-524288, 0, 262144, 1⟩).get 5) =
      (((5 : Fin 8).val : Nat) : Int) ∧
    p4est_quadrant_child_id (p4est_quadrant_childrenv ⟨-524288, 0, 262144, 1⟩ 5) =
      (((5 : Fin 8).val : Nat) : Int) :=
  child_id_of_child ⟨-524288, 0, 262144, 1⟩ (by decide) (by decide) (by decide) (by decide) 5

/-! ## Order sensitivity of the family test -/

/-- In a tuple that has the offsets of a family, the position `k` of an octant can be read
off its coordinates. -/
theorem family_offsets_code (q : Fin 8 → Quadrant) (h : family_offsets q) (k : Fin 8) :
    (q k).x - (q 0).x + 2 * ((q k).y - (q 0).y) + 4 * ((q k).z - (q 0).z) =
      (k.val : Int) * P8EST_QUADRANT_LEN (q 0).level ∧ (q k).level = (q 0).level := by
  have hk := h k
  have hb := index_bits k
  generalize q k = qk at hk ⊢
  generalize q 0 = q0 at hk ⊢
  subst hk
  refine ⟨?_, rfl⟩
  show q0.x + _ - q0.x + 2 * (q0.y + _ - q0.y) + 4 * (q0.z + _ - q0.z) = _
  split_ifs at hb ⊢ <;> rw [← hb] <;> ring

/-- The exchanged tuple as a reindexing of the tuple. -/
theorem swap_octants_apply (q : Fin 8 → Quadrant) (i j k : Fin 8) :
    swap_octants q i j k = q (if k = i then j else if k = j then i else k) := by
  unfold swap_octants
  split_ifs <;> rfl

/-- C12: the family test is order-sensitive.  For every eight octants on which
`p8est_quadrant_is_family` returns true (extended or not) and every two distinct positions
`i ≠ j`, the test returns false on the tuple with the octants at the positions `i` and
`j` exchanged. -/
theorem is_family_swap (q : Fin 8 → Quadrant) (i j : Fin 8) (hij : i ≠ j)
    (h : p8est_quadrant_is_family (q 0) (q 1) (q 2) (q 3) (q 4) (q 5) (q 6) (q 7) = true) :
    p8est_quadrant_is_family (swap_octants q i j 0) (swap_octants q i j 1)
      (swap_octants q i j 2) (swap_octants q i j 3) (swap_octants q i j 4)
      (swap_octants q i j 5) (swap_octants q i j 6) (swap_octants q i j 7) = false := by
  rw [is_family_iff_offsets] at h
  obtain ⟨-, hq⟩ := h
  rw [Bool.eq_false_iff]
  intro hs
  rw [is_family_iff_offsets] at hs
  obtain ⟨-, hs⟩ := hs
  have hQ := p8est_quadrant_len_pos (q 0).level
  -- the position in `q` of the octant at position `k` of the exchanged tuple
  have key : ∀ k : Fin 8,
      (((if k = i then j else if k = j then i else k : Fin 8).val : Nat) : Int) =
        (((if (0 : Fin 8) = i then j else if (0 : Fin 8) = j then i else 0 : Fin 8).val : Nat)
          : Int) + (k.val : Int) := by
    intro k
    have a := family_offsets_code _ hs k
    rw [swap_octants_apply q i j k, swap_octants_apply q i j 0] at a
    have b := family_offsets_code q hq (if k = i then j else if k = j then i else k)
    have c := family_offsets_code q hq (if (0 : Fin 8) = i then j else if (0 : Fin 8) = j then i else 0)
    generalize (if k = i then j else if k = j then i else k : Fin 8) = sk at a b ⊢
    generalize (if (0 : Fin 8) = i then j else if (0 : Fin 8) = j then i else 0 : Fin 8) = s0 at a b c ⊢
    obtain ⟨a1, -⟩ := a
    obtain ⟨b1, -⟩ := b
    obtain ⟨c1, c2⟩ := c
    rw [c2] at a1
    have e : ((sk.val : Int) - (s0.val : Int) - (k.val : Int)) *
        P8EST_QUADRANT_LEN (q 0).level = 0 := by
      linear_combination a1 + c1 - b1
    rcases mul_eq_zero.mp e with e | e
    · omega
    · omega
  have k7 := key 7
  have ki := key i
  have kj := key j
  have h7 : (((7 : Fin 8).val : Nat) : Int) = 7 := rfl
  have hi := i.isLt
  have hj := j.isLt
  have hne : i.val ≠ j.val := fun e => hij (Fin.ext e)
  rw [if_pos rfl] at ki
  split_ifs at k7 ki kj <;> simp only [h7] at k7 <;> omega

theorem is_family_swap_witness :
    p8est_quadrant_is_family (swap_octants (p4est_quadrant_childrenv ⟨0, 0, 0, 0⟩) 2 5 0)
      (swap_octants (p4est_quadrant_childrenv ⟨0, 0, 0, 0⟩) 2 5 1)
      (swap_octants (p4est_quadrant_childrenv ⟨0, 0, 0, 0⟩) 2 5 2)
      (swap_octants (p4est_quadrant_childrenv ⟨0, 0, 0, 0⟩) 2 5 3)
      (swap_octants (p4est_quadrant_childrenv ⟨0, 0, 0, 0⟩) 2 5 4)
      (swap_octants (p4est_quadrant_childrenv ⟨0, 0, 0, 0⟩) 2 5 5)
      (swap_octants (p4est_quadrant_childrenv ⟨0, 0, 0, 0⟩) 2 5 6)
      (swap_octants (p4est_quadrant_childrenv ⟨0, 0, 0, 0⟩) 2 5 7) = false :=
  is_family_swap (p4est_quadrant_childrenv ⟨0, 0, 0, 0⟩) 2 5 (by decide) (by decide)

/-! ## Edge neighbour -/

/-- The expressions `edge & 0x01` and `edge & 0x02` for an edge in `[0, 12)`. -/
theorem edge_bits (e : Int) (he : 0 ≤ e ∧ e < 12) :
    int_and e 1 = e % 2 ∧ int_and e 2 = 2 * (e / 2 % 2) := by
  obtain ⟨h0, h12⟩ := he
  interval_cases e <;> decide

/-- C13: for every octant `q` of level `l` (valid or not) and every edge `e` in `[0, 12)`,
`p8est_quadrant_edge_neighbor` returns an octant `r` of level `l` whose coordinate along
the axis `e / 4` is that of `q`, whose coordinate along the lower-indexed transverse axis
is that of `q` plus `QLEN(l)` if `e & 1` and minus `QLEN(l)` otherwise, and whose
coordinate along the higher-indexed transverse axis is that of `q` plus `QLEN(l)` if
`e & 2` and minus `QLEN(l)` otherwise. -/
theorem edge_neighbor_coords (q : Quadrant) (e : Int) (he : 0 ≤ e ∧ e < 12) :
    ∃ r, p8est_quadrant_edge_neighbor q e = some r ∧ r.level = q.level ∧
      r.coord (e / 4) = q.coord (e / 4) ∧
      r.coord (lower_transverse (e / 4)) =
        (q.coord (lower_transverse (e / 4))).map (fun c =>
          c + (if int_and e 1 ≠ 0 then P8EST_QUADRANT_LEN q.level
            else -P8EST_QUADRANT_LEN q.level)) ∧
      r.coord (higher_transverse (e / 4)) =
        (q.coord (higher_transverse (e / 4))).map (fun c =>
          c + (if int_and e 2 ≠ 0 then P8EST_QUADRANT_LEN q.level
            else -P8EST_QUADRANT_LEN q.level)) := by
  obtain ⟨b1, b2⟩ := edge_bits e he
  unfold p8est_quadrant_edge_neighbor
  rw [b1, b2]
  obtain ⟨h0, h12⟩ := he
  interval_cases e <;>
    simp [Quadrant.coord, lower_transverse, higher_transverse]

theorem edge_neighbor_coords_witness :
    ∃ r, p8est_quadrant_edge_neighbor ⟨0, 262144, 0, 1⟩ 6 = some r ∧
      r.level = (⟨0, 262144, 0, 1⟩ : Quadrant).level ∧
      r.coord (6 / 4) = (⟨0, 262144, 0, 1⟩ : Quadrant).coord (6 / 4) ∧
      r.coord (lower_transverse (6 / 4)) =
        ((⟨0, 262144, 0, 1⟩ : Quadrant).coord (lower_transverse (6 / 4))).map (fun c =>
          c + (if int_and 6 1 ≠ 0 then P8EST_QUADRANT_LEN (⟨0, 262144, 0, 1⟩ : Quadrant).level
            else -P8EST_QUADRANT_LEN (⟨0, 262144, 0, 1⟩ : Quadrant).level)) ∧
      r.coord (higher_transverse (6 / 4)) =
        ((⟨0, 262144, 0, 1⟩ : Quadrant).coord (higher_transverse (6 / 4))).map (fun c =>
          c + (if int_and 6 2 ≠ 0 then P8EST_QUADRANT_LEN (⟨0, 262144, 0, 1⟩ : Quadrant).level
            else -P8EST_QUADRANT_LEN (⟨0, 262144, 0, 1⟩ : Quadrant).level)) :=
  edge_neighbor_coords ⟨0, 262144, 0, 1⟩ 6 (by decide)

/-! ## Touching an edge -/

/-- C14: for every octant `q`, every edge `e` in `[0, 12)` and every flag `inside`,
`p8est_quadrant_touches_edge` returns true iff the coordinate of `q` along the
lower-indexed transverse axis is the extreme selected by bit 0 of `e` and the coordinate
along the higher-indexed transverse axis is the extreme selected by bit 1 of `e`, a bit
`0` selecting `lower` and a bit `1` selecting `upper`, with `(lower, upper)` as
`edge_extremes` gives them. -/
theorem touches_edge_iff (q : Quadrant) (e : Int) (inside : Bool) (he : 0 ≤ e ∧ e < 12) :
    p8est_quadrant_touches_edge q e inside = true ↔
      q.coord (lower_transverse (e / 4)) =
        some (if e % 2 = 0 then (edge_extremes q inside).1 else (edge_extremes q inside).2) ∧
      q.coord (higher_transverse (e / 4)) =
        some (if e / 2 % 2 = 0 then (edge_extremes q inside).1
          else (edge_extremes q inside).2) := by
  obtain ⟨h0, h12⟩ := he
  have hlo : (edge_extremes q inside).1 =
      (if q.level = P8EST_MAXLEVEL then 0
        else if !inside then -P8EST_QUADRANT_LEN q.level else 0) := by
    cases inside <;> by_cases h : q.level = P8EST_MAXLEVEL <;>
      simp [edge_extremes, h, P8EST_LAST_OFFSET]
  have hup : (edge_extremes q inside).2 =
      (if q.level = P8EST_MAXLEVEL then P8EST_ROOT_LEN - (if inside then 1 else 0)
        else if !inside then P8EST_ROOT_LEN else P8EST_LAST_OFFSET q.level) := by
    cases inside <;> by_cases h : q.level = P8EST_MAXLEVEL <;>
      simp [edge_extremes, h, P8EST_LAST_OFFSET]
  rw [hlo, hup]
  unfold p8est_quadrant_touches_edge
  generalize (if q.level = P8EST_MAXLEVEL then (0 : Int)
    else if !inside then -P8EST_QUADRANT_LEN q.level else 0) = lower
  generalize (if q.level = P8EST_MAXLEVEL then P8EST_ROOT_LEN - (if inside then 1 else 0)
    else if !inside then P8EST_ROOT_LEN else P8EST_LAST_OFFSET q.level) = upper
  have two : ∀ (P Q : Prop) [Decidable P] [Decidable Q],
      (((if P then (1 : Int) else 0) + (if Q then 1 else 0) == 2) = true ↔ P ∧ Q) := by
    intro P Q _ _
    by_cases hP : P <;> by_cases hQ : Q <;> simp [hP, hQ]
  interval_cases e <;>
    simp [Quadrant.coord, lower_transverse, higher_transverse, two]

theorem touches_edge_iff_witness :
    p8est_quadrant_touches_edge ⟨0, 262144, -262144, 1⟩ 6 false = true ↔
      (⟨0, 262144, -262144, 1⟩ : Quadrant).coord (lower_transverse (6 / 4)) =
        some (if (6 : Int) % 2 = 0 then (edge_extremes ⟨0, 262144, -262144, 1⟩ false).1
          else (edge_extremes ⟨0, 262144, -262144, 1⟩ false).2) ∧
      (⟨0, 262144, -262144, 1⟩ : Quadrant).coord (higher_transverse (6 / 4)) =
        some (if (6 : Int) / 2 % 2 = 0 then (edge_extremes ⟨0, 262144, -262144, 1⟩ false).1
          else (edge_extremes ⟨0, 262144, -262144, 1⟩ false).2) :=
  touches_edge_iff ⟨0, 262144, -262144, 1⟩ 6 false (by decide)

/-! ## Outside an edge -/

/-- C15: for every octant `q`, `p8est_quadrant_is_outside_edge` returns true iff exactly
two of the coordinates `x`, `y`, `z` lie outside of `[0, ROOT_LEN)`, and
`p8est_quadrant_is_outside_edge_extra` returns the same boolean, whether it is called with
`NULL` or with a pointer to an edge (of any level; the assertion `level < MAXLEVEL` is not
needed for this). -/
theorem is_outside_edge_iff (q : Quadrant) :
    (p8est_quadrant_is_outside_edge q = true ↔ off_root_axes q = 2) ∧
    ∀ edge : Option Int, ∃ out : Option Int,
      p8est_quadrant_is_outside_edge_extra q edge =
        some (p8est_quadrant_is_outside_edge q, out) := by
  have hR : (0 : Int) < P8EST_ROOT_LEN := by decide
  have ax : ∀ c : Int, (c < 0 ∧ ¬ c ≥ P8EST_ROOT_LEN) ∨ (¬ c < 0 ∧ c ≥ P8EST_ROOT_LEN) ∨
      (¬ c < 0 ∧ ¬ c ≥ P8EST_ROOT_LEN) := by
    intro c
    omega
  have inr : ∀ c : Int, (0 ≤ c ∧ c < P8EST_ROOT_LEN) ↔ ¬ c < 0 ∧ ¬ c ≥ P8EST_ROOT_LEN := by
    intro c
    omega
  unfold p8est_quadrant_is_outside_edge off_root_axes p8est_quadrant_is_outside_edge_extra
  simp only [inr]
  rcases ax q.x with ⟨hxl, hxu⟩ | ⟨hxl, hxu⟩ | ⟨hxl, hxu⟩ <;>
    rcases ax q.y with ⟨hyl, hyu⟩ | ⟨hyl, hyu⟩ | ⟨hyl, hyu⟩ <;>
    rcases ax q.z with ⟨hzl, hzu⟩ | ⟨hzl, hzu⟩ | ⟨hzl, hzu⟩ <;>
    simp only [hxl, hxu, hyl, hyu, hzl, hzu, or_self, or_true, or_false, true_or, false_or,
      and_self, and_true, and_false, true_and, false_and, not_true_eq_false,
      not_false_eq_true, if_true, if_false] <;>
    refine ⟨by decide, fun edge => ?_⟩ <;>
    cases edge <;> simp

/-! ## Half-size face neighbours -/

/-- C16: for every octant `q` of level `l` with `0 ≤ l < QMAXLEVEL` (valid or not) and
every face `f` in `[0, 6)`, `p4est_quadrant_half_face_neighbors (q, f, n, NULL)` writes
four octants of level `l + 1` and no array `nur`.  `n[0]` is `q` moved along the axis
`f / 2` by `-QLEN(l + 1)` for an even `f` and by `+QLEN(l)` for an odd `f`, with the
tangential coordinates of `q`; `n[i]` is `n[0]` moved by `(i & 1) * QLEN(l + 1)` along the
lower-indexed tangential axis and by `((i >> 1) & 1) * QLEN(l + 1)` along the
higher-indexed tangential axis. -/
theorem half_face_neighbors_coords (q : Quadrant) (f : Int) (h0 : 0 ≤ q.level)
    (hl : q.level < P8EST_QMAXLEVEL) (hf : 0 ≤ f ∧ f < 6) :
    ∃ n, p4est_quadrant_half_face_neighbors q f false = some (n, none) ∧
      (∀ i : Fin 4, (n i).level = q.level + 1) ∧
      (n 0).coord (f / 2) = (q.coord (f / 2)).map (fun c =>
        c + (if f % 2 = 0 then -P8EST_QUADRANT_LEN (q.level + 1)
          else P8EST_QUADRANT_LEN q.level)) ∧
      (n 0).coord (lower_transverse (f / 2)) = q.coord (lower_transverse (f / 2)) ∧
      (n 0).coord (higher_transverse (f / 2)) = q.coord (higher_transverse (f / 2)) ∧
      ∀ i : Fin 4,
        (n i).coord (f / 2) = (n 0).coord (f / 2) ∧
        (n i).coord (lower_transverse (f / 2)) =
          ((n 0).coord (lower_transverse (f / 2))).map (fun c =>
            c + int_and (i.val : Int) 1 * P8EST_QUADRANT_LEN (q.level + 1)) ∧
        (n i).coord (higher_transverse (f / 2)) =
          ((n 0).coord (higher_transverse (f / 2))).map (fun c =>
            c + int_and (int_shr (i.val : Int) 1) 1 * P8EST_QUADRANT_LEN (q.level + 1)) := by
  have hc : int8_cast (q.level + 1) = q.level + 1 := by
    unfold P8EST_QMAXLEVEL at hl
    exact int8_cast_level _ (by omega) (by omega)
  have t : ∀ i : Fin 4, int_and (i.val : Int) 1 = (i.val : Int) % 2 ∧
      int_and (i.val : Int) 2 / 2 = (i.val : Int) / 2 ∧
      int_and (int_shr (i.val : Int) 1) 1 = (i.val : Int) / 2 := by decide
  obtain ⟨hf0, hf6⟩ := hf
  unfold p4est_quadrant_half_face_neighbors
  rw [hc]
  interval_cases f <;>
    refine ⟨_, rfl, fun i => rfl, ?_, ?_, ?_, fun i => ?_⟩ <;>
    first
    | (simp only [(t i).1, (t i).2.1, (t i).2.2]
       fin_cases i <;> simp [Quadrant.coord, lower_transverse, higher_transverse])
    | simp [Quadrant.coord, lower_transverse, higher_transverse]

theorem half_face_neighbors_coords_witness :
    ∃ n, p4est_quadrant_half_face_neighbors ⟨0, 262144, 0, 1⟩ 3 false = some (n, none) ∧
      (∀ i : Fin 4, (n i).level = (⟨0, 262144, 0, 1⟩ : Quadrant).level + 1) ∧
      (n 0).coord (3 / 2) = ((⟨0, 262144, 0, 1⟩ : Quadrant).coord (3 / 2)).map (fun c =>
        c + (if (3 : Int) % 2 = 0
          then -P8EST_QUADRANT_LEN ((⟨0, 262144, 0, 1⟩ : Quadrant).level + 1)
          else P8EST_QUADRANT_LEN (⟨0, 262144, 0, 1⟩ : Quadrant).level)) ∧
      (n 0).coord (lower_transverse (3 / 2)) =
        (⟨0, 262144, 0, 1⟩ : Quadrant).coord (lower_transverse (3 / 2)) ∧
      (n 0).coord (higher_transverse (3 / 2)) =
        (⟨0, 262144, 0, 1⟩ : Quadrant).coord (higher_transverse (3 / 2)) ∧
      ∀ i : Fin 4,
        (n i).coord (3 / 2) = (n 0).coord (3 / 2) ∧
        (n i).coord (lower_transverse (3 / 2)) =
          ((n 0).coord (lower_transverse (3 / 2))).map (fun c =>
            c + int_and (i.val : Int) 1 *
              P8EST_QUADRANT_LEN ((⟨0, 262144, 0, 1⟩ : Quadrant).level + 1)) ∧
        (n i).coord (higher_transverse (3 / 2)) =
          ((n 0).coord (higher_transverse (3 / 2))).map (fun c =>
            c + int_and (int_shr (i.val : Int) 1) 1 *
              P8EST_QUADRANT_LEN ((⟨0, 262144, 0, 1⟩ : Quadrant).level + 1)) :=
  half_face_neighbors_coords ⟨0, 262144, 0, 1⟩ 3 (by decide) (by decide) (by decide)

/-! ## All face neighbours -/

/-- The half-size face neighbours exist for a face in `[0, 6)` and have the level `l + 1`. -/
theorem half_face_neighbors_some (q : Quadrant) (f : Int) (h0 : 0 ≤ q.level)
    (hl : q.level < P8EST_QMAXLEVEL) (hf : 0 ≤ f ∧ f < 6) :
    ∃ h, p4est_quadrant_half_face_neighbors q f false = some (h, none) ∧
      ∀ i : Fin 4, (h i).level = q.level + 1 := by
  have hc : int8_cast (q.level + 1) = q.level + 1 := by
    unfold P8EST_QMAXLEVEL at hl
    exact int8_cast_level _ (by omega) (by omega)
  obtain ⟨hf0, hf6⟩ := hf
  unfold p4est_quadrant_half_face_neighbors
  rw [hc]
  interval_cases f <;> exact ⟨_, rfl, fun i => rfl⟩

/-- The slots of `p4est_quadrant_all_face_neighbors` for an octant below `QMAXLEVEL`. -/
theorem all_face_neighbors_spec (q : Quadrant) (f : Int) (h : Fin 4 → Quadrant)
    (hl : q.level ≠ P8EST_QMAXLEVEL)
    (hh : p4est_quadrant_half_face_neighbors q f false = some (h, none)) :
    ∃ n, p4est_quadrant_all_face_neighbors q f = some n ∧
      n 0 = h 0 ∧ n 1 = h 1 ∧ n 2 = h 2 ∧ n 3 = h 3 ∧
      n 4 = p4est_quadrant_face_neighbor q f ∧
      n 5 = (if int_and (int_shr (p4est_quadrant_child_id q) (f / 2)) 1 ≠ int_and f 1 ∨
          q.level = 0 then P8EST_QUADRANT_INIT
        else p4est_quadrant_face_neighbor (p4est_quadrant_parent q) f) := by
  unfold p4est_quadrant_all_face_neighbors
  rw [hh]
  simp only [if_neg hl, Option.bind]
  exact ⟨_, rfl, rfl, rfl, rfl, rfl, rfl, rfl⟩

/-- The slots of `p4est_quadrant_all_face_neighbors` for an octant of level `QMAXLEVEL`. -/
theorem all_face_neighbors_finest (q : Quadrant) (f : Int) (hl : q.level = P8EST_QMAXLEVEL) :
    ∃ n, p4est_quadrant_all_face_neighbors q f = some n ∧
      n 0 = P8EST_QUADRANT_INIT ∧ n 1 = P8EST_QUADRANT_INIT ∧
      n 2 = P8EST_QUADRANT_INIT ∧ n 3 = P8EST_QUADRANT_INIT ∧
      n 4 = p4est_quadrant_face_neighbor q f ∧
      n 5 = (if int_and (int_shr (p4est_quadrant_child_id q) (f / 2)) 1 ≠ int_and f 1 ∨
          q.level = 0 then P8EST_QUADRANT_INIT
        else p4est_quadrant_face_neighbor (p4est_quadrant_parent q) f) := by
  unfold p4est_quadrant_all_face_neighbors
  simp only [if_pos hl, Option.bind]
  exact ⟨_, rfl, rfl, rfl, rfl, rfl, rfl, rfl⟩

/-- The slots `n[4]` and `n[5]` of `p4est_quadrant_all_face_neighbors`. -/
theorem all_face_neighbors_slots (q : Quadrant) (f : Int) (h0 : 0 ≤ q.level)
    (hl : q.level ≤ P8EST_QMAXLEVEL) (hf : 0 ≤ f ∧ f < 6) :
    ∃ n, p4est_quadrant_all_face_neighbors q f = some n ∧
      n 4 = p4est_quadrant_face_neighbor q f ∧
      n 5 = (if int_and (int_shr (p4est_quadrant_child_id q) (f / 2)) 1 ≠ int_and f 1 ∨
          q.level = 0 then P8EST_QUADRANT_INIT
        else p4est_quadrant_face_neighbor (p4est_quadrant_parent q) f) := by
  by_cases hq : q.level = P8EST_QMAXLEVEL
  · obtain ⟨n, hn, -, -, -, -, h4, h5⟩ := all_face_neighbors_finest q f hq
    exact ⟨n, hn, h4, h5⟩
  · obtain ⟨h, hh, -⟩ := half_face_neighbors_some q f h0 (lt_of_le_of_ne hl hq) hf
    obtain ⟨n, hn, -, -, -, -, h4, h5⟩ := all_face_neighbors_spec q f h hq hh
    exact ⟨n, hn, h4, h5⟩

/-- C17: for every octant `q` of level `l` with `0 ≤ l ≤ QMAXLEVEL` (valid or not) and
every face `f` in `[0, 6)`, the slot `n[5]` of `p4est_quadrant_all_face_neighbors` is a
defined octant, that is, not the marker written by `P8EST_QUADRANT_INIT`, iff `l > 0` and
bit `f / 2` of the child id of `q` equals `f & 1`; in that case `n[5]` is the same-level
face neighbour across `f` of the parent of `q` and has the level `l - 1`, and otherwise
`n[5]` is the marker, all of whose bytes are `0xFF` and whose level is `-1`. -/
theorem all_face_neighbors_parent_slot (q : Quadrant) (f : Int) (h0 : 0 ≤ q.level)
    (hl : q.level ≤ P8EST_QMAXLEVEL) (hf : 0 ≤ f ∧ f < 6) :
    ∃ n, p4est_quadrant_all_face_neighbors q f = some n ∧
      (n 5 ≠ P8EST_QUADRANT_INIT ↔
        0 < q.level ∧
          int_and (int_shr (p4est_quadrant_child_id q) (f / 2)) 1 = int_and f 1) ∧
      (0 < q.level ∧
          int_and (int_shr (p4est_quadrant_child_id q) (f / 2)) 1 = int_and f 1 →
        n 5 = p4est_quadrant_face_neighbor (p4est_quadrant_parent q) f ∧
          (n 5).level = q.level - 1) ∧
      (¬ (0 < q.level ∧
          int_and (int_shr (p4est_quadrant_child_id q) (f / 2)) 1 = int_and f 1) →
        n 5 = P8EST_QUADRANT_INIT ∧ (n 5).level = -1) := by
  obtain ⟨n, hn, -, h5⟩ := all_face_neighbors_slots q f h0 hl hf
  refine ⟨n, hn, ?_⟩
  have hyes : 0 < q.level ∧
      int_and (int_shr (p4est_quadrant_child_id q) (f / 2)) 1 = int_and f 1 →
      n 5 = p4est_quadrant_face_neighbor (p4est_quadrant_parent q) f ∧
        (n 5).level = q.level - 1 := by
    rintro ⟨hpos, hbit⟩
    have hc : ¬ (int_and (int_shr (p4est_quadrant_child_id q) (f / 2)) 1 ≠ int_and f 1 ∨
        q.level = 0) := by
      rintro (hc | hc)
      · exact hc hbit
      · omega
    rw [if_neg hc] at h5
    exact ⟨h5, by rw [h5]; rfl⟩
  have hno : ¬ (0 < q.level ∧
      int_and (int_shr (p4est_quadrant_child_id q) (f / 2)) 1 = int_and f 1) →
      n 5 = P8EST_QUADRANT_INIT ∧ (n 5).level = -1 := by
    intro hc
    have hc2 : int_and (int_shr (p4est_quadrant_child_id q) (f / 2)) 1 ≠ int_and f 1 ∨
        q.level = 0 := by
      by_cases hb : int_and (int_shr (p4est_quadrant_child_id q) (f / 2)) 1 = int_and f 1
      · right
        have : ¬ 0 < q.level := fun hp => hc ⟨hp, hb⟩
        omega
      · left
        exact hb
    rw [if_pos hc2] at h5
    exact ⟨h5, by rw [h5]; rfl⟩
  refine ⟨⟨fun hne => ?_, fun hc hinit => ?_⟩, hyes, hno⟩
  · by_contra hc
    exact hne (hno hc).1
  · have hlev := (hyes hc).2
    rw [hinit] at hlev
    have : P8EST_QUADRANT_INIT.level = -1 := rfl
    omega

theorem all_face_neighbors_parent_slot_witness :
    ∃ n, p4est_quadrant_all_face_neighbors ⟨262144, 0, 0, 1⟩ 1 = some n ∧
      (n 5 ≠ P8EST_QUADRANT_INIT ↔
        0 < (⟨262144, 0, 0, 1⟩ : Quadrant).level ∧
          int_and (int_shr (p4est_quadrant_child_id ⟨262144, 0, 0, 1⟩) (1 / 2)) 1 =
            int_and 1 1) ∧
      (0 < (⟨262144, 0, 0, 1⟩ : Quadrant).level ∧
          int_and (int_shr (p4est_quadrant_child_id ⟨262144, 0, 0, 1⟩) (1 / 2)) 1 =
            int_and 1 1 →
        n 5 = p4est_quadrant_face_neighbor (p4est_quadrant_parent ⟨262144, 0, 0, 1⟩) 1 ∧
          (n 5).level = (⟨262144, 0, 0, 1⟩ : Quadrant).level - 1) ∧
      (¬ (0 < (⟨262144, 0, 0, 1⟩ : Quadrant).level ∧
          int_and (int_shr (p4est_quadrant_child_id ⟨262144, 0, 0, 1⟩) (1 / 2)) 1 =
            int_and 1 1) →
        n 5 = P8EST_QUADRANT_INIT ∧ (n 5).level = -1) :=
  all_face_neighbors_parent_slot ⟨262144, 0, 0, 1⟩ 1 (by decide) (by decide) (by decide)

/-- C18: for every octant `q` of level `l` with `0 ≤ l ≤ QMAXLEVEL` (valid or not) and
every face `f` in `[0, 6)`, `p4est_quadrant_all_face_neighbors` sets `n[4]` to the
same-level face neighbour of `q`, which is `q` moved along the axis `f / 2` by `-QLEN(l)`
for `f & 1 = 0` and by `+QLEN(l)` for `f & 1 = 1`; it sets `n[0..3]` to the four octants
of `p4est_quadrant_half_face_neighbors (q, f, n, NULL)` when `l < QMAXLEVEL` and to the
marker of `P8EST_QUADRANT_INIT` (level `-1`) when `l = QMAXLEVEL`, and each of `n[0..3]`
is the marker exactly when `l = QMAXLEVEL`. -/
theorem all_face_neighbors_same_half (q : Quadrant) (f : Int) (h0 : 0 ≤ q.level)
    (hl : q.level ≤ P8EST_QMAXLEVEL) (hf : 0 ≤ f ∧ f < 6) :
    ∃ n, p4est_quadrant_all_face_neighbors q f = some n ∧
      n 4 = p4est_quadrant_face_neighbor q f ∧
      (n 4).level = q.level ∧
      (n 4).coord (f / 2) = (q.coord (f / 2)).map (fun c =>
        c + (if int_and f 1 = 0 then -P8EST_QUADRANT_LEN q.level
          else P8EST_QUADRANT_LEN q.level)) ∧
      (n 4).coord (lower_transverse (f / 2)) = q.coord (lower_transverse (f / 2)) ∧
      (n 4).coord (higher_transverse (f / 2)) = q.coord (higher_transverse (f / 2)) ∧
      (q.level < P8EST_QMAXLEVEL →
        ∃ h, p4est_quadrant_half_face_neighbors q f false = some (h, none) ∧
          n 0 = h 0 ∧ n 1 = h 1 ∧ n 2 = h 2 ∧ n 3 = h 3) ∧
      (q.level = P8EST_QMAXLEVEL →
        n 0 = P8EST_QUADRANT_INIT ∧ n 1 = P8EST_QUADRANT_INIT ∧
        n 2 = P8EST_QUADRANT_INIT ∧ n 3 = P8EST_QUADRANT_INIT) ∧
      (n 0 = P8EST_QUADRANT_INIT ↔ q.level = P8EST_QMAXLEVEL) ∧
      (n 1 = P8EST_QUADRANT_INIT ↔ q.level = P8EST_QMAXLEVEL) ∧
      (n 2 = P8EST_QUADRANT_INIT ↔ q.level = P8EST_QMAXLEVEL) ∧
      (n 3 = P8EST_QUADRANT_INIT ↔ q.level = P8EST_QMAXLEVEL) := by
  have hface : (p4est_quadrant_face_neighbor q f).level = q.level ∧
      (p4est_quadrant_face_neighbor q f).coord (f / 2) = (q.coord (f / 2)).map (fun c =>
        c + (if int_and f 1 = 0 then -P8EST_QUADRANT_LEN q.level
          else P8EST_QUADRANT_LEN q.level)) ∧
      (p4est_quadrant_face_neighbor q f).coord (lower_transverse (f / 2)) =
        q.coord (lower_transverse (f / 2)) ∧
      (p4est_quadrant_face_neighbor q f).coord (higher_transverse (f / 2)) =
        q.coord (higher_transverse (f / 2)) := by
    obtain ⟨hf0, hf6⟩ := hf
    unfold p4est_quadrant_face_neighbor
    generalize (if int_and f 1 = 0 then -P8EST_QUADRANT_LEN q.level
      else P8EST_QUADRANT_LEN q.level) = d
    interval_cases f <;> simp [Quadrant.coord, lower_transverse, higher_transverse]
  have hinit : P8EST_QUADRANT_INIT.level = -1 := rfl
  by_cases hq : q.level = P8EST_QMAXLEVEL
  · obtain ⟨n, hn, n0, n1, n2, n3, h4, -⟩ := all_face_neighbors_finest q f hq
    refine ⟨n, hn, h4, ?_, ?_, ?_, ?_, fun hlt => absurd hq (ne_of_lt hlt),
      fun _ => ⟨n0, n1, n2, n3⟩, ⟨fun _ => hq, fun _ => n0⟩, ⟨fun _ => hq, fun _ => n1⟩,
      ⟨fun _ => hq, fun _ => n2⟩, ⟨fun _ => hq, fun _ => n3⟩⟩
    · rw [h4]; exact hface.1
    · rw [h4]; exact hface.2.1
    · rw [h4]; exact hface.2.2.1
    · rw [h4]; exact hface.2.2.2
  · obtain ⟨h, hh, hlev⟩ := half_face_neighbors_some q f h0 (lt_of_le_of_ne hl hq) hf
    obtain ⟨n, hn, n0, n1, n2, n3, h4, -⟩ := all_face_neighbors_spec q f h hq hh
    have hne : ∀ i : Fin 4, h i ≠ P8EST_QUADRANT_INIT := by
      intro i hi
      have := hlev i
      rw [hi, hinit] at this
      omega
    refine ⟨n, hn, h4, ?_, ?_, ?_, ?_, fun _ => ⟨h, hh, n0, n1, n2, n3⟩,
      fun he => absurd he hq, ⟨fun he => ?_, fun he => absurd he hq⟩,
      ⟨fun he => ?_, fun he => absurd he hq⟩, ⟨fun he => ?_, fun he => absurd he hq⟩,
      ⟨fun he => ?_, fun he => absurd he hq⟩⟩
    · rw [h4]; exact hface.1
    · rw [h4]; exact hface.2.1
    · rw [h4]; exact hface.2.2.1
    · rw [h4]; exact hface.2.2.2
    · exact absurd (n0 ▸ he) (hne 0)
    · exact absurd (n1 ▸ he) (hne 1)
    · exact absurd (n2 ▸ he) (hne 2)
    · exact absurd (n3 ▸ he) (hne 3)

theorem all_face_neighbors_same_half_witness :
    ∃ n, p4est_quadrant_all_face_neighbors ⟨262144, 0, 0, 1⟩ 2 = some n ∧
      n 4 = p4est_quadrant_face_neighbor ⟨262144, 0, 0, 1⟩ 2 ∧
      (n 4).level = (⟨262144, 0, 0, 1⟩ : Quadrant).level ∧
      (n 4).coord (2 / 2) = ((⟨262144, 0, 0, 1⟩ : Quadrant).coord (2 / 2)).map (fun c =>
        c + (if int_and 2 1 = 0 then -P8EST_QUADRANT_LEN (⟨262144, 0, 0, 1⟩ : Quadrant).level
          else P8EST_QUADRANT_LEN (⟨262144, 0, 0, 1⟩ : Quadrant).level)) ∧
      (n 4).coord (lower_transverse (2 / 2)) =
        (⟨262144, 0, 0, 1⟩ : Quadrant).coord (lower_transverse (2 / 2)) ∧
      (n 4).coord (higher_transverse (2 / 2)) =
        (⟨262144, 0, 0, 1⟩ : Quadrant).coord (higher_transverse (2 / 2)) ∧
      ((⟨262144, 0, 0, 1⟩ : Quadrant).level < P8EST_QMAXLEVEL →
        ∃ h, p4est_quadrant_half_face_neighbors ⟨262144, 0, 0, 1⟩ 2 false = some (h, none) ∧
          n 0 = h 0 ∧ n 1 = h 1 ∧ n 2 = h 2 ∧ n 3 = h 3) ∧
      ((⟨262144, 0, 0, 1⟩ : Quadrant).level = P8EST_QMAXLEVEL →
        n 0 = P8EST_QUADRANT_INIT ∧ n 1 = P8EST_QUADRANT_INIT ∧
        n 2 = P8EST_QUADRANT_INIT ∧ n 3 = P8EST_QUADRANT_INIT) ∧
      (n 0 = P8EST_QUADRANT_INIT ↔ (⟨262144, 0, 0, 1⟩ : Quadrant).level = P8EST_QMAXLEVEL) ∧
      (n 1 = P8EST_QUADRANT_INIT ↔ (⟨262144, 0, 0, 1⟩ : Quadrant).level = P8EST_QMAXLEVEL) ∧
      (n 2 = P8EST_QUADRANT_INIT ↔ (⟨262144, 0, 0, 1⟩ : Quadrant).level = P8EST_QMAXLEVEL) ∧
      (n 3 = P8EST_QUADRANT_INIT ↔ (⟨262144, 0, 0, 1⟩ : Quadrant).level = P8EST_QMAXLEVEL) :=
  all_face_neighbors_same_half ⟨262144, 0, 0, 1⟩ 2 (by decide) (by decide) (by decide)

/-! ## Coordinates of the edge transform -/

/-- Three writes through `target_xyz` at three different axes, followed by the write of
the level. -/
theorem set_coord_three (r0 : Quadrant) (a0 a1 a2 v0 v1 v2 l : Int)
    (h0 : 0 ≤ a0 ∧ a0 < 3) (h1 : 0 ≤ a1 ∧ a1 < 3) (h2 : 0 ≤ a2 ∧ a2 < 3)
    (d01 : a0 ≠ a1) (d02 : a0 ≠ a2) (d12 : a1 ≠ a2) :
    ∃ r, ((r0.set_coord a0 v0).bind fun r =>
        ((r.set_coord a1 v1).bind fun r => r.set_coord a2 v2).bind fun r =>
          some { r with level := l }) = some r ∧
      r.level = l ∧ r.coord a0 = some v0 ∧ r.coord a1 = some v1 ∧ r.coord a2 = some v2 := by
  obtain ⟨h00, h03⟩ := h0
  obtain ⟨h10, h13⟩ := h1
  obtain ⟨h20, h23⟩ := h2
  interval_cases a0 <;> interval_cases a1 <;> interval_cases a2 <;>
    simp at d01 d02 d12 <;> simp [Quadrant.set_coord, Quadrant.coord]

/-- C19: for every octant `q` of a level `l` other than `MAXLEVEL` (not a node), every
`iedge` in `[0, 12)` and every edge transform that passes the assertions of
`p8est_quadrant_transform_edge` (`naxis` a permutation of `{0, 1, 2}`) with `corners` in
`[0, 4)`, the result `r` has the level `l`; with `p` the coordinate of `q` along the axis
`iedge / 4`, `r[naxis[0]]` is `p` for `nflip = 0` and `ROOT_LEN - QLEN(l) - p` for
`nflip = 1` (as for every `nflip` other than `0`); `r[naxis[1]]` is `upper` if
`corners & 1` and `lower` otherwise; `r[naxis[2]]` is `upper` if `corners & 2` and `lower`
otherwise, where `(lower, upper)` is `(0, ROOT_LEN - QLEN(l))` for `inside` true and
`(-QLEN(l), ROOT_LEN)` for `inside` false. -/
theorem transform_edge_coords (q r0 : Quadrant) (iedge : Int) (et : EdgeTransform)
    (inside : Bool) (hnode : q.level ≠ P8EST_MAXLEVEL) (hi : 0 ≤ iedge ∧ iedge < 12)
    (h0 : 0 ≤ et.naxis 0 ∧ et.naxis 0 < 3) (h1 : 0 ≤ et.naxis 1 ∧ et.naxis 1 < 3)
    (h2 : 0 ≤ et.naxis 2 ∧ et.naxis 2 < 3)
    (hd : et.naxis 0 ≠ et.naxis 1 ∧ et.naxis 0 ≠ et.naxis 2 ∧ et.naxis 1 ≠ et.naxis 2)
    (hco : 0 ≤ et.corners ∧ et.corners < 4) :
    ∃ r p, p8est_quadrant_transform_edge q r0 iedge et inside = some r ∧
      q.coord (iedge / 4) = some p ∧
      r.level = q.level ∧
      r.coord (et.naxis 0) =
        some (if et.nflip = 0 then p
          else P8EST_ROOT_LEN - P8EST_QUADRANT_LEN q.level - p) ∧
      r.coord (et.naxis 1) =
        some (if int_and et.corners 1 ≠ 0
          then (if inside then P8EST_ROOT_LEN - P8EST_QUADRANT_LEN q.level
            else P8EST_ROOT_LEN)
          else (if inside then 0 else -P8EST_QUADRANT_LEN q.level)) ∧
      r.coord (et.naxis 2) =
        some (if int_and et.corners 2 ≠ 0
          then (if inside then P8EST_ROOT_LEN - P8EST_QUADRANT_LEN q.level
            else P8EST_ROOT_LEN)
          else (if inside then 0 else -P8EST_QUADRANT_LEN q.level)) := by
  obtain ⟨hi0, hi12⟩ := hi
  obtain ⟨d01, d02, d12⟩ := hd
  obtain ⟨hc0, hc4⟩ := hco
  obtain ⟨p, hp, hp2⟩ : ∃ p, (if iedge / 4 = 0 then some q.x else if iedge / 4 = 1 then some q.y
      else if iedge / 4 = 2 then some q.z else none) = some p ∧
      q.coord (iedge / 4) = some p := by
    have : iedge / 4 = 0 ∨ iedge / 4 = 1 ∨ iedge / 4 = 2 := by omega
    rcases this with h | h | h <;> simp [h, Quadrant.coord]
  have hsub : P8EST_ROOT_LEN + -P8EST_QUADRANT_LEN q.level - p =
      P8EST_ROOT_LEN - P8EST_QUADRANT_LEN q.level - p := by ring
  have hsub2 : P8EST_ROOT_LEN + -P8EST_QUADRANT_LEN q.level =
      P8EST_ROOT_LEN - P8EST_QUADRANT_LEN q.level := by ring
  have t : int_and 0 1 = 0 ∧ int_and 0 2 = 0 ∧ int_and 1 1 = 1 ∧ int_and 1 2 = 0 ∧
      int_and 2 1 = 0 ∧ int_and 2 2 = 2 ∧ int_and 3 1 = 1 ∧ int_and 3 2 = 2 := by decide
  obtain ⟨t01, t02, t11, t12, t21, t22, t31, t32⟩ := t
  suffices H : ∃ r, p8est_quadrant_transform_edge q r0 iedge et inside = some r ∧
      r.level = q.level ∧
      r.coord (et.naxis 0) =
        some (if et.nflip = 0 then p
          else P8EST_ROOT_LEN - P8EST_QUADRANT_LEN q.level - p) ∧
      r.coord (et.naxis 1) =
        some (if int_and et.corners 1 ≠ 0
          then (if inside then P8EST_ROOT_LEN - P8EST_QUADRANT_LEN q.level
            else P8EST_ROOT_LEN)
          else (if inside then 0 else -P8EST_QUADRANT_LEN q.level)) ∧
      r.coord (et.naxis 2) =
        some (if int_and et.corners 2 ≠ 0
          then (if inside then P8EST_ROOT_LEN - P8EST_QUADRANT_LEN q.level
            else P8EST_ROOT_LEN)
          else (if inside then 0 else -P8EST_QUADRANT_LEN q.level)) by
    obtain ⟨r, hr, hrest⟩ := H
    exact ⟨r, p, hr, hp2, hrest⟩
  simp only [p8est_quadrant_transform_edge, hp, Option.some_bind, if_neg hnode, hsub, hsub2]
  generalize (if et.nflip = 0 then p
    else P8EST_ROOT_LEN - P8EST_QUADRANT_LEN q.level - p) = v0
  generalize (if inside then P8EST_ROOT_LEN - P8EST_QUADRANT_LEN q.level
    else P8EST_ROOT_LEN) = upper
  generalize (if inside = true then (0 : Int) else -P8EST_QUADRANT_LEN q.level) = lower
  have hcases : et.corners = 0 ∨ et.corners = 1 ∨ et.corners = 2 ∨ et.corners = 3 := by omega
  rcases hcases with hc | hc | hc | hc <;> rw [hc] <;>
    simp only [t01, t02, t11, t12, t21, t22, t31, t32] <;> norm_num
  · obtain ⟨r, hr, hl, c0, c1, c2⟩ :=
      set_coord_three r0 _ _ _ v0 lower lower q.level h0 h1 h2 d01 d02 d12
    exact ⟨r, hr, hl, c0, c1, c2⟩
  · obtain ⟨r, hr, hl, c0, c1, c2⟩ :=
      set_coord_three r0 _ _ _ v0 upper lower q.level h0 h1 h2 d01 d02 d12
    exact ⟨r, hr, hl, c0, c1, c2⟩
  · obtain ⟨r, hr, hl, c0, c1, c2⟩ :=
      set_coord_three r0 _ _ _ v0 lower upper q.level h0 h1 h2 d01 d02 d12
    exact ⟨r, hr, hl, c0, c1, c2⟩
  · obtain ⟨r, hr, hl, c0, c1, c2⟩ :=
      set_coord_three r0 _ _ _ v0 upper upper q.level h0 h1 h2 d01 d02 d12
    exact ⟨r, hr, hl, c0, c1, c2⟩

theorem transform_edge_coords_witness :
    ∃ r p, p8est_quadrant_transform_edge ⟨-65536, 131072, 524288, 3⟩ ⟨0, 0, 0, 0⟩ 6
        ⟨9, naxis_of 2 0 1, 1, 1⟩ true = some r ∧
      (⟨-65536, 131072, 524288, 3⟩ : Quadrant).coord (6 / 4) = some p ∧
      r.level = (⟨-65536, 131072, 524288, 3⟩ : Quadrant).level ∧
      r.coord ((⟨9, naxis_of 2 0 1, 1, 1⟩ : EdgeTransform).naxis 0) =
        some (if (⟨9, naxis_of 2 0 1, 1, 1⟩ : EdgeTransform).nflip = 0 then p
          else P8EST_ROOT_LEN -
            P8EST_QUADRANT_LEN (⟨-65536, 131072, 524288, 3⟩ : Quadrant).level - p) ∧
      r.coord ((⟨9, naxis_of 2 0 1, 1, 1⟩ : EdgeTransform).naxis 1) =
        some (if int_and (⟨9, naxis_of 2 0 1, 1, 1⟩ : EdgeTransform).corners 1 ≠ 0
          then (if true then P8EST_ROOT_LEN -
              P8EST_QUADRANT_LEN (⟨-65536, 131072, 524288, 3⟩ : Quadrant).level
            else P8EST_ROOT_LEN)
          else (if true then 0
            else -P8EST_QUADRANT_LEN (⟨-65536, 131072, 524288, 3⟩ : Quadrant).level)) ∧
      r.coord ((⟨9, naxis_of 2 0 1, 1, 1⟩ : EdgeTransform).naxis 2) =
        some (if int_and (⟨9, naxis_of 2 0 1, 1, 1⟩ : EdgeTransform).corners 2 ≠ 0
          then (if true then P8EST_ROOT_LEN -
              P8EST_QUADRANT_LEN (⟨-65536, 131072, 524288, 3⟩ : Quadrant).level
            else P8EST_ROOT_LEN)
          else (if true then 0
            else -P8EST_QUADRANT_LEN (⟨-65536, 131072, 524288, 3⟩ : Quadrant).level)) :=
  transform_edge_coords ⟨-65536, 131072, 524288, 3⟩ ⟨0, 0, 0, 0⟩ 6 ⟨9, naxis_of 2 0 1, 1, 1⟩
    true (by decide) (by decide) (by decide) (by decide) (by decide) (by decide) (by decide)

/-! ## The shift loop at the root octant -/

/-- C20 (defect): the loop of `p8est_quadrant_shift_edge` on the root octant `(0, 0, 0)`
of level 0 with the edge 0.  The octant is valid and the edge is in `[0, 12)`, so that the
entry assertions hold, and the octant touches the edge 0 from inside.  In the first pass
the sibling is the octant itself and `th = LAST_OFFSET(0) = 0`, so that both tests
`r->y <= 0` and `r->y >= th` fire, and likewise for `z`: the outface mask is `0x3c`, not
the contact pattern `0x14`, and the loop does not exit after `l = 0` ancestor steps.  It
takes the parent of the level-0 octant, of level `-1`, and steps it by
`QLEN(-1) = 2^20` to `(0, -2097152, -2097152)`, an octant that is not extended: the
assertion that closes the pass (line 795) is false.  The loop exits in its second pass,
and the octant returned, `(0, 0, 0)` of level `-1`, is not valid. -/
theorem shift_edge_root_defect :
    p4est_quadrant_is_valid ⟨0, 0, 0, 0⟩ = true ∧
    p8est_quadrant_touches_edge ⟨0, 0, 0, 0⟩ 0 true = true ∧
    shift_edge_switch 0 (p4est_quadrant_child_id ⟨0, 0, 0, 0⟩) = some (0, 0, -1, -1) ∧
    p4est_quadrant_sibling ⟨0, 0, 0, 0⟩ 0 = ⟨0, 0, 0, 0⟩ ∧
    P8EST_LAST_OFFSET 0 = 0 ∧
    shift_edge_outface ⟨0, 0, 0, 0⟩ 0 0 (-1) (-1) = 0x3c ∧
    shift_edge_contact 0 = some 0x14 ∧
    shift_edge_loop 1 ⟨0, 0, 0, 0⟩ 0 = none ∧
    p4est_quadrant_parent ⟨0, 0, 0, 0⟩ = ⟨0, 0, 0, -1⟩ ∧
    P8EST_QUADRANT_LEN (-1) = 1048576 ∧
    p4est_quadrant_is_extended ⟨0, -2097152, -2097152, -1⟩ = false ∧
    shift_edge_loop 2 ⟨0, 0, 0, 0⟩ 0 = shift_edge_loop 1 ⟨0, -2097152, -2097152, -1⟩ 0 ∧
    p8est_quadrant_shift_edge 2 ⟨0, 0, 0, 0⟩ 0 = some ⟨0, 0, 0, -1⟩ ∧
    p4est_quadrant_is_valid ⟨0, 0, 0, -1⟩ = false := by
  decide

/-! ## The face transform and the root -/

/-- Multiples of `d` that are less than a multiple `a` of `d` are at most `a - d`, and
those above `a - d` are at least `a`. -/
theorem aligned_step (m a d : Int) (hd : 0 < d) (hm : m % d = 0) (ha : a % d = 0) :
    (m < a → m + d ≤ a) ∧ (a - d < m → a ≤ m) := by
  obtain ⟨k, hk⟩ := Int.dvd_of_emod_eq_zero hm
  obtain ⟨j, hj⟩ := Int.dvd_of_emod_eq_zero ha
  subst hk hj
  constructor
  · intro h
    have : k < j := lt_of_mul_lt_mul_left h (le_of_lt hd)
    nlinarith
  · intro h
    have : d * (j - 1) < d * k := by linarith
    have : j - 1 < k := lt_of_mul_lt_mul_left this (le_of_lt hd)
    nlinarith

/-- A property of all three coordinates of an octant, read along a permutation of the
axes. -/
theorem coord_perm_all (P : Int → Prop) (r : Quadrant) (a0 a1 a2 c0 c1 c2 : Int)
    (h0 : 0 ≤ a0 ∧ a0 < 3) (h1 : 0 ≤ a1 ∧ a1 < 3) (h2 : 0 ≤ a2 ∧ a2 < 3)
    (d01 : a0 ≠ a1) (d02 : a0 ≠ a2) (d12 : a1 ≠ a2)
    (e0 : r.coord a0 = some c0) (e1 : r.coord a1 = some c1) (e2 : r.coord a2 = some c2) :
    (P r.x ∧ P r.y ∧ P r.z) ↔ (P c0 ∧ P c1 ∧ P c2) := by
  obtain ⟨h0a, h0b⟩ := h0
  obtain ⟨h1a, h1b⟩ := h1
  obtain ⟨h2a, h2b⟩ := h2
  interval_cases a0 <;> interval_cases a1 <;> simp at d01 <;>
    interval_cases a2 <;> simp at d02 d12 <;>
    simp [Quadrant.coord] at e0 e1 e2 <;>
    subst e0 e1 e2 <;> tauto

/-- Inside the root, coordinate by coordinate. -/
theorem is_inside_root_iff (q : Quadrant) :
    p4est_quadrant_is_inside_root q = true ↔
      (0 ≤ q.x ∧ q.x < P8EST_ROOT_LEN) ∧ (0 ≤ q.y ∧ q.y < P8EST_ROOT_LEN) ∧
        (0 ≤ q.z ∧ q.z < P8EST_ROOT_LEN) := by
  simp [p4est_quadrant_is_inside_root, and_assoc]

/-- A tangential coordinate of the face transform: it is in `[0, R)` iff the coordinate of
`q` is, and it is a multiple of the side length `Q`. -/
theorem tangential_inside (m Q R er : Int) (hQ : 0 < Q) (hm : m % Q = 0) (hR : R % Q = 0)
    (her : er = 0 ∨ er = 1) :
    ((0 ≤ (if er = 0 then m else R + -Q - m) ∧ (if er = 0 then m else R + -Q - m) < R) ↔
      (0 ≤ m ∧ m < R)) ∧
    (if er = 0 then m else R + -Q - m) % Q = 0 := by
  have s0 := not_or_of_imp (aligned_step m 0 Q hQ hm (Int.zero_emod _)).2
  have sR := not_or_of_imp (aligned_step m R Q hQ hm hR).1
  have hd : (R + -Q - m) % Q = 0 :=
    Int.emod_eq_zero_of_dvd (dvd_sub (dvd_add (Int.dvd_of_emod_eq_zero hR)
      ((Int.dvd_neg).mpr (dvd_refl Q))) (Int.dvd_of_emod_eq_zero hm))
  rcases her with rfl | rfl
  · rw [if_pos rfl]
    exact ⟨Iff.rfl, hm⟩
  · rw [if_neg (by decide)]
    refine ⟨⟨fun h => ?_, fun h => ?_⟩, hd⟩ <;> omega

/-- The normal coordinate of the face transform: it is in `[0, R)` iff the coordinate of
`q` is in `[-R, 0)` for the codes 0 and 1 and in `[R, 2 R)` for the codes 2 and 3, and it
is a multiple of the side length `Q`. -/
theorem normal_inside (m Q R er : Int) (hQ : 0 < Q) (hm : m % Q = 0) (hR : R % Q = 0)
    (her : er = 0 ∨ er = 1 ∨ er = 2 ∨ er = 3) :
    ((0 ≤ (if er = 0 then -Q - m else if er = 1 then m + R else if er = 2 then m - R
          else R + (R + -Q) - m) ∧
        (if er = 0 then -Q - m else if er = 1 then m + R else if er = 2 then m - R
          else R + (R + -Q) - m) < R) ↔
      (if er ≤ 1 then -R ≤ m ∧ m < 0 else R ≤ m ∧ m < 2 * R)) ∧
    (if er = 0 then -Q - m else if er = 1 then m + R else if er = 2 then m - R
      else R + (R + -Q) - m) % Q = 0 := by
  have dR := Int.dvd_of_emod_eq_zero hR
  have dm := Int.dvd_of_emod_eq_zero hm
  have dQ : Q ∣ -Q := (Int.dvd_neg).mpr (dvd_refl Q)
  have zn : (-R) % Q = 0 := Int.emod_eq_zero_of_dvd ((Int.dvd_neg).mpr dR)
  have z2 : (2 * R) % Q = 0 := Int.emod_eq_zero_of_dvd (Dvd.dvd.mul_left dR 2)
  have s0 := not_or_of_imp (aligned_step m 0 Q hQ hm (Int.zero_emod _)).1
  have sn := not_or_of_imp (aligned_step m (-R) Q hQ hm zn).2
  have sR := not_or_of_imp (aligned_step m R Q hQ hm hR).2
  have s2 := not_or_of_imp (aligned_step m (2 * R) Q hQ hm z2).1
  rcases her with rfl | rfl | rfl | rfl
  · rw [if_pos rfl, if_pos (by decide)]
    refine ⟨⟨fun h => ?_, fun h => ?_⟩, Int.emod_eq_zero_of_dvd (dvd_sub dQ dm)⟩ <;> omega
  · rw [if_neg (by decide), if_pos rfl, if_pos (by decide)]
    refine ⟨⟨fun h => ?_, fun h => ?_⟩, Int.emod_eq_zero_of_dvd (dvd_add dm dR)⟩ <;> omega
  · rw [if_neg (by decide), if_neg (by decide), if_pos rfl, if_neg (by decide)]
    refine ⟨⟨fun h => ?_, fun h => ?_⟩, Int.emod_eq_zero_of_dvd (dvd_sub dm dR)⟩ <;> omega
  · rw [if_neg (by decide), if_neg (by decide), if_neg (by decide), if_neg (by decide)]
    refine ⟨⟨fun h => ?_, fun h => ?_⟩,
      Int.emod_eq_zero_of_dvd (dvd_sub (dvd_add dR (dvd_add dR dQ)) dm)⟩ <;> omega

/-- The face transform of an octant of a level in `[0, QMAXLEVEL]` whose coordinates `m0`,
`m1`, `m2` along `my_axis` are multiples of its side length: the coordinates `c0`, `c1`,
`c2` of `r` along `target_axis` are multiples of the side length; a tangential coordinate
of `r` is in `[0, ROOT_LEN)` iff that of `q` is; the normal coordinate of `r` is in
`[0, ROOT_LEN)` iff that of `q` is in `[-ROOT_LEN, 0)` for the codes 0 and 1 of
`edge_reverse[2]` and in `[ROOT_LEN, 2 ROOT_LEN)` for the codes 2 and 3. -/
theorem transform_face_coords_root (q r0 : Quadrant) (ft : Fin 9 → Int)
    (hft : ftransform_ok ft) (ha : q.aligned) (h0 : 0 ≤ q.level)
    (hl : q.level ≤ P8EST_QMAXLEVEL) :
    ∃ r m0 m1 m2 c0 c1 c2, p8est_quadrant_transform_face q r0 ft = some r ∧
      q.coord (my_axis ft 0) = some m0 ∧ q.coord (my_axis ft 1) = some m1 ∧
      q.coord (my_axis ft 2) = some m2 ∧
      r.coord (target_axis ft 0) = some c0 ∧ r.coord (target_axis ft 1) = some c1 ∧
      r.coord (target_axis ft 2) = some c2 ∧ r.level = q.level ∧
      ((0 ≤ c0 ∧ c0 < P8EST_ROOT_LEN) ↔ (0 ≤ m0 ∧ m0 < P8EST_ROOT_LEN)) ∧
      ((0 ≤ c1 ∧ c1 < P8EST_ROOT_LEN) ↔ (0 ≤ m1 ∧ m1 < P8EST_ROOT_LEN)) ∧
      ((0 ≤ c2 ∧ c2 < P8EST_ROOT_LEN) ↔
        (if edge_reverse ft 2 ≤ 1 then -P8EST_ROOT_LEN ≤ m2 ∧ m2 < 0
          else P8EST_ROOT_LEN ≤ m2 ∧ m2 < 2 * P8EST_ROOT_LEN)) ∧
      (c0 % P8EST_QUADRANT_LEN q.level = 0 ∧ c1 % P8EST_QUADRANT_LEN q.level = 0 ∧
        c2 % P8EST_QUADRANT_LEN q.level = 0) ∧
      (p4est_quadrant_is_inside_root q = true ↔
        (0 ≤ m0 ∧ m0 < P8EST_ROOT_LEN) ∧ (0 ≤ m1 ∧ m1 < P8EST_ROOT_LEN) ∧
          (0 ≤ m2 ∧ m2 < P8EST_ROOT_LEN)) ∧
      (p4est_quadrant_is_inside_root r = true ↔
        (0 ≤ c0 ∧ c0 < P8EST_ROOT_LEN) ∧ (0 ≤ c1 ∧ c1 < P8EST_ROOT_LEN) ∧
          (0 ≤ c2 ∧ c2 < P8EST_ROOT_LEN)) ∧
      r.aligned := by
  have hne : q.level ≠ P8EST_MAXLEVEL := by
    unfold P8EST_QMAXLEVEL at hl; unfold P8EST_MAXLEVEL; omega
  have h19 : q.level ≤ P8EST_MAXLEVEL := by
    unfold P8EST_QMAXLEVEL at hl; unfold P8EST_MAXLEVEL; omega
  obtain ⟨r, m0, m1, m2, hr, q0, q1, q2, hlev, c0, c1, c2⟩ :=
    transform_face_spec q r0 ft hft (-P8EST_QUADRANT_LEN q.level) (by rw [if_neg hne])
  obtain ⟨hm, ht, ⟨m01, m02, m12⟩, ⟨t01, t02, t12⟩, e0, e1, e2⟩ := hft
  have hQ := p8est_quadrant_len_pos q.level
  obtain ⟨hQR, hRQ⟩ := quadrant_len_le_root q.level h0 h19
  have hal := (coord_perm_all (fun c => c % P8EST_QUADRANT_LEN q.level = 0) q _ _ _ m0 m1 m2
    (hm 0) (hm 1) (hm 2) m01 m02 m12 q0 q1 q2).mp ha
  obtain ⟨a0, a1, a2⟩ := hal
  have hqin := (is_inside_root_iff q).trans
    (coord_perm_all (fun c => 0 ≤ c ∧ c < P8EST_ROOT_LEN) q _ _ _ m0 m1 m2
      (hm 0) (hm 1) (hm 2) m01 m02 m12 q0 q1 q2)
  have hrin := (is_inside_root_iff r).trans
    (coord_perm_all (fun c => 0 ≤ c ∧ c < P8EST_ROOT_LEN) r _ _ _ _ _ _
      (ht 0) (ht 1) (ht 2) t01 t02 t12 c0 c1 c2)
  have hral := (coord_perm_all (fun c => c % P8EST_QUADRANT_LEN q.level = 0) r _ _ _ _ _ _
    (ht 0) (ht 1) (ht 2) t01 t02 t12 c0 c1 c2)
  beta_reduce at a0 a1 a2 hqin hrin hral
  have h0c : edge_reverse ft 0 = 0 ∨ edge_reverse ft 0 = 1 := by omega
  have h1c : edge_reverse ft 1 = 0 ∨ edge_reverse ft 1 = 1 := by omega
  have h2c : edge_reverse ft 2 = 0 ∨ edge_reverse ft 2 = 1 ∨ edge_reverse ft 2 = 2 ∨
      edge_reverse ft 2 = 3 := by omega
  obtain ⟨i0, l0⟩ := tangential_inside m0 _ _ _ hQ a0 hRQ h0c
  obtain ⟨i1, l1⟩ := tangential_inside m1 _ _ _ hQ a1 hRQ h1c
  obtain ⟨i2, l2⟩ := normal_inside m2 _ _ _ hQ a2 hRQ h2c
  refine ⟨r, m0, m1, m2, _, _, _, hr, q0, q1, q2, c0, c1, c2, hlev, i0, i1, i2,
    ⟨l0, l1, l2⟩, hqin, hrin, ?_⟩
  unfold Quadrant.aligned
  rw [hlev, hral]
  exact ⟨l0, l1, l2⟩

/-- C21 (amended): for every octant `q` of a level in `[0, QMAXLEVEL]` whose coordinates
are multiples of its side length (every extended octant of these levels is one) and every
well-formed `ftransform`, with `r` the result of `p8est_quadrant_transform_face`: if `q`
is inside the root then `r` is not; and exactly one of `q` and `r` is inside the root, as
the closing debug assertion demands, iff `q` is inside the root, or the two tangential
coordinates of `q` are in `[0, ROOT_LEN)` and its normal coordinate is in `[-ROOT_LEN, 0)`
for the codes 0 and 1 of `edge_reverse[2]` and in `[ROOT_LEN, 2 ROOT_LEN)` for the codes 2
and 3. -/
theorem transform_face_one_inside (q r0 : Quadrant) (ft : Fin 9 → Int)
    (hft : ftransform_ok ft) (ha : q.aligned) (h0 : 0 ≤ q.level)
    (hl : q.level ≤ P8EST_QMAXLEVEL) :
    ∃ r m0 m1 m2, p8est_quadrant_transform_face q r0 ft = some r ∧
      q.coord (my_axis ft 0) = some m0 ∧ q.coord (my_axis ft 1) = some m1 ∧
      q.coord (my_axis ft 2) = some m2 ∧
      (p4est_quadrant_is_inside_root q = true → p4est_quadrant_is_inside_root r = false) ∧
      (((p4est_quadrant_is_inside_root q && !p4est_quadrant_is_inside_root r) ||
          (!p4est_quadrant_is_inside_root q && p4est_quadrant_is_inside_root r)) = true ↔
        p4est_quadrant_is_inside_root q = true ∨
          ((0 ≤ m0 ∧ m0 < P8EST_ROOT_LEN) ∧ (0 ≤ m1 ∧ m1 < P8EST_ROOT_LEN) ∧
            (if edge_reverse ft 2 ≤ 1 then -P8EST_ROOT_LEN ≤ m2 ∧ m2 < 0
              else P8EST_ROOT_LEN ≤ m2 ∧ m2 < 2 * P8EST_ROOT_LEN))) := by
  obtain ⟨r, m0, m1, m2, c0, c1, c2, hr, q0, q1, q2, -, -, -, -, i0, i1, i2, -, hqin, hrin, -⟩ :=
    transform_face_coords_root q r0 ft hft ha h0 hl
  rw [i0, i1, i2] at hrin
  have hR : (0 : Int) < P8EST_ROOT_LEN := by decide
  have hexcl : p4est_quadrant_is_inside_root q = true →
      p4est_quadrant_is_inside_root r = false := by
    intro hq
    rw [hqin] at hq
    rw [Bool.eq_false_iff]
    intro hrr
    rw [hrin] at hrr
    obtain ⟨-, -, hb⟩ := hrr
    obtain ⟨-, -, hq2⟩ := hq
    split_ifs at hb <;> omega
  refine ⟨r, m0, m1, m2, hr, q0, q1, q2, hexcl, ?_⟩
  rw [← hrin]
  cases hq : p4est_quadrant_is_inside_root q
  · simp
  · simp [hexcl hq]

theorem transform_face_one_inside_witness :
    ∃ r m0 m1 m2, p8est_quadrant_transform_face ⟨0, 262144, 0, 1⟩ ⟨0, 0, 0, 0⟩
        (ftransform_of 0 1 2 1 0 2 0 1 3) = some r ∧
      (⟨0, 262144, 0, 1⟩ : Quadrant).coord (my_axis (ftransform_of 0 1 2 1 0 2 0 1 3) 0) =
        some m0 ∧
      (⟨0, 262144, 0, 1⟩ : Quadrant).coord (my_axis (ftransform_of 0 1 2 1 0 2 0 1 3) 1) =
        some m1 ∧
      (⟨0, 262144, 0, 1⟩ : Quadrant).coord (my_axis (ftransform_of 0 1 2 1 0 2 0 1 3) 2) =
        some m2 ∧
      (p4est_quadrant_is_inside_root ⟨0, 262144, 0, 1⟩ = true →
        p4est_quadrant_is_inside_root r = false) ∧
      (((p4est_quadrant_is_inside_root ⟨0, 262144, 0, 1⟩ &&
            !p4est_quadrant_is_inside_root r) ||
          (!p4est_quadrant_is_inside_root ⟨0, 262144, 0, 1⟩ &&
            p4est_quadrant_is_inside_root r)) = true ↔
        p4est_quadrant_is_inside_root ⟨0, 262144, 0, 1⟩ = true ∨
          ((0 ≤ m0 ∧ m0 < P8EST_ROOT_LEN) ∧ (0 ≤ m1 ∧ m1 < P8EST_ROOT_LEN) ∧
            (if edge_reverse (ftransform_of 0 1 2 1 0 2 0 1 3) 2 ≤ 1
              then -P8EST_ROOT_LEN ≤ m2 ∧ m2 < 0
              else P8EST_ROOT_LEN ≤ m2 ∧ m2 < 2 * P8EST_ROOT_LEN))) :=
  transform_face_one_inside ⟨0, 262144, 0, 1⟩ ⟨0, 0, 0, 0⟩ (ftransform_of 0 1 2 1 0 2 0 1 3)
    (by decide) (by decide) (by decide) (by decide)

/-- C21, as stated, fails: the octant `(ROOT_LEN, 0, 0)` of level 1 is extended and outside
the root; with the well-formed `ftransform` `([0,1,2], [0,1,2], [0,0,1])` the result of
`p8est_quadrant_transform_face` is `(ROOT_LEN, 0, ROOT_LEN)`, extended and outside the root
as well, so that neither of `q` and `r` is inside the root and the expression of the
closing debug assertion is false. -/
theorem transform_face_one_inside_counterexample :
    p4est_quadrant_is_extended ⟨524288, 0, 0, 1⟩ = true ∧
    (⟨524288, 0, 0, 1⟩ : Quadrant).level ≤ P8EST_QMAXLEVEL ∧
    ftransform_ok (ftransform_of 0 1 2 0 1 2 0 0 1) ∧
    p8est_quadrant_transform_face ⟨524288, 0, 0, 1⟩ ⟨0, 0, 0, 0⟩
      (ftransform_of 0 1 2 0 1 2 0 0 1) = some ⟨524288, 0, 524288, 1⟩ ∧
    p4est_quadrant_is_extended ⟨524288, 0, 524288, 1⟩ = true ∧
    p4est_quadrant_is_inside_root ⟨524288, 0, 0, 1⟩ = false ∧
    p4est_quadrant_is_inside_root ⟨524288, 0, 524288, 1⟩ = false ∧
    ((p4est_quadrant_is_inside_root ⟨524288, 0, 0, 1⟩ &&
        !p4est_quadrant_is_inside_root ⟨524288, 0, 524288, 1⟩) ||
      (!p4est_quadrant_is_inside_root ⟨524288, 0, 0, 1⟩ &&
        p4est_quadrant_is_inside_root ⟨524288, 0, 524288, 1⟩)) = false := by
  decide

/-- C29: for every valid octant `q` of level at most `QMAXLEVEL` and every well-formed
`ftransform`, the result `r` of `p8est_quadrant_transform_face` is not inside the root:
its coordinate along `target_axis[2]` is `< 0` or `≥ ROOT_LEN`, its two tangential
coordinates, along `target_axis[0]` and `target_axis[1]`, are in `[0, ROOT_LEN)`, and all
its coordinates are multiples of `QLEN(level)`, `r` having the level of `q`. -/
theorem transform_face_leaves_root (q r0 : Quadrant) (ft : Fin 9 → Int)
    (hft : ftransform_ok ft) (hv : p4est_quadrant_is_valid q = true)
    (hl : q.level ≤ P8EST_QMAXLEVEL) :
    ∃ r c0 c1 c2, p8est_quadrant_transform_face q r0 ft = some r ∧
      r.level = q.level ∧
      r.coord (target_axis ft 0) = some c0 ∧ r.coord (target_axis ft 1) = some c1 ∧
      r.coord (target_axis ft 2) = some c2 ∧
      (c2 < 0 ∨ c2 ≥ P8EST_ROOT_LEN) ∧
      (0 ≤ c0 ∧ c0 < P8EST_ROOT_LEN) ∧ (0 ≤ c1 ∧ c1 < P8EST_ROOT_LEN) ∧
      (c0 % P8EST_QUADRANT_LEN q.level = 0 ∧ c1 % P8EST_QUADRANT_LEN q.level = 0 ∧
        c2 % P8EST_QUADRANT_LEN q.level = 0) ∧
      r.aligned ∧ p4est_quadrant_is_inside_root r = false := by
  have hv2 := hv
  simp only [p4est_quadrant_is_valid, Bool.and_eq_true, decide_eq_true_eq] at hv2
  obtain ⟨⟨⟨⟨⟨h0, -⟩, hx⟩, hy⟩, hz⟩, ha⟩ := hv2
  have hqr : p4est_quadrant_is_inside_root q = true :=
    (is_inside_root_iff q).mpr ⟨hx, hy, hz⟩
  obtain ⟨r, m0, m1, m2, c0, c1, c2, hr, -, -, -, e0, e1, e2, hlev, i0, i1, i2, hal, hqin,
    hrin, hra⟩ := transform_face_coords_root q r0 ft hft ha h0 hl
  obtain ⟨b0, b1, b2⟩ := hqin.mp hqr
  have hR : (0 : Int) < P8EST_ROOT_LEN := by decide
  have hout : ¬ (0 ≤ c2 ∧ c2 < P8EST_ROOT_LEN) := by
    rw [i2]
    split_ifs <;> omega
  refine ⟨r, c0, c1, c2, hr, hlev, e0, e1, e2, by omega, i0.mpr b0, i1.mpr b1, hal, hra, ?_⟩
  rw [Bool.eq_false_iff]
  intro h
  exact hout (hrin.mp h).2.2

theorem transform_face_leaves_root_witness :
    ∃ r c0 c1 c2, p8est_quadrant_transform_face ⟨0, 262144, 0, 1⟩ ⟨0, 0, 0, 0⟩
        (ftransform_of 0 1 2 1 0 2 0 1 3) = some r ∧
      r.level = (⟨0, 262144, 0, 1⟩ : Quadrant).level ∧
      r.coord (target_axis (ftransform_of 0 1 2 1 0 2 0 1 3) 0) = some c0 ∧
      r.coord (target_axis (ftransform_of 0 1 2 1 0 2 0 1 3) 1) = some c1 ∧
      r.coord (target_axis (ftransform_of 0 1 2 1 0 2 0 1 3) 2) = some c2 ∧
      (c2 < 0 ∨ c2 ≥ P8EST_ROOT_LEN) ∧
      (0 ≤ c0 ∧ c0 < P8EST_ROOT_LEN) ∧ (0 ≤ c1 ∧ c1 < P8EST_ROOT_LEN) ∧
      (c0 % P8EST_QUADRANT_LEN (⟨0, 262144, 0, 1⟩ : Quadrant).level = 0 ∧
        c1 % P8EST_QUADRANT_LEN (⟨0, 262144, 0, 1⟩ : Quadrant).level = 0 ∧
        c2 % P8EST_QUADRANT_LEN (⟨0, 262144, 0, 1⟩ : Quadrant).level = 0) ∧
      r.aligned ∧ p4est_quadrant_is_inside_root r = false :=
  transform_face_leaves_root ⟨0, 262144, 0, 1⟩ ⟨0, 0, 0, 0⟩ (ftransform_of 0 1 2 1 0 2 0 1 3)
    (by decide) (by decide) (by decide)

/-! ## Range of the values of the face transform -/

/-- A value of absolute value below `2^21` is a `p4est_qcoord_t` value, and reducing it to
32 bits does not change it. -/
theorem small_value_fits (v : Int) (h : |v| < 2 ^ 21) :
    is_qcoord v ∧ ofU32 (toU32 v) = v := by
  obtain ⟨h1, h2⟩ := abs_lt.mp h
  have hq : is_qcoord v := by
    unfold is_qcoord
    norm_num at h1 h2
    omega
  exact ⟨hq, ofU32_toU32 v hq⟩

/-- C22: for every octant `q` whose coordinates lie in `[-ROOT_LEN, 2 ROOT_LEN)`, of a level
in `[0, MAXLEVEL]`, and every well-formed `ftransform`, `p8est_quadrant_transform_face`
returns, the three coordinates it writes are the last three of the values listed by
`transform_face_values`, and every value it computes (`mh`, `Rmh`, `tRmh` and the three
result coordinates) has an absolute value below `2^21`: it is a `p4est_qcoord_t` value, and
its reduction to 32 bits is the value itself. -/
theorem transform_face_values_bound (q r0 : Quadrant) (ft : Fin 9 → Int)
    (hft : ftransform_ok ft)
    (hx : -P8EST_ROOT_LEN ≤ q.x ∧ q.x < 2 * P8EST_ROOT_LEN)
    (hy : -P8EST_ROOT_LEN ≤ q.y ∧ q.y < 2 * P8EST_ROOT_LEN)
    (hz : -P8EST_ROOT_LEN ≤ q.z ∧ q.z < 2 * P8EST_ROOT_LEN)
    (h0 : 0 ≤ q.level) (h19 : q.level ≤ P8EST_MAXLEVEL) :
    ∃ r mh Rmh tRmh v0 v1 v2,
      p8est_quadrant_transform_face q r0 ft = some r ∧
      transform_face_values q ft = some [mh, Rmh, tRmh, v0, v1, v2] ∧
      r.coord (target_axis ft 0) = some v0 ∧ r.coord (target_axis ft 1) = some v1 ∧
      r.coord (target_axis ft 2) = some v2 ∧
      ∀ v ∈ [mh, Rmh, tRmh, v0, v1, v2],
        |v| < 2 ^ (P8EST_MAXLEVEL + 2).toNat ∧ is_qcoord v ∧ ofU32 (toU32 v) = v := by
  obtain ⟨r, m0, m1, m2, hr, q0, q1, q2, -, c0, c1, c2⟩ :=
    transform_face_spec q r0 ft hft _ rfl
  have hft2 := hft
  obtain ⟨hm, ht, ⟨m01, m02, m12⟩, -, e0, e1, e2⟩ := hft2
  obtain ⟨b0, b1, b2⟩ := (coord_perm_all
    (fun c => -P8EST_ROOT_LEN ≤ c ∧ c < 2 * P8EST_ROOT_LEN) q _ _ _ m0 m1 m2
    (hm 0) (hm 1) (hm 2) m01 m02 m12 q0 q1 q2).mp ⟨hx, hy, hz⟩
  have hQ := p8est_quadrant_len_pos q.level
  obtain ⟨hQR, -⟩ := quadrant_len_le_root q.level h0 h19
  have hR : P8EST_ROOT_LEN = 524288 := by decide
  have hmh : -P8EST_ROOT_LEN ≤
      (if q.level = P8EST_MAXLEVEL then (0 : Int) else -P8EST_QUADRANT_LEN q.level) ∧
      (if q.level = P8EST_MAXLEVEL then (0 : Int) else -P8EST_QUADRANT_LEN q.level) ≤ 0 := by
    split_ifs <;> omega
  have h2c : edge_reverse ft 2 = 0 ∨ edge_reverse ft 2 = 1 ∨ edge_reverse ft 2 = 2 ∨
      edge_reverse ft 2 = 3 := by omega
  have hvals : transform_face_values q ft = some
      [(if q.level = P8EST_MAXLEVEL then (0 : Int) else -P8EST_QUADRANT_LEN q.level),
       P8EST_ROOT_LEN +
         (if q.level = P8EST_MAXLEVEL then (0 : Int) else -P8EST_QUADRANT_LEN q.level),
       P8EST_ROOT_LEN + (P8EST_ROOT_LEN +
         (if q.level = P8EST_MAXLEVEL then (0 : Int) else -P8EST_QUADRANT_LEN q.level)),
       (if edge_reverse ft 0 = 0 then m0 else P8EST_ROOT_LEN +
         (if q.level = P8EST_MAXLEVEL then (0 : Int) else -P8EST_QUADRANT_LEN q.level) - m0),
       (if edge_reverse ft 1 = 0 then m1 else P8EST_ROOT_LEN +
         (if q.level = P8EST_MAXLEVEL then (0 : Int) else -P8EST_QUADRANT_LEN q.level) - m1),
       (if edge_reverse ft 2 = 0 then
          (if q.level = P8EST_MAXLEVEL then (0 : Int) else -P8EST_QUADRANT_LEN q.level) - m2
        else if edge_reverse ft 2 = 1 then m2 + P8EST_ROOT_LEN
        else if edge_reverse ft 2 = 2 then m2 - P8EST_ROOT_LEN
        else P8EST_ROOT_LEN + (P8EST_ROOT_LEN +
          (if q.level = P8EST_MAXLEVEL then (0 : Int) else -P8EST_QUADRANT_LEN q.level))
            - m2)] := by
    simp only [transform_face_values, q0, q1, q2, Option.some_bind]
    rcases h2c with h | h | h | h <;> simp [h]
  refine ⟨r, _, _, _, _, _, _, hr, hvals, c0, c1, c2, ?_⟩
  generalize (if q.level = P8EST_MAXLEVEL then (0 : Int)
    else -P8EST_QUADRANT_LEN q.level) = mh at hmh ⊢
  have hpow : (2 : Int) ^ (P8EST_MAXLEVEL + 2).toNat = 2097152 := by decide
  have key : ∀ v : Int, -2097152 < v → v < 2097152 →
      |v| < 2 ^ (P8EST_MAXLEVEL + 2).toNat ∧ is_qcoord v ∧ ofU32 (toU32 v) = v := by
    intro v h1 h2
    have hv : |v| < 2 ^ 21 := by
      rw [abs_lt]
      norm_num
      exact ⟨h1, h2⟩
    rw [hpow]
    exact ⟨abs_lt.mpr ⟨h1, h2⟩, small_value_fits v hv⟩
  intro v hv
  simp only [List.mem_cons, List.mem_singleton, List.not_mem_nil, or_false] at hv
  rcases hv with rfl | rfl | rfl | rfl | rfl | rfl
  · exact key _ (by omega) (by omega)
  · exact key _ (by omega) (by omega)
  · exact key _ (by omega) (by omega)
  · apply key <;> split_ifs <;> omega
  · apply key <;> split_ifs <;> omega
  · apply key <;> split_ifs <;> omega

theorem transform_face_values_bound_witness :
    ∃ r mh Rmh tRmh v0 v1 v2,
      p8est_quadrant_transform_face ⟨-524288, 1048575, 0, 0⟩ ⟨0, 0, 0, 0⟩
        (ftransform_of 0 1 2 1 0 2 0 1 3) = some r ∧
      transform_face_values ⟨-524288, 1048575, 0, 0⟩ (ftransform_of 0 1 2 1 0 2 0 1 3) =
        some [mh, Rmh, tRmh, v0, v1, v2] ∧
      r.coord (target_axis (ftransform_of 0 1 2 1 0 2 0 1 3) 0) = some v0 ∧
      r.coord (target_axis (ftransform_of 0 1 2 1 0 2 0 1 3) 1) = some v1 ∧
      r.coord (target_axis (ftransform_of 0 1 2 1 0 2 0 1 3) 2) = some v2 ∧
      ∀ v ∈ [mh, Rmh, tRmh, v0, v1, v2],
        |v| < 2 ^ (P8EST_MAXLEVEL + 2).toNat ∧ is_qcoord v ∧ ofU32 (toU32 v) = v :=
  transform_face_values_bound ⟨-524288, 1048575, 0, 0⟩ ⟨0, 0, 0, 0⟩
    (ftransform_of 0 1 2 1 0 2 0 1 3) (by decide) (by decide) (by decide) (by decide)
    (by decide) (by decide)

/-! ## Sibling of a sibling -/

/-- With the bit `2^k` cleared or set, a coordinate stays a `p4est_qcoord_t` value. -/
theorem int_bit_fits (x P b : Int) (k : Nat) (hk : k ≤ 19) (hx : is_qcoord x ∨ is_qcoord P)
    (hP : P % 2 ^ (k + 1) = 0) (hb : b = 0 ∨ b = 1) (hxP : x = P + b * 2 ^ k) :
    is_qcoord P ∧ is_qcoord (P + 2 ^ k) := by
  obtain ⟨c, hc⟩ := Int.dvd_of_emod_eq_zero hP
  have hApos : (0 : Int) < 2 ^ k := by positivity
  have hBpos : (0 : Int) < 2 ^ (31 - k) := by positivity
  have hAB : (2 : Int) ^ k * 2 ^ (30 - k) = 1073741824 := by
    rw [← pow_add]
    have : k + (30 - k) = 30 := by omega
    rw [this]
    norm_num
  have hB2 : (2 : Int) ^ (31 - k) = 2 * 2 ^ (30 - k) := by
    have : 31 - k = (30 - k) + 1 := by omega
    rw [this, pow_succ]
    ring
  have hr0 : 0 ≤ c % 2 ^ (31 - k) := Int.emod_nonneg _ (ne_of_gt hBpos)
  have hr1 : c % 2 ^ (31 - k) < 2 ^ (31 - k) := Int.emod_lt_of_pos _ hBpos
  have hcd : 2 ^ (31 - k) * (c / 2 ^ (31 - k)) + c % 2 ^ (31 - k) = c := Int.ediv_add_emod _ _
  generalize c % 2 ^ (31 - k) = r at hr0 hr1 hcd
  generalize c / 2 ^ (31 - k) = d at hcd
  obtain ⟨-, -, f3, f4, -⟩ := bit_arith (2 ^ k) (2 ^ (30 - k)) c d r b x P hApos hAB hx hb hxP
    (by rw [hc, pow_succ]; ring) (by rw [← hB2]; exact hcd) hr0 (by rw [← hB2]; exact hr1)
  exact ⟨f3, f4⟩

/-- Setting the `QLEN(l)` bit of a coordinate to any value and then back to its own value
gives the coordinate back. -/
theorem sibling_coord_roundtrip (c l : Int) (sel1 sel2 : Prop) [Decidable sel1]
    [Decidable sel2] (h1 : 1 ≤ l) (h19 : l ≤ P8EST_MAXLEVEL) (hc : is_qcoord c)
    (hal : c % P8EST_QUADRANT_LEN l = 0)
    (hsel : sel2 ↔ c / P8EST_QUADRANT_LEN l % 2 = 1) :
    (if sel2 then
        int_or (if sel1 then int_or c (P8EST_QUADRANT_LEN l)
          else int_and c (int_not (P8EST_QUADRANT_LEN l))) (P8EST_QUADRANT_LEN l)
      else
        int_and (if sel1 then int_or c (P8EST_QUADRANT_LEN l)
          else int_and c (int_not (P8EST_QUADRANT_LEN l)))
          (int_not (P8EST_QUADRANT_LEN l))) = c := by
  obtain ⟨-, ho, ha⟩ := coord_bit_ops c l h1 h19 hc hal
  obtain ⟨hpa, -, hb⟩ := parent_coord_aligned c l hal
  have hx : c = parent_coord c l + (c / P8EST_QUADRANT_LEN l % 2) * P8EST_QUADRANT_LEN l := by
    unfold parent_coord
    ring
  rw [ho, ha]
  generalize parent_coord c l = P at hpa hx ⊢
  generalize c / P8EST_QUADRANT_LEN l % 2 = b at hb hx hsel
  obtain ⟨k, hk, hk2⟩ := p8est_quadrant_len_eq l h19
  have hk19 : k ≤ 19 := by unfold P8EST_MAXLEVEL at *; omega
  rw [hk] at hpa hx ⊢
  have hP : P % 2 ^ (k + 1) = 0 := by rw [pow_succ, mul_comm]; exact hpa
  obtain ⟨fP, -⟩ := int_bit_fits c P b k hk19 (Or.inl hc) hP hb hx
  have step : ∀ b : Int, b = 0 ∨ b = 1 →
      int_or (P + b * 2 ^ k) (2 ^ k) = P + 2 ^ k ∧
      int_and (P + b * 2 ^ k) (int_not (2 ^ k)) = P :=
    fun b hb' => int_bit_ops _ P b k hk19 (Or.inr fP) hP hb' rfl
  have e1 : (if sel1 then P + 2 ^ k else P) = P + (if sel1 then 1 else 0) * 2 ^ k := by
    split_ifs <;> ring
  rw [e1]
  obtain ⟨s1, s2⟩ := step (if sel1 then 1 else 0) (by split_ifs <;> simp)
  rw [s1, s2]
  by_cases h2 : sel2
  · rw [if_pos h2, hx, hsel.mp h2]
    ring
  · rw [if_neg h2, hx]
    have : b = 0 := by
      rcases hb with h | h
      · exact h
      · exact absurd (hsel.mpr h) h2
    rw [this]
    ring

/-- The bits of a child id packed from three bits. -/
theorem child_id_bits (b0 b1 b2 : Int) (h0 : b0 = 0 ∨ b0 = 1) (h1 : b1 = 0 ∨ b1 = 1)
    (h2 : b2 = 0 ∨ b2 = 1) :
    (int_and (b0 + 2 * b1 + 4 * b2) 1 ≠ 0 ↔ b0 = 1) ∧
    (int_and (b0 + 2 * b1 + 4 * b2) 2 ≠ 0 ↔ b1 = 1) ∧
    (int_and (b0 + 2 * b1 + 4 * b2) 4 ≠ 0 ↔ b2 = 1) := by
  rcases h0 with rfl | rfl <;> rcases h1 with rfl | rfl <;> rcases h2 with rfl | rfl <;>
    decide

/-- C23: for every octant `q` of a level `l` in `[1, MAXLEVEL]` whose coordinates are
`p4est_qcoord_t` values and multiples of `QLEN(l)` (every extended octant of level `l > 0`
is one) and every `i` in `[0, 8)`, `sibling (sibling (q, i), child_id (q)) = q`, where
`p4est_quadrant_sibling (q, k)` sets the `QLEN(l)` bit of `x`, `y`, `z` to the bits 0, 1, 2
of `k` and keeps the level. -/
theorem sibling_of_sibling (q : Quadrant) (i : Fin 8) (hf : q.fits) (ha : q.aligned)
    (h1 : 1 ≤ q.level) (h19 : q.level ≤ P8EST_MAXLEVEL) :
    p4est_quadrant_sibling (p4est_quadrant_sibling q (i.val : Int))
      (p4est_quadrant_child_id q) = q := by
  obtain ⟨fx, fy, fz⟩ := hf
  obtain ⟨ax, ay, az⟩ := ha
  obtain ⟨bx, -, -⟩ := coord_bit_ops q.x q.level h1 h19 fx ax
  obtain ⟨by', -, -⟩ := coord_bit_ops q.y q.level h1 h19 fy ay
  obtain ⟨bz, -, -⟩ := coord_bit_ops q.z q.level h1 h19 fz az
  obtain ⟨-, -, hbx⟩ := parent_coord_aligned q.x q.level ax
  obtain ⟨-, -, hby⟩ := parent_coord_aligned q.y q.level ay
  obtain ⟨-, -, hbz⟩ := parent_coord_aligned q.z q.level az
  obtain ⟨s0, s1, s2⟩ := child_id_bits _ _ _ hbx hby hbz
  have hcid : p4est_quadrant_child_id q =
      q.x / P8EST_QUADRANT_LEN q.level % 2 + 2 * (q.y / P8EST_QUADRANT_LEN q.level % 2) +
        4 * (q.z / P8EST_QUADRANT_LEN q.level % 2) := by
    unfold p4est_quadrant_child_id
    rw [bx, by', bz]
  rw [hcid]
  unfold p4est_quadrant_sibling
  apply Quadrant.ext
  · exact sibling_coord_roundtrip q.x q.level _ _ h1 h19 fx ax s0
  · exact sibling_coord_roundtrip q.y q.level _ _ h1 h19 fy ay s1
  · exact sibling_coord_roundtrip q.z q.level _ _ h1 h19 fz az s2
  · rfl

theorem sibling_of_sibling_witness :
    p4est_quadrant_sibling (p4est_quadrant_sibling ⟨-262144, 786432, 262144, 1⟩
        (((6 : Fin 8).val : Nat) : Int))
      (p4est_quadrant_child_id ⟨-262144, 786432, 262144, 1⟩) =
      ⟨-262144, 786432, 262144, 1⟩ :=
  sibling_of_sibling ⟨-262144, 786432, 262144, 1⟩ 6 (by decide) (by decide) (by decide)
    (by decide)

/-! ## Balance types -/

/-- C24: the numeric codes of the balance types, as `p8est_balance_type_int` converts them,
are 1 for `P8EST_BALANCE_FACE`, 2 for `P8EST_BALANCE_EDGE` and 3 for
`P8EST_BALANCE_CORNER`; `P8EST_BALANCE_DEFAULT` equals `P8EST_BALANCE_EDGE` and
`P8EST_BALANCE_FULL` equals `P8EST_BALANCE_CORNER`, with the codes 2 and 3.  The
enumeration constants themselves are 31, 32 and 33. -/
theorem balance_type_codes :
    p8est_balance_type_int P8EST_BALANCE_FACE = some 1 ∧
    p8est_balance_type_int P8EST_BALANCE_EDGE = some 2 ∧
    p8est_balance_type_int P8EST_BALANCE_CORNER = some 3 ∧
    P8EST_BALANCE_DEFAULT = P8EST_BALANCE_EDGE ∧
    P8EST_BALANCE_FULL = P8EST_BALANCE_CORNER ∧
    p8est_balance_type_int P8EST_BALANCE_DEFAULT = some 2 ∧
    p8est_balance_type_int P8EST_BALANCE_FULL = some 3 ∧
    P8EST_BALANCE_FACE = 31 ∧ P8EST_BALANCE_EDGE = 32 ∧ P8EST_BALANCE_CORNER = 33 := by
  refine ⟨?_, ?_, ?_, rfl, rfl, ?_, ?_, rfl, rfl, rfl⟩ <;> decide

/-! ## The edge neighbour and the extended predicate -/

/-- The edge neighbour, coordinate by coordinate: each coordinate of `q` is moved by a
step in `{-1, 0, 1}` times the side length. -/
theorem edge_neighbor_steps (q : Quadrant) (e : Int) (he : 0 ≤ e ∧ e < 12) :
    p8est_quadrant_edge_neighbor q e =
      some ⟨q.x + edge_step e 0 * P8EST_QUADRANT_LEN q.level,
        q.y + edge_step e 1 * P8EST_QUADRANT_LEN q.level,
        q.z + edge_step e 2 * P8EST_QUADRANT_LEN q.level, q.level⟩ := by
  obtain ⟨b1, b2⟩ := edge_bits e he
  unfold p8est_quadrant_edge_neighbor
  rw [b1, b2]
  obtain ⟨h0, h12⟩ := he
  interval_cases e <;> simp [edge_step, edge_sign_bit]

/-- A coordinate of the edge neighbour of a valid octant. -/
theorem edge_neighbor_coord (c s l : Int) (hs : s = 0 ∨ s = -1 ∨ s = 1) (h0 : 0 ≤ l)
    (h19 : l ≤ P8EST_MAXLEVEL) (hc : 0 ≤ c ∧ c < P8EST_ROOT_LEN)
    (hal : c % P8EST_QUADRANT_LEN l = 0) :
    (c + s * P8EST_QUADRANT_LEN l) % P8EST_QUADRANT_LEN l = 0 ∧
    -P8EST_QUADRANT_LEN l ≤ c + s * P8EST_QUADRANT_LEN l ∧
    c + s * P8EST_QUADRANT_LEN l ≤ P8EST_ROOT_LEN ∧
    (c + s * P8EST_QUADRANT_LEN l < 0 ↔ s = -1 ∧ c = 0) ∧
    (c + s * P8EST_QUADRANT_LEN l ≥ P8EST_ROOT_LEN ↔
      s = 1 ∧ c = P8EST_ROOT_LEN - P8EST_QUADRANT_LEN l) ∧
    (c + s * P8EST_QUADRANT_LEN l < 0 → c + s * P8EST_QUADRANT_LEN l = -P8EST_QUADRANT_LEN l) ∧
    (c + s * P8EST_QUADRANT_LEN l ≥ P8EST_ROOT_LEN →
      c + s * P8EST_QUADRANT_LEN l = P8EST_ROOT_LEN) := by
  have hQ := p8est_quadrant_len_pos l
  obtain ⟨hQR, hRQ⟩ := quadrant_len_le_root l h0 h19
  have s0 := not_or_of_imp (aligned_step c 0 _ hQ hal (Int.zero_emod _)).2
  have sR := not_or_of_imp (aligned_step c P8EST_ROOT_LEN _ hQ hal hRQ).1
  have sQ := not_or_of_imp (aligned_step c (P8EST_QUADRANT_LEN l) _ hQ hal
    (Int.emod_self)).1
  obtain ⟨p1, p2⟩ := aligned_add c _ hal
  generalize P8EST_QUADRANT_LEN l = Q at *
  generalize P8EST_ROOT_LEN = R at *
  rcases hs with rfl | rfl | rfl
  · rw [zero_mul, add_zero]
    refine ⟨hal, by omega, by omega, ?_, ?_, ?_, ?_⟩
    · constructor <;> intro h <;> omega
    · constructor <;> intro h <;> omega
    · intro h; omega
    · intro h; omega
  · have e : c + -1 * Q = c - Q := by ring
    rw [e]
    refine ⟨p2, by omega, by omega, ?_, ?_, ?_, ?_⟩
    · constructor <;> intro h <;> omega
    · constructor <;> intro h <;> omega
    · intro h; omega
    · intro h; omega
  · rw [one_mul]
    refine ⟨p1, by omega, by omega, ?_, ?_, ?_, ?_⟩
    · constructor <;> intro h <;> omega
    · constructor <;> intro h <;> omega
    · intro h; omega
    · intro h; omega

/-- C26 (amended): for every valid octant `q` of level `l` and every edge `e` in `[0, 12)`,
`r = p8est_quadrant_edge_neighbor (q, e)` has the level `l`, and each coordinate `c` of `r`
is a multiple of `QLEN(l)` in the closed interval `[-QLEN(l), ROOT_LEN]`: `r` is in the ring
of cells of its size around the root, whose lower bound `-QLEN(l)` is attained.  The
extended predicate, which admits that ring, holds for `r`: the closing assertion
`p4est_quadrant_is_extended (r)` holds. -/
theorem edge_neighbor_in_ring (q : Quadrant) (e : Int) (he : 0 ≤ e ∧ e < 12)
    (hv : p4est_quadrant_is_valid q = true) :
    ∃ r, p8est_quadrant_edge_neighbor q e = some r ∧ r.level = q.level ∧ r.aligned ∧
      (-P8EST_QUADRANT_LEN q.level ≤ r.x ∧ r.x ≤ P8EST_ROOT_LEN) ∧
      (-P8EST_QUADRANT_LEN q.level ≤ r.y ∧ r.y ≤ P8EST_ROOT_LEN) ∧
      (-P8EST_QUADRANT_LEN q.level ≤ r.z ∧ r.z ≤ P8EST_ROOT_LEN) ∧
      p4est_quadrant_is_extended r = true := by
  have hv2 := hv
  simp only [p4est_quadrant_is_valid, Bool.and_eq_true, decide_eq_true_eq] at hv2
  obtain ⟨⟨⟨⟨⟨h0, h19⟩, hx⟩, hy⟩, hz⟩, ax, ay, az⟩ := hv2
  obtain ⟨x1, x2, x3, -⟩ :=
    edge_neighbor_coord q.x _ q.level (edge_step_range e 0) h0 h19 hx ax
  obtain ⟨y1, y2, y3, -⟩ :=
    edge_neighbor_coord q.y _ q.level (edge_step_range e 1) h0 h19 hy ay
  obtain ⟨z1, z2, z3, -⟩ :=
    edge_neighbor_coord q.z _ q.level (edge_step_range e 2) h0 h19 hz az
  refine ⟨_, edge_neighbor_steps q e he, rfl, ⟨x1, y1, z1⟩, ⟨x2, x3⟩, ⟨y2, y3⟩, ⟨z2, z3⟩, ?_⟩
  obtain ⟨hQR, -⟩ := quadrant_len_le_root q.level h0 h19
  have hR : (0 : Int) < P8EST_ROOT_LEN := by decide
  simp only [p4est_quadrant_is_extended, Quadrant.aligned, Bool.and_eq_true,
    decide_eq_true_eq]
  exact ⟨⟨⟨⟨⟨h0, h19⟩, by omega, by omega⟩, by omega, by omega⟩, by omega, by omega⟩,
    x1, y1, z1⟩

theorem edge_neighbor_in_ring_witness :
    ∃ r, p8est_quadrant_edge_neighbor ⟨0, 262144, 0, 1⟩ 6 = some r ∧
      r.level = (⟨0, 262144, 0, 1⟩ : Quadrant).level ∧ r.aligned ∧
      (-P8EST_QUADRANT_LEN (⟨0, 262144, 0, 1⟩ : Quadrant).level ≤ r.x ∧
        r.x ≤ P8EST_ROOT_LEN) ∧
      (-P8EST_QUADRANT_LEN (⟨0, 262144, 0, 1⟩ : Quadrant).level ≤ r.y ∧
        r.y ≤ P8EST_ROOT_LEN) ∧
      (-P8EST_QUADRANT_LEN (⟨0, 262144, 0, 1⟩ : Quadrant).level ≤ r.z ∧
        r.z ≤ P8EST_ROOT_LEN) ∧
      p4est_quadrant_is_extended r = true :=
  edge_neighbor_in_ring ⟨0, 262144, 0, 1⟩ 6 (by decide) (by decide)

/-- C26, as stated, fails in its interval: the octant `(0, 262144, 0)` of level 1 is
valid, and its neighbour across the edge 6 is `(-262144, 262144, 262144)`, whose `x` is
`-QLEN(1)`: a multiple of `QLEN(1)` that does not lie strictly inside
`(-QLEN(1), 2 ROOT_LEN)`.  The neighbour is in the ring of off-root cells, and the closing
assertion `p4est_quadrant_is_extended (r)` holds for it. -/
theorem edge_neighbor_extended_counterexample :
    p4est_quadrant_is_valid ⟨0, 262144, 0, 1⟩ = true ∧
    p8est_quadrant_edge_neighbor ⟨0, 262144, 0, 1⟩ 6 = some ⟨-262144, 262144, 262144, 1⟩ ∧
    (⟨-262144, 262144, 262144, 1⟩ : Quadrant).x = -P8EST_QUADRANT_LEN 1 ∧
    ¬ (-P8EST_QUADRANT_LEN 1 < (⟨-262144, 262144, 262144, 1⟩ : Quadrant).x ∧
      (⟨-262144, 262144, 262144, 1⟩ : Quadrant).x < 2 * P8EST_ROOT_LEN) ∧
    p4est_quadrant_is_extended ⟨-262144, 262144, 262144, 1⟩ = true := by
  decide

/-! ## The edge neighbour outside an edge -/

/-- A coordinate of the edge neighbour of a valid octant is off the root exactly when the
octant is at the border of the root on the side of the step, and it is then at `-QLEN(l)`
or at `ROOT_LEN`. -/
theorem edge_neighbor_off_root (c s l : Int) (hs : s = 0 ∨ s = -1 ∨ s = 1) (h0 : 0 ≤ l)
    (h19 : l ≤ P8EST_MAXLEVEL) (hc : 0 ≤ c ∧ c < P8EST_ROOT_LEN)
    (hal : c % P8EST_QUADRANT_LEN l = 0) :
    (c + s * P8EST_QUADRANT_LEN l < 0 ↔ s = -1 ∧ c = 0) ∧
    (c + s * P8EST_QUADRANT_LEN l ≥ P8EST_ROOT_LEN ↔
      s = 1 ∧ c = P8EST_ROOT_LEN - P8EST_QUADRANT_LEN l) ∧
    (c + s * P8EST_QUADRANT_LEN l = -P8EST_QUADRANT_LEN l ↔ s = -1 ∧ c = 0) ∧
    (c + s * P8EST_QUADRANT_LEN l = P8EST_ROOT_LEN ↔
      s = 1 ∧ c = P8EST_ROOT_LEN - P8EST_QUADRANT_LEN l) := by
  obtain ⟨-, -, -, f4, f5, f6, f7⟩ := edge_neighbor_coord c s l hs h0 h19 hc hal
  have hQ := p8est_quadrant_len_pos l
  have hR : (0 : Int) < P8EST_ROOT_LEN := by decide
  refine ⟨f4, f5, ⟨fun h => f4.mp (by omega), fun h => f6 (f4.mpr h)⟩,
    ⟨fun h => f5.mp (by omega), fun h => f7 (f5.mpr h)⟩⟩

/-- C30: for every valid octant `q`, of a level at most `QMAXLEVEL`, the finest level at
which an octant may lie, and every edge `e` in `[0, 12)`, if
`r = p8est_quadrant_edge_neighbor (q, e)` is outside an edge, then
`p8est_quadrant_is_outside_edge_extra (r, &edge)` returns true and stores `edge = e`,
whatever `edge` held before, and `p8est_quadrant_touches_edge (r, e, false)` is true: the
input requirement of the call of `p8est_quadrant_transform_edge` that
`p8est_quadrant_edge_neighbor_extra` makes. -/
theorem edge_neighbor_outside_edge (q : Quadrant) (e e0 : Int) (he : 0 ≤ e ∧ e < 12)
    (hv : p4est_quadrant_is_valid q = true) (hl : q.level ≤ P8EST_QMAXLEVEL) :
    ∃ r, p8est_quadrant_edge_neighbor q e = some r ∧
      (p8est_quadrant_is_outside_edge r = true →
        p8est_quadrant_is_outside_edge_extra r (some e0) = some (true, some e) ∧
        p8est_quadrant_touches_edge r e false = true) := by
  have hv2 := hv
  simp only [p4est_quadrant_is_valid, Bool.and_eq_true, decide_eq_true_eq] at hv2
  obtain ⟨⟨⟨⟨⟨h0, h19⟩, hx⟩, hy⟩, hz⟩, ax, ay, az⟩ := hv2
  obtain ⟨x1, x2, x3, x4⟩ :=
    edge_neighbor_off_root q.x _ q.level (edge_step_range e 0) h0 h19 hx ax
  obtain ⟨y1, y2, y3, y4⟩ :=
    edge_neighbor_off_root q.y _ q.level (edge_step_range e 1) h0 h19 hy ay
  obtain ⟨z1, z2, z3, z4⟩ :=
    edge_neighbor_off_root q.z _ q.level (edge_step_range e 2) h0 h19 hz az
  have hl2 : q.level < P8EST_MAXLEVEL := by
    unfold P8EST_QMAXLEVEL at hl
    unfold P8EST_MAXLEVEL
    omega
  clear hl
  have hne : q.level ≠ P8EST_MAXLEVEL := ne_of_lt hl2
  refine ⟨_, edge_neighbor_steps q e he, ?_⟩
  simp only [p8est_quadrant_is_outside_edge, p8est_quadrant_is_outside_edge_extra,
    p8est_quadrant_touches_edge, x1, x2, x3, x4, y1, y2, y3, y4, z1, z2, z3, z4, if_neg hne,
    Bool.not_false, if_true]
  obtain ⟨he0, he12⟩ := he
  clear x1 x2 x3 x4 y1 y2 y3 y4 z1 z2 z3 z4 hv ax ay az hx hy hz
  interval_cases e <;> simp [edge_step, edge_sign_bit] <;> intro h <;>
    split_ifs at h ⊢ <;> simp_all

/-- The octant `(0, 262144, 0)` of level 1 and the edge 4: the edge neighbour
`(-262144, 262144, -262144)` is outside an edge, the edge 4 is stored over the former
content 0, and the neighbour touches the edge 4 from outside. -/
theorem edge_neighbor_outside_edge_witness :
    p8est_quadrant_edge_neighbor ⟨0, 262144, 0, 1⟩ 4 = some ⟨-262144, 262144, -262144, 1⟩ ∧
    p8est_quadrant_is_outside_edge ⟨-262144, 262144, -262144, 1⟩ = true ∧
    ∃ r, p8est_quadrant_edge_neighbor ⟨0, 262144, 0, 1⟩ 4 = some r ∧
      (p8est_quadrant_is_outside_edge r = true →
        p8est_quadrant_is_outside_edge_extra r (some 0) = some (true, some 4) ∧
        p8est_quadrant_touches_edge r 4 false = true) :=
  ⟨by decide, by decide,
    edge_neighbor_outside_edge ⟨0, 262144, 0, 1⟩ 4 0 (by decide) (by decide) (by decide)⟩

/-! ## The half-size face neighbours as children of the face neighbour -/

/-- The octant at `N` moved by `b0, b1, b2` half side lengths, each `0` or `1`, one level
below `N`: its parent is `N` and its child id is packed from `b0, b1, b2`. -/
theorem child_of_parent (N : Quadrant) (b0 b1 b2 : Int) (hf : N.fits) (ha : N.aligned)
    (h0 : 0 ≤ N.level) (hl : N.level < P8EST_MAXLEVEL)
    (hb0 : b0 = 0 ∨ b0 = 1) (hb1 : b1 = 0 ∨ b1 = 1) (hb2 : b2 = 0 ∨ b2 = 1) :
    p4est_quadrant_parent
        ⟨N.x + b0 * P8EST_QUADRANT_LEN (N.level + 1),
         N.y + b1 * P8EST_QUADRANT_LEN (N.level + 1),
         N.z + b2 * P8EST_QUADRANT_LEN (N.level + 1), N.level + 1⟩ = N ∧
    p4est_quadrant_child_id
        ⟨N.x + b0 * P8EST_QUADRANT_LEN (N.level + 1),
         N.y + b1 * P8EST_QUADRANT_LEN (N.level + 1),
         N.z + b2 * P8EST_QUADRANT_LEN (N.level + 1), N.level + 1⟩ =
      b0 + 2 * b1 + 4 * b2 := by
  obtain ⟨fx, fy, fz⟩ := hf
  obtain ⟨ax, ay, az⟩ := ha
  have hc : ∀ x b : Int, b = 0 ∨ b = 1 →
      (x + b * P8EST_QUADRANT_LEN (N.level + 1) = x ∨
        x + b * P8EST_QUADRANT_LEN (N.level + 1) = x + P8EST_QUADRANT_LEN (N.level + 1)) := by
    intro x b hb
    rcases hb with rfl | rfl
    · left; ring
    · right; ring
  constructor
  · unfold p4est_quadrant_parent
    apply Quadrant.ext
    · exact parent_coord_of_child N.x _ N.level h0 hl fx ax (hc _ _ hb0)
    · exact parent_coord_of_child N.y _ N.level h0 hl fy ay (hc _ _ hb1)
    · exact parent_coord_of_child N.z _ N.level h0 hl fz az (hc _ _ hb2)
    · show N.level + 1 - 1 = N.level
      omega
  · unfold p4est_quadrant_child_id
    show int_and (int_shr (N.x + _ * _) _) 1 + 2 * int_and (int_shr (N.y + _ * _) _) 1 +
      4 * int_and (int_shr (N.z + _ * _) _) 1 = _
    rw [child_bit N.x _ N.level hl ax hb0, child_bit N.y _ N.level hl ay hb1,
      child_bit N.z _ N.level hl az hb2]

/-- The bit `a` of a child id packed from three bits. -/
theorem child_id_bit_at (b0 b1 b2 : Int) (h0 : b0 = 0 ∨ b0 = 1) (h1 : b1 = 0 ∨ b1 = 1)
    (h2 : b2 = 0 ∨ b2 = 1) :
    int_and (int_shr (b0 + 2 * b1 + 4 * b2) 0) 1 = b0 ∧
    int_and (int_shr (b0 + 2 * b1 + 4 * b2) 1) 1 = b1 ∧
    int_and (int_shr (b0 + 2 * b1 + 4 * b2) 2) 1 = b2 := by
  rcases h0 with rfl | rfl <;> rcases h1 with rfl | rfl <;> rcases h2 with rfl | rfl <;>
    decide

/-- The half-size face neighbours, written from the same-level face neighbour `N`: `n[i]`
is `N` moved by `0` or `1` half side lengths along each axis, one level below `N`. -/
theorem half_face_neighbors_from_neighbor (q : Quadrant) (f : Int) (h0 : 0 ≤ q.level)
    (hl : q.level < P8EST_QMAXLEVEL) (hf : 0 ≤ f ∧ f < 6) :
    ∃ n, p4est_quadrant_half_face_neighbors q f false = some (n, none) ∧
      ∀ i : Fin 4, n i =
        ⟨(p4est_quadrant_face_neighbor q f).x +
            half_face_bit f (i.val : Int) 0 * P8EST_QUADRANT_LEN (q.level + 1),
         (p4est_quadrant_face_neighbor q f).y +
            half_face_bit f (i.val : Int) 1 * P8EST_QUADRANT_LEN (q.level + 1),
         (p4est_quadrant_face_neighbor q f).z +
            half_face_bit f (i.val : Int) 2 * P8EST_QUADRANT_LEN (q.level + 1),
         q.level + 1⟩ := by
  have hc : int8_cast (q.level + 1) = q.level + 1 := by
    unfold P8EST_QMAXLEVEL at hl
    exact int8_cast_level _ (by omega) (by omega)
  have hl19 : q.level < P8EST_MAXLEVEL := by
    unfold P8EST_QMAXLEVEL at hl; unfold P8EST_MAXLEVEL; omega
  have hQ := p8est_quadrant_len_succ q.level hl19
  have t : ∀ i : Fin 4, int_and (i.val : Int) 1 = (i.val : Int) % 2 ∧
      int_and (i.val : Int) 2 / 2 = (i.val : Int) / 2 % 2 := by decide
  obtain ⟨hf0, hf6⟩ := hf
  unfold p4est_quadrant_half_face_neighbors p4est_quadrant_face_neighbor
  rw [hc, hQ]
  generalize P8EST_QUADRANT_LEN (q.level + 1) = D
  have tf1 : int_and 1 1 = 1 := by decide
  have tf0 : int_and 0 1 = 0 := by decide
  have tf2 : int_and 2 1 = 0 := by decide
  have tf3 : int_and 3 1 = 1 := by decide
  have tf4 : int_and 4 1 = 0 := by decide
  have tf5 : int_and 5 1 = 1 := by decide
  interval_cases f <;> refine ⟨_, rfl, fun i => ?_⟩ <;>
    simp only [(t i).1, (t i).2, tf0, tf1, tf2, tf3, tf4, tf5] <;>
    fin_cases i <;> simp [half_face_bit, lower_transverse] <;> ring

/-- The same-level face neighbour of a valid octant has `p4est_qcoord_t` coordinates that
are multiples of its side length. -/
theorem face_neighbor_fits_aligned (q : Quadrant) (f : Int)
    (hv : p4est_quadrant_is_valid q = true) :
    (p4est_quadrant_face_neighbor q f).fits ∧ (p4est_quadrant_face_neighbor q f).aligned ∧
      (p4est_quadrant_face_neighbor q f).level = q.level := by
  simp only [p4est_quadrant_is_valid, Bool.and_eq_true, decide_eq_true_eq] at hv
  obtain ⟨⟨⟨⟨⟨h0, h19⟩, hx⟩, hy⟩, hz⟩, ax, ay, az⟩ := hv
  have hQ := p8est_quadrant_len_pos q.level
  obtain ⟨hQR, -⟩ := quadrant_len_le_root q.level h0 h19
  have hR : P8EST_ROOT_LEN = 524288 := by decide
  have key : ∀ c a : Int, 0 ≤ c ∧ c < P8EST_ROOT_LEN → c % P8EST_QUADRANT_LEN q.level = 0 →
      is_qcoord (c + (if f / 2 = a then
        (if int_and f 1 = 0 then -P8EST_QUADRANT_LEN q.level else P8EST_QUADRANT_LEN q.level)
        else 0)) ∧
      (c + (if f / 2 = a then
        (if int_and f 1 = 0 then -P8EST_QUADRANT_LEN q.level else P8EST_QUADRANT_LEN q.level)
        else 0)) % P8EST_QUADRANT_LEN q.level = 0 := by
    intro c a hc hal
    obtain ⟨p1, p2⟩ := aligned_add c _ hal
    have e : c + -P8EST_QUADRANT_LEN q.level = c - P8EST_QUADRANT_LEN q.level := by ring
    unfold is_qcoord
    split_ifs
    · rw [e]; exact ⟨by omega, p2⟩
    · exact ⟨by omega, p1⟩
    · rw [add_zero]; exact ⟨by omega, hal⟩
  obtain ⟨kx1, kx2⟩ := key q.x 0 hx ax
  obtain ⟨ky1, ky2⟩ := key q.y 1 hy ay
  obtain ⟨kz1, kz2⟩ := key q.z 2 hz az
  exact ⟨⟨kx1, ky1, kz1⟩, ⟨kx2, ky2, kz2⟩, rfl⟩

/-- The bits of `half_face_bit` are `0` or `1`, and along the axis of the face and the two
tangential axes they are the ones the definition names. -/
theorem half_face_bit_spec (f : Int) (i : Fin 4) (hf : 0 ≤ f ∧ f < 6) :
    (∀ a : Int, half_face_bit f (i.val : Int) a = 0 ∨ half_face_bit f (i.val : Int) a = 1) ∧
    half_face_bit f (i.val : Int) (f / 2) = 1 - int_and f 1 ∧
    half_face_bit f (i.val : Int) (lower_transverse (f / 2)) = int_and (i.val : Int) 1 ∧
    half_face_bit f (i.val : Int) (higher_transverse (f / 2)) =
      int_and (int_shr (i.val : Int) 1) 1 := by
  have hi : (0 : Int) ≤ (i.val : Int) ∧ (i.val : Int) < 4 := ⟨by omega, by omega⟩
  have hs : int_shr (i.val : Int) 1 = (i.val : Int) / 2 := by
    unfold int_shr
    norm_num
  rw [hs, int_and_one, int_and_one, int_and_one]
  obtain ⟨hf0, hf6⟩ := hf
  refine ⟨fun a => ?_, ?_, ?_, ?_⟩
  · unfold half_face_bit
    split_ifs <;> omega
  · unfold half_face_bit
    rw [if_pos rfl]
  · unfold half_face_bit lower_transverse
    split_ifs <;> omega
  · unfold half_face_bit lower_transverse higher_transverse
    split_ifs <;> omega

/-- C27: for every valid octant `q` of level `l < QMAXLEVEL` and every face `f` in `[0, 6)`,
the four octants `n[0..3]` of `p4est_quadrant_half_face_neighbors (q, f, n, NULL)` are
children of the same-level face neighbour of `q` across `f`: the parent of `n[i]` is that
neighbour, the child-id bit of `n[i]` along the axis `f / 2` is `1 - (f & 1)` (the side
that touches `q`), its child-id bit along the lower-indexed tangential axis is bit 0 of
`i` and along the higher-indexed tangential axis bit 1 of `i`; the four are pairwise
distinct. -/
theorem half_face_neighbors_children (q : Quadrant) (f : Int)
    (hv : p4est_quadrant_is_valid q = true) (hl : q.level < P8EST_QMAXLEVEL)
    (hf : 0 ≤ f ∧ f < 6) :
    ∃ n, p4est_quadrant_half_face_neighbors q f false = some (n, none) ∧
      (∀ i : Fin 4,
        p4est_quadrant_parent (n i) = p4est_quadrant_face_neighbor q f ∧
        int_and (int_shr (p4est_quadrant_child_id (n i)) (f / 2)) 1 = 1 - int_and f 1 ∧
        int_and (int_shr (p4est_quadrant_child_id (n i)) (lower_transverse (f / 2))) 1 =
          int_and (i.val : Int) 1 ∧
        int_and (int_shr (p4est_quadrant_child_id (n i)) (higher_transverse (f / 2))) 1 =
          int_and (int_shr (i.val : Int) 1) 1) ∧
      ∀ i j : Fin 4, n i = n j → i = j := by
  obtain ⟨Nf, Na, Nl⟩ := face_neighbor_fits_aligned q f hv
  have hv2 := hv
  simp only [p4est_quadrant_is_valid, Bool.and_eq_true, decide_eq_true_eq] at hv2
  obtain ⟨⟨⟨⟨⟨h0, -⟩, -⟩, -⟩, -⟩, -⟩ := hv2
  have hl19 : q.level < P8EST_MAXLEVEL := by
    unfold P8EST_QMAXLEVEL at hl; unfold P8EST_MAXLEVEL; omega
  obtain ⟨n, hn, hrep⟩ := half_face_neighbors_from_neighbor q f h0 hl hf
  have hbits : ∀ a : Int, 0 ≤ a → a < 3 → ∀ i : Fin 4,
      int_and (int_shr (p4est_quadrant_child_id (n i)) a) 1 =
        half_face_bit f (i.val : Int) a := by
    intro a a0 a3 i
    obtain ⟨hb, -⟩ := half_face_bit_spec f i hf
    have hc := (child_of_parent (p4est_quadrant_face_neighbor q f) _ _ _ Nf Na
      (by rw [Nl]; exact h0) (by rw [Nl]; exact hl19) (hb 0) (hb 1) (hb 2)).2
    rw [Nl] at hc
    rw [hrep i, hc]
    obtain ⟨c0, c1, c2⟩ := child_id_bit_at _ _ _ (hb 0) (hb 1) (hb 2)
    interval_cases a
    · exact c0
    · exact c1
    · exact c2
  have hax : 0 ≤ f / 2 ∧ f / 2 < 3 := by omega
  have hlo : 0 ≤ lower_transverse (f / 2) ∧ lower_transverse (f / 2) < 3 := by
    unfold lower_transverse; split_ifs <;> omega
  have hhi : 0 ≤ higher_transverse (f / 2) ∧ higher_transverse (f / 2) < 3 := by
    unfold higher_transverse; split_ifs <;> omega
  refine ⟨n, hn, fun i => ?_, fun i j hij => ?_⟩
  · obtain ⟨hb, s1, s2, s3⟩ := half_face_bit_spec f i hf
    have hp := (child_of_parent (p4est_quadrant_face_neighbor q f) _ _ _ Nf Na
      (by rw [Nl]; exact h0) (by rw [Nl]; exact hl19) (hb 0) (hb 1) (hb 2)).1
    rw [Nl] at hp
    refine ⟨by rw [hrep i]; exact hp, ?_, ?_, ?_⟩
    · rw [hbits _ hax.1 hax.2 i, s1]
    · rw [hbits _ hlo.1 hlo.2 i, s2]
    · rw [hbits _ hhi.1 hhi.2 i, s3]
  · have b1 := hbits _ hlo.1 hlo.2 i
    have b2 := hbits _ hhi.1 hhi.2 i
    rw [hij, hbits _ hlo.1 hlo.2 j] at b1
    rw [hij, hbits _ hhi.1 hhi.2 j] at b2
    obtain ⟨-, -, i2, i3⟩ := half_face_bit_spec f i hf
    obtain ⟨-, -, j2, j3⟩ := half_face_bit_spec f j hf
    rw [i2, j2] at b1
    rw [i3, j3] at b2
    have hs : ∀ k : Fin 4, int_shr (k.val : Int) 1 = (k.val : Int) / 2 := by
      intro k
      unfold int_shr
      norm_num
    rw [int_and_one, int_and_one] at b1
    rw [hs, hs, int_and_one, int_and_one] at b2
    apply Fin.ext
    have hi := i.isLt
    have hj := j.isLt
    omega

theorem half_face_neighbors_children_witness :
    ∃ n, p4est_quadrant_half_face_neighbors ⟨0, 262144, 0, 1⟩ 2 false = some (n, none) ∧
      (∀ i : Fin 4,
        p4est_quadrant_parent (n i) = p4est_quadrant_face_neighbor ⟨0, 262144, 0, 1⟩ 2 ∧
        int_and (int_shr (p4est_quadrant_child_id (n i)) (2 / 2)) 1 = 1 - int_and 2 1 ∧
        int_and (int_shr (p4est_quadrant_child_id (n i)) (lower_transverse (2 / 2))) 1 =
          int_and (i.val : Int) 1 ∧
        int_and (int_shr (p4est_quadrant_child_id (n i)) (higher_transverse (2 / 2))) 1 =
          int_and (int_shr (i.val : Int) 1) 1) ∧
      ∀ i j : Fin 4, n i = n j → i = j :=
  half_face_neighbors_children ⟨0, 262144, 0, 1⟩ 2 (by decide) (by decide) (by decide)

/-! ## Octants that touch the edge are fixed by the shift -/

/-- The sibling formed by the loop at a coordinate that is already in its final place is
the coordinate itself, and the exit test holds for it. -/
theorem sibling_coord_of_final (s c l : Int) (hs : s = 0 ∨ s = -1 ∨ s = 1) (h1 : 1 ≤ l)
    (h19 : l ≤ P8EST_MAXLEVEL) (h : coord_final s c l) :
    sibling_coord s c l = c ∧ exit_test s c (P8EST_LAST_OFFSET l) ∧
      (if s ≠ 0 then shift_edge_clamp c (P8EST_LAST_OFFSET l) else c) = c := by
  have h19' : l ≤ 19 := h19
  obtain ⟨lo0, loR, -, -⟩ := last_offset_valid l (by omega) h19
  have lopos : 0 < P8EST_LAST_OFFSET l := by
    interval_cases l <;> decide
  have hup : parent_coord (P8EST_LAST_OFFSET l) l + P8EST_QUADRANT_LEN l =
      P8EST_LAST_OFFSET l := by
    interval_cases l <;> decide
  have hlow : parent_coord 0 l = 0 := by
    unfold parent_coord
    simp
  have hR : (0 : Int) < P8EST_ROOT_LEN := by decide
  rcases hs with rfl | rfl | rfl
  · refine ⟨rfl, ⟨fun h => by omega, fun h => by omega⟩, ?_⟩
    rw [if_neg (by decide)]
  · have hc : c = 0 := h.2.1 rfl
    subst hc
    refine ⟨?_, ⟨fun _ => ⟨le_refl _, by omega⟩, fun h => by omega⟩, ?_⟩
    · unfold sibling_coord
      rw [if_neg (by decide), if_neg (by decide)]
      exact hlow
    · rw [if_pos (by decide)]
      unfold shift_edge_clamp
      simp only
      split_ifs <;> omega
  · have hc : c = P8EST_LAST_OFFSET l := h.2.2 rfl
    subst hc
    refine ⟨?_, ⟨fun h => by omega, fun _ => ⟨by omega, le_refl _⟩⟩, ?_⟩
    · unfold sibling_coord
      rw [if_neg (by decide), if_pos rfl]
      exact hup
    · rw [if_pos (by decide)]
      unfold shift_edge_clamp
      simp only
      split_ifs <;> omega

/-- An octant of level at least 1 whose coordinates are in their final place for the edge
`e` is returned by the first pass of the loop, and by `p8est_quadrant_shift_edge`. -/
theorem shift_edge_of_final (q : Quadrant) (e : Int) (he : 0 ≤ e ∧ e < 12)
    (h1 : 1 ≤ q.level) (h19 : q.level ≤ P8EST_MAXLEVEL)
    (fx : coord_final (edge_step e 0) q.x q.level)
    (fy : coord_final (edge_step e 1) q.y q.level)
    (fz : coord_final (edge_step e 2) q.z q.level) (n : Nat) :
    shift_edge_loop (n + 1) q e =
      some (q, P8EST_LAST_OFFSET q.level, edge_step e 0, edge_step e 1, edge_step e 2) ∧
    p8est_quadrant_shift_edge (n + 1) q e = some q := by
  have h0 : 0 ≤ q.level := by omega
  obtain ⟨vx, ax⟩ := coord_final_valid _ _ _ (edge_step_range e 0) h0 h19 fx
  obtain ⟨vy, ay⟩ := coord_final_valid _ _ _ (edge_step_range e 1) h0 h19 fy
  obtain ⟨vz, az⟩ := coord_final_valid _ _ _ (edge_step_range e 2) h0 h19 fz
  obtain ⟨⟨sid, hsw, hsib⟩, -⟩ := shift_edge_pass e he q h1 h19
    (coord_inv_of_valid _ _ _ vx.1 vx.2 ax) (coord_inv_of_valid _ _ _ vy.1 vy.2 ay)
    (coord_inv_of_valid _ _ _ vz.1 vz.2 az)
  obtain ⟨sx, tx, cx⟩ := sibling_coord_of_final _ _ _ (edge_step_range e 0) h1 h19 fx
  obtain ⟨sy, ty, cy⟩ := sibling_coord_of_final _ _ _ (edge_step_range e 1) h1 h19 fy
  obtain ⟨sz, tz, cz⟩ := sibling_coord_of_final _ _ _ (edge_step_range e 2) h1 h19 fz
  rw [sx, sy, sz] at hsib
  have hq : p4est_quadrant_sibling q sid = q := hsib
  obtain ⟨ct, hct, hout⟩ := shift_edge_outface_spec e he q (P8EST_LAST_OFFSET q.level)
  have hex := hout.2 ⟨tx, ty, tz⟩
  have hloop : shift_edge_loop (n + 1) q e =
      some (q, P8EST_LAST_OFFSET q.level, edge_step e 0, edge_step e 1, edge_step e 2) := by
    unfold shift_edge_loop
    simp only [hsw, hct, Option.some_bind, hq]
    rw [if_pos hex]
  refine ⟨hloop, ?_⟩
  unfold p8est_quadrant_shift_edge
  rw [hloop]
  simp only [Option.some_bind]
  apply congrArg some
  apply Quadrant.ext
  · by_cases h : edge_step e 0 ≠ 0
    · simp only [if_pos h] at cx ⊢
      split_ifs <;> exact cx
    · simp only [if_neg h]
      split_ifs <;> rfl
  · by_cases h : edge_step e 1 ≠ 0
    · simp only [if_pos h] at cy ⊢
      split_ifs <;> exact cy
    · simp only [if_neg h]
      split_ifs <;> rfl
  · by_cases h : edge_step e 2 ≠ 0
    · simp only [if_pos h] at cz ⊢
      split_ifs <;> exact cz
    · simp only [if_neg h]
      split_ifs <;> rfl
  · split_ifs <;> rfl

/-- A valid octant that touches the edge `e` from inside has its coordinates in their final
place for `e`. -/
theorem final_of_touches (q : Quadrant) (e : Int) (he : 0 ≤ e ∧ e < 12)
    (hv : p4est_quadrant_is_valid q = true)
    (ht : p8est_quadrant_touches_edge q e true = true) :
    coord_final (edge_step e 0) q.x q.level ∧ coord_final (edge_step e 1) q.y q.level ∧
      coord_final (edge_step e 2) q.z q.level := by
  simp only [p4est_quadrant_is_valid, Quadrant.aligned, Bool.and_eq_true,
    decide_eq_true_eq] at hv
  obtain ⟨⟨⟨⟨⟨h0, h19⟩, hx⟩, hy⟩, hz⟩, ax, ay, az⟩ := hv
  have two : ∀ (P Q : Prop) [Decidable P] [Decidable Q],
      (((if P then (1 : Int) else 0) + (if Q then 1 else 0) == 2) = true ↔ P ∧ Q) := by
    intro P Q _ _
    by_cases hP : P <;> by_cases hQ : Q <;> simp [hP, hQ]
  have hup : (if q.level = P8EST_MAXLEVEL then P8EST_ROOT_LEN - 1
      else P8EST_LAST_OFFSET q.level) = P8EST_LAST_OFFSET q.level := by
    by_cases h : q.level = P8EST_MAXLEVEL
    · rw [if_pos h, h]
      decide
    · rw [if_neg h]
  unfold p8est_quadrant_touches_edge at ht
  unfold coord_final
  obtain ⟨he0, he12⟩ := he
  have t := edge_step_table
  interval_cases e <;> simp [two] at ht <;> (try rw [hup] at ht) <;> simp only [t] <;>
    simp [ht, hx, hy, hz, ax, ay, az]

/-- C28: for every valid octant `q` of level at least 1 and every edge `e` in `[0, 12)`: if
`q` touches the edge `e` from inside, the loop of `p8est_quadrant_shift_edge` exits in its
first pass, without an ancestor step, and the call returns `q` itself, whatever the number
of passes allowed; and the octant `r` that `p8est_quadrant_shift_edge (q, e)` returns is
returned again by `p8est_quadrant_shift_edge (r, e)`. -/
theorem shift_edge_idempotent (q : Quadrant) (e : Int) (he : 0 ≤ e ∧ e < 12)
    (hv : p4est_quadrant_is_valid q = true) (h1 : 1 ≤ q.level) :
    (p8est_quadrant_touches_edge q e true = true →
      shift_edge_loop 1 q e =
        some (q, P8EST_LAST_OFFSET q.level, edge_step e 0, edge_step e 1, edge_step e 2) ∧
      ∀ n : Nat, p8est_quadrant_shift_edge (n + 1) q e = some q) ∧
    (∀ fuel : Nat, q.level ≤ fuel →
      ∃ r, p8est_quadrant_shift_edge fuel q e = some r ∧
        p8est_quadrant_touches_edge r e true = true ∧
        p8est_quadrant_shift_edge fuel r e = some r) := by
  have hv2 := hv
  simp only [p4est_quadrant_is_valid, Bool.and_eq_true, decide_eq_true_eq] at hv2
  obtain ⟨⟨⟨⟨⟨-, h19⟩, -⟩, -⟩, -⟩, -⟩ := hv2
  constructor
  · intro ht
    obtain ⟨fx, fy, fz⟩ := final_of_touches q e he hv ht
    exact ⟨(shift_edge_of_final q e he h1 h19 fx fy fz 0).1,
      fun n => (shift_edge_of_final q e he h1 h19 fx fy fz n).2⟩
  · intro fuel hfuel
    obtain ⟨r, hr, r1, r2, r19, fx, fy, fz⟩ := shift_edge_result q e fuel he hv h1 hfuel
    refine ⟨r, hr, touches_edge_of_final r e he fx fy fz, ?_⟩
    obtain ⟨n, hn⟩ : ∃ n : Nat, fuel = n + 1 := by
      cases fuel with
      | zero => simp at hfuel; omega
      | succ n => exact ⟨n, rfl⟩
    rw [hn]
    exact (shift_edge_of_final r e he r1 r19 fx fy fz n).2

theorem shift_edge_idempotent_witness :
    (p8est_quadrant_touches_edge ⟨65536, 327680, 196608, 3⟩ 5 true = true →
      shift_edge_loop 1 ⟨65536, 327680, 196608, 3⟩ 5 =
        some (⟨65536, 327680, 196608, 3⟩,
          P8EST_LAST_OFFSET (⟨65536, 327680, 196608, 3⟩ : Quadrant).level,
          edge_step 5 0, edge_step 5 1, edge_step 5 2) ∧
      ∀ n : Nat, p8est_quadrant_shift_edge (n + 1) ⟨65536, 327680, 196608, 3⟩ 5 =
        some ⟨65536, 327680, 196608, 3⟩) ∧
    (∀ fuel : Nat, (⟨65536, 327680, 196608, 3⟩ : Quadrant).level ≤ fuel →
      ∃ r, p8est_quadrant_shift_edge fuel ⟨65536, 327680, 196608, 3⟩ 5 = some r ∧
        p8est_quadrant_touches_edge r 5 true = true ∧
        p8est_quadrant_shift_edge fuel r 5 = some r) :=
  shift_edge_idempotent ⟨65536, 327680, 196608, 3⟩ 5 (by decide) (by decide) (by decide)

/-! ## The volume callbacks of the iterator -/

/-- An interleaved index of `k` bit positions is in `[0, 8^k)`. -/
theorem interleave_range (k : Nat) : ∀ x y z : Int,
    0 ≤ interleave k x y z ∧ interleave k x y z < 8 ^ k := by
  induction k with
  | zero => intro x y z; simp [interleave]
  | succ k ih =>
    intro x y z
    obtain ⟨h1, h2⟩ := ih (x / 2) (y / 2) (z / 2)
    unfold interleave
    rw [pow_succ]
    omega

/-- Dividing by `n` and then by `k` is dividing by `n * k`. -/
theorem int_ediv_ediv (m n k : Int) (hn : 0 < n) (hk : 0 < k) : m / n / k = m / (n * k) := by
  have hnk : 0 < n * k := Int.mul_pos hn hk
  have hm := Int.emod_add_ediv m (n * k)
  have r0 := Int.emod_nonneg m (ne_of_gt hnk)
  have r1 := Int.emod_lt_of_pos m hnk
  generalize m % (n * k) = r at hm r0 r1
  generalize m / (n * k) = q at hm
  have e1 : m / n = r / n + k * q := by
    rw [← hm, show n * k * q = (k * q) * n by ring, Int.add_mul_ediv_right _ _ (ne_of_gt hn)]
  have t0 : 0 ≤ r / n := Int.ediv_nonneg r0 (le_of_lt hn)
  have t1 : r / n < k := Int.ediv_lt_of_lt_mul hn (by rw [mul_comm]; exact r1)
  rw [e1, show r / n + k * q = r / n + q * k by ring, Int.add_mul_ediv_right _ _ (ne_of_gt hk),
    Int.ediv_eq_zero_of_lt t0 t1]
  ring

/-- One more bit position of the interleaved index. -/
theorem interleave_succ (k : Nat) (x y z : Int) :
    interleave (k + 1) x y z =
      x % 2 + 2 * (y % 2) + 4 * (z % 2) + 8 * interleave k (x / 2) (y / 2) (z / 2) := rfl

/-- The interleaved index of `j + k` bit positions splits into the index of the low `k`
positions and `8^k` times the index of the `j` positions above them. -/
theorem interleave_split (j k : Nat) : ∀ x y z : Int,
    interleave (j + k) x y z =
      interleave k x y z + 8 ^ k * interleave j (x / 2 ^ k) (y / 2 ^ k) (z / 2 ^ k) := by
  induction k with
  | zero => intro x y z; simp [interleave]
  | succ k ih =>
    intro x y z
    have e : j + (k + 1) = (j + k) + 1 := rfl
    rw [e]
    rw [interleave_succ, interleave_succ, ih]
    have d : ∀ t : Int, t / 2 / 2 ^ k = t / 2 ^ (k + 1) := by
      intro t
      rw [int_ediv_ediv _ _ _ (by norm_num) (by positivity), pow_succ, mul_comm]
    rw [d, d, d, pow_succ]
    ring

/-- A coordinate `x` in the cube of side `2 D` at `X` is in the half at `X + b D` iff its
bit `D` is `b`; its part above `2 D` is that of `X`. -/
theorem child_coord_iff (X x D b : Int) (hD : 0 < D) (hX : X % (2 * D) = 0)
    (hx : X ≤ x ∧ x < X + 2 * D) (hb : b = 0 ∨ b = 1) :
    ((X + b * D ≤ x ∧ x < X + b * D + D) ↔ x / D % 2 = b) ∧
    x / D / 2 = X / (2 * D) ∧ (x / D % 2 = 0 ∨ x / D % 2 = 1) := by
  obtain ⟨m, hm⟩ := Int.dvd_of_emod_eq_zero hX
  have hxr : x = (x - X) + (2 * m) * D := by rw [hm]; ring
  have hr0 : 0 ≤ x - X := by omega
  have hr2 : x - X < 2 * D := by omega
  have hr : ∃ r, r = x - X := ⟨_, rfl⟩
  obtain ⟨r, hr⟩ := hr
  rw [← hr] at hxr hr0 hr2
  have hdiv : x / D = r / D + 2 * m := by
    rw [hxr, Int.add_mul_ediv_right _ _ (ne_of_gt hD)]
  have t0 : 0 ≤ r / D := Int.ediv_nonneg hr0 (le_of_lt hD)
  have t2 : r / D < 2 := Int.ediv_lt_of_lt_mul hD hr2
  have t1a : 1 ≤ r / D → D ≤ r := fun h => by
    have := (Int.le_ediv_iff_mul_le hD).mp h
    omega
  have t1b : D ≤ r → 1 ≤ r / D := fun h =>
    (Int.le_ediv_iff_mul_le hD).mpr (by omega)
  have t1a' := not_or_of_imp t1a
  have t1b' := not_or_of_imp t1b
  have hXd : X / (2 * D) = m := by
    rw [hm, Int.mul_ediv_cancel_left _ (by omega)]
  rw [hdiv, hXd]
  generalize r / D = t at *
  refine ⟨?_, by omega, by omega⟩
  rcases hb with rfl | rfl
  · constructor
    · intro h; omega
    · intro h; constructor <;> omega
  · constructor
    · intro h; omega
    · intro h; constructor <;> omega

/-- What `falls_in` decides. -/
theorem falls_in_iff (o q : Quadrant) :
    falls_in o q = true ↔
      o.level ≤ q.level ∧ (o.x ≤ q.x ∧ q.x < o.x + P8EST_QUADRANT_LEN o.level) ∧
        (o.y ≤ q.y ∧ q.y < o.y + P8EST_QUADRANT_LEN o.level) ∧
        (o.z ≤ q.z ∧ q.z < o.z + P8EST_QUADRANT_LEN o.level) := by
  simp only [falls_in, Bool.and_eq_true, decide_eq_true_eq, and_assoc]

/-- What `p4est_quadrant_is_valid` decides. -/
theorem is_valid_iff (q : Quadrant) :
    p4est_quadrant_is_valid q = true ↔
      (0 ≤ q.level ∧ q.level ≤ P8EST_MAXLEVEL) ∧ (0 ≤ q.x ∧ q.x < P8EST_ROOT_LEN) ∧
        (0 ≤ q.y ∧ q.y < P8EST_ROOT_LEN) ∧ (0 ≤ q.z ∧ q.z < P8EST_ROOT_LEN) ∧ q.aligned := by
  simp only [p4est_quadrant_is_valid, Bool.and_eq_true, decide_eq_true_eq, and_assoc]

/-- The children written by `p4est_quadrant_childrenv` for a valid octant above the finest
level of the leaves, by the offsets of their coordinates. -/
theorem childrenv_offsets (o : Quadrant) (hv : p4est_quadrant_is_valid o = true)
    (hl : o.level < P8EST_QMAXLEVEL) (i : Fin 8) :
    p4est_quadrant_childrenv o i =
      ⟨o.x + (if int_and (i.val : Int) 1 ≠ 0 then 1 else 0) * P8EST_QUADRANT_LEN (o.level + 1),
       o.y + (if int_and (i.val : Int) 2 ≠ 0 then 1 else 0) * P8EST_QUADRANT_LEN (o.level + 1),
       o.z + (if int_and (i.val : Int) 4 ≠ 0 then 1 else 0) * P8EST_QUADRANT_LEN (o.level + 1),
       o.level + 1⟩ := by
  obtain ⟨hf, ha, h0, -⟩ := extended_fits_aligned o (valid_extended o hv)
  rw [(children_get_spec o hf h0 hl i).2, children_get_offsets o hf ha h0 hl i]

/-- A leaf below the octant `o` falls in the child `i` of `o` iff the child id of its
ancestor at the level of the children is `i`. -/
theorem falls_in_child (o q : Quadrant) (hv : p4est_quadrant_is_valid o = true)
    (hl : o.level < P8EST_QMAXLEVEL) (hq : falls_in o q = true) (hlt : o.level < q.level)
    (i : Fin 8) :
    falls_in (p4est_quadrant_childrenv o i) q =
      decide (ancestor_id q (o.level + 1) = (i.val : Int)) := by
  rw [childrenv_offsets o hv hl i, Bool.eq_iff_iff, falls_in_iff, decide_eq_true_eq]
  rw [falls_in_iff] at hq
  obtain ⟨-, hx, hy, hz⟩ := hq
  obtain ⟨-, ⟨ax, ay, az⟩, -, -⟩ := extended_fits_aligned o (valid_extended o hv)
  have hl19 : o.level < P8EST_MAXLEVEL := by
    unfold P8EST_QMAXLEVEL at hl; unfold P8EST_MAXLEVEL; omega
  have hs := p8est_quadrant_len_succ o.level hl19
  have hD := p8est_quadrant_len_pos (o.level + 1)
  have hi := index_bits i
  have b1 : ∀ P : Prop, [Decidable P] → ((if P then (1 : Int) else 0) = 0 ∨
      (if P then (1 : Int) else 0) = 1) := by
    intro P _; split_ifs <;> simp
  have bx := b1 (int_and (i.val : Int) 1 ≠ 0)
  have by_ := b1 (int_and (i.val : Int) 2 ≠ 0)
  have bz := b1 (int_and (i.val : Int) 4 ≠ 0)
  rw [hs] at hx hy hz ax ay az
  generalize (if int_and (i.val : Int) 1 ≠ 0 then (1 : Int) else 0) = b0 at hi bx ⊢
  generalize (if int_and (i.val : Int) 2 ≠ 0 then (1 : Int) else 0) = b1 at hi by_ ⊢
  generalize (if int_and (i.val : Int) 4 ≠ 0 then (1 : Int) else 0) = b2 at hi bz ⊢
  obtain ⟨cx, -, tx⟩ := child_coord_iff o.x q.x _ b0 hD ax hx bx
  obtain ⟨cy, -, ty⟩ := child_coord_iff o.y q.y _ b1 hD ay hy by_
  obtain ⟨cz, -, tz⟩ := child_coord_iff o.z q.z _ b2 hD az hz bz
  unfold ancestor_id
  dsimp only
  rw [cx, cy, cz]
  clear cx cy cz hx hy hz ax ay az hs hD hv
  generalize q.x / P8EST_QUADRANT_LEN (o.level + 1) % 2 = t0 at tx ⊢
  generalize q.y / P8EST_QUADRANT_LEN (o.level + 1) % 2 = t1 at ty ⊢
  generalize q.z / P8EST_QUADRANT_LEN (o.level + 1) % 2 = t2 at tz ⊢
  generalize ((i.val : Nat) : Int) = n at hi ⊢
  constructor
  · rintro ⟨-, rfl, rfl, rfl⟩
    exact hi
  · intro h
    refine ⟨by omega, ?_, ?_, ?_⟩ <;> omega

/-- The Morton index of a leaf in the octant `o`, split at the bit position of the
children of `o`: the digits of the lower positions, the child id of the ancestor at the
level of the children, and the digits above, which are those of `o`. -/
theorem morton_index_split (o : Quadrant) (hv : p4est_quadrant_is_valid o = true)
    (hl : o.level < P8EST_QMAXLEVEL) :
    ∃ (P H : Int), 0 < P ∧ ∀ q, falls_in o q = true →
      ∃ low, 0 ≤ low ∧ low < P ∧
        morton_index q = low + P * (ancestor_id q (o.level + 1) + 8 * H) := by
  obtain ⟨-, ⟨ax, ay, az⟩, h0, -⟩ := extended_fits_aligned o (valid_extended o hv)
  have hl19 : o.level < P8EST_MAXLEVEL := by
    unfold P8EST_QMAXLEVEL at hl; unfold P8EST_MAXLEVEL; omega
  have hs := p8est_quadrant_len_succ o.level hl19
  have hD := p8est_quadrant_len_pos (o.level + 1)
  obtain ⟨k, hk, hk19⟩ := p8est_quadrant_len_eq (o.level + 1) (by omega)
  have hM : P8EST_MAXLEVEL.toNat = ((18 - k) + 1) + k := by
    unfold P8EST_MAXLEVEL at *; omega
  rw [hs] at ax ay az
  refine ⟨8 ^ k, interleave (18 - k) (o.x / (2 * P8EST_QUADRANT_LEN (o.level + 1)))
    (o.y / (2 * P8EST_QUADRANT_LEN (o.level + 1)))
    (o.z / (2 * P8EST_QUADRANT_LEN (o.level + 1))), by positivity, ?_⟩
  intro q hq
  rw [falls_in_iff, hs] at hq
  obtain ⟨-, hx, hy, hz⟩ := hq
  obtain ⟨-, cx, -⟩ := child_coord_iff o.x q.x _ 0 hD ax hx (Or.inl rfl)
  obtain ⟨-, cy, -⟩ := child_coord_iff o.y q.y _ 0 hD ay hy (Or.inl rfl)
  obtain ⟨-, cz, -⟩ := child_coord_iff o.z q.z _ 0 hD az hz (Or.inl rfl)
  obtain ⟨r0, r1⟩ := interleave_range k q.x q.y q.z
  refine ⟨interleave k q.x q.y q.z, r0, r1, ?_⟩
  unfold morton_index ancestor_id
  rw [hM, interleave_split, interleave_succ, ← cx, ← cy, ← cz, hk]

/-- Leaves of an octant `o` in Morton order are in the order of their child ids at the
level of the children of `o`. -/
theorem ancestor_id_mono (o a b : Quadrant) (hv : p4est_quadrant_is_valid o = true)
    (hl : o.level < P8EST_QMAXLEVEL) (ha : falls_in o a = true) (hb : falls_in o b = true)
    (h : morton_lt a b) : ancestor_id a (o.level + 1) ≤ ancestor_id b (o.level + 1) := by
  obtain ⟨P, H, hP, hs⟩ := morton_index_split o hv hl
  obtain ⟨la, la0, la1, ea⟩ := hs a ha
  obtain ⟨lb, lb0, lb1, eb⟩ := hs b hb
  have hm : morton_index a ≤ morton_index b := by
    rcases h with h | ⟨h, -⟩ <;> omega
  rw [ea, eb] at hm
  by_contra hc
  have h1 : P * (ancestor_id b (o.level + 1) + 1 + 8 * H) ≤
      P * (ancestor_id a (o.level + 1) + 8 * H) :=
    mul_le_mul_of_nonneg_left (by omega) (le_of_lt hP)
  have h2 : P * (ancestor_id b (o.level + 1) + 1 + 8 * H) =
      P * (ancestor_id b (o.level + 1) + 8 * H) + P := by ring
  rw [h2] at h1
  generalize P * (ancestor_id b (o.level + 1) + 8 * H) = B at *
  generalize P * (ancestor_id a (o.level + 1) + 8 * H) = A at *
  omega

/-- The child id of an ancestor is in `[0, 8)`. -/
theorem ancestor_id_range (q : Quadrant) (level : Int) :
    0 ≤ ancestor_id q level ∧ ancestor_id q level < 8 := by
  unfold ancestor_id
  omega

/-- In a list sorted by a key, the entries with a key below `n` followed by the entries
with the key `n` are the entries with a key below `n + 1`. -/
theorem filter_key_split {α : Type} (key : α → Int) (n : Int) : ∀ L : List α,
    L.Pairwise (fun a b => key a ≤ key b) →
    L.filter (fun a => decide (key a < n)) ++ L.filter (fun a => decide (key a = n)) =
      L.filter (fun a => decide (key a < n + 1)) := by
  intro L
  induction L with
  | nil => intro _; rfl
  | cons a L ih =>
    intro hs
    rw [List.pairwise_cons] at hs
    obtain ⟨ha, hs⟩ := hs
    have ih := ih hs
    rcases lt_trichotomy (key a) n with h | h | h
    · rw [List.filter_cons_of_pos (by simpa using h),
        List.filter_cons_of_neg (by simpa using ne_of_lt h),
        List.filter_cons_of_pos (by simp; omega), List.cons_append, ih]
    · have hnil : L.filter (fun a => decide (key a < n)) = [] := by
        rw [List.filter_eq_nil_iff]
        intro b hb
        have := ha b hb
        simp only [decide_eq_true_eq]
        omega
      rw [hnil, List.nil_append] at ih
      rw [List.filter_cons_of_neg (by simp; omega),
        List.filter_cons_of_pos (by simpa using h),
        List.filter_cons_of_pos (by simp; omega), hnil, List.nil_append, ih]
    · rw [List.filter_cons_of_neg (by simp; omega),
        List.filter_cons_of_neg (by simp; omega),
        List.filter_cons_of_neg (by simp; omega), ih]

/-- A list sorted by a key with values in `[0, 8)` is the concatenation of its entries
with the keys `0, 1, ..., 7`. -/
theorem filter_key_concat {α : Type} (key : α → Int) (L : List α)
    (hs : L.Pairwise (fun a b => key a ≤ key b)) (hr : ∀ a ∈ L, 0 ≤ key a ∧ key a < 8) :
    L.filter (fun a => decide (key a = 0)) ++ (L.filter (fun a => decide (key a = 1)) ++
      (L.filter (fun a => decide (key a = 2)) ++ (L.filter (fun a => decide (key a = 3)) ++
      (L.filter (fun a => decide (key a = 4)) ++ (L.filter (fun a => decide (key a = 5)) ++
      (L.filter (fun a => decide (key a = 6)) ++
        L.filter (fun a => decide (key a = 7)))))))) = L := by
  have e0 : L.filter (fun a => decide (key a < 0)) = [] := by
    rw [List.filter_eq_nil_iff]
    intro b hb
    have := hr b hb
    simp only [decide_eq_true_eq]
    omega
  have e8 : L.filter (fun a => decide (key a < 8)) = L := by
    rw [List.filter_eq_self]
    intro b hb
    have := hr b hb
    simp only [decide_eq_true_eq]
    omega
  have s0 := filter_key_split key 0 L hs
  have s1 := filter_key_split key 1 L hs
  have s2 := filter_key_split key 2 L hs
  have s3 := filter_key_split key 3 L hs
  have s4 := filter_key_split key 4 L hs
  have s5 := filter_key_split key 5 L hs
  have s6 := filter_key_split key 6 L hs
  have s7 := filter_key_split key 7 L hs
  rw [e0, List.nil_append] at s0
  have n1 : (0 : Int) + 1 = 1 := rfl
  have n2 : (1 : Int) + 1 = 2 := rfl
  have n3 : (2 : Int) + 1 = 3 := rfl
  have n4 : (3 : Int) + 1 = 4 := rfl
  have n5 : (4 : Int) + 1 = 5 := rfl
  have n6 : (5 : Int) + 1 = 6 := rfl
  have n7 : (6 : Int) + 1 = 7 := rfl
  have n8 : (7 : Int) + 1 = 8 := rfl
  rw [n1] at s0
  rw [n2] at s1
  rw [n3] at s2
  rw [n4] at s3
  rw [n5] at s4
  rw [n6] at s5
  rw [n7] at s6
  rw [n8, e8] at s7
  rw [← s0] at s1
  rw [← s1] at s2
  rw [← s2] at s3
  rw [← s3] at s4
  rw [← s4] at s5
  rw [← s5] at s6
  rw [← s6] at s7
  simpa only [List.append_assoc] using s7

/-- A coordinate of a child of a valid octant is in the root and a multiple of the side
length of the child. -/
theorem child_coord_valid (c D b R : Int) (hD : 0 < D) (hc : c % (2 * D) = 0)
    (hR : R % (2 * D) = 0) (h0 : 0 ≤ c) (h1 : c < R) (hb : b = 0 ∨ b = 1) :
    (0 ≤ c + b * D ∧ c + b * D < R) ∧ (c + b * D) % D = 0 := by
  have s := (aligned_step c R (2 * D) (by omega) hc hR).1 h1
  have a := aligned_half c D hc
  rcases hb with rfl | rfl
  · refine ⟨⟨by omega, by omega⟩, ?_⟩
    rw [zero_mul, add_zero]
    exact a
  · refine ⟨⟨by omega, by omega⟩, ?_⟩
    rw [one_mul]
    exact (aligned_add c D a).1

/-- The children written by `p4est_quadrant_childrenv` for a valid octant above the finest
level of the leaves are valid. -/
theorem childrenv_valid (o : Quadrant) (hv : p4est_quadrant_is_valid o = true)
    (hl : o.level < P8EST_QMAXLEVEL) (i : Fin 8) :
    p4est_quadrant_is_valid (p4est_quadrant_childrenv o i) = true := by
  rw [childrenv_offsets o hv hl i, is_valid_iff]
  rw [is_valid_iff] at hv
  obtain ⟨⟨h0, -⟩, hx, hy, hz, ax, ay, az⟩ := hv
  have hl19 : o.level < P8EST_MAXLEVEL := by
    unfold P8EST_QMAXLEVEL at hl; unfold P8EST_MAXLEVEL; omega
  have hs := p8est_quadrant_len_succ o.level hl19
  have hD := p8est_quadrant_len_pos (o.level + 1)
  have hR := (quadrant_len_le_root o.level h0 (le_of_lt hl19)).2
  rw [hs] at ax ay az hR
  have b1 : ∀ P : Prop, [Decidable P] → ((if P then (1 : Int) else 0) = 0 ∨
      (if P then (1 : Int) else 0) = 1) := by
    intro P _; split_ifs <;> simp
  obtain ⟨rx, cx⟩ := child_coord_valid o.x _ _ _ hD ax hR hx.1 hx.2
    (b1 (int_and (i.val : Int) 1 ≠ 0))
  obtain ⟨ry, cy⟩ := child_coord_valid o.y _ _ _ hD ay hR hy.1 hy.2
    (b1 (int_and (i.val : Int) 2 ≠ 0))
  obtain ⟨rz, cz⟩ := child_coord_valid o.z _ _ _ hD az hR hz.1 hz.2
    (b1 (int_and (i.val : Int) 4 ≠ 0))
  refine ⟨⟨?_, ?_⟩, rx, ry, rz, cx, cy, cz⟩
  · show 0 ≤ o.level + 1
    omega
  · show o.level + 1 ≤ P8EST_MAXLEVEL
    omega

/-- A leaf of the octant `o` that is not finer than `o` has every leaf of `o` below it. -/
theorem falls_in_of_same (o q r : Quadrant) (hv : p4est_quadrant_is_valid o = true)
    (hq : p4est_quadrant_is_valid q = true) (hoq : falls_in o q = true)
    (hlev : q.level ≤ o.level) (hor : falls_in o r = true) : falls_in q r = true := by
  rw [falls_in_iff] at hoq hor ⊢
  rw [is_valid_iff] at hv hq
  obtain ⟨-, -, -, -, ax, ay, az⟩ := hv
  obtain ⟨-, -, -, -, bx, by_, bz⟩ := hq
  obtain ⟨l1, x1, y1, z1⟩ := hoq
  have hl : q.level = o.level := by omega
  rw [hl] at bx by_ bz ⊢
  have hQ := p8est_quadrant_len_pos o.level
  rw [aligned_eq q.x o.x _ hQ bx ax x1.1 x1.2, aligned_eq q.y o.y _ hQ by_ ay y1.1 y1.2,
    aligned_eq q.z o.z _ hQ bz az z1.1 z1.2]
  exact hor

/-- In a frame of several pairwise non-ancestral leaves, every leaf is finer than the
octant of the frame. -/
theorem frame_leaves_finer (o : Quadrant) (l0 l1 : Nat × Quadrant) (ls : List (Nat × Quadrant))
    (hv : p4est_quadrant_is_valid o = true)
    (hl : ∀ l ∈ l0 :: l1 :: ls, p4est_quadrant_is_valid l.2 = true ∧
      l.2.level ≤ P8EST_QMAXLEVEL ∧ falls_in o l.2 = true)
    (ha : (l0 :: l1 :: ls).Pairwise
      (fun a b => falls_in a.2 b.2 = false ∧ falls_in b.2 a.2 = false)) :
    ∀ l ∈ l0 :: l1 :: ls, o.level < l.2.level := by
  have other : ∀ l ∈ l0 :: l1 :: ls, ∃ r ∈ l0 :: l1 :: ls, falls_in l.2 r.2 = false := by
    intro l hmem
    rw [List.pairwise_cons, List.pairwise_cons] at ha
    obtain ⟨h0, h1, -⟩ := ha
    rw [List.mem_cons, List.mem_cons] at hmem
    rcases hmem with rfl | rfl | hmem
    · exact ⟨l1, by simp, (h0 l1 (by simp)).1⟩
    · exact ⟨l0, by simp, (h0 l (by simp)).2⟩
    · exact ⟨l0, by simp, (h0 l (by simp [hmem])).2⟩
  intro l hmem
  by_contra hc
  obtain ⟨r, hr, hf⟩ := other l hmem
  have := falls_in_of_same o l.2 r.2 hv (hl l hmem).1 (hl l hmem).2.2 (by omega) (hl r hr).2.2
  rw [this] at hf
  exact Bool.noConfusion hf

/-- The walk below a valid octant `o` of a frame of valid leaves that fall in `o`, are in
strict Morton order and pairwise non-ancestral: the volume callback fires for the leaves
of the frame, once each and in their order. -/
theorem iterate_frame_spec : ∀ (depth : Nat) (o : Quadrant) (leaves : List (Nat × Quadrant)),
    p4est_quadrant_is_valid o = true → o.level + depth = P8EST_QMAXLEVEL →
    (∀ l ∈ leaves, p4est_quadrant_is_valid l.2 = true ∧ l.2.level ≤ P8EST_QMAXLEVEL ∧
      falls_in o l.2 = true) →
    leaves.Pairwise (fun a b => morton_lt a.2 b.2) →
    leaves.Pairwise (fun a b => falls_in a.2 b.2 = false ∧ falls_in b.2 a.2 = false) →
    iterate_frame depth o leaves = some leaves := by
  intro depth
  induction depth with
  | zero =>
    intro o leaves hv hd hl hm ha
    match leaves, hl, hm, ha with
    | [], _, _, _ => rfl
    | [l], _, _, _ => rfl
    | l0 :: l1 :: ls, hl, _, ha =>
      exfalso
      have h1 := frame_leaves_finer o l0 l1 ls hv hl ha l0 (by simp)
      have h2 := (hl l0 (by simp)).2.1
      simp only [Nat.cast_zero, add_zero] at hd
      omega
  | succ depth ih =>
    intro o leaves hv hd hl hm ha
    match leaves, hl, hm, ha with
    | [], _, _, _ => rfl
    | [l], _, _, _ => rfl
    | l0 :: l1 :: ls, hl, hm, ha =>
      have hlev := frame_leaves_finer o l0 l1 ls hv hl ha
      have hlo : o.level < P8EST_QMAXLEVEL := by
        rw [Nat.cast_succ] at hd
        omega
      have hsub : ∀ i : Fin 8,
          (l0 :: l1 :: ls).filter (fun l => falls_in (p4est_quadrant_childrenv o i) l.2) =
          (l0 :: l1 :: ls).filter
            (fun l => decide (ancestor_id l.2 (o.level + 1) = (i.val : Int))) :=
        fun i => List.filter_congr
          (fun l h => falls_in_child o l.2 hv hlo (hl l h).2.2 (hlev l h) i)
      have hih : ∀ i : Fin 8,
          iterate_frame depth (p4est_quadrant_childrenv o i)
            ((l0 :: l1 :: ls).filter (fun l => falls_in (p4est_quadrant_childrenv o i) l.2)) =
          some ((l0 :: l1 :: ls).filter
            (fun l => decide (ancestor_id l.2 (o.level + 1) = (i.val : Int)))) := by
        intro i
        rw [← hsub i]
        refine ih _ _ (childrenv_valid o hv hlo i) ?_ ?_ (hm.filter _) (ha.filter _)
        · rw [childrenv_offsets o hv hlo i]
          rw [Nat.cast_succ] at hd
          show o.level + 1 + (depth : Int) = P8EST_QMAXLEVEL
          omega
        · intro l h
          rw [List.mem_filter] at h
          exact ⟨(hl l h.1).1, (hl l h.1).2.1, h.2⟩
      have hkey := filter_key_concat (fun l : Nat × Quadrant => ancestor_id l.2 (o.level + 1))
        (l0 :: l1 :: ls)
        (hm.imp_of_mem (fun h1 h2 h =>
          ancestor_id_mono o _ _ hv hlo (hl _ h1).2.2 (hl _ h2).2.2 h))
        (fun a _ => ancestor_id_range _ _)
      simp only [iterate_frame]
      rw [hih 0, hih 1, hih 2, hih 3, hih 4, hih 5, hih 6, hih 7]
      simp only [Option.bind]
      exact congrArg some hkey

/-- The leaves of an enumerated array have the properties of the leaves of the array. -/
theorem enum_leaves (leaves : List Quadrant) (R : Quadrant → Quadrant → Prop)
    (h : leaves.Pairwise R) : leaves.enum.Pairwise (fun a b => R a.2 b.2) := by
  have e : leaves.enum.map Prod.snd = leaves := List.enum_map_snd leaves
  rw [← e, List.pairwise_map] at h
  exact h

/-- A leaf of an enumerated array is a leaf of the array. -/
theorem enum_mem (leaves : List Quadrant) (l : Nat × Quadrant) (h : l ∈ leaves.enum) :
    l.2 ∈ leaves := by
  have e : leaves.enum.map Prod.snd = leaves := List.enum_map_snd leaves
  rw [← e]
  exact List.mem_map_of_mem Prod.snd h

/-- A valid octant falls in the root octant. -/
theorem falls_in_root (q : Quadrant) (h : p4est_quadrant_is_valid q = true) :
    falls_in ⟨0, 0, 0, 0⟩ q = true := by
  rw [is_valid_iff] at h
  obtain ⟨⟨h0, -⟩, hx, hy, hz, -⟩ := h
  rw [falls_in_iff]
  have hQ : P8EST_QUADRANT_LEN 0 = P8EST_ROOT_LEN := by decide
  dsimp only
  rw [hQ]
  exact ⟨h0, ⟨hx.1, by omega⟩, ⟨hy.1, by omega⟩, ⟨hz.1, by omega⟩⟩

/-- The walk of the trees `first, first + 1, ...` fires the volume callback for the local
leaves in the local order. -/
theorem iterate_trees_spec : ∀ (forest : List (List Quadrant)) (first : Nat),
    (∀ t ∈ forest, tree_leaves_ok t) →
    iterate_trees first forest = some (local_order first forest) := by
  intro forest
  induction forest with
  | nil => intro first _; rfl
  | cons leaves trees ih =>
    intro first h
    obtain ⟨hv, hm, ha⟩ := h leaves (by simp)
    have hf := iterate_frame_spec P8EST_QMAXLEVEL.toNat ⟨0, 0, 0, 0⟩ leaves.enum (by decide)
      (by decide)
      (fun l hl => ⟨(hv _ (enum_mem leaves l hl)).1, (hv _ (enum_mem leaves l hl)).2,
        falls_in_root _ (hv _ (enum_mem leaves l hl)).1⟩)
      (enum_leaves leaves _ hm) (enum_leaves leaves _ ha)
    have ht := ih (first + 1) (fun t ht => h t (by simp [ht]))
    simp only [iterate_trees, local_order, hf, ht, Option.bind]

/-- The local order of a forest with Morton-sorted arrays of leaves: by increasing tree id,
and by increasing Morton index within a tree. -/
theorem local_order_sorted : ∀ (forest : List (List Quadrant)) (first : Nat),
    (∀ t ∈ forest, tree_leaves_ok t) →
    (local_order first forest).Pairwise
        (fun a b => a.1 < b.1 ∨ (a.1 = b.1 ∧ morton_lt a.2.2 b.2.2)) ∧
      ∀ a ∈ local_order first forest, first ≤ a.1 := by
  intro forest
  induction forest with
  | nil => intro first _; simp [local_order]
  | cons leaves trees ih =>
    intro first h
    obtain ⟨-, hm, -⟩ := h leaves (by simp)
    obtain ⟨ih1, ih2⟩ := ih (first + 1) (fun t ht => h t (by simp [ht]))
    simp only [local_order]
    refine ⟨?_, ?_⟩
    · rw [List.pairwise_append]
      refine ⟨?_, ih1, ?_⟩
      · rw [List.pairwise_map]
        exact (enum_leaves leaves _ hm).imp (fun h => Or.inr ⟨rfl, h⟩)
      · intro a ha b hb
        rw [List.mem_map] at ha
        obtain ⟨l, -, rfl⟩ := ha
        have := ih2 b hb
        left
        show first < b.1
        omega
    · intro a ha
      rw [List.mem_append] at ha
      rcases ha with ha | ha
      · rw [List.mem_map] at ha
        obtain ⟨l, -, rfl⟩ := ha
        exact le_refl _
      · have := ih2 a ha
        omega

/-- C25: in the model of the walk of `p8est_iterate`, for a forest whose trees hold valid
leaves of a level at most `QMAXLEVEL` that are strictly Morton-increasing and pairwise
non-ancestral, the walk returns, and the sequence of the volume callbacks is the local
order of the forest: one callback for every local leaf, with the id of its tree and its
index in the tree, and none for another octant; the sequence is by increasing tree id and
by increasing Morton index within a tree. -/
theorem iterate_volume_order (forest : List (List Quadrant))
    (h : ∀ t ∈ forest, tree_leaves_ok t) :
    p8est_iterate_volume forest = some (local_order 0 forest) ∧
      (local_order 0 forest).Pairwise
        (fun a b => a.1 < b.1 ∨ (a.1 = b.1 ∧ morton_lt a.2.2 b.2.2)) :=
  ⟨iterate_trees_spec forest 0 h, (local_order_sorted forest 0 h).1⟩

/-- The walk of a forest of two trees: the first tree holds the eight children of the
first child of the root followed by the other seven children of the root, the second
tree holds its root octant. -/
theorem iterate_volume_order_witness :
    (∀ t ∈ [[(⟨0, 0, 0, 2⟩ : Quadrant), ⟨131072, 0, 0, 2⟩, ⟨0, 131072, 0, 2⟩,
        ⟨131072, 131072, 0, 2⟩, ⟨0, 0, 131072, 2⟩, ⟨131072, 0, 131072, 2⟩,
        ⟨0, 131072, 131072, 2⟩, ⟨131072, 131072, 131072, 2⟩,
        ⟨262144, 0, 0, 1⟩, ⟨0, 262144, 0, 1⟩, ⟨262144, 262144, 0, 1⟩, ⟨0, 0, 262144, 1⟩,
        ⟨262144, 0, 262144, 1⟩, ⟨0, 262144, 262144, 1⟩, ⟨262144, 262144, 262144, 1⟩],
        [⟨0, 0, 0, 0⟩]], tree_leaves_ok t) ∧
    p8est_iterate_volume [[(⟨0, 0, 0, 2⟩ : Quadrant), ⟨131072, 0, 0, 2⟩, ⟨0, 131072, 0, 2⟩,
        ⟨131072, 131072, 0, 2⟩, ⟨0, 0, 131072, 2⟩, ⟨131072, 0, 131072, 2⟩,
        ⟨0, 131072, 131072, 2⟩, ⟨131072, 131072, 131072, 2⟩,
        ⟨262144, 0, 0, 1⟩, ⟨0, 262144, 0, 1⟩, ⟨262144, 262144, 0, 1⟩, ⟨0, 0, 262144, 1⟩,
        ⟨262144, 0, 262144, 1⟩, ⟨0, 262144, 262144, 1⟩, ⟨262144, 262144, 262144, 1⟩],
        [⟨0, 0, 0, 0⟩]] =
      some [(0, 0, ⟨0, 0, 0, 2⟩), (0, 1, ⟨131072, 0, 0, 2⟩), (0, 2, ⟨0, 131072, 0, 2⟩),
        (0, 3, ⟨131072, 131072, 0, 2⟩), (0, 4, ⟨0, 0, 131072, 2⟩),
        (0, 5, ⟨131072, 0, 131072, 2⟩), (0, 6, ⟨0, 131072, 131072, 2⟩),
        (0, 7, ⟨131072, 131072, 131072, 2⟩), (0, 8, ⟨262144, 0, 0, 1⟩),
        (0, 9, ⟨0, 262144, 0, 1⟩), (0, 10, ⟨262144, 262144, 0, 1⟩),
        (0, 11, ⟨0, 0, 262144, 1⟩), (0, 12, ⟨262144, 0, 262144, 1⟩),
        (0, 13, ⟨0, 262144, 262144, 1⟩), (0, 14, ⟨262144, 262144, 262144, 1⟩),
        (1, 0, ⟨0, 0, 0, 0⟩)] :=
  ⟨by decide, (iterate_volume_order _ (by decide)).1⟩

/-! ## The three family predicates -/

/-- C35: the three family predicates agree.  For every eight octants `q0, ..., q7`
(extended or not) held in an array `q`, and for every array `p` of eight pointers into a
memory `mem` that point to them (`mem (p i) = q i`, aliasing allowed),
`p8est_quadrant_is_family (q0, ..., q7)`, `p4est_quadrant_is_familyv (q)` and
`p4est_quadrant_is_familypv (p)` return the same boolean. -/
theorem family_predicates_agree (q : Fin 8 → Quadrant) (mem : Nat → Quadrant)
    (p : Fin 8 → Nat) (h : ∀ i, mem (p i) = q i) :
    p8est_quadrant_is_family (q 0) (q 1) (q 2) (q 3) (q 4) (q 5) (q 6) (q 7) =
        p4est_quadrant_is_familyv q ∧
      p4est_quadrant_is_familypv mem p = p4est_quadrant_is_familyv q := by
  refine ⟨rfl, ?_⟩
  unfold p4est_quadrant_is_familypv p4est_quadrant_is_familyv
  rw [h 0, h 1, h 2, h 3, h 4, h 5, h 6, h 7]

/-- The three predicates on the children of the root octant, read through the pointers
`10, 11, ..., 17`, and on the same array with the pointers of the first two octants
exchanged: a family in the first case, none in the second. -/
theorem family_predicates_agree_witness :
    (p4est_quadrant_is_familypv (fun a => p4est_quadrant_childrenv ⟨0, 0, 0, 0⟩ (Fin.ofNat (a - 10)))
        (fun i => i.val + 10) = true ∧
      p8est_quadrant_is_family
        (p4est_quadrant_childrenv ⟨0, 0, 0, 0⟩ 0) (p4est_quadrant_childrenv ⟨0, 0, 0, 0⟩ 1)
        (p4est_quadrant_childrenv ⟨0, 0, 0, 0⟩ 2) (p4est_quadrant_childrenv ⟨0, 0, 0, 0⟩ 3)
        (p4est_quadrant_childrenv ⟨0, 0, 0, 0⟩ 4) (p4est_quadrant_childrenv ⟨0, 0, 0, 0⟩ 5)
        (p4est_quadrant_childrenv ⟨0, 0, 0, 0⟩ 6) (p4est_quadrant_childrenv ⟨0, 0, 0, 0⟩ 7) =
          true) ∧
    p4est_quadrant_is_familypv (fun a => p4est_quadrant_childrenv ⟨0, 0, 0, 0⟩ (Fin.ofNat (a - 10)))
        (fun i => if i = 0 then 11 else if i = 1 then 10 else i.val + 10) = false := by
  have h1 := family_predicates_agree (p4est_quadrant_childrenv ⟨0, 0, 0, 0⟩)
    (fun a => p4est_quadrant_childrenv ⟨0, 0, 0, 0⟩ (Fin.ofNat (a - 10)))
    (fun i => i.val + 10) (by intro i; fin_cases i <;> rfl)
  have h2 := family_predicates_agree
    (swap_octants (p4est_quadrant_childrenv ⟨0, 0, 0, 0⟩) 0 1)
    (fun a => p4est_quadrant_childrenv ⟨0, 0, 0, 0⟩ (Fin.ofNat (a - 10)))
    (fun i => if i = 0 then 11 else if i = 1 then 10 else i.val + 10)
    (by intro i; fin_cases i <;> rfl)
  refine ⟨⟨?_, by decide⟩, ?_⟩
  · rw [h1.2]
    decide
  · rw [h2.2]
    decide

/-! ## The edge neighbour and the faces of the edge -/

/-- The same-level face neighbour, coordinate by coordinate. -/
theorem face_neighbor_steps (q : Quadrant) (f : Int) (hf : 0 ≤ f ∧ f < 6) :
    p4est_quadrant_face_neighbor q f =
      ⟨q.x + face_step f 0 * P8EST_QUADRANT_LEN q.level,
        q.y + face_step f 1 * P8EST_QUADRANT_LEN q.level,
        q.z + face_step f 2 * P8EST_QUADRANT_LEN q.level, q.level⟩ := by
  obtain ⟨h0, h6⟩ := hf
  have t : int_and 0 1 = 0 ∧ int_and 1 1 = 1 ∧ int_and 2 1 = 0 ∧ int_and 3 1 = 1 ∧
      int_and 4 1 = 0 ∧ int_and 5 1 = 1 := by decide
  obtain ⟨t0, t1, t2, t3, t4, t5⟩ := t
  unfold p4est_quadrant_face_neighbor
  interval_cases f <;> simp [face_step, t0, t1, t2, t3, t4, t5]

/-- The two faces of an edge, by the formula of the table `p8est_edge_faces`: they are
faces, one across each transverse axis, and their steps add up to the steps of the
edge. -/
theorem edge_faces_steps (e : Int) (he : 0 ≤ e ∧ e < 12) :
    (0 ≤ 2 * lower_transverse (e / 4) + int_and e 1 ∧
      2 * lower_transverse (e / 4) + int_and e 1 < 6) ∧
    (0 ≤ 2 * higher_transverse (e / 4) + int_and (int_shr e 1) 1 ∧
      2 * higher_transverse (e / 4) + int_and (int_shr e 1) 1 < 6) ∧
    (∀ a : Int, face_step (2 * lower_transverse (e / 4) + int_and e 1) a =
      if a = lower_transverse (e / 4) then edge_step e a else 0) ∧
    (∀ a : Int, face_step (2 * higher_transverse (e / 4) + int_and (int_shr e 1) 1) a =
      if a = higher_transverse (e / 4) then edge_step e a else 0) ∧
    (∀ a : Int, a = 0 ∨ a = 1 ∨ a = 2 →
      face_step (2 * lower_transverse (e / 4) + int_and e 1) a +
        face_step (2 * higher_transverse (e / 4) + int_and (int_shr e 1) 1) a =
          edge_step e a) ∧
    p8est_edge_faces e 0 = some (2 * lower_transverse (e / 4) + int_and e 1) ∧
    p8est_edge_faces e 1 = some (2 * higher_transverse (e / 4) + int_and (int_shr e 1) 1) := by
  obtain ⟨h0, h12⟩ := he
  have t : int_and 0 1 = 0 ∧ int_and 1 1 = 1 ∧ int_and 2 1 = 0 ∧ int_and 3 1 = 1 ∧
      int_and 4 1 = 0 ∧ int_and 5 1 = 1 ∧ int_and 6 1 = 0 ∧ int_and 7 1 = 1 ∧
      int_and 8 1 = 0 ∧ int_and 9 1 = 1 ∧ int_and 10 1 = 0 ∧ int_and 11 1 = 1 := by decide
  obtain ⟨t0, t1, t2, t3, t4, t5, t6, t7, t8, t9, t10, t11⟩ := t
  have s : ∀ x : Int, int_shr x 1 = x / 2 := fun x => rfl
  interval_cases e <;>
    simp [p8est_edge_faces, lower_transverse, higher_transverse, face_step, edge_step,
      edge_sign_bit, s, t0, t1, t2, t3, t4, t5, t6, t7, t8, t9, t10, t11] <;>
    (repeat' apply And.intro) <;> intro a <;> split_ifs <;> omega

/-- C34: for every octant `q` (valid or not) and every edge `e` in `[0, 12)` with the
transverse axes `a1 < a2`, the faces `f0 = 2 * a1 + (e & 1)` and
`f1 = 2 * a2 + ((e >> 1) & 1)` are the entries of the table `p8est_edge_faces` for `e`,
`p8est_quadrant_edge_neighbor (q, e)` is the same-level face neighbour across `f1` of the
same-level face neighbour of `q` across `f0`, and the two face steps commute. -/
theorem edge_neighbor_two_faces (q : Quadrant) (e : Int) (he : 0 ≤ e ∧ e < 12) :
    p8est_edge_faces e 0 = some (2 * lower_transverse (e / 4) + int_and e 1) ∧
    p8est_edge_faces e 1 = some (2 * higher_transverse (e / 4) + int_and (int_shr e 1) 1) ∧
    p8est_quadrant_edge_neighbor q e =
      some (p4est_quadrant_face_neighbor
        (p4est_quadrant_face_neighbor q (2 * lower_transverse (e / 4) + int_and e 1))
        (2 * higher_transverse (e / 4) + int_and (int_shr e 1) 1)) ∧
    p4est_quadrant_face_neighbor
        (p4est_quadrant_face_neighbor q (2 * lower_transverse (e / 4) + int_and e 1))
        (2 * higher_transverse (e / 4) + int_and (int_shr e 1) 1) =
      p4est_quadrant_face_neighbor
        (p4est_quadrant_face_neighbor q (2 * higher_transverse (e / 4) + int_and (int_shr e 1) 1))
        (2 * lower_transverse (e / 4) + int_and e 1) := by
  obtain ⟨hf0, hf1, s0, s1, hsum, t0, t1⟩ := edge_faces_steps e he
  refine ⟨t0, t1, ?_, ?_⟩
  · rw [edge_neighbor_steps q e he, face_neighbor_steps q _ hf0, face_neighbor_steps _ _ hf1]
    dsimp only
    rw [← hsum 0 (by omega), ← hsum 1 (by omega), ← hsum 2 (by omega)]
    refine congrArg some (Quadrant.ext ?_ ?_ ?_ rfl)
    · show q.x + _ = q.x + _ + _
      ring
    · show q.y + _ = q.y + _ + _
      ring
    · show q.z + _ = q.z + _ + _
      ring
  · rw [face_neighbor_steps q _ hf0, face_neighbor_steps _ _ hf1, face_neighbor_steps q _ hf1,
      face_neighbor_steps _ _ hf0]
    dsimp only
    refine Quadrant.ext ?_ ?_ ?_ rfl
    · show q.x + _ + _ = q.x + _ + _
      ring
    · show q.y + _ + _ = q.y + _ + _
      ring
    · show q.z + _ + _ = q.z + _ + _
      ring

/-- The edge neighbour across edge 6 of the octant `(262144, 0, 262144)` of level 2: the
steps across the faces 0 and 5, in both orders. -/
theorem edge_neighbor_two_faces_witness :
    ((0 : Int) ≤ 6 ∧ (6 : Int) < 12) ∧
    p8est_quadrant_edge_neighbor ⟨262144, 0, 262144, 2⟩ 6 = some ⟨131072, 0, 393216, 2⟩ ∧
    p4est_quadrant_face_neighbor (p4est_quadrant_face_neighbor ⟨262144, 0, 262144, 2⟩ 0) 5 =
      ⟨131072, 0, 393216, 2⟩ ∧
    p4est_quadrant_face_neighbor (p4est_quadrant_face_neighbor ⟨262144, 0, 262144, 2⟩ 5) 0 =
      ⟨131072, 0, 393216, 2⟩ :=
  ⟨by decide, by decide, by decide,
    ((edge_neighbor_two_faces ⟨262144, 0, 262144, 2⟩ 6 (by decide)).2.2.2).symm.trans
      (by decide)⟩

/-! ## The face-crossing branch of the edge neighbour across trees -/

/-- Of the same-level face neighbours of a valid octant across the two faces of an edge,
exactly one is inside the root when the edge neighbour is neither inside the root nor
outside an edge. -/
theorem edge_faces_one_inside (q : Quadrant) (e : Int)
    (hv : p4est_quadrant_is_valid q = true) (he : 0 ≤ e ∧ e < 12) :
    ∃ r, p8est_quadrant_edge_neighbor q e = some r ∧
      (p4est_quadrant_is_inside_root r = false → p8est_quadrant_is_outside_edge r = false →
        (p4est_quadrant_is_inside_root (p4est_quadrant_face_neighbor q
            (2 * lower_transverse (e / 4) + int_and e 1)) = true ∧
          p4est_quadrant_is_inside_root (p4est_quadrant_face_neighbor q
            (2 * higher_transverse (e / 4) + int_and (int_shr e 1) 1)) = false) ∨
        (p4est_quadrant_is_inside_root (p4est_quadrant_face_neighbor q
            (2 * lower_transverse (e / 4) + int_and e 1)) = false ∧
          p4est_quadrant_is_inside_root (p4est_quadrant_face_neighbor q
            (2 * higher_transverse (e / 4) + int_and (int_shr e 1) 1)) = true)) := by
  obtain ⟨hf0, hf1, s0, s1, -, -, -⟩ := edge_faces_steps e he
  rw [is_valid_iff] at hv
  obtain ⟨-, hx, hy, hz, -⟩ := hv
  have hQ := p8est_quadrant_len_pos q.level
  refine ⟨_, edge_neighbor_steps q e he, ?_⟩
  intro hin hout
  rw [face_neighbor_steps q _ hf0, face_neighbor_steps q _ hf1]
  rw [← Bool.not_eq_true, is_inside_root_iff] at hin
  rw [← Bool.not_eq_true, (is_outside_edge_iff _).1] at hout
  simp only [← Bool.not_eq_true, is_inside_root_iff, s0, s1]
  unfold off_root_axes at hout
  dsimp only at hin hout ⊢
  have hs : edge_step e (e / 4) = 0 := by simp [edge_step]
  have h4 : e / 4 = 0 ∨ e / 4 = 1 ∨ e / 4 = 2 := by omega
  clear hf0 hf1 s0 s1
  generalize P8EST_ROOT_LEN = R at *
  generalize q.x = x at *
  generalize q.y = y at *
  generalize q.z = z at *
  rcases h4 with h4 | h4 | h4 <;> rw [h4] at hs ⊢ <;>
    simp only [hs, lower_transverse, higher_transverse, zero_mul, add_zero, if_true,
      if_false, one_ne_zero, zero_ne_one, OfNat.ofNat_ne_zero, OfNat.zero_ne_ofNat,
      OfNat.ofNat_ne_one, OfNat.one_ne_ofNat, if_pos, if_neg, reduceIte] at hin hout ⊢
  · generalize y + edge_step e 1 * P8EST_QUADRANT_LEN q.level = Y at *
    generalize z + edge_step e 2 * P8EST_QUADRANT_LEN q.level = Z at *
    split_ifs at hout <;> omega
  · generalize x + edge_step e 0 * P8EST_QUADRANT_LEN q.level = X at *
    generalize z + edge_step e 2 * P8EST_QUADRANT_LEN q.level = Z at *
    split_ifs at hout <;> omega
  · generalize x + edge_step e 0 * P8EST_QUADRANT_LEN q.level = X at *
    generalize y + edge_step e 1 * P8EST_QUADRANT_LEN q.level = Y at *
    split_ifs at hout <;> omega

/-- C33: for every valid octant `q` and every edge `e` in `[0, 12)` with the transverse
axes `a1 < a2` and the adjacent faces `f0 = 2 * a1 + (e & 1)` and
`f1 = 2 * a2 + ((e >> 1) & 1)`: if `p8est_quadrant_edge_neighbor (q, e)` is neither inside
the root nor outside an edge, then exactly one of the same-level face neighbours of `q`
across `f0` and across `f1` is inside the root, and
`p8est_quadrant_edge_neighbor_extra` takes one of its two face-crossing branches; in every
case the expression asserted on the way of `p8est_quadrant_edge_neighbor_extra` is
true. -/
theorem edge_neighbor_extra_assertion (q : Quadrant) (e : Int)
    (hv : p4est_quadrant_is_valid q = true) (he : 0 ≤ e ∧ e < 12) :
    ∃ r, p8est_quadrant_edge_neighbor q e = some r ∧
      (p4est_quadrant_is_inside_root r = false → p8est_quadrant_is_outside_edge r = false →
        (p4est_quadrant_is_inside_root (p4est_quadrant_face_neighbor q
            (2 * lower_transverse (e / 4) + int_and e 1)) = true ∧
          p4est_quadrant_is_inside_root (p4est_quadrant_face_neighbor q
            (2 * higher_transverse (e / 4) + int_and (int_shr e 1) 1)) = false) ∨
        (p4est_quadrant_is_inside_root (p4est_quadrant_face_neighbor q
            (2 * lower_transverse (e / 4) + int_and e 1)) = false ∧
          p4est_quadrant_is_inside_root (p4est_quadrant_face_neighbor q
            (2 * higher_transverse (e / 4) + int_and (int_shr e 1) 1)) = true)) ∧
      ∃ b t, edge_neighbor_extra_branch q e = some (b, t, true) ∧
        (p4est_quadrant_is_inside_root r = false →
          p8est_quadrant_is_outside_edge r = false → b = 1 ∨ b = 2) := by
  obtain ⟨r, hr, hone⟩ := edge_faces_one_inside q e hv he
  obtain ⟨-, -, -, -, -, t0, t1⟩ := edge_faces_steps e he
  refine ⟨r, hr, hone, ?_⟩
  unfold edge_neighbor_extra_branch
  rw [hr]
  simp only [Option.some_bind, t0, t1]
  cases hin : p4est_quadrant_is_inside_root r
  · cases hout : p8est_quadrant_is_outside_edge r
    · rcases hone hin hout with ⟨h0, -⟩ | ⟨h0, h1⟩
      · simp only [h0, Bool.not_false, Bool.false_eq_true, if_true, if_false]
        exact ⟨_, _, rfl, fun _ _ => Or.inl rfl⟩
      · simp only [h0, h1, Bool.not_false, Bool.false_eq_true, if_true, if_false]
        exact ⟨_, _, rfl, fun _ _ => Or.inr rfl⟩
    · simp only [Bool.not_true, Bool.false_eq_true, if_false]
      exact ⟨_, _, rfl, fun _ h => Bool.noConfusion h⟩
  · simp only [if_true]
    exact ⟨_, _, rfl, fun h => Bool.noConfusion h⟩

/-- The octant `(0, 0, 262144)` of level 1 and edge 4: the edge neighbour
`(-262144, 0, 0)` is neither inside the root nor outside an edge, the face neighbour
across face 0 is not inside the root, the one across face 4 is, and the second
face-crossing branch is taken with its assertion true. -/
theorem edge_neighbor_extra_assertion_witness :
    p8est_quadrant_edge_neighbor ⟨0, 0, 262144, 1⟩ 4 = some ⟨-262144, 0, 0, 1⟩ ∧
    p4est_quadrant_is_inside_root ⟨-262144, 0, 0, 1⟩ = false ∧
    p8est_quadrant_is_outside_edge ⟨-262144, 0, 0, 1⟩ = false ∧
    p4est_quadrant_is_inside_root (p4est_quadrant_face_neighbor ⟨0, 0, 262144, 1⟩ 0) = false ∧
    p4est_quadrant_is_inside_root (p4est_quadrant_face_neighbor ⟨0, 0, 262144, 1⟩ 4) = true ∧
    edge_neighbor_extra_branch ⟨0, 0, 262144, 1⟩ 4 = some (2, ⟨0, 0, 0, 1⟩, true) ∧
    ∃ r, p8est_quadrant_edge_neighbor ⟨0, 0, 262144, 1⟩ 4 = some r ∧
      ∃ b t, edge_neighbor_extra_branch ⟨0, 0, 262144, 1⟩ 4 = some (b, t, true) ∧
        (p4est_quadrant_is_inside_root r = false →
          p8est_quadrant_is_outside_edge r = false → b = 1 ∨ b = 2) := by
  obtain ⟨r, hr, -, h⟩ :=
    edge_neighbor_extra_assertion ⟨0, 0, 262144, 1⟩ 4 (by decide) (by decide)
  exact ⟨by decide, by decide, by decide, by decide, by decide, by decide, r, hr, h⟩

/-! ## The parent-sized face neighbour and the parent of the same-sized one -/

/-- The step of a face neighbour is `0`, `-1` or `1`. -/
theorem face_step_range (f a : Int) :
    face_step f a = 0 ∨ face_step f a = -1 ∨ face_step f a = 1 := by
  unfold face_step
  split_ifs <;> omega

/-- The parent coordinate after a step of one side length to the side `s` (`0` for down,
`1` for up): the step leaves the parent iff the coordinate is on the side `s` of the
parent, and the parent then moves by its own side length. -/
theorem parent_coord_face_step (c l s : Int) (hal : c % P8EST_QUADRANT_LEN l = 0)
    (hs : s = 0 ∨ s = 1) :
    parent_coord (c + (2 * s - 1) * P8EST_QUADRANT_LEN l) l =
      if c / P8EST_QUADRANT_LEN l % 2 = s then
        parent_coord c l + (2 * s - 1) * (2 * P8EST_QUADRANT_LEN l)
      else parent_coord c l := by
  have hQ := p8est_quadrant_len_pos l
  obtain ⟨m, hm⟩ := Int.dvd_of_emod_eq_zero hal
  have hd : c / P8EST_QUADRANT_LEN l = m := by
    rw [hm, Int.mul_ediv_cancel_left _ (ne_of_gt hQ)]
  have hd2 : (c + (2 * s - 1) * P8EST_QUADRANT_LEN l) / P8EST_QUADRANT_LEN l =
      m + (2 * s - 1) := by
    rw [Int.add_mul_ediv_right _ _ (ne_of_gt hQ), hd]
  unfold parent_coord
  rw [hd2, hd]
  generalize P8EST_QUADRANT_LEN l = Q
  have hb : m % 2 = 0 ∨ m % 2 = 1 := by omega
  rcases hs with rfl | rfl <;> rcases hb with hb | hb
  · have h2 : (m + (2 * 0 - 1)) % 2 = 1 := by omega
    rw [h2, hb, if_pos rfl]
    ring
  · have h2 : (m + (2 * 0 - 1)) % 2 = 0 := by omega
    rw [h2, hb, if_neg (by decide)]
    ring
  · have h2 : (m + (2 * 1 - 1)) % 2 = 1 := by omega
    rw [h2, hb, if_neg (by decide)]
    ring
  · have h2 : (m + (2 * 1 - 1)) % 2 = 0 := by omega
    rw [h2, hb, if_pos rfl]
    ring

/-- One coordinate of the parent of the same-level face neighbour across `f`, of the
same-level face neighbour across `f` of the parent, and of the parent. -/
theorem parent_face_axis (c l f a : Int) (h19 : l ≤ P8EST_MAXLEVEL)
    (hal : c % P8EST_QUADRANT_LEN l = 0) :
    (a ≠ f / 2 →
      parent_coord (c + face_step f a * P8EST_QUADRANT_LEN l) l = parent_coord c l ∧
      parent_coord c l + face_step f a * P8EST_QUADRANT_LEN (l - 1) = parent_coord c l ∧
      shares_face_axis f a (parent_coord c l) (l - 1) c l) ∧
    (a = f / 2 → c / P8EST_QUADRANT_LEN l % 2 = f % 2 →
      parent_coord (c + face_step f a * P8EST_QUADRANT_LEN l) l =
        parent_coord c l + face_step f a * P8EST_QUADRANT_LEN (l - 1) ∧
      shares_face_axis f a (parent_coord c l + face_step f a * P8EST_QUADRANT_LEN (l - 1))
        (l - 1) c l) ∧
    (a = f / 2 → c / P8EST_QUADRANT_LEN l % 2 ≠ f % 2 →
      parent_coord (c + face_step f a * P8EST_QUADRANT_LEN l) l = parent_coord c l) := by
  have hQ := p8est_quadrant_len_pos l
  have hlen : P8EST_QUADRANT_LEN (l - 1) = 2 * P8EST_QUADRANT_LEN l := by
    have := p8est_quadrant_len_succ (l - 1) (by omega)
    rwa [sub_add_cancel] at this
  have hs : f % 2 = 0 ∨ f % 2 = 1 := by omega
  have hstep := parent_coord_face_step c l (f % 2) hal hs
  have hP : parent_coord c l = c - c / P8EST_QUADRANT_LEN l % 2 * P8EST_QUADRANT_LEN l := rfl
  obtain ⟨-, hpc, hb⟩ := parent_coord_aligned c l hal
  refine ⟨fun ha => ?_, fun ha hbit => ?_, fun ha hbit => ?_⟩
  · unfold face_step shares_face_axis
    rw [if_neg ha, if_neg ha, zero_mul, zero_mul, add_zero, add_zero, hlen]
    refine ⟨rfl, rfl, ?_⟩
    rcases hpc with h | h <;> rw [h] <;> constructor <;> omega
  · unfold face_step shares_face_axis
    rw [if_pos ha, if_pos ha, hlen, hstep, if_pos hbit]
    refine ⟨rfl, ?_⟩
    rw [hP, hbit]
    rcases hs with h | h <;> rw [h]
    · rw [if_pos rfl]
      ring
    · rw [if_neg (by decide)]
      ring
  · unfold face_step
    rw [if_pos ha, hstep, if_neg hbit]

/-- The parent of the same-level face neighbour of a valid octant, coordinate by
coordinate. -/
theorem parent_of_face_neighbor (q : Quadrant) (f : Int)
    (hv : p4est_quadrant_is_valid q = true) (h1 : 1 ≤ q.level) (hf : 0 ≤ f ∧ f < 6) :
    p4est_quadrant_parent (p4est_quadrant_face_neighbor q f) =
      ⟨parent_coord (q.x + face_step f 0 * P8EST_QUADRANT_LEN q.level) q.level,
       parent_coord (q.y + face_step f 1 * P8EST_QUADRANT_LEN q.level) q.level,
       parent_coord (q.z + face_step f 2 * P8EST_QUADRANT_LEN q.level) q.level,
       q.level - 1⟩ ∧
    p4est_quadrant_parent q =
      ⟨parent_coord q.x q.level, parent_coord q.y q.level, parent_coord q.z q.level,
       q.level - 1⟩ ∧
    p4est_quadrant_child_id q =
      q.x / P8EST_QUADRANT_LEN q.level % 2 + 2 * (q.y / P8EST_QUADRANT_LEN q.level % 2) +
        4 * (q.z / P8EST_QUADRANT_LEN q.level % 2) := by
  rw [is_valid_iff] at hv
  obtain ⟨⟨h0, h19⟩, hx, hy, hz, ax, ay, az⟩ := hv
  obtain ⟨hQR, -⟩ := quadrant_len_le_root q.level h0 h19
  have hR : P8EST_ROOT_LEN = 524288 := by decide
  have key : ∀ c s : Int, (s = 0 ∨ s = -1 ∨ s = 1) → (0 ≤ c ∧ c < P8EST_ROOT_LEN) →
      c % P8EST_QUADRANT_LEN q.level = 0 →
      int_and (c + s * P8EST_QUADRANT_LEN q.level) (int_not (P8EST_QUADRANT_LEN q.level)) =
        parent_coord (c + s * P8EST_QUADRANT_LEN q.level) q.level := by
    intro c s hs hc hal
    obtain ⟨a1, a2, a3, -⟩ := edge_neighbor_coord c s q.level hs h0 h19 hc hal
    exact (coord_bit_ops _ q.level h1 h19 (by unfold is_qcoord; omega) a1).2.2
  have key0 : ∀ c : Int, (0 ≤ c ∧ c < P8EST_ROOT_LEN) →
      c % P8EST_QUADRANT_LEN q.level = 0 →
      int_and (int_shr c (P8EST_MAXLEVEL - q.level)) 1 = c / P8EST_QUADRANT_LEN q.level % 2 ∧
      int_and c (int_not (P8EST_QUADRANT_LEN q.level)) = parent_coord c q.level := by
    intro c hc hal
    obtain ⟨b1, -, b3⟩ := coord_bit_ops c q.level h1 h19 (by unfold is_qcoord; omega) hal
    exact ⟨b1, b3⟩
  refine ⟨?_, ?_, ?_⟩
  · rw [face_neighbor_steps q f hf]
    unfold p4est_quadrant_parent
    dsimp only
    rw [key _ _ (face_step_range f 0) hx ax, key _ _ (face_step_range f 1) hy ay,
      key _ _ (face_step_range f 2) hz az]
  · unfold p4est_quadrant_parent
    rw [(key0 _ hx ax).2, (key0 _ hy ay).2, (key0 _ hz az).2]
  · unfold p4est_quadrant_child_id
    rw [(key0 _ hx ax).1, (key0 _ hy ay).1, (key0 _ hz az).1]

/-- One coordinate when the step across the face leaves the parent along the axis of the
face, and when it does not. -/
theorem parent_face_axis_cases (c l f a : Int) (h19 : l ≤ P8EST_MAXLEVEL)
    (hal : c % P8EST_QUADRANT_LEN l = 0) :
    ((a = f / 2 → c / P8EST_QUADRANT_LEN l % 2 = f % 2) →
      parent_coord c l + face_step f a * P8EST_QUADRANT_LEN (l - 1) =
        parent_coord (c + face_step f a * P8EST_QUADRANT_LEN l) l ∧
      shares_face_axis f a (parent_coord c l + face_step f a * P8EST_QUADRANT_LEN (l - 1))
        (l - 1) c l) ∧
    ((a = f / 2 → c / P8EST_QUADRANT_LEN l % 2 ≠ f % 2) →
      parent_coord (c + face_step f a * P8EST_QUADRANT_LEN l) l = parent_coord c l) := by
  obtain ⟨h1, h2, h3⟩ := parent_face_axis c l f a h19 hal
  constructor
  · intro h
    by_cases ha : a = f / 2
    · exact ⟨(h2 ha (h ha)).1.symm, (h2 ha (h ha)).2⟩
    · obtain ⟨e1, e2, e3⟩ := h1 ha
      rw [e1, e2]
      exact ⟨rfl, e3⟩
  · intro h
    by_cases ha : a = f / 2
    · exact h3 ha (h ha)
    · exact (h1 ha).1

/-- C31: for every valid octant `q` of level `l` with `0 < l ≤ QMAXLEVEL` and every face
`f` in `[0, 6)`, in the output `n` of `p4est_quadrant_all_face_neighbors (q, f, n)`: when
`n[5]` is defined (not the marker of `P8EST_QUADRANT_INIT`) it is the parent of `n[4]`
and shares the face `f` of `q`, lying across that face and covering it; when `n[5]` is
undefined, the same-sized neighbour `n[4]` is a sibling of `q`, that is,
`parent (n[4]) = parent (q)`. -/
theorem all_face_neighbors_parent_of_same (q : Quadrant) (f : Int)
    (hv : p4est_quadrant_is_valid q = true) (h1 : 0 < q.level)
    (hl : q.level ≤ P8EST_QMAXLEVEL) (hf : 0 ≤ f ∧ f < 6) :
    ∃ n, p4est_quadrant_all_face_neighbors q f = some n ∧
      (n 5 ≠ P8EST_QUADRANT_INIT →
        n 5 = p4est_quadrant_parent (n 4) ∧ shares_face (n 5) q f) ∧
      (n 5 = P8EST_QUADRANT_INIT →
        p4est_quadrant_parent (n 4) = p4est_quadrant_parent q) := by
  obtain ⟨n, hn, h4, h5⟩ := all_face_neighbors_slots q f (by omega) hl hf
  obtain ⟨hN4, hP, hcid⟩ := parent_of_face_neighbor q f hv (by omega) hf
  have hN5 : p4est_quadrant_face_neighbor (p4est_quadrant_parent q) f =
      ⟨parent_coord q.x q.level + face_step f 0 * P8EST_QUADRANT_LEN (q.level - 1),
       parent_coord q.y q.level + face_step f 1 * P8EST_QUADRANT_LEN (q.level - 1),
       parent_coord q.z q.level + face_step f 2 * P8EST_QUADRANT_LEN (q.level - 1),
       q.level - 1⟩ := by
    rw [hP, face_neighbor_steps _ f hf]
  rw [is_valid_iff] at hv
  obtain ⟨⟨-, h19⟩, -, -, -, ax, ay, az⟩ := hv
  obtain ⟨-, -, bx⟩ := parent_coord_aligned q.x q.level ax
  obtain ⟨-, -, by_⟩ := parent_coord_aligned q.y q.level ay
  obtain ⟨-, -, bz⟩ := parent_coord_aligned q.z q.level az
  obtain ⟨c0, c1, c2⟩ := child_id_bit_at _ _ _ bx by_ bz
  obtain ⟨dx, ux⟩ := parent_face_axis_cases q.x q.level f 0 h19 ax
  obtain ⟨dy, uy⟩ := parent_face_axis_cases q.y q.level f 1 h19 ay
  obtain ⟨dz, uz⟩ := parent_face_axis_cases q.z q.level f 2 h19 az
  rw [hcid, int_and_one f] at h5
  refine ⟨n, hn, ?_⟩
  rw [h4, hN4, hP]
  by_cases hC : int_and (int_shr (q.x / P8EST_QUADRANT_LEN q.level % 2 +
      2 * (q.y / P8EST_QUADRANT_LEN q.level % 2) +
      4 * (q.z / P8EST_QUADRANT_LEN q.level % 2)) (f / 2)) 1 = f % 2
  · have hc : ¬ (int_and (int_shr (q.x / P8EST_QUADRANT_LEN q.level % 2 +
        2 * (q.y / P8EST_QUADRANT_LEN q.level % 2) +
        4 * (q.z / P8EST_QUADRANT_LEN q.level % 2)) (f / 2)) 1 ≠ f % 2 ∨ q.level = 0) := by
      rintro (h | h)
      · exact h hC
      · omega
    rw [if_neg hc, hN5] at h5
    have ex := dx (fun h => by rw [← h] at hC; rw [← hC]; exact c0.symm)
    have ey := dy (fun h => by rw [← h] at hC; rw [← hC]; exact c1.symm)
    have ez := dz (fun h => by rw [← h] at hC; rw [← hC]; exact c2.symm)
    constructor
    · intro _
      rw [h5]
      exact ⟨Quadrant.ext ex.1 ey.1 ez.1 rfl, ex.2, ey.2, ez.2⟩
    · intro hinit
      rw [h5] at hinit
      have hlev := congrArg Quadrant.level hinit
      have : q.level - 1 = -1 := hlev
      omega
  · rw [if_pos (Or.inl hC)] at h5
    constructor
    · intro hne
      exact absurd h5 hne
    · intro _
      exact Quadrant.ext
        (ux (fun h => by rw [← h] at hC; rw [c0] at hC; exact hC))
        (uy (fun h => by rw [← h] at hC; rw [c1] at hC; exact hC))
        (uz (fun h => by rw [← h] at hC; rw [c2] at hC; exact hC)) rfl

/-- The octant `(262144, 0, 0)` of level 1, the upper child along `x`: across face 1 the
parent-sized neighbour `(524288, 0, 0)` of level 0 is defined and is the parent of the
same-sized neighbour; across face 0 it is undefined and the same-sized neighbour
`(0, 0, 0)` has the parent of `q`. -/
theorem all_face_neighbors_parent_of_same_witness :
    (∃ n, p4est_quadrant_all_face_neighbors ⟨262144, 0, 0, 1⟩ 1 = some n ∧
      (n 5 ≠ P8EST_QUADRANT_INIT →
        n 5 = p4est_quadrant_parent (n 4) ∧ shares_face (n 5) ⟨262144, 0, 0, 1⟩ 1) ∧
      (n 5 = P8EST_QUADRANT_INIT →
        p4est_quadrant_parent (n 4) = p4est_quadrant_parent ⟨262144, 0, 0, 1⟩)) ∧
    p4est_quadrant_face_neighbor (p4est_quadrant_parent ⟨262144, 0, 0, 1⟩) 1 =
      ⟨524288, 0, 0, 0⟩ ∧
    p4est_quadrant_parent (p4est_quadrant_face_neighbor ⟨262144, 0, 0, 1⟩ 1) =
      ⟨524288, 0, 0, 0⟩ ∧
    shares_face ⟨524288, 0, 0, 0⟩ ⟨262144, 0, 0, 1⟩ 1 ∧
    p4est_quadrant_parent (p4est_quadrant_face_neighbor ⟨262144, 0, 0, 1⟩ 0) =
      p4est_quadrant_parent ⟨262144, 0, 0, 1⟩ :=
  ⟨all_face_neighbors_parent_of_same ⟨262144, 0, 0, 1⟩ 1 (by decide) (by decide) (by decide)
    (by decide), by decide, by decide, by decide, by decide⟩

/-! ## The shift to an edge along the edge -/

/-- The side length of a level is a multiple of the side length of a finer level. -/
theorem quadrant_len_dvd (k l : Int) (hk : k ≤ l) :
    P8EST_QUADRANT_LEN k % P8EST_QUADRANT_LEN l = 0 := by
  apply Int.emod_eq_zero_of_dvd
  unfold P8EST_QUADRANT_LEN
  apply pow_dvd_pow
  unfold P8EST_MAXLEVEL at *
  omega

/-- A multiple of the side length is its own rounding down. -/
theorem round_down_aligned (c l : Int) (hal : c % P8EST_QUADRANT_LEN l = 0) :
    round_down c l = c := by
  unfold round_down
  rw [hal, sub_zero]

/-- Rounding down to the side length of a level `k` above the parent's level does not see
the bit that the parent clears. -/
theorem round_down_parent (c l k : Int) (hk : k < l) (hl : l ≤ P8EST_MAXLEVEL)
    (hal : c % P8EST_QUADRANT_LEN l = 0) :
    round_down (parent_coord c l) k = round_down c k := by
  have hQ := p8est_quadrant_len_pos l
  have hD := p8est_quadrant_len_pos k
  have hlen : P8EST_QUADRANT_LEN (l - 1) = 2 * P8EST_QUADRANT_LEN l := by
    have := p8est_quadrant_len_succ (l - 1) (by omega)
    rwa [sub_add_cancel] at this
  have hdvd := quadrant_len_dvd k (l - 1) (by omega)
  rw [hlen] at hdvd
  obtain ⟨hpa, hpc, -⟩ := parent_coord_aligned c l hal
  unfold round_down
  rcases hpc with h | h
  · rw [h]
  · generalize parent_coord c l = P at hpa h ⊢
    generalize P8EST_QUADRANT_LEN l = Q at *
    generalize P8EST_QUADRANT_LEN k = D at *
    have hv0 := Int.emod_nonneg P (ne_of_gt hD)
    have hv1 := Int.emod_lt_of_pos P hD
    have hva : P % D % (2 * Q) = 0 := by
      rw [Int.emod_emod_of_dvd _ (Int.dvd_of_emod_eq_zero hdvd)]
      exact hpa
    have hstep := (aligned_step _ _ (2 * Q) (by omega) hva hdvd).1 hv1
    have hc : c = P % D + Q + D * (P / D) := by
      have := Int.emod_add_ediv P D
      omega
    have hcm : c % D = P % D + Q := by
      rw [hc, Int.add_mul_emod_self_left]
      exact Int.emod_eq_of_lt (by omega) (by omega)
    rw [hcm]
    omega

/-- The loop of `p8est_quadrant_shift_edge` along the edge: it exits within `quad.level`
passes at a level `r.level` in `[1, quad.level]`, and along an axis with the step `0` the
coordinate of `r` is that of `quad` rounded down to a multiple of the side length of
`r.level`. -/
theorem shift_edge_loop_along (e : Int) (he : 0 ≤ e ∧ e < 12) :
    ∀ (fuel : Nat) (quad : Quadrant), 1 ≤ quad.level → quad.level ≤ P8EST_MAXLEVEL →
      quad.level ≤ fuel →
      coord_inv (edge_step e 0) quad.x quad.level →
      coord_inv (edge_step e 1) quad.y quad.level →
      coord_inv (edge_step e 2) quad.z quad.level →
      ∃ r, shift_edge_loop fuel quad e =
          some (r, P8EST_LAST_OFFSET r.level, edge_step e 0, edge_step e 1, edge_step e 2) ∧
        1 ≤ r.level ∧ r.level ≤ quad.level ∧
        (edge_step e 0 = 0 → r.x = round_down quad.x r.level) ∧
        (edge_step e 1 = 0 → r.y = round_down quad.y r.level) ∧
        (edge_step e 2 = 0 → r.z = round_down quad.z r.level) := by
  intro fuel
  induction fuel with
  | zero =>
    intro quad h1 _ hf
    simp at hf
    omega
  | succ n ih =>
    intro quad h1 h19 hf ix iy iz
    obtain ⟨⟨sid, hsw, hsib⟩, hpar⟩ := shift_edge_pass e he quad h1 h19 ix iy iz
    obtain ⟨ct, hct, hout⟩ := shift_edge_outface_spec e he (p4est_quadrant_sibling quad sid)
      (P8EST_LAST_OFFSET quad.level)
    unfold shift_edge_loop
    simp only [hsw, hct, Option.some_bind]
    by_cases hex : shift_edge_outface (p4est_quadrant_sibling quad sid)
        (P8EST_LAST_OFFSET quad.level) (edge_step e 0) (edge_step e 1) (edge_step e 2) = ct
    · rw [if_pos hex]
      rw [hsib]
      refine ⟨_, rfl, h1, le_refl _, ?_, ?_, ?_⟩
      · intro hs
        show sibling_coord (edge_step e 0) quad.x quad.level = round_down quad.x quad.level
        rw [round_down_aligned _ _ ix.1]
        exact if_pos hs
      · intro hs
        show sibling_coord (edge_step e 1) quad.y quad.level = round_down quad.y quad.level
        rw [round_down_aligned _ _ iy.1]
        exact if_pos hs
      · intro hs
        show sibling_coord (edge_step e 2) quad.z quad.level = round_down quad.z quad.level
        rw [round_down_aligned _ _ iz.1]
        exact if_pos hs
    · rw [if_neg hex]
      have h2 : 2 ≤ quad.level := by
        by_contra hlt
        have hl1 : quad.level = 1 := by omega
        apply hex
        apply hout.2
        rw [hsib, hl1]
        rw [hl1] at ix iy iz
        exact ⟨exit_test_level_one _ _ (edge_step_range e 0) ix,
          exit_test_level_one _ _ (edge_step_range e 1) iy,
          exit_test_level_one _ _ (edge_step_range e 2) iz⟩
      rw [hpar]
      have jx := coord_inv_step _ _ _ (edge_step_range e 0) h19 ix
      have jy := coord_inv_step _ _ _ (edge_step_range e 1) h19 iy
      have jz := coord_inv_step _ _ _ (edge_step_range e 2) h19 iz
      obtain ⟨r, hr, r1, r2, px, py, pz⟩ := ih
        ⟨parent_coord quad.x quad.level + edge_step e 0 * P8EST_QUADRANT_LEN (quad.level - 1),
         parent_coord quad.y quad.level + edge_step e 1 * P8EST_QUADRANT_LEN (quad.level - 1),
         parent_coord quad.z quad.level + edge_step e 2 * P8EST_QUADRANT_LEN (quad.level - 1),
         quad.level - 1⟩
        (by show 1 ≤ quad.level - 1; omega) (by show quad.level - 1 ≤ P8EST_MAXLEVEL; omega)
        (by show quad.level - 1 ≤ (n : Int); push_cast at hf; omega) jx jy jz
      have r2' : r.level ≤ quad.level - 1 := r2
      have key : ∀ s c rc : Int, c % P8EST_QUADRANT_LEN quad.level = 0 →
          (s = 0 → rc = round_down
            (parent_coord c quad.level + s * P8EST_QUADRANT_LEN (quad.level - 1)) r.level) →
          s = 0 → rc = round_down c r.level := by
        intro s c rc hal h hs
        rw [h hs, hs, zero_mul, add_zero]
        exact round_down_parent c quad.level r.level (by omega) h19 hal
      exact ⟨r, hr, r1, by omega, key _ _ _ ix.1 px, key _ _ _ iy.1 py, key _ _ _ iz.1 pz⟩

/-- The rounding down of a coordinate of level `l` to a coarser level `k`: a multiple of
the side length of `k` whose extent contains the extent of the coordinate. -/
theorem round_down_extent (c l k : Int) (hk : k ≤ l) (hal : c % P8EST_QUADRANT_LEN l = 0) :
    round_down c k % P8EST_QUADRANT_LEN k = 0 ∧ round_down c k ≤ c ∧
      c + P8EST_QUADRANT_LEN l ≤ round_down c k + P8EST_QUADRANT_LEN k := by
  have hQ := p8est_quadrant_len_pos l
  have hD := p8est_quadrant_len_pos k
  have hdvd := Int.dvd_of_emod_eq_zero (quadrant_len_dvd k l hk)
  have hv0 := Int.emod_nonneg c (ne_of_gt hD)
  have hv1 := Int.emod_lt_of_pos c hD
  have hrd : round_down c k = P8EST_QUADRANT_LEN k * (c / P8EST_QUADRANT_LEN k) := by
    unfold round_down
    have := Int.emod_add_ediv c (P8EST_QUADRANT_LEN k)
    omega
  have hrd2 : round_down c k = c - c % P8EST_QUADRANT_LEN k := rfl
  have a1 : round_down c k % P8EST_QUADRANT_LEN k = 0 := by
    rw [hrd]
    exact Int.mul_emod_right _ _
  have a2 : (round_down c k + P8EST_QUADRANT_LEN k) % P8EST_QUADRANT_LEN l = 0 := by
    apply Int.emod_eq_zero_of_dvd
    rw [hrd]
    exact dvd_add (Dvd.dvd.mul_right hdvd _) hdvd
  have hstep := (aligned_step c _ _ hQ hal a2).1 (by omega)
  exact ⟨a1, by omega, hstep⟩

/-- C32: for every valid octant `q` of level `l ≥ 1` and every edge `e` in `[0, 12)`,
`p8est_quadrant_shift_edge (q, e)` returns, its loop making at most `l` passes; the
result `r` has `1 ≤ r.level ≤ l`, and its coordinate along the edge axis `e / 4` is the
coordinate of `q` along that axis rounded down to a multiple of `QLEN(r.level)`, so that
the extent of `r` along the edge contains that of `q`. -/
theorem shift_edge_along_edge (q : Quadrant) (e : Int) (fuel : Nat) (he : 0 ≤ e ∧ e < 12)
    (hv : p4est_quadrant_is_valid q = true) (h1 : 1 ≤ q.level) (hfuel : q.level ≤ fuel) :
    ∃ r qc, p8est_quadrant_shift_edge fuel q e = some r ∧
      1 ≤ r.level ∧ r.level ≤ q.level ∧
      q.coord (e / 4) = some qc ∧ r.coord (e / 4) = some (round_down qc r.level) ∧
      round_down qc r.level % P8EST_QUADRANT_LEN r.level = 0 ∧
      round_down qc r.level ≤ qc ∧
      qc + P8EST_QUADRANT_LEN q.level ≤ round_down qc r.level + P8EST_QUADRANT_LEN r.level := by
  rw [is_valid_iff] at hv
  obtain ⟨⟨-, h19⟩, ⟨x0, xR⟩, ⟨y0, yR⟩, ⟨z0, zR⟩, ax, ay, az⟩ := hv
  obtain ⟨r, hr, r1, r2, px, py, pz⟩ := shift_edge_loop_along e he fuel q h1 h19 hfuel
    (coord_inv_of_valid _ _ _ x0 xR ax) (coord_inv_of_valid _ _ _ y0 yR ay)
    (coord_inv_of_valid _ _ _ z0 zR az)
  have hres : p8est_quadrant_shift_edge fuel q e = some
      ⟨if edge_step e 0 ≠ 0 then shift_edge_clamp r.x (P8EST_LAST_OFFSET r.level) else r.x,
       if edge_step e 1 ≠ 0 then shift_edge_clamp r.y (P8EST_LAST_OFFSET r.level) else r.y,
       if edge_step e 2 ≠ 0 then shift_edge_clamp r.z (P8EST_LAST_OFFSET r.level) else r.z,
       r.level⟩ := by
    unfold p8est_quadrant_shift_edge
    rw [hr]
    simp only [Option.some_bind]
    split_ifs <;> rfl
  have hs : edge_step e (e / 4) = 0 := by simp [edge_step]
  have h4 : e / 4 = 0 ∨ e / 4 = 1 ∨ e / 4 = 2 := by omega
  rcases h4 with h4 | h4 | h4 <;> rw [h4] at hs ⊢
  · obtain ⟨e1, e2, e3⟩ := round_down_extent q.x q.level r.level r2 ax
    refine ⟨_, q.x, hres, r1, r2, rfl, ?_, e1, e2, e3⟩
    show some (if edge_step e 0 ≠ 0 then _ else r.x) = _
    rw [if_neg (by rw [hs]; decide), px hs]
  · obtain ⟨e1, e2, e3⟩ := round_down_extent q.y q.level r.level r2 ay
    refine ⟨_, q.y, hres, r1, r2, rfl, ?_, e1, e2, e3⟩
    show some (if edge_step e 1 ≠ 0 then _ else r.y) = _
    rw [if_neg (by rw [hs]; decide), py hs]
  · obtain ⟨e1, e2, e3⟩ := round_down_extent q.z q.level r.level r2 az
    refine ⟨_, q.z, hres, r1, r2, rfl, ?_, e1, e2, e3⟩
    show some (if edge_step e 2 ≠ 0 then _ else r.z) = _
    rw [if_neg (by rw [hs]; decide), pz hs]

/-- The octant `(196608, 131072, 0)` of level 3 and edge 0: the loop exits on its second
pass; the result `(131072, 0, 0)` of level 2 has the coordinate of the octant along `x`
rounded down to a multiple of `QLEN(2) = 131072`. -/
theorem shift_edge_along_edge_witness :
    p8est_quadrant_shift_edge 3 ⟨196608, 131072, 0, 3⟩ 0 = some ⟨131072, 0, 0, 2⟩ ∧
    round_down 196608 2 = 131072 ∧
    ∃ r qc, p8est_quadrant_shift_edge 3 ⟨196608, 131072, 0, 3⟩ 0 = some r ∧
      1 ≤ r.level ∧ r.level ≤ 3 ∧
      (⟨196608, 131072, 0, 3⟩ : Quadrant).coord (0 / 4) = some qc ∧
      r.coord (0 / 4) = some (round_down qc r.level) ∧
      round_down qc r.level % P8EST_QUADRANT_LEN r.level = 0 ∧
      round_down qc r.level ≤ qc ∧
      qc + P8EST_QUADRANT_LEN 3 ≤ round_down qc r.level + P8EST_QUADRANT_LEN r.level :=
  ⟨by decide, by decide,
    shift_edge_along_edge ⟨196608, 131072, 0, 3⟩ 0 3 (by decide) (by decide) (by decide)
      (by decide)⟩

end P8est
